import Mathlib

/-! # Transaction / certificate mempool (`src/txmempool.cpp`)

A shallow embedding of `CTxMemPool` and of the functions that maintain its
tables, followed by theorems about them.

Modelling conventions
* `uint256` and `ScFieldElement` values are natural numbers (`Nat`); the null
  value (`IsNull()`, `SetNull()`) is `0`.
* `CAmount` is a mathematical integer (`Int`): signed overflow is undefined
  behaviour in C++ and is not modelled.  Unsigned counters wrap explicitly.
* `std::map` / `std::set` are key-ordered association lists / lists; iteration
  order is list order.
* A pointer to a pool transaction or certificate (`CInPoint::ptx`, the values
  of `mapNullifiers`) is the hash of the pointee and is resolved through the
  primary tables.
* An operation that hits a failing `assert` or a throwing `.at()` yields
  `Outcome.failed`; the two graph walks carry a step budget computed from the
  pool and yield `Outcome.timeout` when it is exhausted (shown impossible on
  pools whose entries are stored under their own hash).
* The fee estimator, logging and locking are not modelled.
-/

set_option linter.unusedVariables false

namespace Mempool

/-! ## Outcomes of operations -/

/-- Result of running an operation: it completes with a value, it dies on an
assertion or exception, or the step budget of the model ran out. -/
inductive Outcome (α : Type) where
  | done (a : α)
  | failed
  | timeout
  deriving DecidableEq, Repr

namespace Outcome

/-- Sequencing of operations. -/
def bind {α β : Type} : Outcome α → (α → Outcome β) → Outcome β
  | done a, f => f a
  | failed, _ => failed
  | timeout, _ => timeout

/-- Left fold of a fallible step over a list (a `for` loop). -/
def foldl {σ α : Type} (f : σ → α → Outcome σ) : σ → List α → Outcome σ
  | s, [] => done s
  | s, a :: rest => (f s a).bind (fun s1 => foldl f s1 rest)

end Outcome

/-! ## Ordered containers -/

/-- Strict order on keys used by the ordered containers. -/
class KeyOrd (K : Type) where
  lt : K → K → Bool

/-- The key order is a strict total order. -/
class LawfulKeyOrd (K : Type) [KeyOrd K] : Prop where
  irrefl : ∀ a : K, KeyOrd.lt a a = false
  trans : ∀ a b c : K, KeyOrd.lt a b = true → KeyOrd.lt b c = true → KeyOrd.lt a c = true
  total : ∀ a b : K, a ≠ b → KeyOrd.lt a b = false → KeyOrd.lt b a = true

instance : KeyOrd Nat := ⟨fun a b => decide (a < b)⟩

instance : KeyOrd Int := ⟨fun a b => decide (a < b)⟩

section Containers

variable {K V : Type} [DecidableEq K]

/-- Lookup `m.find(k)`: the value stored under `k`, if any. -/
def mapFind : List (K × V) → K → Option V
  | [], _ => none
  | (k1, v) :: rest, k => if k1 = k then some v else mapFind rest k

/-- Membership test `m.count(k) != 0`. -/
def mapCount (m : List (K × V)) (k : K) : Bool := (mapFind m k).isSome

/-- Removal `m.erase(k)`. -/
def mapErase (m : List (K × V)) (k : K) : List (K × V) :=
  m.filter (fun kv => decide (kv.1 ≠ k))

/-- Assignment `m[k] = v`, keeping the list ordered by key. -/
def mapInsert [KeyOrd K] : List (K × V) → K → V → List (K × V)
  | [], k, v => [(k, v)]
  | (k1, v1) :: rest, k, v =>
      if k1 = k then (k, v) :: rest
      else if KeyOrd.lt k k1 then (k, v) :: (k1, v1) :: rest
      else (k1, v1) :: mapInsert rest k v

/-- Insertion `s.insert(k)` into an ordered set. -/
def setInsert [KeyOrd K] : List K → K → List K
  | [], k => [k]
  | k1 :: rest, k =>
      if k1 = k then k1 :: rest
      else if KeyOrd.lt k k1 then k :: k1 :: rest
      else k1 :: setInsert rest k

/-- The table is ordered by strictly increasing key, as a `std::map` is. -/
def KeySorted [KeyOrd K] (m : List (K × V)) : Prop :=
  m.Pairwise (fun a b => KeyOrd.lt a.1 b.1 = true)

instance [KeyOrd K] (m : List (K × V)) : Decidable (KeySorted m) := by
  unfold KeySorted; infer_instance

/-- Removal `s.erase(k)` from a set. -/
def setErase (s : List K) (k : K) : List K := s.filter (fun x => decide (x ≠ k))

end Containers

/-! ## Data model -/

/-- Reference to an output of a transaction or certificate. -/
structure COutPoint where
  hash : Nat
  n : Nat
  deriving DecidableEq, Repr

instance : KeyOrd COutPoint :=
  ⟨fun a b => decide (a.hash < b.hash) || (decide (a.hash = b.hash) && decide (a.n < b.n))⟩

/-- Input locator: the pool entry spending an outpoint (given by its hash) and
the index of the spending input. -/
structure CInPoint where
  ptx : Nat
  n : Nat
  deriving DecidableEq, Repr

structure CTxIn where
  prevout : COutPoint
  deriving DecidableEq, Repr

structure CTxOut where
  nValue : Int := 0
  deriving DecidableEq, Repr

structure JSDescription where
  anchor : Nat := 0
  nullifiers : List Nat := []
  deriving DecidableEq, Repr

structure CTxCeasedSidechainWithdrawalInput where
  nValue : Int
  scId : Nat
  nullifier : Nat
  deriving DecidableEq, Repr

structure CTxScCreationOut where
  scId : Nat
  withdrawalEpochLength : Int := 0
  deriving DecidableEq, Repr

structure CTxForwardTransferOut where
  scId : Nat
  nValue : Int := 0
  deriving DecidableEq, Repr

structure CBwtRequestOut where
  scId : Nat
  deriving DecidableEq, Repr

structure CTransaction where
  hash : Nat
  vin : List CTxIn := []
  vout : List CTxOut := []
  vjoinsplit : List JSDescription := []
  vcsw_ccin : List CTxCeasedSidechainWithdrawalInput := []
  vsc_ccout : List CTxScCreationOut := []
  vft_ccout : List CTxForwardTransferOut := []
  vmbtr_out : List CBwtRequestOut := []
  deriving DecidableEq, Repr

structure CScCertificate where
  hash : Nat
  vin : List CTxIn := []
  vout : List CTxOut := []
  scId : Nat
  epochNumber : Int := 0
  quality : Int := 0
  nFirstBwtPos : Nat := 0
  deriving DecidableEq, Repr

/-- Common base of transactions and certificates. -/
inductive CTransactionBase where
  | tx (t : CTransaction)
  | cert (c : CScCertificate)
  deriving DecidableEq, Repr

namespace CTransactionBase

def GetHash : CTransactionBase → Nat
  | tx t => t.hash
  | cert c => c.hash

def GetVin : CTransactionBase → List CTxIn
  | tx t => t.vin
  | cert c => c.vin

def GetVout : CTransactionBase → List CTxOut
  | tx t => t.vout
  | cert c => c.vout

def IsCertificate : CTransactionBase → Bool
  | tx _ => false
  | cert _ => true

end CTransactionBase

/-! ## Pool entries and the pool -/

structure CTxMemPoolEntry where
  tx : CTransaction
  nFee : Int := 0
  nTxSize : Nat := 0
  nModSize : Nat := 0
  nUsageSize : Nat := 0
  nTime : Int := 0
  nHeight : Nat := 0
  hadNoDependencies : Bool := false
  deriving DecidableEq, Repr

namespace CTxMemPoolEntry

def GetTx (e : CTxMemPoolEntry) : CTransaction := e.tx

def GetTxSize (e : CTxMemPoolEntry) : Nat := e.nTxSize

def DynamicMemoryUsage (e : CTxMemPoolEntry) : Nat := e.nUsageSize

end CTxMemPoolEntry

structure CCertificateMemPoolEntry where
  cert : CScCertificate
  nFee : Int := 0
  nCertificateSize : Nat := 0
  nModSize : Nat := 0
  nUsageSize : Nat := 0
  nTime : Int := 0
  nHeight : Nat := 0
  deriving DecidableEq, Repr

namespace CCertificateMemPoolEntry

def GetCertificate (e : CCertificateMemPoolEntry) : CScCertificate := e.cert

def GetCertificateSize (e : CCertificateMemPoolEntry) : Nat := e.nCertificateSize

def DynamicMemoryUsage (e : CCertificateMemPoolEntry) : Nat := e.nUsageSize

end CCertificateMemPoolEntry

/-- Per-sidechain row of `mapSidechains`. -/
structure CSidechainMemPoolEntry where
  scCreationTxHash : Nat := 0
  fwdTxHashes : List Nat := []
  mBackwardCertificates : List (Int × Nat) := []
  mcBtrsTxHashes : List Nat := []
  mcBtrsCertDataHash : Nat := 0
  cswNullifiers : List (Nat × Nat) := []
  cswTotalAmount : Int := 0
  deriving DecidableEq, Repr

namespace CSidechainMemPoolEntry

/-- Modelled from the spec: `CSidechainMemPoolEntry::IsNull` is declared in
`txmempool.h`, which is not among the sources.  The row is null when every
collection it holds is empty and `scCreationTxHash` is unset. -/
def IsNull (r : CSidechainMemPoolEntry) : Bool :=
  r.fwdTxHashes.isEmpty && decide (r.scCreationTxHash = 0) &&
    r.mBackwardCertificates.isEmpty && r.mcBtrsTxHashes.isEmpty && r.cswNullifiers.isEmpty

/-- Loop of `EraseCert`: drop every table entry whose value is `hash`. -/
def EraseCert (r : CSidechainMemPoolEntry) (hash : Nat) : CSidechainMemPoolEntry :=
  { r with mBackwardCertificates := r.mBackwardCertificates.filter (fun kv => decide (kv.2 ≠ hash)) }

/-- Search of `GetCert` / `HasCert`: some table entry has value `hash`. -/
def HasCert (r : CSidechainMemPoolEntry) (hash : Nat) : Bool :=
  r.mBackwardCertificates.any (fun kv => decide (hash = kv.2))

end CSidechainMemPoolEntry

/-- The mempool: primary tables, secondary tables and counters. -/
structure CTxMemPool where
  mapTx : List (Nat × CTxMemPoolEntry) := []
  mapCertificate : List (Nat × CCertificateMemPoolEntry) := []
  mapNextTx : List (COutPoint × CInPoint) := []
  mapNullifiers : List (Nat × Nat) := []
  mapSidechains : List (Nat × CSidechainMemPoolEntry) := []
  mapDeltas : List (Nat × (Int × Int)) := []
  mapRecentlyAddedTxBase : List (Nat × CTransactionBase) := []
  nRecentlyAddedSequence : Nat := 0
  nNotifiedSequence : Nat := 0
  nTransactionsUpdated : Nat := 0
  nCertificatesUpdated : Nat := 0
  totalTxSize : Nat := 0
  totalCertificateSize : Nat := 0
  cachedInnerUsage : Nat := 0
  deriving DecidableEq, Repr

/-- Committed sidechain record as seen through the chain view. -/
structure CSidechain where
  balance : Int := 0
  creationBlockHeight : Int := 0
  creationTxHash : Nat := 0
  withdrawalEpochLength : Int := 0
  deriving DecidableEq, Repr

/-- States of a sidechain as reported by the chain view (`CSidechain::State`). -/
inductive CSidechain.State where
  | NOT_APPLICABLE
  | UNCONFIRMED
  | ALIVE
  | CEASED
  deriving DecidableEq, Repr

/-- Unspent outputs of one transaction or certificate, as far as the pool and its
view adapter read them.  Modelled from the spec: the class `CCoins` is declared
in `coins.h`, which is not among the sources.  A record built by one of the two
constructors used here keeps the payload it was built from in `origin`, the
heights and the top-quality flag; `fPruned` is the answer of `IsPruned()`. -/
structure CCoins where
  origin : Option CTransactionBase := none
  nHeight : Nat := 0
  nBwtMaturityHeight : Nat := 0
  fTopQuality : Bool := false
  fCoinBase : Bool := false
  fFromCert : Bool := false
  fPruned : Bool := false
  deriving DecidableEq, Repr

namespace CCoins

/-- Constructor `CCoins(tx, nHeightIn)`. -/
def ofTx (tx : CTransaction) (nHeightIn : Nat) : CCoins :=
  { origin := some (CTransactionBase.tx tx), nHeight := nHeightIn }

/-- Constructor `CCoins(cert, nHeightIn, bwtMaturityHeight, isBlockTopQualityCert)`. -/
def ofCert (cert : CScCertificate) (nHeightIn bwtMaturityHeight : Nat)
    (isBlockTopQualityCert : Bool) : CCoins :=
  { origin := some (CTransactionBase.cert cert), nHeight := nHeightIn,
    nBwtMaturityHeight := bwtMaturityHeight, fTopQuality := isBlockTopQualityCert,
    fFromCert := true }

def IsPruned (c : CCoins) : Bool := c.fPruned

end CCoins

/-- The committed chain view consulted by the pool (`CCoinsView`,
`CCoinsViewCache`); only the queries used below are represented, each as the
answer the view gives.  `isOutputMature` stands for `CCoins::isOutputMature`,
which is defined with the chain-side coins and is left uninterpreted. -/
structure CCoinsViewCache where
  GetSidechain : Nat → Option CSidechain
  HaveSidechain : Nat → Bool := fun _ => false
  GetNullifier : Nat → Bool := fun _ => false
  HaveCswNullifier : Nat → Nat → Bool := fun _ _ => false
  GetCoins : Nat → Option CCoins := fun _ => none
  AccessCoins : Nat → Option CCoins := fun _ => none
  GetHeight : Int := 0
  isOutputMature : CCoins → Nat → Int → Bool := fun _ _ _ => true
  CheckScTxTiming : Nat → Bool := fun _ => true
  GetSidechainState : Nat → CSidechain.State := fun _ => CSidechain.State.NOT_APPLICABLE
  GetActiveCertDataHash : Nat → Nat := fun _ => 0

/-- Row `mapSidechains[scId]` as produced by `operator[]`: the stored row, or a
default-constructed one. -/
def rowOrDefault (m : List (Nat × CSidechainMemPoolEntry)) (scId : Nat) :
    CSidechainMemPoolEntry :=
  (mapFind m scId).getD {}

namespace CTxMemPool

/-- Modelled from the spec: `hasSidechainCreationTx` is declared in `txmempool.h`,
which is not among the sources.  The pool holds an unconfirmed creation for
`scId` when it has a row for it whose `scCreationTxHash` is set. -/
def hasSidechainCreationTx (pool : CTxMemPool) (scId : Nat) : Bool :=
  match mapFind pool.mapSidechains scId with
  | none => false
  | some r => decide (r.scCreationTxHash ≠ 0)

/-- Modelled from the spec: `CTxMemPool::HaveCswNullifier` is declared in
`txmempool.h`, which is not among the sources.  The pool holds the CSW nullifier
when it has a row for `scId` whose `cswNullifiers` has the key. -/
def HaveCswNullifier (pool : CTxMemPool) (scId : Nat) (nullifier : Nat) : Bool :=
  match mapFind pool.mapSidechains scId with
  | none => false
  | some r => mapCount r.cswNullifiers nullifier

/-- Dereference of a pointer into the pool (`*ptx`), given by the pointee's hash. -/
def deref (pool : CTxMemPool) (h : Nat) : Option CTransactionBase :=
  match mapFind pool.mapTx h with
  | some e => some (CTransactionBase.tx e.tx)
  | none =>
    match mapFind pool.mapCertificate h with
    | some e => some (CTransactionBase.cert e.cert)
    | none => none

/-! ### `addUnchecked` -/

/-- Update `mapSidechains[scId]` in place, creating the row when absent. -/
def scModify (m : List (Nat × CSidechainMemPoolEntry)) (scId : Nat)
    (f : CSidechainMemPoolEntry → CSidechainMemPoolEntry) :
    List (Nat × CSidechainMemPoolEntry) :=
  mapInsert m scId (f (rowOrDefault m scId))

/-- Loop `for i: mapNextTx[vin[i].prevout] = CInPoint(&tx, i)`. -/
def addNextTx (hash : Nat) :
    List (COutPoint × CInPoint) → List CTxIn → Nat → List (COutPoint × CInPoint)
  | m, [], _ => m
  | m, txin :: rest, i => addNextTx hash (mapInsert m txin.prevout ⟨hash, i⟩) rest (i + 1)

/-- Loop over the joinsplits and their nullifiers: `mapNullifiers[nf] = &tx`. -/
def addNullifiers (hash : Nat) (m : List (Nat × Nat)) (vjoinsplit : List JSDescription) :
    List (Nat × Nat) :=
  vjoinsplit.foldl (fun m1 joinsplit => joinsplit.nullifiers.foldl (fun m2 nf => mapInsert m2 nf hash) m1) m

/-- Body of the CSW loop of `addUnchecked`. -/
def addCswStep (txHash : Nat) (m : List (Nat × CSidechainMemPoolEntry))
    (csw : CTxCeasedSidechainWithdrawalInput) : List (Nat × CSidechainMemPoolEntry) :=
  let m1 := scModify m csw.scId
    (fun r => { r with cswNullifiers := mapInsert r.cswNullifiers csw.nullifier txHash })
  scModify m1 csw.scId (fun r => { r with cswTotalAmount := r.cswTotalAmount + csw.nValue })

/-- Body of the sidechain-creation loop of `addUnchecked`. -/
def addScStep (hash : Nat) (m : List (Nat × CSidechainMemPoolEntry))
    (sc : CTxScCreationOut) : List (Nat × CSidechainMemPoolEntry) :=
  scModify m sc.scId (fun r => { r with scCreationTxHash := hash })

/-- Body of the forward-transfer loop of `addUnchecked`. -/
def addFwdStep (hash : Nat) (m : List (Nat × CSidechainMemPoolEntry))
    (fwd : CTxForwardTransferOut) : List (Nat × CSidechainMemPoolEntry) :=
  scModify m fwd.scId (fun r => { r with fwdTxHashes := setInsert r.fwdTxHashes hash })

/-- Body of the BTR loop of `addUnchecked`; `scIdToCertDataHash.at` throws when
the sidechain id is missing from the auxiliary map. -/
def addBtrStep (hash : Nat) (scIdToCertDataHash : List (Nat × Nat))
    (m : List (Nat × CSidechainMemPoolEntry)) (btr : CBwtRequestOut) :
    Outcome (List (Nat × CSidechainMemPoolEntry)) :=
  let m1 := scModify m btr.scId
    (fun r => { r with mcBtrsTxHashes := setInsert r.mcBtrsTxHashes hash })
  if (rowOrDefault m1 btr.scId).mcBtrsCertDataHash = 0 then
    match mapFind scIdToCertDataHash btr.scId with
    | none => Outcome.failed
    | some d => Outcome.done (scModify m1 btr.scId (fun r => { r with mcBtrsCertDataHash := d }))
  else Outcome.done m1

/-- Sidechain-table updates of `addUnchecked` for a transaction, in source order:
CSW inputs, sidechain creations, forward transfers, BTRs. -/
def addSidechains (hash : Nat) (tx : CTransaction)
    (scIdToCertDataHash : List (Nat × Nat))
    (m : List (Nat × CSidechainMemPoolEntry)) :
    Outcome (List (Nat × CSidechainMemPoolEntry)) :=
  let m1 := tx.vcsw_ccin.foldl (addCswStep tx.hash) m
  let m2 := tx.vsc_ccout.foldl (addScStep hash) m1
  let m3 := tx.vft_ccout.foldl (addFwdStep hash) m2
  Outcome.foldl (addBtrStep hash scIdToCertDataHash) m3 tx.vmbtr_out

/-- Transaction overload of `CTxMemPool::addUnchecked`.  On completion the call
returns `true` together with the updated pool. -/
def addUnchecked (pool : CTxMemPool) (hash : Nat) (entry : CTxMemPoolEntry)
    (fCurrentEstimate : Bool) (scIdToCertDataHash : List (Nat × Nat)) :
    Outcome (Bool × CTxMemPool) :=
  let tx := entry.GetTx
  (addSidechains hash tx scIdToCertDataHash pool.mapSidechains).bind fun scs =>
    Outcome.done (true,
      { pool with
        mapTx := mapInsert pool.mapTx hash entry
        mapRecentlyAddedTxBase :=
          mapInsert pool.mapRecentlyAddedTxBase tx.hash (CTransactionBase.tx tx)
        nRecentlyAddedSequence := (pool.nRecentlyAddedSequence + 1) % 2 ^ 64
        mapNextTx := addNextTx tx.hash pool.mapNextTx tx.vin 0
        mapNullifiers := addNullifiers tx.hash pool.mapNullifiers tx.vjoinsplit
        mapSidechains := scs
        nTransactionsUpdated := (pool.nTransactionsUpdated + 1) % 2 ^ 32
        totalTxSize := (pool.totalTxSize + entry.GetTxSize) % 2 ^ 64
        cachedInnerUsage := (pool.cachedInnerUsage + entry.DynamicMemoryUsage) % 2 ^ 64 })

/-- Certificate overload of `CTxMemPool::addUnchecked`.  The assertion requires
that an existing row for the sidechain has no certificate of the same quality. -/
def addUncheckedCert (pool : CTxMemPool) (hash : Nat) (entry : CCertificateMemPoolEntry)
    (fCurrentEstimate : Bool) : Outcome (Bool × CTxMemPool) :=
  let cert := entry.GetCertificate
  let clash : Bool :=
    match mapFind pool.mapSidechains cert.scId with
    | none => false
    | some r => mapCount r.mBackwardCertificates cert.quality
  if clash then Outcome.failed
  else
    Outcome.done (true,
      { pool with
        mapCertificate := mapInsert pool.mapCertificate hash entry
        mapRecentlyAddedTxBase :=
          mapInsert pool.mapRecentlyAddedTxBase cert.hash (CTransactionBase.cert cert)
        nRecentlyAddedSequence := (pool.nRecentlyAddedSequence + 1) % 2 ^ 64
        mapNextTx := addNextTx cert.hash pool.mapNextTx cert.vin 0
        mapSidechains := scModify pool.mapSidechains cert.scId
          (fun r => { r with mBackwardCertificates := mapInsert r.mBackwardCertificates cert.quality hash })
        nCertificatesUpdated := (pool.nCertificatesUpdated + 1) % 2 ^ 32
        totalCertificateSize := (pool.totalCertificateSize + entry.GetCertificateSize) % 2 ^ 64
        cachedInnerUsage := (pool.cachedInnerUsage + entry.DynamicMemoryUsage) % 2 ^ 64 })

/-! ### Graph walks -/

/-- The creation transaction recorded for a sidechain, when the row exists and
its `scCreationTxHash` is not null (the guard of the two sidechain loops of
`mempoolDirectDependenciesFrom`). -/
def scCreationInPool (pool : CTxMemPool) (scId : Nat) : Option Nat :=
  match mapFind pool.mapSidechains scId with
  | none => none
  | some r => if r.scCreationTxHash ≠ 0 then some r.scCreationTxHash else none

/-- `CTxMemPool::mempoolDirectDependenciesFrom`: hashes of the pool entries that
`root` directly depends on. -/
def mempoolDirectDependenciesFrom (pool : CTxMemPool) (root : CTransactionBase) : List Nat :=
  let res := (root.GetVin.map (fun input => input.prevout.hash)).filter
    (fun h => mapCount pool.mapTx h || mapCount pool.mapCertificate h)
  match root with
  | CTransactionBase.cert _ => res
  | CTransactionBase.tx tx =>
    res ++ tx.vft_ccout.filterMap (fun fwt => scCreationInPool pool fwt.scId) ++
      tx.vmbtr_out.filterMap (fun btr => scCreationInPool pool btr.scId)

/-- `CTxMemPool::mempoolDirectDependenciesOf`: hashes of the pool entries that
directly depend on `root`. -/
def mempoolDirectDependenciesOf (pool : CTxMemPool) (root : CTransactionBase) : List Nat :=
  let res := (List.range root.GetVout.length).filterMap fun i =>
    (mapFind pool.mapNextTx ⟨root.GetHash, i⟩).map (fun ip => ip.ptx)
  match root with
  | CTransactionBase.cert _ => res
  | CTransactionBase.tx tx =>
    res ++ tx.vsc_ccout.flatMap fun sc =>
      match mapFind pool.mapSidechains sc.scId with
      | none => []
      | some r => r.fwdTxHashes ++ r.mcBtrsTxHashes

/-- Inner `for` loop of both walks: push onto the front of the work deque every
hash that is neither in the deque nor in the result. -/
def pushNew (res : List Nat) (toVisit : List Nat) (deps : List Nat) : List Nat :=
  deps.foldl (fun tv dep => if dep ∉ tv ∧ dep ∉ res then dep :: tv else tv) toVisit

/-- The `while` loop of `mempoolDependenciesFrom`: take from the back of the
deque, push to the front. -/
def dependenciesFromLoop (pool : CTxMemPool) :
    Nat → List Nat → List Nat → Outcome (List Nat)
  | _, [], res => Outcome.done res
  | 0, _ :: _, _ => Outcome.timeout
  | fuel + 1, v :: vs, res =>
    let back := (v :: vs).getLast (List.cons_ne_nil v vs)
    match pool.deref back with
    | none => Outcome.failed
    | some cur =>
      let res1 := if cur.GetHash ∈ res then res else res ++ [cur.GetHash]
      dependenciesFromLoop pool fuel
        (pushNew res1 (v :: vs).dropLast (mempoolDirectDependenciesFrom pool cur)) res1

/-- The `while` loop of `mempoolDependenciesOf`: take from the front of the
deque, push to the front. -/
def dependenciesOfLoop (pool : CTxMemPool) :
    Nat → List Nat → List Nat → Outcome (List Nat)
  | _, [], res => Outcome.done res
  | 0, _ :: _, _ => Outcome.timeout
  | fuel + 1, front :: rest, res =>
    match pool.deref front with
    | none => Outcome.failed
    | some cur =>
      let res1 := if cur.GetHash ∈ res then res else res ++ [cur.GetHash]
      dependenciesOfLoop pool fuel
        (pushNew res1 rest (mempoolDirectDependenciesOf pool cur)) res1

/-- Every hash the ancestor walk can ever push: keys of the primary tables and
the creation hashes of the sidechain rows. -/
def ancestorUniverse (pool : CTxMemPool) : List Nat :=
  pool.mapTx.map Prod.fst ++ pool.mapCertificate.map Prod.fst ++
    pool.mapSidechains.map (fun kv => kv.2.scCreationTxHash)

/-- Every hash the descendant walk can ever push: spenders recorded in
`mapNextTx` and the forward-transfer and BTR hashes of the sidechain rows. -/
def descendantUniverse (pool : CTxMemPool) : List Nat :=
  pool.mapNextTx.map (fun kv => kv.2.ptx) ++
    pool.mapSidechains.flatMap (fun kv => kv.2.fwdTxHashes ++ kv.2.mcBtrsTxHashes)

/-- `CTxMemPool::mempoolDependenciesFrom`: ancestors of `originTx` in the pool.
The step budget bounds the number of loop iterations. -/
def mempoolDependenciesFrom (pool : CTxMemPool) (originTx : CTransactionBase) :
    Outcome (List Nat) :=
  let res := mempoolDirectDependenciesFrom pool originTx
  dependenciesFromLoop pool (2 * (ancestorUniverse pool).length + res.length) res []

/-- `CTxMemPool::mempoolDependenciesOf`: descendants of `origTx` in the pool.
The step budget bounds the number of loop iterations. -/
def mempoolDependenciesOf (pool : CTxMemPool) (origTx : CTransactionBase) :
    Outcome (List Nat) :=
  let res := mempoolDirectDependenciesOf pool origTx
  dependenciesOfLoop pool (2 * (descendantUniverse pool).length + res.length) res []

/-! ### `remove` -/

/-- State threaded through the removal functions: the pool and the two output
lists of removed payloads. -/
structure Removal where
  pool : CTxMemPool
  removedTxs : List CTransaction
  removedCerts : List CScCertificate
  deriving DecidableEq, Repr

/-- Body of the CSW loop of `remove`; `mapSidechains.at` throws on a missing row. -/
def removeCswStep (m : List (Nat × CSidechainMemPoolEntry))
    (csw : CTxCeasedSidechainWithdrawalInput) : Outcome (List (Nat × CSidechainMemPoolEntry)) :=
  match mapFind m csw.scId with
  | none => Outcome.failed
  | some r =>
    let r1 := { r with cswNullifiers := mapErase r.cswNullifiers csw.nullifier }
    let r2 := { r1 with cswTotalAmount := r1.cswTotalAmount - csw.nValue }
    if r2.IsNull then Outcome.done (mapErase m csw.scId)
    else Outcome.done (mapInsert m csw.scId r2)

/-- Body of the BTR loop of `remove`, guarded by `mapSidechains.count`. -/
def removeBtrStep (hash : Nat) (m : List (Nat × CSidechainMemPoolEntry))
    (btr : CBwtRequestOut) : List (Nat × CSidechainMemPoolEntry) :=
  match mapFind m btr.scId with
  | none => m
  | some r =>
    let r1 := { r with mcBtrsTxHashes := setErase r.mcBtrsTxHashes hash }
    let r2 := if r1.mcBtrsTxHashes.isEmpty then { r1 with mcBtrsCertDataHash := 0 } else r1
    if r2.IsNull then mapErase m btr.scId else mapInsert m btr.scId r2

/-- Body of the forward-transfer loop of `remove`, guarded by `mapSidechains.count`. -/
def removeFwdStep (hash : Nat) (m : List (Nat × CSidechainMemPoolEntry))
    (fwd : CTxForwardTransferOut) : List (Nat × CSidechainMemPoolEntry) :=
  match mapFind m fwd.scId with
  | none => m
  | some r =>
    let r1 := { r with fwdTxHashes := setErase r.fwdTxHashes hash }
    if r1.IsNull then mapErase m fwd.scId else mapInsert m fwd.scId r1

/-- Body of the sidechain-creation loop of `remove`; the row must exist. -/
def removeScStep (m : List (Nat × CSidechainMemPoolEntry))
    (sc : CTxScCreationOut) : Outcome (List (Nat × CSidechainMemPoolEntry)) :=
  match mapFind m sc.scId with
  | none => Outcome.failed
  | some r =>
    let r1 := { r with scCreationTxHash := 0 }
    if r1.IsNull then Outcome.done (mapErase m sc.scId)
    else Outcome.done (mapInsert m sc.scId r1)

/-- Sidechain-table updates of `remove` for a transaction, in source order:
CSW inputs, BTRs, forward transfers, sidechain creations. -/
def removeSidechains (tx : CTransaction) (m : List (Nat × CSidechainMemPoolEntry)) :
    Outcome (List (Nat × CSidechainMemPoolEntry)) :=
  (Outcome.foldl removeCswStep m tx.vcsw_ccin).bind fun m1 =>
    let m2 := tx.vmbtr_out.foldl (removeBtrStep tx.hash) m1
    let m3 := tx.vft_ccout.foldl (removeFwdStep tx.hash) m2
    Outcome.foldl removeScStep m3 tx.vsc_ccout

/-- Branch `if (mapTx.count(hash))` of the loop of `remove`. -/
def removeTxEntry (st : Removal) (hash : Nat) (entry : CTxMemPoolEntry) : Outcome Removal :=
  let pool := st.pool
  let tx := entry.GetTx
  (removeSidechains tx pool.mapSidechains).bind fun scs =>
    Outcome.done
      { pool :=
          { pool with
            mapRecentlyAddedTxBase := mapErase pool.mapRecentlyAddedTxBase hash
            mapNextTx := tx.vin.foldl (fun m txin => mapErase m txin.prevout) pool.mapNextTx
            mapNullifiers := tx.vjoinsplit.foldl
              (fun m joinsplit => joinsplit.nullifiers.foldl (fun m1 nf => mapErase m1 nf) m)
              pool.mapNullifiers
            mapSidechains := scs
            totalTxSize := (pool.totalTxSize + 2 ^ 64 - entry.GetTxSize % 2 ^ 64) % 2 ^ 64
            cachedInnerUsage :=
              (pool.cachedInnerUsage + 2 ^ 64 - entry.DynamicMemoryUsage % 2 ^ 64) % 2 ^ 64
            mapTx := mapErase pool.mapTx hash
            nTransactionsUpdated := (pool.nTransactionsUpdated + 1) % 2 ^ 32 }
        removedTxs := st.removedTxs ++ [tx]
        removedCerts := st.removedCerts }

/-- Branch `else if (mapCertificate.count(hash))` of the loop of `remove`. -/
def removeCertEntry (st : Removal) (hash : Nat) (entry : CCertificateMemPoolEntry) :
    Outcome Removal :=
  let pool := st.pool
  let cert := entry.GetCertificate
  match mapFind pool.mapSidechains cert.scId with
  | none => Outcome.failed
  | some r =>
    let r1 := r.EraseCert hash
    let scs := if r1.IsNull then mapErase pool.mapSidechains cert.scId
      else mapInsert pool.mapSidechains cert.scId r1
    Outcome.done
      { pool :=
          { pool with
            mapRecentlyAddedTxBase := mapErase pool.mapRecentlyAddedTxBase hash
            mapNextTx := cert.vin.foldl (fun m txin => mapErase m txin.prevout) pool.mapNextTx
            mapSidechains := scs
            totalCertificateSize :=
              (pool.totalCertificateSize + 2 ^ 64 - entry.GetCertificateSize % 2 ^ 64) % 2 ^ 64
            cachedInnerUsage :=
              (pool.cachedInnerUsage + 2 ^ 64 - entry.DynamicMemoryUsage % 2 ^ 64) % 2 ^ 64
            mapCertificate := mapErase pool.mapCertificate hash
            nCertificatesUpdated := (pool.nCertificatesUpdated + 1) % 2 ^ 32 }
        removedTxs := st.removedTxs
        removedCerts := st.removedCerts ++ [cert] }

/-- Body of the loop of `remove` for one hash of `objToRemove`. -/
def removeOne (st : Removal) (hash : Nat) : Outcome Removal :=
  match mapFind st.pool.mapTx hash with
  | some entry => removeTxEntry st hash entry
  | none =>
    match mapFind st.pool.mapCertificate hash with
    | some entry => removeCertEntry st hash entry
    | none => Outcome.done st

/-- The list `objToRemove` built by `remove`: the hash of `origTx` inserted at
the beginning of its descendants (none when not recursive). -/
def objToRemove (pool : CTxMemPool) (origTx : CTransactionBase) (fRecursive : Bool) :
    Outcome (List Nat) :=
  (if fRecursive then mempoolDependenciesOf pool origTx else Outcome.done []).bind fun deps =>
    Outcome.done (origTx.GetHash :: deps)

/-- `CTxMemPool::remove`. -/
def remove (st : Removal) (origTx : CTransactionBase) (fRecursive : Bool) : Outcome Removal :=
  (objToRemove st.pool origTx fRecursive).bind fun objs => Outcome.foldl removeOne st objs

/-! ### Bulk removals -/

/-- Sentinel height of unconfirmed entries.  Modelled from the spec: the constant
is defined in a header that is not among the sources. -/
def MEMPOOL_HEIGHT : Nat := 0x7FFFFFFF

/-- Access `mapTx[txHash]` through `operator[]`: a missing key is inserted with a
default-constructed entry. -/
def mapTxIndex (pool : CTxMemPool) (txHash : Nat) : CTxMemPool × CTxMemPoolEntry :=
  match mapFind pool.mapTx txHash with
  | some e => (pool, e)
  | none =>
    let e : CTxMemPoolEntry := { tx := { hash := 0 }, nHeight := MEMPOOL_HEIGHT }
    ({ pool with mapTx := mapInsert pool.mapTx txHash e }, e)

/-- Inner loop of the first phase of `removeOutOfScBalanceCsw`: collect the
transactions owning the CSW nullifiers of one row. -/
def collectCswTxs (acc : CTxMemPool × List Nat) (nullifiers : List (Nat × Nat)) :
    CTxMemPool × List Nat :=
  nullifiers.foldl
    (fun a kv => let pe := mapTxIndex a.1 kv.2; (pe.1, setInsert a.2 pe.2.GetTx.hash)) acc

/-- Body of the first loop of `removeOutOfScBalanceCsw` for one sidechain row.
The assertion requires the chain view to know the sidechain. -/
def outOfBalanceStep (pCoinsView : CCoinsViewCache) (acc : CTxMemPool × List Nat)
    (row : Nat × CSidechainMemPoolEntry) : Outcome (CTxMemPool × List Nat) :=
  if row.2.cswTotalAmount = 0 then Outcome.done acc
  else
    match pCoinsView.GetSidechain row.1 with
    | none => Outcome.failed
    | some sidechain =>
      if row.2.cswTotalAmount ≤ sidechain.balance then Outcome.done acc
      else Outcome.done (collectCswTxs acc row.2.cswNullifiers)

/-- Body of the second loop of the bulk removals over transactions: remove the
hash, recursively, when it is still in `mapTx`. -/
def removeIfTx (st : Removal) (hash : Nat) : Outcome Removal :=
  match mapFind st.pool.mapTx hash with
  | none => Outcome.done st
  | some e => remove st (CTransactionBase.tx e.GetTx) true

/-- Body of the second loop of the bulk removals over certificates: remove the
hash, recursively, when it is still in `mapCertificate`. -/
def removeIfCert (st : Removal) (hash : Nat) : Outcome Removal :=
  match mapFind st.pool.mapCertificate hash with
  | none => Outcome.done st
  | some e => remove st (CTransactionBase.cert e.GetCertificate) true

/-- Second loop of the bulk removals over transactions. -/
def removeCollectedTxs (st : Removal) (hashes : List Nat) : Outcome Removal :=
  Outcome.foldl removeIfTx st hashes

/-- Second loop of the bulk removals over certificates. -/
def removeCollectedCerts (st : Removal) (hashes : List Nat) : Outcome Removal :=
  Outcome.foldl removeIfCert st hashes

/-- `CTxMemPool::removeOutOfScBalanceCsw`. -/
def removeOutOfScBalanceCsw (st : Removal) (pCoinsView : CCoinsViewCache) : Outcome Removal :=
  (Outcome.foldl (outOfBalanceStep pCoinsView) (st.pool, []) st.pool.mapSidechains).bind fun acc =>
    removeCollectedTxs { st with pool := acc.1 } acc.2

/-- Recursive removal of the entry a table points to, unless it is `tx` itself
(`if (txConflict != tx) remove(txConflict, …, true)`; entries compare by hash). -/
def removeConflicting (st : Removal) (self : Nat) (ptx : Nat) : Outcome Removal :=
  match st.pool.deref ptx with
  | none => Outcome.failed
  | some txConflict =>
    if txConflict.GetHash ≠ self then remove st txConflict true else Outcome.done st

/-- Body of the loop of `removeConflicts` over the inputs of the confirmed entry. -/
def removeInputConflict (self : Nat) (st : Removal) (txin : CTxIn) : Outcome Removal :=
  match mapFind st.pool.mapNextTx txin.prevout with
  | none => Outcome.done st
  | some ip => removeConflicting st self ip.ptx

/-- Loop of `removeConflicts` over the inputs of the confirmed entry. -/
def removeInputConflicts (st : Removal) (self : Nat) (vin : List CTxIn) : Outcome Removal :=
  Outcome.foldl (removeInputConflict self) st vin

/-- Body of the loop of `removeConflicts` over the joinsplit nullifiers. -/
def removeNullifierConflict (self : Nat) (st : Removal) (nf : Nat) : Outcome Removal :=
  match mapFind st.pool.mapNullifiers nf with
  | none => Outcome.done st
  | some ptx => removeConflicting st self ptx

/-- Loop of `removeConflicts` over the joinsplit nullifiers of the transaction. -/
def removeNullifierConflicts (st : Removal) (self : Nat) (vjoinsplit : List JSDescription) :
    Outcome Removal :=
  Outcome.foldl
    (fun st1 joinsplit => Outcome.foldl (removeNullifierConflict self) st1 joinsplit.nullifiers)
    st vjoinsplit

/-- Body of the loop of `removeConflicts` over the CSW inputs of the transaction. -/
def removeCswConflict (self : Nat) (st : Removal) (csw : CTxCeasedSidechainWithdrawalInput) :
    Outcome Removal :=
  match mapFind st.pool.mapSidechains csw.scId with
  | none => Outcome.done st
  | some r =>
    match mapFind r.cswNullifiers csw.nullifier with
    | none => Outcome.done st
    | some txHash =>
      match mapFind st.pool.mapTx txHash with
      | none => Outcome.failed
      | some e =>
        if e.GetTx.hash ≠ self then remove st (CTransactionBase.tx e.GetTx) true
        else Outcome.done st

/-- Loop of `removeConflicts` over the CSW inputs of the transaction. -/
def removeCswConflicts (st : Removal) (self : Nat)
    (vcsw : List CTxCeasedSidechainWithdrawalInput) : Outcome Removal :=
  Outcome.foldl (removeCswConflict self) st vcsw

/-- Transaction overload of `CTxMemPool::removeConflicts`; `pcoinsTip` is the
global chain view. -/
def removeConflicts (st : Removal) (tx : CTransaction) (pcoinsTip : CCoinsViewCache) :
    Outcome Removal :=
  (removeInputConflicts st tx.hash tx.vin).bind fun st1 =>
    (removeNullifierConflicts st1 tx.hash tx.vjoinsplit).bind fun st2 =>
      (removeCswConflicts st2 tx.hash tx.vcsw_ccin).bind fun st3 =>
        removeOutOfScBalanceCsw st3 pcoinsTip

/-- `CTxMemPool::ClearPrioritisation`. -/
def ClearPrioritisation (pool : CTxMemPool) (hash : Nat) : CTxMemPool :=
  { pool with mapDeltas := mapErase pool.mapDeltas hash }

/-- Body of the loop of `removeForBlock` for one confirmed transaction: remove it
without its descendants into scratch lists, remove its conflicts into the
caller's lists, and clear its prioritisation. -/
def removeForBlockTx (pcoinsTip : CCoinsViewCache) (st : Removal) (tx : CTransaction) :
    Outcome Removal :=
  (remove { pool := st.pool, removedTxs := [], removedCerts := [] }
      (CTransactionBase.tx tx) false).bind fun d =>
    (removeConflicts { st with pool := d.pool } tx pcoinsTip).bind fun st2 =>
      Outcome.done { st2 with pool := ClearPrioritisation st2.pool tx.hash }

/-- Transaction overload of `CTxMemPool::removeForBlock`. -/
def removeForBlock (st : Removal) (vtx : List CTransaction) (nBlockHeight : Nat)
    (fCurrentEstimate : Bool) (pcoinsTip : CCoinsViewCache) : Outcome Removal :=
  Outcome.foldl (removeForBlockTx pcoinsTip) st vtx

/-- Body of the scan of `removeConflicts(cert)` over the backward-certificate
table: collect the pool certificate when it has the same epoch and a quality that
is not higher.  `mapCertificate.at` throws on a missing hash. -/
def lowerQualStep (pool : CTxMemPool) (cert : CScCertificate) (acc : List Nat)
    (entry : Int × Nat) : Outcome (List Nat) :=
  match mapFind pool.mapCertificate entry.2 with
  | none => Outcome.failed
  | some e =>
    let memPoolCert := e.GetCertificate
    if memPoolCert.epochNumber = cert.epochNumber ∧ memPoolCert.quality ≤ cert.quality then
      Outcome.done (setInsert acc memPoolCert.hash)
    else Outcome.done acc

/-- Scan of `removeConflicts(cert)` over the backward-certificate table of the
sidechain. -/
def lowerQualCerts (pool : CTxMemPool) (cert : CScCertificate) (table : List (Int × Nat)) :
    Outcome (List Nat) :=
  Outcome.foldl (lowerQualStep pool cert) [] table

/-- Certificate overload of `CTxMemPool::removeConflicts`. -/
def removeConflictsCert (st : Removal) (cert : CScCertificate) : Outcome Removal :=
  (removeInputConflicts st cert.hash cert.vin).bind fun st1 =>
    match mapFind st1.pool.mapSidechains cert.scId with
    | none => Outcome.done st1
    | some r =>
      (lowerQualCerts st1.pool cert r.mBackwardCertificates).bind fun hashes =>
        removeCollectedCerts st1 hashes

/-- Body of the loop of `removeForBlock` for one confirmed certificate.  The
first component is the caller's state; the second holds the scratch lists, which
are shared by all iterations. -/
def removeForBlockCertStep (acc : Removal × Removal) (cert : CScCertificate) :
    Outcome (Removal × Removal) :=
  (remove { acc.2 with pool := acc.1.pool } (CTransactionBase.cert cert) false).bind fun d =>
    (removeConflictsCert { acc.1 with pool := d.pool } cert).bind fun st2 =>
      Outcome.done ({ st2 with pool := ClearPrioritisation st2.pool cert.hash }, d)

/-- Certificate overload of `CTxMemPool::removeForBlock`. -/
def removeForBlockCert (st : Removal) (vcert : List CScCertificate) (nBlockHeight : Nat) :
    Outcome Removal :=
  (Outcome.foldl removeForBlockCertStep
    (st, { pool := st.pool, removedTxs := [], removedCerts := [] }) vcert).bind fun acc =>
      Outcome.done acc.1

/-! ### Admission pre-checks -/

/-- `CTxMemPool::checkIncomingTxConflicts`. -/
def checkIncomingTxConflicts (pool : CTxMemPool) (incomingTx : CTransaction) : Bool :=
  let hash := incomingTx.hash
  if mapCount pool.mapTx hash then false
  else if incomingTx.vin.any
      (fun vin => mapCount pool.mapNextTx vin.prevout || mapCount pool.mapCertificate vin.prevout.hash)
    then false
  else if incomingTx.vsc_ccout.any (fun sc => pool.hasSidechainCreationTx sc.scId) then false
  else if incomingTx.vjoinsplit.any
      (fun joinsplit => joinsplit.nullifiers.any (fun nf => mapCount pool.mapNullifiers nf))
    then false
  else if incomingTx.vcsw_ccin.any (fun csw => pool.HaveCswNullifier csw.scId csw.nullifier)
    then false
  else true

end CTxMemPool

/-- Modelled from the spec: `CScCertificate::IsBackwardTransfer` is declared in a
header that is not among the sources.  Outputs from position `nFirstBwtPos` on
are backward transfers, the ones before it are change. -/
def CScCertificate.IsBackwardTransfer (c : CScCertificate) (pos : Nat) : Bool :=
  decide (c.nFirstBwtPos ≤ pos)

namespace CTxMemPool

/-- `CTxMemPool::checkIncomingCertConflicts`. -/
def checkIncomingCertConflicts (pool : CTxMemPool) (incomingCert : CScCertificate) :
    Outcome Bool :=
  let certHash := incomingCert.hash
  if mapCount pool.mapCertificate certHash then Outcome.done false
  else if incomingCert.vin.any
      (fun vin => mapCount pool.mapNextTx vin.prevout ||
        (match mapFind pool.mapCertificate vin.prevout.hash with
         | none => false
         | some e => e.GetCertificate.IsBackwardTransfer vin.prevout.n))
    then Outcome.done false
  else
    (mempoolDependenciesFrom pool (CTransactionBase.cert incomingCert)).bind fun deps =>
      Outcome.done (!(deps.any fun dep =>
        match mapFind pool.mapCertificate dep with
        | none => false
        | some e =>
          let certDep := e.GetCertificate
          decide (certDep.scId = incomingCert.scId) && decide (certDep.quality ≥ incomingCert.quality)))

end CTxMemPool

/-! ## Well-formed pools -/

section Predicates

variable {K V : Type} [DecidableEq K]

/-- The optional value, when present, satisfies `P`. -/
def OptAll {α : Type} (o : Option α) (P : α → Prop) : Prop :=
  ∀ a, o = some a → P a

instance {α : Type} (o : Option α) (P : α → Prop) [DecidablePred P] : Decidable (OptAll o P) :=
  match o with
  | none => isTrue (fun _ h => by cases h)
  | some a =>
    if h : P a then isTrue (fun b hb => by cases hb; exact h)
    else isFalse (fun h1 => h (h1 a rfl))

/-- Every binding of the table satisfies `P`. -/
def MapAll (m : List (K × V)) (P : K → V → Prop) : Prop :=
  ∀ kv ∈ m, OptAll (mapFind m kv.1) (P kv.1)

instance (m : List (K × V)) (P : K → V → Prop) [∀ k v, Decidable (P k v)] :
    Decidable (MapAll m P) :=
  inferInstanceAs (Decidable (∀ kv ∈ m, OptAll (mapFind m kv.1) (P kv.1)))

/-- The optional value is present and satisfies `P`. -/
def OptEx {α : Type} (o : Option α) (P : α → Prop) : Prop :=
  ∃ a, o = some a ∧ P a

instance {α : Type} (o : Option α) (P : α → Prop) [DecidablePred P] : Decidable (OptEx o P) :=
  match o with
  | none => isFalse (fun h => by obtain ⟨a, ha, _⟩ := h; cases ha)
  | some a =>
    if h : P a then isTrue ⟨a, rfl, h⟩
    else isFalse (fun h1 => by obtain ⟨b, hb, hp⟩ := h1; cases hb; exact h hp)

end Predicates

/-- All joinsplit nullifiers of a transaction. -/
def CTransaction.nullifiers (tx : CTransaction) : List Nat :=
  tx.vjoinsplit.flatMap (fun js => js.nullifiers)

/-- Sum of the CSW input values of a transaction that target sidechain `scId`. -/
def CTransaction.cswAmount (tx : CTransaction) (scId : Nat) : Int :=
  ((tx.vcsw_ccin.filter (fun csw => decide (csw.scId = scId))).map (fun csw => csw.nValue)).sum

/-- Internal well-formedness of a transaction: its hash is not the null hash, its
inputs spend pairwise distinct outpoints, its CSW inputs carry pairwise distinct
nullifiers per sidechain, and it creates pairwise distinct sidechains. -/
def TxWF (tx : CTransaction) : Prop :=
  tx.hash ≠ 0 ∧ (tx.vin.map (fun i => i.prevout)).Nodup ∧
    (tx.vcsw_ccin.map (fun c => (c.scId, c.nullifier))).Nodup ∧
    (tx.vsc_ccout.map (fun sc => sc.scId)).Nodup

instance (tx : CTransaction) : Decidable (TxWF tx) := by
  unfold TxWF; infer_instance

/-- Internal well-formedness of a certificate: its inputs spend pairwise distinct
outpoints. -/
def CertWF (cert : CScCertificate) : Prop :=
  (cert.vin.map (fun i => i.prevout)).Nodup

instance (cert : CScCertificate) : Decidable (CertWF cert) := by
  unfold CertWF; infer_instance

namespace CTxMemPool

/-- Sum of the values of all CSW inputs for sidechain `scId` over the
transactions of `mapTx`. -/
def cswSum (pool : CTxMemPool) (scId : Nat) : Int :=
  (pool.mapTx.map (fun kv => kv.2.tx.cswAmount scId)).sum

/-- Primary tables: keys are the hashes of the stored payloads, payloads are
internally well-formed, no hash is both a transaction and a certificate, and
the tables are ordered by key. -/
def KeysOk (pool : CTxMemPool) : Prop :=
  MapAll pool.mapTx (fun h e => e.tx.hash = h ∧ TxWF e.tx) ∧
  MapAll pool.mapCertificate
    (fun h e => e.cert.hash = h ∧ CertWF e.cert ∧ mapFind pool.mapTx h = none) ∧
  KeySorted pool.mapTx ∧ KeySorted pool.mapCertificate ∧ KeySorted pool.mapSidechains

/-- Table `mapNextTx` agrees with the inputs of the pool entries, both ways. -/
def NextTxOk (pool : CTxMemPool) : Prop :=
  MapAll pool.mapTx
    (fun h e => ∀ ix ∈ e.tx.vin.enum, mapFind pool.mapNextTx ix.2.prevout = some ⟨h, ix.1⟩) ∧
  MapAll pool.mapCertificate
    (fun h e => ∀ ix ∈ e.cert.vin.enum, mapFind pool.mapNextTx ix.2.prevout = some ⟨h, ix.1⟩) ∧
  MapAll pool.mapNextTx
    (fun o ip => OptEx (pool.deref ip.ptx)
      (fun b => (b.GetVin.get? ip.n).map (fun i => i.prevout) = some o))

/-- Table `mapNullifiers` agrees with the joinsplit nullifiers of the pool
transactions, both ways. -/
def NullifiersOk (pool : CTxMemPool) : Prop :=
  MapAll pool.mapTx (fun h e => ∀ nf ∈ e.tx.nullifiers, mapFind pool.mapNullifiers nf = some h) ∧
  MapAll pool.mapNullifiers
    (fun nf h => OptEx (mapFind pool.mapTx h) (fun e => nf ∈ e.tx.nullifiers))

/-- Every sidechain reference of a pool entry is recorded in the row of that
sidechain. -/
def RowsRecord (pool : CTxMemPool) : Prop :=
  MapAll pool.mapTx (fun h e =>
    (∀ sc ∈ e.tx.vsc_ccout,
      OptEx (mapFind pool.mapSidechains sc.scId) (fun r => r.scCreationTxHash = h)) ∧
    (∀ fwd ∈ e.tx.vft_ccout,
      OptEx (mapFind pool.mapSidechains fwd.scId) (fun r => h ∈ r.fwdTxHashes)) ∧
    (∀ btr ∈ e.tx.vmbtr_out,
      OptEx (mapFind pool.mapSidechains btr.scId) (fun r => h ∈ r.mcBtrsTxHashes)) ∧
    (∀ csw ∈ e.tx.vcsw_ccin,
      OptEx (mapFind pool.mapSidechains csw.scId)
        (fun r => mapFind r.cswNullifiers csw.nullifier = some h))) ∧
  MapAll pool.mapCertificate (fun h e =>
    OptEx (mapFind pool.mapSidechains e.cert.scId)
      (fun r => mapFind r.mBackwardCertificates e.cert.quality = some h))

/-- Every item of a sidechain row is backed by a pool entry that carries the
corresponding reference, no row is null, and the CSW total of a row is the sum
over the pool. -/
def RowsBacked (pool : CTxMemPool) : Prop :=
  MapAll pool.mapSidechains (fun s r =>
    r.IsNull = false ∧
    (r.scCreationTxHash ≠ 0 →
      OptEx (mapFind pool.mapTx r.scCreationTxHash)
        (fun e => s ∈ e.tx.vsc_ccout.map (fun sc => sc.scId))) ∧
    (∀ h ∈ r.fwdTxHashes,
      OptEx (mapFind pool.mapTx h) (fun e => s ∈ e.tx.vft_ccout.map (fun fwd => fwd.scId))) ∧
    (∀ h ∈ r.mcBtrsTxHashes,
      OptEx (mapFind pool.mapTx h) (fun e => s ∈ e.tx.vmbtr_out.map (fun btr => btr.scId))) ∧
    (∀ kv ∈ r.cswNullifiers,
      OptEx (mapFind pool.mapTx kv.2)
        (fun e => (s, kv.1) ∈ e.tx.vcsw_ccin.map (fun c => (c.scId, c.nullifier)))) ∧
    (∀ kv ∈ r.mBackwardCertificates,
      OptEx (mapFind pool.mapCertificate kv.2)
        (fun e => e.cert.scId = s ∧ e.cert.quality = kv.1)) ∧
    r.cswTotalAmount = pool.cswSum s)

/-- Well-formed pool: the secondary tables are consistent with the primary ones. -/
def WellFormed (pool : CTxMemPool) : Prop :=
  KeysOk pool ∧ NextTxOk pool ∧ NullifiersOk pool ∧ RowsRecord pool ∧ RowsBacked pool

instance (pool : CTxMemPool) : Decidable (KeysOk pool) := by
  unfold KeysOk; infer_instance

instance (pool : CTxMemPool) : Decidable (NextTxOk pool) := by
  unfold NextTxOk; infer_instance

instance (pool : CTxMemPool) : Decidable (NullifiersOk pool) := by
  unfold NullifiersOk; infer_instance

instance (pool : CTxMemPool) : Decidable (RowsRecord pool) := by
  unfold RowsRecord; infer_instance

instance (pool : CTxMemPool) : Decidable (RowsBacked pool) := by
  unfold RowsBacked; infer_instance

instance (pool : CTxMemPool) : Decidable (WellFormed pool) := by
  unfold WellFormed; infer_instance

end CTxMemPool

namespace CTxMemPool

/-! ## Dependency relations, in the words of the specification -/

/-- Direct descendants of an entry `y`: the pool entries recorded in `mapNextTx`
as spending an output of `y` and, when `y` is a transaction creating a
sidechain, the hashes in the forward-transfer and BTR sets of that sidechain. -/
def IsDirectDescendant (pool : CTxMemPool) (y : CTransactionBase) (d : Nat) : Prop :=
  (∃ i, i < y.GetVout.length ∧ ∃ ip, mapFind pool.mapNextTx ⟨y.GetHash, i⟩ = some ip ∧ ip.ptx = d) ∨
  (∃ t, y = CTransactionBase.tx t ∧ ∃ sc ∈ t.vsc_ccout, ∃ r,
    mapFind pool.mapSidechains sc.scId = some r ∧ (d ∈ r.fwdTxHashes ∨ d ∈ r.mcBtrsTxHashes))

/-- Descendants of `x`: the hashes reachable from `x` by one or more
direct-descendant steps through pool entries. -/
inductive IsDescendant (pool : CTxMemPool) (x : CTransactionBase) : Nat → Prop where
  | direct {d : Nat} : IsDirectDescendant pool x d → IsDescendant pool x d
  | step {y d : Nat} {b : CTransactionBase} : IsDescendant pool x y → pool.deref y = some b →
      IsDirectDescendant pool b d → IsDescendant pool x d

/-- Direct ancestors of an entry `y`: the pool entries owning some
`vin.prevout.hash` of `y` and, when `y` is a transaction, the in-pool creation
transaction of every sidechain targeted by a forward transfer or BTR of `y`. -/
def IsDirectAncestor (pool : CTxMemPool) (y : CTransactionBase) (a : Nat) : Prop :=
  (∃ vin ∈ y.GetVin, vin.prevout.hash = a ∧ pool.deref a ≠ none) ∨
  (∃ t, y = CTransactionBase.tx t ∧ ∃ s,
    (s ∈ t.vft_ccout.map (fun fwt => fwt.scId) ∨ s ∈ t.vmbtr_out.map (fun btr => btr.scId)) ∧
    ∃ r, mapFind pool.mapSidechains s = some r ∧ r.scCreationTxHash = a ∧ a ≠ 0)

/-- Ancestors of `x`: the hashes reachable from `x` by one or more
direct-ancestor steps through pool entries. -/
inductive IsAncestor (pool : CTxMemPool) (x : CTransactionBase) : Nat → Prop where
  | direct {a : Nat} : IsDirectAncestor pool x a → IsAncestor pool x a
  | step {y a : Nat} {b : CTransactionBase} : IsAncestor pool x y → pool.deref y = some b →
      IsDirectAncestor pool b a → IsAncestor pool x a

end CTxMemPool

/-! ## Generic work-list loop -/

/-- The common shape of the two graph walks: take a hash from the back or the
front of the deque, resolve it, record it, and push its unseen neighbours to the
front. -/
def walkLoop (deref : Nat → Option CTransactionBase) (direct : CTransactionBase → List Nat)
    (back : Bool) : Nat → List Nat → List Nat → Outcome (List Nat)
  | _, [], res => Outcome.done res
  | 0, _ :: _, _ => Outcome.timeout
  | fuel + 1, v :: vs, res =>
    let h := if back then (v :: vs).getLast (List.cons_ne_nil v vs) else v
    let rest := if back then (v :: vs).dropLast else vs
    match deref h with
    | none => Outcome.failed
    | some cur =>
      let res1 := if cur.GetHash ∈ res then res else res ++ [cur.GetHash]
      walkLoop deref direct back fuel (CTxMemPool.pushNew res1 rest (direct cur)) res1

/-- Hashes reachable from the seeds `init` through resolved entries. -/
inductive WalkReach (deref : Nat → Option CTransactionBase) (direct : CTransactionBase → List Nat)
    (init : List Nat) : Nat → Prop where
  | seed {d : Nat} : d ∈ init → WalkReach deref direct init d
  | step {y d : Nat} {b : CTransactionBase} : WalkReach deref direct init y → deref y = some b →
      d ∈ direct b → WalkReach deref direct init d

/-- Number of hashes of the universe `U` not yet discovered by the walk. -/
def undiscovered (U toVisit res : List Nat) : Nat :=
  (U.toFinset \ (toVisit.toFinset ∪ res.toFinset)).card

/-! ## Row-level view of the sidechain-table updates of `remove` -/

/-- A row as stored after an update: rows that became null are erased. -/
def normRow (r : CSidechainMemPoolEntry) : Option CSidechainMemPoolEntry :=
  if r.IsNull then none else some r

/-- Row update of the CSW loop of `remove`. -/
def cswClean (csw : CTxCeasedSidechainWithdrawalInput) (r : CSidechainMemPoolEntry) :
    CSidechainMemPoolEntry :=
  { r with
    cswNullifiers := mapErase r.cswNullifiers csw.nullifier
    cswTotalAmount := r.cswTotalAmount - csw.nValue }

/-- Row update of the BTR loop of `remove`. -/
def btrClean (hash : Nat) (r : CSidechainMemPoolEntry) : CSidechainMemPoolEntry :=
  if (setErase r.mcBtrsTxHashes hash).isEmpty then
    { r with mcBtrsTxHashes := setErase r.mcBtrsTxHashes hash, mcBtrsCertDataHash := 0 }
  else { r with mcBtrsTxHashes := setErase r.mcBtrsTxHashes hash }

/-- Row update of the forward-transfer loop of `remove`. -/
def fwdClean (hash : Nat) (r : CSidechainMemPoolEntry) : CSidechainMemPoolEntry :=
  { r with fwdTxHashes := setErase r.fwdTxHashes hash }

/-- Row update of the sidechain-creation loop of `remove`. -/
def scClean (r : CSidechainMemPoolEntry) : CSidechainMemPoolEntry :=
  { r with scCreationTxHash := 0 }

/-- One update of `mapSidechains` in `remove`: apply `c` to the row of `k` and
erase the row when it became null.  A strict update needs the row to exist; a
guarded one skips a missing row. -/
def applyStep (m : List (Nat × CSidechainMemPoolEntry))
    (step : Nat × Bool × (CSidechainMemPoolEntry → CSidechainMemPoolEntry)) :
    Outcome (List (Nat × CSidechainMemPoolEntry)) :=
  match mapFind m step.1 with
  | none => if step.2.1 then Outcome.failed else Outcome.done m
  | some r =>
    if (step.2.2 r).IsNull then Outcome.done (mapErase m step.1)
    else Outcome.done (mapInsert m step.1 (step.2.2 r))

/-- The updates of `mapSidechains` made by `remove` for a transaction, in order. -/
def removalSteps (tx : CTransaction) :
    List (Nat × Bool × (CSidechainMemPoolEntry → CSidechainMemPoolEntry)) :=
  tx.vcsw_ccin.map (fun csw => (csw.scId, true, cswClean csw)) ++
  tx.vmbtr_out.map (fun btr => (btr.scId, false, btrClean tx.hash)) ++
  tx.vft_ccout.map (fun fwd => (fwd.scId, false, fwdClean tx.hash)) ++
  tx.vsc_ccout.map (fun sc => (sc.scId, true, scClean))

/-- Effect of one update on the row of a given sidechain. -/
def rowStep (strict : Bool) (c : CSidechainMemPoolEntry → CSidechainMemPoolEntry) :
    Option CSidechainMemPoolEntry → Outcome (Option CSidechainMemPoolEntry)
  | none => if strict then Outcome.failed else Outcome.done none
  | some r => Outcome.done (normRow (c r))

/-- Effect of a sequence of updates on the row of sidechain `s`. -/
def viewSteps (s : Nat) :
    List (Nat × Bool × (CSidechainMemPoolEntry → CSidechainMemPoolEntry)) →
    Option CSidechainMemPoolEntry → Outcome (Option CSidechainMemPoolEntry)
  | [], o => Outcome.done o
  | step :: rest, o =>
    if step.1 = s then (rowStep step.2.1 step.2.2 o).bind (viewSteps s rest)
    else viewSteps s rest o

/-- Composition of the row updates that address sidechain `s`. -/
def compSteps (s : Nat) :
    List (Nat × Bool × (CSidechainMemPoolEntry → CSidechainMemPoolEntry)) →
    CSidechainMemPoolEntry → CSidechainMemPoolEntry
  | [], r => r
  | step :: rest, r => if step.1 = s then compSteps s rest (step.2.2 r) else compSteps s rest r

/-- Every strict update addressing `s` meets a row that is not null. -/
def SafeSteps (s : Nat) :
    List (Nat × Bool × (CSidechainMemPoolEntry → CSidechainMemPoolEntry)) →
    CSidechainMemPoolEntry → Prop
  | [], _ => True
  | step :: rest, r =>
    if step.1 = s then (step.2.1 = true → r.IsNull = false) ∧ SafeSteps s rest (step.2.2 r)
    else SafeSteps s rest r

/-- The row with every reference to transaction `h` removed and the CSW total
reduced by `amount`. -/
def purgeTx (h : Nat) (amount : Int) (r : CSidechainMemPoolEntry) : CSidechainMemPoolEntry :=
  { scCreationTxHash := if r.scCreationTxHash = h then 0 else r.scCreationTxHash
    fwdTxHashes := setErase r.fwdTxHashes h
    mBackwardCertificates := r.mBackwardCertificates
    mcBtrsTxHashes := setErase r.mcBtrsTxHashes h
    mcBtrsCertDataHash :=
      if h ∈ r.mcBtrsTxHashes ∧ (setErase r.mcBtrsTxHashes h).isEmpty then 0
      else r.mcBtrsCertDataHash
    cswNullifiers := r.cswNullifiers.filter (fun kv => decide (kv.2 ≠ h))
    cswTotalAmount := r.cswTotalAmount - amount }

namespace CTxMemPool

/-! ## Post-states of the removal of one entry -/

/-- Pool `p1` is pool `p` with the transaction `e`, stored under `h`, removed
from every table. -/
structure TxRemoved (p p1 : CTxMemPool) (h : Nat) (e : CTxMemPoolEntry) : Prop where
  mapTx : p1.mapTx = mapErase p.mapTx h
  mapCertificate : p1.mapCertificate = p.mapCertificate
  nextTx : ∀ o, mapFind p1.mapNextTx o =
    if o ∈ e.tx.vin.map (fun i => i.prevout) then none else mapFind p.mapNextTx o
  nullifiers : ∀ nf, mapFind p1.mapNullifiers nf =
    if nf ∈ e.tx.nullifiers then none else mapFind p.mapNullifiers nf
  sidechains : ∀ s, mapFind p1.mapSidechains s =
    (mapFind p.mapSidechains s).bind (fun r => normRow (purgeTx h (e.tx.cswAmount s) r))
  sortedSc : KeySorted p1.mapSidechains
  mapDeltas : p1.mapDeltas = p.mapDeltas

/-- Pool `p1` is pool `p` with the certificate `e`, stored under `h`, removed
from every table. -/
structure CertRemoved (p p1 : CTxMemPool) (h : Nat) (e : CCertificateMemPoolEntry) : Prop where
  mapTx : p1.mapTx = p.mapTx
  mapCertificate : p1.mapCertificate = mapErase p.mapCertificate h
  nextTx : ∀ o, mapFind p1.mapNextTx o =
    if o ∈ e.cert.vin.map (fun i => i.prevout) then none else mapFind p.mapNextTx o
  nullifiers : p1.mapNullifiers = p.mapNullifiers
  sidechains : ∀ s, mapFind p1.mapSidechains s =
    if e.cert.scId = s then (mapFind p.mapSidechains s).bind (fun r => normRow (r.EraseCert h))
    else mapFind p.mapSidechains s
  sortedSc : KeySorted p1.mapSidechains
  mapDeltas : p1.mapDeltas = p.mapDeltas

end CTxMemPool

/-- The list with every repeated occurrence of a hash dropped (first occurrences
are kept, in order). -/
def firstOcc : List Nat → List Nat
  | [] => []
  | h :: rest => h :: (firstOcc rest).filter (fun k => decide (k ≠ h))

namespace CTxMemPool

/-- The transaction stored under a hash, if any. -/
def txAt (pool : CTxMemPool) (h : Nat) : Option CTransaction :=
  (mapFind pool.mapTx h).map (fun e => e.tx)

/-- The certificate stored under a hash, if any. -/
def certAt (pool : CTxMemPool) (h : Nat) : Option CScCertificate :=
  (mapFind pool.mapCertificate h).map (fun e => e.cert)

end CTxMemPool

/-! ## Scenario fixtures -/

namespace Scenario

/-- Scenario S4: `txCreate` creates sidechain 100. -/
def txCreate : CTransaction := { hash := 1, vout := [{}], vsc_ccout := [{ scId := 100 }] }

/-- Scenario S4: `txForward` forwards to sidechain 100. -/
def txForward : CTransaction := { hash := 2, vout := [{}], vft_ccout := [{ scId := 100 }] }

/-- Scenario S4: `txSpend` spends output 0 of `txForward`. -/
def txSpend : CTransaction := { hash := 3, vin := [⟨⟨2, 0⟩⟩], vout := [{}] }

/-- Scenario S4: the pool holding the three transactions. -/
def poolS4 : CTxMemPool :=
  { mapTx := [(1, { tx := txCreate }), (2, { tx := txForward }), (3, { tx := txSpend })]
    mapNextTx := [(⟨2, 0⟩, ⟨3, 0⟩)]
    mapSidechains := [(100, { scCreationTxHash := 1, fwdTxHashes := [2] })]
    mapRecentlyAddedTxBase :=
      [(1, CTransactionBase.tx txCreate), (2, CTransactionBase.tx txForward),
        (3, CTransactionBase.tx txSpend)]
    nRecentlyAddedSequence := 3
    nTransactionsUpdated := 3 }

/-- The pool reached from the empty pool by adding the listed transactions in
order with `addUnchecked`, each under its own hash. -/
def addAll (pool : CTxMemPool) : List CTransaction → Outcome CTxMemPool
  | [] => Outcome.done pool
  | tx :: rest =>
    (pool.addUnchecked tx.hash { tx := tx } true []).bind (fun r => addAll r.2 rest)

end Scenario

namespace CTxMemPool

/-! ## Effect of a sequence of removals -/

/-- State `st1` results from `st` by removals only: the pool is well-formed, no
binding of a primary table is new, every payload that left a primary table is in
the matching output list, and the output lists only grew. -/
structure Shrinks (st st1 : Removal) : Prop where
  wf : WellFormed st1.pool
  tx_sub : ∀ k e, mapFind st1.pool.mapTx k = some e → mapFind st.pool.mapTx k = some e
  cert_sub : ∀ k e, mapFind st1.pool.mapCertificate k = some e →
    mapFind st.pool.mapCertificate k = some e
  txs_out : ∀ k e, mapFind st.pool.mapTx k = some e → mapFind st1.pool.mapTx k = none →
    e.tx ∈ st1.removedTxs
  certs_out : ∀ k e, mapFind st.pool.mapCertificate k = some e →
    mapFind st1.pool.mapCertificate k = none → e.cert ∈ st1.removedCerts
  txs_keep : ∀ t ∈ st.removedTxs, t ∈ st1.removedTxs
  certs_keep : ∀ c ∈ st.removedCerts, c ∈ st1.removedCerts

end CTxMemPool

namespace Scenario

/-- Scenario S3: certificate `A` for sidechain 200, epoch 1, quality 10. -/
def certA : CScCertificate := { hash := 11, scId := 200, epochNumber := 1, quality := 10 }

/-- Scenario S3: certificate `B` for sidechain 200, epoch 1, quality 20. -/
def certB : CScCertificate := { hash := 12, scId := 200, epochNumber := 1, quality := 20 }

/-- Scenario S3: the pool holding both certificates. -/
def poolS3 : CTxMemPool :=
  { mapCertificate := [(11, { cert := certA }), (12, { cert := certB })]
    mapSidechains := [(200, { mBackwardCertificates := [(10, 11), (20, 12)] })]
    mapRecentlyAddedTxBase := [(11, CTransactionBase.cert certA), (12, CTransactionBase.cert certB)]
    nRecentlyAddedSequence := 2
    nCertificatesUpdated := 2 }

end Scenario

namespace Scenario

/-- Scenario S5: first withdrawal of 40 from the ceased sidechain 100. -/
def txCsw1 : CTransaction :=
  { hash := 21, vout := [{}], vcsw_ccin := [{ scId := 100, nullifier := 1, nValue := 40 }] }

/-- Scenario S5: second withdrawal of 40 from the ceased sidechain 100. -/
def txCsw2 : CTransaction :=
  { hash := 22, vout := [{}], vcsw_ccin := [{ scId := 100, nullifier := 2, nValue := 40 }] }

/-- Scenario S5: third withdrawal of 40 from the ceased sidechain 100. -/
def txCsw3 : CTransaction :=
  { hash := 23, vout := [{}], vcsw_ccin := [{ scId := 100, nullifier := 3, nValue := 40 }] }

/-- Scenario S5: the pool holding the three withdrawals. -/
def poolS5 : CTxMemPool :=
  { mapTx := [(21, { tx := txCsw1 }), (22, { tx := txCsw2 }), (23, { tx := txCsw3 })]
    mapSidechains := [(100, { cswNullifiers := [(1, 21), (2, 22), (3, 23)], cswTotalAmount := 120 })]
    mapRecentlyAddedTxBase :=
      [(21, CTransactionBase.tx txCsw1), (22, CTransactionBase.tx txCsw2),
        (23, CTransactionBase.tx txCsw3)]
    nRecentlyAddedSequence := 3
    nTransactionsUpdated := 3 }

/-- Scenario S5: the chain view knows sidechain 100 with balance 100. -/
def viewS5 : CCoinsViewCache :=
  { GetSidechain := fun scId => if scId = 100 then some { balance := 100 } else none }

end Scenario

namespace CTxMemPool

/-! ## Post-states of the addition of one entry -/

/-- Effect of one iteration of the CSW loop of `addUnchecked` on the row it touches. -/
def cswRow (txHash : Nat) (csw : CTxCeasedSidechainWithdrawalInput)
    (r : CSidechainMemPoolEntry) : CSidechainMemPoolEntry :=
  { r with
    cswNullifiers := mapInsert r.cswNullifiers csw.nullifier txHash
    cswTotalAmount := r.cswTotalAmount + csw.nValue }

/-- Effect of one iteration of the sidechain-creation loop of `addUnchecked` on
the row it touches. -/
def scRow (hash : Nat) (sc : CTxScCreationOut) (r : CSidechainMemPoolEntry) :
    CSidechainMemPoolEntry :=
  { r with scCreationTxHash := hash }

/-- Effect of one iteration of the forward-transfer loop of `addUnchecked` on the
row it touches. -/
def fwdRow (hash : Nat) (fwd : CTxForwardTransferOut) (r : CSidechainMemPoolEntry) :
    CSidechainMemPoolEntry :=
  { r with fwdTxHashes := setInsert r.fwdTxHashes hash }

/-- Effect of one completed iteration of the BTR loop of `addUnchecked` on the
row it touches. -/
def btrRow (hash : Nat) (scIdToCertDataHash : List (Nat × Nat)) (btr : CBwtRequestOut)
    (r : CSidechainMemPoolEntry) : CSidechainMemPoolEntry :=
  { r with
    mcBtrsTxHashes := setInsert r.mcBtrsTxHashes hash
    mcBtrsCertDataHash :=
      if r.mcBtrsCertDataHash = 0 then (mapFind scIdToCertDataHash btr.scId).getD 0
      else r.mcBtrsCertDataHash }

/-- Pool `p1` is pool `p` with the transaction `e` added under its hash `h` to
every table. -/
structure TxAdded (p p1 : CTxMemPool) (h : Nat) (e : CTxMemPoolEntry) : Prop where
  mapTx : p1.mapTx = mapInsert p.mapTx h e
  mapCertificate : p1.mapCertificate = p.mapCertificate
  next_new : ∀ ix ∈ e.tx.vin.enum, mapFind p1.mapNextTx ix.2.prevout = some ⟨h, ix.1⟩
  next_old : ∀ o, o ∉ e.tx.vin.map (fun i => i.prevout) →
    mapFind p1.mapNextTx o = mapFind p.mapNextTx o
  nullifiers : ∀ nf, mapFind p1.mapNullifiers nf =
    if nf ∈ e.tx.nullifiers then some h else mapFind p.mapNullifiers nf
  has : ∀ s, mapFind p1.mapSidechains s ≠ none ↔
    (mapFind p.mapSidechains s ≠ none ∨ s ∈ e.tx.vcsw_ccin.map (fun c => c.scId) ∨
      s ∈ e.tx.vsc_ccout.map (fun c => c.scId) ∨ s ∈ e.tx.vft_ccout.map (fun c => c.scId) ∨
      s ∈ e.tx.vmbtr_out.map (fun c => c.scId))
  scCreation : ∀ s, (rowOrDefault p1.mapSidechains s).scCreationTxHash =
    if s ∈ e.tx.vsc_ccout.map (fun c => c.scId) then h
    else (rowOrDefault p.mapSidechains s).scCreationTxHash
  fwd : ∀ s x, x ∈ (rowOrDefault p1.mapSidechains s).fwdTxHashes ↔
    (x ∈ (rowOrDefault p.mapSidechains s).fwdTxHashes ∨
      (x = h ∧ s ∈ e.tx.vft_ccout.map (fun c => c.scId)))
  btr : ∀ s x, x ∈ (rowOrDefault p1.mapSidechains s).mcBtrsTxHashes ↔
    (x ∈ (rowOrDefault p.mapSidechains s).mcBtrsTxHashes ∨
      (x = h ∧ s ∈ e.tx.vmbtr_out.map (fun c => c.scId)))
  certs : ∀ s, (rowOrDefault p1.mapSidechains s).mBackwardCertificates =
    (rowOrDefault p.mapSidechains s).mBackwardCertificates
  total : ∀ s, (rowOrDefault p1.mapSidechains s).cswTotalAmount =
    (rowOrDefault p.mapSidechains s).cswTotalAmount + e.tx.cswAmount s
  nfs_find : ∀ s nf, mapFind (rowOrDefault p1.mapSidechains s).cswNullifiers nf =
    if (s, nf) ∈ e.tx.vcsw_ccin.map (fun c => (c.scId, c.nullifier)) then some h
    else mapFind (rowOrDefault p.mapSidechains s).cswNullifiers nf
  nfs_mem : ∀ s kv, kv ∈ (rowOrDefault p1.mapSidechains s).cswNullifiers →
    (kv ∈ (rowOrDefault p.mapSidechains s).cswNullifiers ∨
      (kv.2 = h ∧ (s, kv.1) ∈ e.tx.vcsw_ccin.map (fun c => (c.scId, c.nullifier))))
  sortedSc : KeySorted p1.mapSidechains

/-- Pool `p1` is pool `p` with the certificate `e` added under its hash `h` to
every table. -/
structure CertAdded (p p1 : CTxMemPool) (h : Nat) (e : CCertificateMemPoolEntry) : Prop where
  mapTx : p1.mapTx = p.mapTx
  mapCertificate : p1.mapCertificate = mapInsert p.mapCertificate h e
  next_new : ∀ ix ∈ e.cert.vin.enum, mapFind p1.mapNextTx ix.2.prevout = some ⟨h, ix.1⟩
  next_old : ∀ o, o ∉ e.cert.vin.map (fun i => i.prevout) →
    mapFind p1.mapNextTx o = mapFind p.mapNextTx o
  nullifiers : p1.mapNullifiers = p.mapNullifiers
  sidechains : p1.mapSidechains = scModify p.mapSidechains e.cert.scId
    (fun r => { r with mBackwardCertificates := mapInsert r.mBackwardCertificates e.cert.quality h })
  fresh : ∀ r, mapFind p.mapSidechains e.cert.scId = some r →
    mapFind r.mBackwardCertificates e.cert.quality = none

end CTxMemPool

namespace CTxMemPool

/-- The transaction `e`, to be stored under `h`, is internally well-formed, is
stored under its own hash, is new to both primary tables, and conflicts with no
entry of pool `p` on an input, a sidechain creation, a joinsplit nullifier or a
CSW nullifier. -/
structure TxFresh (p : CTxMemPool) (h : Nat) (e : CTxMemPoolEntry) : Prop where
  hash : e.tx.hash = h
  wf : TxWF e.tx
  noTx : mapFind p.mapTx h = none
  noCert : mapFind p.mapCertificate h = none
  inputs : ∀ vin ∈ e.tx.vin, mapFind p.mapNextTx vin.prevout = none
  creations : ∀ sc ∈ e.tx.vsc_ccout, p.hasSidechainCreationTx sc.scId = false
  nullifiers : ∀ nf ∈ e.tx.nullifiers, mapFind p.mapNullifiers nf = none
  csws : ∀ csw ∈ e.tx.vcsw_ccin, p.HaveCswNullifier csw.scId csw.nullifier = false

/-- The certificate `e`, to be stored under `h`, is internally well-formed, is
stored under its own hash, is new to both primary tables, and spends no output
that a pool entry already spends. -/
structure CertFresh (p : CTxMemPool) (h : Nat) (e : CCertificateMemPoolEntry) : Prop where
  hash : e.cert.hash = h
  wf : CertWF e.cert
  noTx : mapFind p.mapTx h = none
  noCert : mapFind p.mapCertificate h = none
  inputs : ∀ vin ∈ e.cert.vin, mapFind p.mapNextTx vin.prevout = none

end CTxMemPool

namespace CTxMemPool

/-! ## The consistency assertions of `check` and the reachable pools -/

/-- The assertions of `CTxMemPool::check` on the secondary tables.  For every
transaction of `mapTx`: each input is marked in `mapNextTx` with this transaction
and the input index; each sidechain creation, forward transfer, CSW input and BTR
is recorded in the row of its sidechain.  For every certificate of
`mapCertificate`: it is recorded in the row of its sidechain, and each input is
marked in `mapNextTx` with this certificate and the input index.  Every entry of
`mapNextTx` points to an entry of `mapTx` or `mapCertificate` whose input at the
recorded index spends the key.  Every entry of `mapNullifiers` points to a
transaction of `mapTx`.  A pointer is the hash of its pointee. -/
def checkTables (pool : CTxMemPool) : Prop :=
  MapAll pool.mapTx (fun _ e =>
    (∀ ix ∈ e.GetTx.vin.enum,
      OptEx (mapFind pool.mapNextTx ix.2.prevout)
        (fun it3 => it3.ptx = e.GetTx.hash ∧ it3.n = ix.1)) ∧
    (∀ scCreation ∈ e.GetTx.vsc_ccout,
      OptEx (mapFind pool.mapSidechains scCreation.scId)
        (fun r => r.scCreationTxHash = e.GetTx.hash)) ∧
    (∀ fwd ∈ e.GetTx.vft_ccout,
      OptEx (mapFind pool.mapSidechains fwd.scId) (fun r => e.GetTx.hash ∈ r.fwdTxHashes)) ∧
    (∀ csw ∈ e.GetTx.vcsw_ccin,
      OptEx (mapFind pool.mapSidechains csw.scId)
        (fun r => mapFind r.cswNullifiers csw.nullifier = some e.GetTx.hash)) ∧
    (∀ btr ∈ e.GetTx.vmbtr_out,
      OptEx (mapFind pool.mapSidechains btr.scId)
        (fun r => e.GetTx.hash ∈ r.mcBtrsTxHashes))) ∧
  MapAll pool.mapCertificate (fun _ e =>
    OptEx (mapFind pool.mapSidechains e.GetCertificate.scId)
      (fun r => r.HasCert e.GetCertificate.hash = true) ∧
    (∀ ix ∈ e.GetCertificate.vin.enum,
      OptEx (mapFind pool.mapNextTx ix.2.prevout)
        (fun it3 => it3.ptx = e.GetCertificate.hash ∧ it3.n = ix.1))) ∧
  MapAll pool.mapNextTx (fun o ip =>
    OptEx (pool.deref ip.ptx)
      (fun b => (b.GetVin.get? ip.n).map (fun i => i.prevout) = some o)) ∧
  MapAll pool.mapNullifiers (fun _ ptx => OptEx (mapFind pool.mapTx ptx) (fun _ => True))

instance (pool : CTxMemPool) : Decidable (checkTables pool) := by
  unfold checkTables; infer_instance

/-- Pools reached from the empty pool by completed calls of `addUnchecked`,
`remove` and `removeForBlock`, where every added entry is internally well-formed,
is stored under its own hash, is in neither primary table, and passed
`checkIncomingTxConflicts` or `checkIncomingCertConflicts` on the pool it is
added to. -/
inductive Reachable : CTxMemPool → Prop
  | empty : Reachable {}
  | byAddTx (p p1 : CTxMemPool) (hash : Nat) (entry : CTxMemPoolEntry)
      (fCurrentEstimate b : Bool) (scIdToCertDataHash : List (Nat × Nat)) :
      Reachable p → entry.tx.hash = hash → TxWF entry.tx →
      mapFind p.mapTx hash = none → mapFind p.mapCertificate hash = none →
      checkIncomingTxConflicts p entry.tx = true →
      addUnchecked p hash entry fCurrentEstimate scIdToCertDataHash = Outcome.done (b, p1) →
      Reachable p1
  | byAddCert (p p1 : CTxMemPool) (hash : Nat) (entry : CCertificateMemPoolEntry)
      (fCurrentEstimate b : Bool) :
      Reachable p → entry.cert.hash = hash → CertWF entry.cert →
      mapFind p.mapTx hash = none → mapFind p.mapCertificate hash = none →
      checkIncomingCertConflicts p entry.cert = Outcome.done true →
      addUncheckedCert p hash entry fCurrentEstimate = Outcome.done (b, p1) →
      Reachable p1
  | byRemove (st st1 : Removal) (origTx : CTransactionBase) (fRecursive : Bool) :
      Reachable st.pool → remove st origTx fRecursive = Outcome.done st1 → Reachable st1.pool
  | byRemoveForBlock (st st1 : Removal) (vtx : List CTransaction) (nBlockHeight : Nat)
      (fCurrentEstimate : Bool) (pcoinsTip : CCoinsViewCache) :
      Reachable st.pool →
      removeForBlock st vtx nBlockHeight fCurrentEstimate pcoinsTip = Outcome.done st1 →
      Reachable st1.pool
  | byRemoveForBlockCert (st st1 : Removal) (vcert : List CScCertificate) (nBlockHeight : Nat) :
      Reachable st.pool → removeForBlockCert st vcert nBlockHeight = Outcome.done st1 →
      Reachable st1.pool

end CTxMemPool

namespace Scenario

/-- A withdrawal of 40 from sidechain 100 with CSW nullifier 7. -/
def txCswA : CTransaction :=
  { hash := 41, vout := [{}], vcsw_ccin := [{ scId := 100, nullifier := 7, nValue := 40 }] }

/-- A second withdrawal of 40 from sidechain 100 with the same CSW nullifier 7. -/
def txCswB : CTransaction :=
  { hash := 42, vout := [{}], vcsw_ccin := [{ scId := 100, nullifier := 7, nValue := 40 }] }

/-- The pool after `addUnchecked` of `txCswA` to the empty pool. -/
def poolCswA : CTxMemPool :=
  { mapTx := [(41, { tx := txCswA })]
    mapSidechains := [(100, { cswNullifiers := [(7, 41)], cswTotalAmount := 40 })]
    mapRecentlyAddedTxBase := [(41, CTransactionBase.tx txCswA)]
    nRecentlyAddedSequence := 1
    nTransactionsUpdated := 1 }

/-- The pool after `addUnchecked` of `txCswB` to `poolCswA`. -/
def poolCswAB : CTxMemPool :=
  { mapTx := [(41, { tx := txCswA }), (42, { tx := txCswB })]
    mapSidechains := [(100, { cswNullifiers := [(7, 42)], cswTotalAmount := 80 })]
    mapRecentlyAddedTxBase := [(41, CTransactionBase.tx txCswA), (42, CTransactionBase.tx txCswB)]
    nRecentlyAddedSequence := 2
    nTransactionsUpdated := 2 }

/-- The pool after `remove` of `txCswA` from `poolCswAB`. -/
def poolCswB : CTxMemPool :=
  { mapTx := [(42, { tx := txCswB })]
    mapRecentlyAddedTxBase := [(42, CTransactionBase.tx txCswB)]
    nRecentlyAddedSequence := 2
    nTransactionsUpdated := 3 }

/-- A transaction whose two inputs spend the same outpoint. -/
def txDup : CTransaction := { hash := 31, vin := [⟨⟨9, 0⟩⟩, ⟨⟨9, 0⟩⟩], vout := [{}] }

/-- The pool after `addUnchecked` of `txDup` to the empty pool. -/
def poolDup : CTxMemPool :=
  { mapTx := [(31, { tx := txDup })]
    mapNextTx := [(⟨9, 0⟩, ⟨31, 1⟩)]
    mapRecentlyAddedTxBase := [(31, CTransactionBase.tx txDup)]
    nRecentlyAddedSequence := 1
    nTransactionsUpdated := 1 }

end Scenario

namespace Scenario

/-- Scenario S4 after the first addition: the pool holding `txCreate`. -/
def poolS4a : CTxMemPool :=
  { mapTx := [(1, { tx := txCreate })]
    mapSidechains := [(100, { scCreationTxHash := 1 })]
    mapRecentlyAddedTxBase := [(1, CTransactionBase.tx txCreate)]
    nRecentlyAddedSequence := 1
    nTransactionsUpdated := 1 }

/-- Scenario S4 after the second addition: the pool holding `txCreate` and
`txForward`. -/
def poolS4b : CTxMemPool :=
  { mapTx := [(1, { tx := txCreate }), (2, { tx := txForward })]
    mapSidechains := [(100, { scCreationTxHash := 1, fwdTxHashes := [2] })]
    mapRecentlyAddedTxBase :=
      [(1, CTransactionBase.tx txCreate), (2, CTransactionBase.tx txForward)]
    nRecentlyAddedSequence := 2
    nTransactionsUpdated := 2 }

/-- Scenario S5 after the first addition: the pool holding `txCsw1`. -/
def poolS5a : CTxMemPool :=
  { mapTx := [(21, { tx := txCsw1 })]
    mapSidechains := [(100, { cswNullifiers := [(1, 21)], cswTotalAmount := 40 })]
    mapRecentlyAddedTxBase := [(21, CTransactionBase.tx txCsw1)]
    nRecentlyAddedSequence := 1
    nTransactionsUpdated := 1 }

/-- Scenario S5 after the second addition: the pool holding `txCsw1` and `txCsw2`. -/
def poolS5b : CTxMemPool :=
  { mapTx := [(21, { tx := txCsw1 }), (22, { tx := txCsw2 })]
    mapSidechains := [(100, { cswNullifiers := [(1, 21), (2, 22)], cswTotalAmount := 80 })]
    mapRecentlyAddedTxBase := [(21, CTransactionBase.tx txCsw1), (22, CTransactionBase.tx txCsw2)]
    nRecentlyAddedSequence := 2
    nTransactionsUpdated := 2 }

end Scenario

namespace Scenario

/-- A withdrawal of 60 from sidechain 100. -/
def txOver : CTransaction :=
  { hash := 51, vout := [{}], vcsw_ccin := [{ scId := 100, nullifier := 1, nValue := 60 }] }

/-- A spender of output 0 of `txOver` whose CSW input for sidechain 200 carries
the value -10. -/
def txNeg : CTransaction :=
  { hash := 52, vin := [⟨⟨51, 0⟩⟩], vout := [{}],
    vcsw_ccin := [{ scId := 200, nullifier := 1, nValue := -10 }] }

/-- A withdrawal of 30 from sidechain 200. -/
def txPos : CTransaction :=
  { hash := 53, vout := [{}], vcsw_ccin := [{ scId := 200, nullifier := 2, nValue := 30 }] }

/-- The pool holding `txOver`, `txNeg` and `txPos`. -/
def poolNeg : CTxMemPool :=
  { mapTx := [(51, { tx := txOver }), (52, { tx := txNeg }), (53, { tx := txPos })]
    mapNextTx := [(⟨51, 0⟩, ⟨52, 0⟩)]
    mapSidechains :=
      [(100, { cswNullifiers := [(1, 51)], cswTotalAmount := 60 }),
        (200, { cswNullifiers := [(1, 52), (2, 53)], cswTotalAmount := 20 })] }

/-- The pool `poolNeg` after `txOver` and its spender `txNeg` have been removed. -/
def poolNegAfter : CTxMemPool :=
  { mapTx := [(53, { tx := txPos })]
    mapSidechains := [(200, { cswNullifiers := [(2, 53)], cswTotalAmount := 30 })]
    nTransactionsUpdated := 2 }

/-- A chain view with balance 50 for sidechain 100 and balance 25 for sidechain 200. -/
def viewNeg : CCoinsViewCache :=
  { GetSidechain := fun scId =>
      if scId = 100 then some { balance := 50 }
      else if scId = 200 then some { balance := 25 } else none }

/-- A chain view that reports the balance -1 for sidechains 100 and 300. -/
def viewDebt : CCoinsViewCache :=
  { GetSidechain := fun scId =>
      if scId = 100 then some { balance := -1 }
      else if scId = 300 then some { balance := -1 } else none }

/-- A withdrawal of 5 from sidechain 50. -/
def txOther : CTransaction :=
  { hash := 24, vout := [{}], vcsw_ccin := [{ scId := 50, nullifier := 1, nValue := 5 }] }

/-- Scenario S5 with the additional withdrawal `txOther` from sidechain 50, which
the chain view `viewS5` does not know. -/
def poolS5Other : CTxMemPool :=
  { mapTx :=
      [(21, { tx := txCsw1 }), (22, { tx := txCsw2 }), (23, { tx := txCsw3 }),
        (24, { tx := txOther })]
    mapSidechains :=
      [(50, { cswNullifiers := [(1, 24)], cswTotalAmount := 5 }),
        (100, { cswNullifiers := [(1, 21), (2, 22), (3, 23)], cswTotalAmount := 120 })] }

/-- A withdrawal of 0 from sidechain 300. -/
def txZero : CTransaction :=
  { hash := 25, vout := [{}], vcsw_ccin := [{ scId := 300, nullifier := 1, nValue := 0 }] }

/-- The pool holding `txZero`. -/
def poolZero : CTxMemPool :=
  { mapTx := [(25, { tx := txZero })]
    mapSidechains := [(300, { cswNullifiers := [(1, 25)], cswTotalAmount := 0 })] }

end Scenario

namespace CTxMemPool

/-- `CTxMemPool::clear`. -/
def clear (pool : CTxMemPool) : CTxMemPool :=
  { pool with
    mapTx := []
    mapCertificate := []
    mapDeltas := []
    mapNextTx := []
    mapSidechains := []
    totalTxSize := 0
    totalCertificateSize := 0
    cachedInnerUsage := 0
    nTransactionsUpdated := (pool.nTransactionsUpdated + 1) % 2 ^ 32 }

end CTxMemPool

namespace Scenario

/-- A certificate for sidechain 200 of quality 10 with two outputs: output 0 is
change, output 1 is a backward transfer. -/
def certD : CScCertificate :=
  { hash := 71, vout := [{}, {}], scId := 200, epochNumber := 1, quality := 10, nFirstBwtPos := 1 }

/-- The pool after `addUnchecked` of `certD` to the empty pool. -/
def poolD : CTxMemPool :=
  { mapCertificate := [(71, { cert := certD })]
    mapSidechains := [(200, { mBackwardCertificates := [(10, 71)] })]
    mapRecentlyAddedTxBase := [(71, CTransactionBase.cert certD)]
    nRecentlyAddedSequence := 1
    nCertificatesUpdated := 1 }

/-- A certificate for sidechain 200 of quality 20 that spends the change output of
`certD`. -/
def certHigh : CScCertificate :=
  { hash := 72, vin := [⟨⟨71, 0⟩⟩], vout := [{}], scId := 200, epochNumber := 1, quality := 20 }

/-- A certificate for sidechain 200 of quality 5 that spends the change output of
`certD`. -/
def certLow : CScCertificate :=
  { hash := 73, vin := [⟨⟨71, 0⟩⟩], vout := [{}], scId := 200, epochNumber := 1, quality := 5 }

/-- A transaction that spends the change output of `certD`. -/
def txChange : CTransaction := { hash := 74, vin := [⟨⟨71, 0⟩⟩], vout := [{}] }

/-- A transaction with the joinsplit nullifier 5. -/
def txShielded : CTransaction := { hash := 61, vout := [{}], vjoinsplit := [{ nullifiers := [5] }] }

/-- The pool after `addUnchecked` of `txShielded` to the empty pool. -/
def poolShielded : CTxMemPool :=
  { mapTx := [(61, { tx := txShielded })]
    mapNullifiers := [(5, 61)]
    mapRecentlyAddedTxBase := [(61, CTransactionBase.tx txShielded)]
    nRecentlyAddedSequence := 1
    nTransactionsUpdated := 1 }

/-- Another transaction with the joinsplit nullifier 5. -/
def txShielded2 : CTransaction := { hash := 62, vout := [{}], vjoinsplit := [{ nullifiers := [5] }] }

end Scenario

namespace Scenario

/-- The pool holding `txNeg` and `txPos`: the row of sidechain 200 has the total
20 (-10 and 30). -/
def poolNegPos : CTxMemPool :=
  { mapTx := [(52, { tx := txNeg }), (53, { tx := txPos })]
    mapNextTx := [(⟨51, 0⟩, ⟨52, 0⟩)]
    mapSidechains := [(200, { cswNullifiers := [(1, 52), (2, 53)], cswTotalAmount := 20 })] }

/-- A chain view that knows no sidechain. -/
def viewEmpty : CCoinsViewCache := { GetSidechain := fun _ => none }

end Scenario

namespace CTxMemPool

/-- Entry `b` shares a resource with the transaction `tx`: an input of `b` spends
a prevout of `tx`, or `b` is a transaction holding a joinsplit nullifier of `tx`
or a CSW nullifier (per sidechain) of `tx`. -/
def SharesWith (b : CTransactionBase) (tx : CTransaction) : Prop :=
  (∃ i ∈ b.GetVin, ∃ j ∈ tx.vin, i.prevout = j.prevout) ∨
  (∃ t, b = CTransactionBase.tx t ∧
    ((∃ nf ∈ t.nullifiers, nf ∈ tx.nullifiers) ∨
      (∃ c ∈ t.vcsw_ccin, ∃ c1 ∈ tx.vcsw_ccin, c.scId = c1.scId ∧ c.nullifier = c1.nullifier)))

/-- The entries that left pool `p0` on the way to pool `p` are closed under direct
descendants in `p0`. -/
def DescClosed (p0 p : CTxMemPool) : Prop :=
  ∀ y b d, p0.deref y = some b → p.deref y = none → IsDirectDescendant p0 b d →
    p.deref d = none

/-- State `st1` results from `st` by recursive removals only: `Shrinks`, the
removed entries are closed under descendants, and the output lists were
extended at their end. -/
structure Prunes (st st1 : Removal) : Prop where
  shrinks : Shrinks st st1
  closed : DescClosed st.pool st1.pool
  txs_ext : ∃ l, st1.removedTxs = st.removedTxs ++ l
  certs_ext : ∃ l, st1.removedCerts = st.removedCerts ++ l

end CTxMemPool

namespace Scenario

/-- A transaction that spends output 0 of `txForward`, as `txSpend` does. -/
def txRival : CTransaction := { hash := 4, vin := [⟨⟨2, 0⟩⟩], vout := [{}] }

end Scenario

namespace CTxMemPool

/-! ### Removal by anchor -/

/-- Inner loop of `removeWithAnchor`: some joinsplit of the transaction has the
anchor `invalidRoot`. -/
def usesAnchor (invalidRoot : Nat) (tx : CTransaction) : Bool :=
  tx.vjoinsplit.any (fun joinsplit => decide (joinsplit.anchor = invalidRoot))

/-- Body of the second loop of `removeWithAnchor`: recursive removal into scratch
lists. -/
def removeAnchored (pool : CTxMemPool) (tx : CTransaction) : Outcome CTxMemPool :=
  (remove { pool := pool, removedTxs := [], removedCerts := [] }
      (CTransactionBase.tx tx) true).bind fun st => Outcome.done st.pool

/-- `CTxMemPool::removeWithAnchor`. -/
def removeWithAnchor (pool : CTxMemPool) (invalidRoot : Nat) : Outcome CTxMemPool :=
  let transactionsToRemove :=
    (pool.mapTx.filter (fun kv => usesAnchor invalidRoot kv.2.GetTx)).map (fun kv => kv.2.GetTx)
  Outcome.foldl removeAnchored pool transactionsToRemove

/-! ### Stale transactions -/

/-- Two's complement value of a 64-bit result. -/
def wrapInt64 (x : Int) : Int := (x + 2 ^ 63) % 2 ^ 64 - 2 ^ 63

/-- `CTxMemPool::PrioritiseTransaction`.  The priority component is a `double` in
the source and is carried as an integer; the fee component is a 64-bit amount. -/
def PrioritiseTransaction (pool : CTxMemPool) (hash : Nat) (dPriorityDelta : Int)
    (nFeeDelta : Int) : CTxMemPool :=
  let deltas := (mapFind pool.mapDeltas hash).getD (0, 0)
  { pool with
    mapDeltas := mapInsert pool.mapDeltas hash
      (deltas.1 + dPriorityDelta, wrapInt64 (deltas.2 + nFeeDelta)) }

/-- `CTxMemPool::ApplyDeltas`: the two reference parameters are returned. -/
def ApplyDeltas (pool : CTxMemPool) (hash : Nat) (dPriorityDelta : Int) (nFeeDelta : Int) :
    Int × Int :=
  match mapFind pool.mapDeltas hash with
  | none => (dPriorityDelta, nFeeDelta)
  | some deltas => (dPriorityDelta + deltas.1, wrapInt64 (nFeeDelta + deltas.2))

end CTxMemPool

/-! ### The view of the chain through the pool (`CCoinsViewMemPool`) -/

namespace CCoinsViewMemPool

/-- `CCoinsViewMemPool::GetNullifier`. -/
def GetNullifier (base : CCoinsViewCache) (mempool : CTxMemPool) (nf : Nat) : Bool :=
  if mapCount mempool.mapNullifiers nf then true else base.GetNullifier nf

/-- `CCoinsViewMemPool::GetCoins`: the coins when the call returns true.
`GetTopQualityCert` is `crbegin()` of the backward-certificate table, the entry
with the highest quality; dereferencing it on an empty table does not return. -/
def GetCoins (base : CCoinsViewCache) (mempool : CTxMemPool) (txid : Nat) :
    Outcome (Option CCoins) :=
  match mapFind mempool.mapTx txid with
  | some e => Outcome.done (some (CCoins.ofTx e.GetTx CTxMemPool.MEMPOOL_HEIGHT))
  | none =>
    match mapFind mempool.mapCertificate txid with
    | some e =>
      match mapFind mempool.mapSidechains e.GetCertificate.scId with
      | none => Outcome.failed
      | some r =>
        match r.mBackwardCertificates.getLast? with
        | none => Outcome.failed
        | some top =>
          Outcome.done (some (CCoins.ofCert e.GetCertificate CTxMemPool.MEMPOOL_HEIGHT
            CTxMemPool.MEMPOOL_HEIGHT (decide (top.2 = e.GetCertificate.hash))))
    | none =>
      match base.GetCoins txid with
      | none => Outcome.done none
      | some coins => if !coins.IsPruned then Outcome.done (some coins) else Outcome.done none

/-- First part of `CCoinsViewMemPool::GetSidechain`: the record built from the
creation transaction in the pool, or the record of the chain. -/
def sidechainSource (base : CCoinsViewCache) (mempool : CTxMemPool) (scId : Nat)
    (info : CSidechain) : Outcome (Option CSidechain) :=
  if mempool.hasSidechainCreationTx scId then
    match mapFind mempool.mapSidechains scId with
    | none => Outcome.failed
    | some r =>
      match mapFind mempool.mapTx r.scCreationTxHash with
      | none => Outcome.failed
      | some e =>
        match e.GetTx.vsc_ccout.find? (fun scCreation => decide (scId = scCreation.scId)) with
        | none => Outcome.done (some info)
        | some scCreation =>
          Outcome.done (some { info with
            creationBlockHeight := -1
            creationTxHash := r.scCreationTxHash
            withdrawalEpochLength := scCreation.withdrawalEpochLength })
  else Outcome.done (base.GetSidechain scId)

/-- Second part of `CCoinsViewMemPool::GetSidechain`: the pending CSW total of the
pool is taken from the balance. -/
def applyCswTotal (mempool : CTxMemPool) (scId : Nat) (info : CSidechain) : CSidechain :=
  match mapFind mempool.mapSidechains scId with
  | none => info
  | some r =>
    if r.cswTotalAmount > 0 then { info with balance := info.balance - r.cswTotalAmount }
    else info

/-- `CCoinsViewMemPool::GetSidechain`: the record `info` when the call returns
true; `info` on entry is the record of the caller. -/
def GetSidechain (base : CCoinsViewCache) (mempool : CTxMemPool) (scId : Nat)
    (info : CSidechain) : Outcome (Option CSidechain) :=
  (sidechainSource base mempool scId info).bind fun src =>
    match src with
    | none => Outcome.done none
    | some info1 => Outcome.done (some (applyCswTotal mempool scId info1))

/-- `CCoinsViewMemPool::HaveSidechain`. -/
def HaveSidechain (base : CCoinsViewCache) (mempool : CTxMemPool) (scId : Nat) : Bool :=
  mempool.hasSidechainCreationTx scId || base.HaveSidechain scId

/-- `CCoinsViewMemPool::HaveCswNullifier`. -/
def HaveCswNullifier (base : CCoinsViewCache) (mempool : CTxMemPool) (scId : Nat)
    (nullifier : Nat) : Bool :=
  mempool.HaveCswNullifier scId nullifier || base.HaveCswNullifier scId nullifier

end CCoinsViewMemPool

namespace Scenario

/-- The pool holding only `txNeg`: the row of sidechain 200 has the total -10. -/
def poolOwed : CTxMemPool :=
  { mapTx := [(52, { tx := txNeg })]
    mapNextTx := [(⟨51, 0⟩, ⟨52, 0⟩)]
    mapSidechains := [(200, { cswNullifiers := [(1, 52)], cswTotalAmount := -10 })] }

/-- A pool whose row of sidechain 100 names a creation transaction that is not
in `mapTx`. -/
def poolDangling : CTxMemPool :=
  { mapSidechains := [(100, { scCreationTxHash := 1 })] }

/-- A pool that holds the certificate `certA` without a row for its sidechain. -/
def poolRowless : CTxMemPool :=
  { mapCertificate := [(11, { cert := certA })] }

end Scenario

namespace CTxMemPool

/-- Pool `p` results from pool `p0` by recursive removals of entries that satisfy
`Root`: it is well-formed, no binding of a primary table is new, the entries that
left are closed under descendants in `p0`, and each of them is a root or a
descendant of a root. -/
structure PoolPruned (p0 p : CTxMemPool) (Root : CTransactionBase → Prop) : Prop where
  wf : WellFormed p
  tx_sub : ∀ k e, mapFind p.mapTx k = some e → mapFind p0.mapTx k = some e
  cert_sub : ∀ k e, mapFind p.mapCertificate k = some e → mapFind p0.mapCertificate k = some e
  closed : DescClosed p0 p
  bounded : ∀ k, p0.deref k ≠ none → p.deref k = none →
    ∃ x, Root x ∧ (k = x.GetHash ∨ IsDescendant p0 x k)

end CTxMemPool

namespace CTxMemPool

end CTxMemPool

namespace Scenario

end Scenario

/-- Hashes reached from the seeds `init` within a bounded number of steps through
resolved entries: a seed counts one step. -/
inductive WalkWithin (deref : Nat → Option CTransactionBase)
    (direct : CTransactionBase → List Nat) (init : List Nat) : Nat → Nat → Prop where
  | seed {n d : Nat} : d ∈ init → WalkWithin deref direct init (n + 1) d
  | step {n y d : Nat} {b : CTransactionBase} : WalkWithin deref direct init n y →
      deref y = some b → d ∈ direct b → WalkWithin deref direct init (n + 1) d

/-- The neighbours yielded by the entry stored under `p`; none when `p` does not
resolve. -/
def walkChildren (deref : Nat → Option CTransactionBase)
    (direct : CTransactionBase → List Nat) (p : Nat) : List Nat :=
  match deref p with
  | none => []
  | some b => direct b

/-- Bookkeeping invariant of a walk: the neighbours of listed entries and the
seeds are pending or listed, every pending entry is a seed or a neighbour of a
listed entry, and every listed entry is a seed or a neighbour of an entry listed
before it. -/
structure WalkInv (deref : Nat → Option CTransactionBase)
    (direct : CTransactionBase → List Nat) (init tv res : List Nat) : Prop where
  children : ∀ p ∈ res, ∀ d ∈ walkChildren deref direct p, d ∈ tv ∨ d ∈ res
  seeds : ∀ d ∈ init, d ∈ tv ∨ d ∈ res
  pending : ∀ d ∈ tv, d ∈ init ∨ ∃ p ∈ res, d ∈ walkChildren deref direct p
  listed : ∀ pre z post, res = pre ++ z :: post →
    z ∈ init ∨ ∃ p ∈ pre, z ∈ walkChildren deref direct p
  nodup : res.Nodup

/-- Level invariant of the walk that takes from the back: along the listed
entries followed by the pending ones in the order they will be taken, the
distance from the seeds does not decrease, and the distances of two pending or
listed entries differ by at most one step when the nearer one is pending. -/
structure WalkLevels (deref : Nat → Option CTransactionBase)
    (direct : CTransactionBase → List Nat) (init tv res : List Nat) : Prop where
  sorted : (res ++ tv.reverse).Pairwise (fun u v =>
    ∀ n, WalkWithin deref direct init n v → WalkWithin deref direct init n u)
  narrow : ∀ u ∈ tv, ∀ v, v ∈ res ∨ v ∈ tv →
    ∀ n, WalkWithin deref direct init n u → WalkWithin deref direct init (n + 1) v

namespace CTxMemPool

/-- The hash `a` is an ancestor of `x` at distance at most `n`: it is reached from
`x` by at most `n` direct-ancestor steps through pool entries.  This definition is
written from the specification. -/
inductive AncestorWithin (pool : CTxMemPool) (x : CTransactionBase) : Nat → Nat → Prop where
  | direct {n a : Nat} : IsDirectAncestor pool x a → AncestorWithin pool x (n + 1) a
  | step {n y a : Nat} {b : CTransactionBase} : AncestorWithin pool x n y →
      pool.deref y = some b → IsDirectAncestor pool b a → AncestorWithin pool x (n + 1) a

/-- The direct ancestors yielded by the pool entry stored under `h`; none when
`h` does not resolve. -/
def directFromHash (pool : CTxMemPool) (h : Nat) : List Nat :=
  walkChildren pool.deref (mempoolDirectDependenciesFrom pool) h

end CTxMemPool

namespace Scenario

/-- A transaction with one output. -/
def txP : CTransaction := { hash := 91, vout := [{}] }

/-- A second transaction with one output. -/
def txQ : CTransaction := { hash := 92, vout := [{}] }

/-- A transaction that spends the output of `txP` and then the output of `txQ`. -/
def txR : CTransaction := { hash := 93, vin := [⟨⟨91, 0⟩⟩, ⟨⟨92, 0⟩⟩], vout := [{}] }

/-- The pool holding `txP`, `txQ` and `txR`. -/
def poolPQR : CTxMemPool :=
  { mapTx := [(91, { tx := txP }), (92, { tx := txQ }), (93, { tx := txR })]
    mapNextTx := [(⟨91, 0⟩, ⟨93, 0⟩), (⟨92, 0⟩, ⟨93, 1⟩)] }

end Scenario

/-! ## The coins selection solvers

The header `coinsselectionalgorithm.hpp` declares the classes, their fields and the
signature of `Solve`, and describes the solvers in prose; it holds no body.  The
solving routines below are written from the specification. -/

namespace CoinsSelection

/-- An element of `amountsAndSizes`: the amount (a `CAmount`) and the size in
bytes of the associated input. -/
structure Candidate where
  amount : Int
  size : Nat
  deriving DecidableEq, Repr

/-- The output variables of `CCoinsSelectionAlgorithmBase`. -/
structure Solution where
  optimalSelection : List Bool
  optimalTotalAmount : Int
  optimalTotalSize : Nat
  optimalTotalSelection : Nat
  deriving DecidableEq, Repr

/-- Sum of the amounts of a list of candidates. -/
def sumAmount (l : List Candidate) : Int := (l.map Candidate.amount).sum

/-- Sum of the sizes of a list of candidates. -/
def sumSize (l : List Candidate) : Nat := (l.map Candidate.size).sum

/-- The candidates a selection bitmask selects. -/
def selected : List Candidate → List Bool → List Candidate
  | c :: cs, b :: bs => if b then c :: selected cs bs else selected cs bs
  | _, _ => []

/-- The solution that reports the bitmask `m` over the array `arr` with the totals
and the count of the candidates it selects. -/
def Solution.ofMask (arr : List Candidate) (m : List Bool) : Solution :=
  ⟨m, sumAmount (selected arr m), sumSize (selected arr m), (selected arr m).length⟩

/-- Modelled from the spec: `Reset` is declared in the header only; the
specification gives the state without a selection as count 0 with an all-zero
bitmask. -/
def Solution.reset (n : Nat) : Solution := ⟨List.replicate n false, 0, 0, 0⟩

/-- A set of candidates is admissible when its total amount lies between the
target amount and the amount ceiling and its total size is within the size
ceiling. -/
def Admissible (targetAmount targetAmountPlusOffset : Int) (availableTotalSize : Nat)
    (s : List Candidate) : Prop :=
  targetAmount ≤ sumAmount s ∧ sumAmount s ≤ targetAmountPlusOffset ∧
    sumSize s ≤ availableTotalSize

instance (targetAmount targetAmountPlusOffset : Int) (availableTotalSize : Nat)
    (s : List Candidate) :
    Decidable (Admissible targetAmount targetAmountPlusOffset availableTotalSize s) := by
  unfold Admissible
  infer_instance

/-- Modelled from the spec: insertion of a candidate in front of the first
candidate whose amount is not greater, which keeps the order of equal amounts. -/
def insertDescending (c : Candidate) : List Candidate → List Candidate
  | [] => [c]
  | d :: rest => if d.amount ≤ c.amount then c :: d :: rest else d :: insertDescending c rest

/-- Modelled from the spec: `PrepareAmounts` and `PrepareSizes` are declared in the
header only; construction sorts the candidates by descending amount, stable over
equal amounts, the size following its candidate. -/
def PrepareAmounts (amountsAndSizes : List Candidate) : List Candidate :=
  amountsAndSizes.foldr insertDescending []

/-- Modelled from the spec: a selection with `count` candidates and total `amount`
improves on the incumbent when its count is strictly greater, or equal with a
strictly smaller total amount. -/
def improves (count : Nat) (amount : Int) (best : Solution) : Bool :=
  decide (best.optimalTotalSelection < count ∨
    (count = best.optimalTotalSelection ∧ amount < best.optimalTotalAmount))

/-- The window `[lo, hi)` of the sliding window solver: its low index, the
candidates it holds and the running totals. -/
structure Window where
  lo : Nat
  items : List Candidate
  totalAmount : Int
  totalSize : Nat
  deriving DecidableEq, Repr

/-- Modelled from the spec: step 2 of the sliding window rule.  While the total
amount exceeds the amount ceiling or the total size exceeds the size ceiling, the
candidate at `lo` is excluded and `lo` advances.  A window that is empty and
still over a ceiling has no candidate to exclude; the model stops there. -/
def shrink (targetAmountPlusOffset : Int) (availableTotalSize : Nat) :
    List Candidate → Nat → Int → Nat → Outcome Window
  | items, lo, totalAmount, totalSize =>
    if targetAmountPlusOffset < totalAmount ∨ availableTotalSize < totalSize then
      match items with
      | [] => Outcome.failed
      | c :: rest =>
        shrink targetAmountPlusOffset availableTotalSize rest (lo + 1) (totalAmount - c.amount)
          (totalSize - c.size)
    else Outcome.done ⟨lo, items, totalAmount, totalSize⟩

/-- Modelled from the spec: one iteration of the sliding window rule for the
candidate at `hi`: include it and advance the running totals, shrink the window
from `lo` while a ceiling is exceeded, then record the window as the current
best when it reaches the target amount and improves the objective. -/
def slide (targetAmount targetAmountPlusOffset : Int) (availableTotalSize n : Nat)
    (st : Window × Solution) (c : Candidate) : Outcome (Window × Solution) :=
  (shrink targetAmountPlusOffset availableTotalSize (st.1.items ++ [c]) st.1.lo
    (st.1.totalAmount + c.amount) (st.1.totalSize + c.size)).bind fun w =>
    Outcome.done (w,
      if targetAmount ≤ w.totalAmount ∧ improves w.items.length w.totalAmount st.2 = true then
        ⟨List.replicate w.lo false ++ List.replicate w.items.length true ++
          List.replicate (n - w.lo - w.items.length) false,
          w.totalAmount, w.totalSize, w.items.length⟩
      else st.2)

/-- Modelled from the spec: `CCoinsSelectionSlidingWindow::Solve`, declared in the
header only.  The window slides over the array in descending amount order until
`hi` passes the end. -/
def CCoinsSelectionSlidingWindow.Solve (amountsAndSizes : List Candidate)
    (targetAmount targetAmountPlusOffset : Int) (availableTotalSize : Nat) :
    Outcome Solution :=
  let arr := PrepareAmounts amountsAndSizes
  (Outcome.foldl (slide targetAmount targetAmountPlusOffset availableTotalSize arr.length)
    (⟨0, [], 0, 0⟩, Solution.reset arr.length) arr).bind fun st => Outcome.done st.2

/-- Modelled from the spec: the three prunes of a node of the decision tree.  The
subtree is cut when an upper bound is exceeded, when the amounts still available
(`cumulativeAmountsForward` at the current index, the sum of the amounts of
`rest`) cannot reach the target amount, and when the count still reachable does
not exceed the incumbent count, unless it is equal and taking every remaining
candidate would give a strictly smaller total amount. -/
def pruned (targetAmount targetAmountPlusOffset : Int) (availableTotalSize : Nat)
    (rest : List Candidate) (tempTotalSize : Nat) (tempTotalAmount : Int)
    (tempTotalSelection : Nat) (best : Solution) : Bool :=
  decide (targetAmountPlusOffset < tempTotalAmount ∨ availableTotalSize < tempTotalSize) ||
    decide (tempTotalAmount + sumAmount rest < targetAmount) ||
    decide (tempTotalSelection + rest.length < best.optimalTotalSelection ∨
      (tempTotalSelection + rest.length = best.optimalTotalSelection ∧
        best.optimalTotalAmount ≤ tempTotalAmount + sumAmount rest))

/-- Modelled from the spec: `CCoinsSelectionBranchAndBound::SolveRecursive`,
declared in the header only.  `rest` holds the candidates from the current index
on and `tempSelection` the decisions taken so far.  A node that is not pruned is
a leaf, where an admissible selection that improves the objective replaces the
incumbent, or it recurses into the include branch and then the exclude branch. -/
def SolveRecursive (targetAmount targetAmountPlusOffset : Int) (availableTotalSize : Nat) :
    List Candidate → List Bool → Nat → Int → Nat → Solution → Solution
  | [], tempSelection, tempTotalSize, tempTotalAmount, tempTotalSelection, best =>
    if pruned targetAmount targetAmountPlusOffset availableTotalSize [] tempTotalSize
        tempTotalAmount tempTotalSelection best = true then best
    else if targetAmount ≤ tempTotalAmount ∧ tempTotalAmount ≤ targetAmountPlusOffset ∧
        tempTotalSize ≤ availableTotalSize ∧
        improves tempTotalSelection tempTotalAmount best = true then
      ⟨tempSelection, tempTotalAmount, tempTotalSize, tempTotalSelection⟩
    else best
  | c :: rest, tempSelection, tempTotalSize, tempTotalAmount, tempTotalSelection, best =>
    if pruned targetAmount targetAmountPlusOffset availableTotalSize (c :: rest) tempTotalSize
        tempTotalAmount tempTotalSelection best = true then best
    else
      SolveRecursive targetAmount targetAmountPlusOffset availableTotalSize rest
        (tempSelection ++ [false]) tempTotalSize tempTotalAmount tempTotalSelection
        (SolveRecursive targetAmount targetAmountPlusOffset availableTotalSize rest
          (tempSelection ++ [true]) (tempTotalSize + c.size) (tempTotalAmount + c.amount)
          (tempTotalSelection + 1) best)

/-- Modelled from the spec: `CCoinsSelectionBranchAndBound::Solve`, declared in
the header only: the recursion started at index 0 with nothing selected. -/
def CCoinsSelectionBranchAndBound.Solve (amountsAndSizes : List Candidate)
    (targetAmount targetAmountPlusOffset : Int) (availableTotalSize : Nat) : Solution :=
  let arr := PrepareAmounts amountsAndSizes
  SolveRecursive targetAmount targetAmountPlusOffset availableTotalSize arr [] 0 0 0
    (Solution.reset arr.length)

/-- A reported solution is sound for the array `arr`: its bitmask ranges over the
array, the reported totals and count are those of the candidates it selects, the
total amount lies between the target amount and the amount ceiling and the total
size is within the size ceiling. -/
def Solution.Sound (arr : List Candidate) (targetAmount targetAmountPlusOffset : Int)
    (availableTotalSize : Nat) (b : Solution) : Prop :=
  b.optimalSelection.length = arr.length ∧ b = Solution.ofMask arr b.optimalSelection ∧
    targetAmount ≤ b.optimalTotalAmount ∧ b.optimalTotalAmount ≤ targetAmountPlusOffset ∧
    b.optimalTotalSize ≤ availableTotalSize

/-- Invariant of the sliding window loop after the candidates `P` have been
included: the window holds the longest run at the end of `P` that respects both
ceilings, the running totals are those of the window, and the current best is
the solution without a selection or a sound one, the latter as soon as `P`
contains an admissible run. -/
structure SlideInv (arr : List Candidate) (targetAmount targetAmountPlusOffset : Int)
    (availableTotalSize : Nat) (P : List Candidate) (st : Window × Solution) : Prop where
  split : ∃ L, P = L ++ st.1.items ∧ L.length = st.1.lo
  amount : st.1.totalAmount = sumAmount st.1.items
  size : st.1.totalSize = sumSize st.1.items
  longest : ∀ w2, w2 <:+ P → sumAmount w2 ≤ targetAmountPlusOffset →
    sumSize w2 ≤ availableTotalSize → w2 <:+ st.1.items
  best : st.2 = Solution.reset arr.length ∨
    st.2.Sound arr targetAmount targetAmountPlusOffset availableTotalSize
  found : (∃ a u b, P = a ++ u ++ b ∧
      Admissible targetAmount targetAmountPlusOffset availableTotalSize u) →
    st.2.Sound arr targetAmount targetAmountPlusOffset availableTotalSize

/-- Some subset of the candidates is admissible. -/
def HasAdmissibleSubset (amountsAndSizes : List Candidate)
    (targetAmount targetAmountPlusOffset : Int) (availableTotalSize : Nat) : Prop :=
  ∃ s, s.Sublist amountsAndSizes ∧
    Admissible targetAmount targetAmountPlusOffset availableTotalSize s

/-- Some run of consecutive candidates of the array in descending amount order is
admissible. -/
def HasAdmissibleRun (amountsAndSizes : List Candidate)
    (targetAmount targetAmountPlusOffset : Int) (availableTotalSize : Nat) : Prop :=
  ∃ pre w post, PrepareAmounts amountsAndSizes = pre ++ w ++ post ∧
    Admissible targetAmount targetAmountPlusOffset availableTotalSize w

end CoinsSelection

namespace Scenario

open CoinsSelection

/-- The pairs pushed into the vector `amountsAndSizes` by `AppInit` in
`bitcoind.cpp`, in order. -/
def fixturePairs : List (Int × Nat) :=
  [(55, 148), (50, 147), (54, 148), (55, 147), (51, 148), (10, 147), (10, 148), (12, 147),
    (21, 148), (18, 147), (10, 148), (18, 147), (10, 148), (9, 147), (11, 148), (15, 147),
    (10, 148), (16, 147), (15, 148), (14, 147), (12, 148), (11, 147), (19, 148), (19, 147),
    (11, 148), (12, 147), (13, 148), (14, 147), (15, 148), (16, 147), (17, 148), (18, 147),
    (19, 148), (11, 147), (12, 148), (13, 147), (14, 148), (12, 147), (16, 148), (9, 147),
    (18, 148), (19, 147), (19, 148), (20, 147), (15, 148), (19, 147), (9, 148), (10, 147),
    (9, 148), (11, 147), (11, 148), (10, 147), (13, 148), (14, 147), (19, 148), (15, 147),
    (14, 148), (16, 147), (11, 148), (18, 147), (20, 148), (10, 147), (10, 148), (10, 147),
    (15, 148), (16, 147), (18, 148), (17, 147), (17, 148), (11, 147), (15, 148), (14, 147),
    (18, 148), (18, 147), (12, 148), (10, 147), (15, 148), (18, 147), (19, 148), (18, 147),
    (15, 148), (9, 147), (20, 148), (20, 147), (9, 148), (10, 147), (11, 148), (19, 147),
    (17, 148), (14, 147), (12, 148), (18, 147), (15, 148), (15, 147), (17, 148), (16, 147),
    (15, 148), (10, 147), (10, 148), (11, 147)]

/-- The vector `amountsAndSizes` built by `AppInit` in `bitcoind.cpp`. -/
def amountsAndSizes : List Candidate := fixturePairs.map fun p => ⟨p.1, p.2⟩

/-- Three candidates of which the first and the last reach the amount 11. -/
def candidatesGap : List Candidate := [⟨10, 1⟩, ⟨5, 1⟩, ⟨1, 1⟩]

/-- Two candidates, the second with a negative amount, whose amounts sum to 2. -/
def candidatesOwing : List Candidate := [⟨5, 1⟩, ⟨-3, 1⟩]

/-- The candidates of the scenario S2 of the specification. -/
def candidatesS2 : List Candidate := [⟨10, 1⟩, ⟨9, 1⟩, ⟨6, 1⟩, ⟨5, 1⟩, ⟨5, 1⟩]

end Scenario

/-! ## Outpoint scan and certificate lookup -/

/-- Iterator returned by `std::map::lower_bound`, as the rest of the table from
the first entry whose key is not less than `k`. -/
def lower_bound {K V : Type} [KeyOrd K] (m : List (K × V)) (k : K) : List (K × V) :=
  m.dropWhile (fun kv => KeyOrd.lt kv.1 k)

namespace CCertificateMemPoolEntry

def GetFee (e : CCertificateMemPoolEntry) : Int := e.nFee

end CCertificateMemPoolEntry

namespace CTxMemPool

/-- Loop of `pruneSpent` from the iterator position `it`.  `CCoins::Spend` is
defined with the chain-side coins, so the call is a parameter `Spend` acting on
the coins record. -/
def pruneSpentLoop {C : Type} (Spend : C → Nat → C) (hashTx : Nat) :
    List (COutPoint × CInPoint) → C → C
  | [], coins => coins
  | it :: rest, coins =>
    if it.1.hash = hashTx then pruneSpentLoop Spend hashTx rest (Spend coins it.1.n)
    else coins

/-- `CTxMemPool::pruneSpent`. -/
def pruneSpent {C : Type} (Spend : C → Nat → C) (pool : CTxMemPool) (hashTx : Nat) (coins : C) :
    C :=
  pruneSpentLoop Spend hashTx (lower_bound pool.mapNextTx ⟨hashTx, 0⟩) coins

/-- The calls `coins.Spend(n)` made by `pruneSpent`, in order: the run of
`pruneSpent` on a record that logs the argument of every call. -/
def pruneSpentCalls (pool : CTxMemPool) (hashTx : Nat) : List Nat :=
  pruneSpent (fun (log : List Nat) n => log ++ [n]) pool hashTx []

/-- Loop of `FindCertWithQuality` over the certificates of a row;
`mapCertificate.at` throws on a missing key. -/
def findCertLoop (pool : CTxMemPool) (certQuality : Int) : List (Int × Nat) → Outcome (Nat × Int)
  | [] => Outcome.done (0, -1)
  | mempoolCertEntry :: rest =>
    match mapFind pool.mapCertificate mempoolCertEntry.2 with
    | none => Outcome.failed
    | some e =>
      if e.GetCertificate.quality = certQuality then
        Outcome.done (e.GetCertificate.hash, e.GetFee)
      else findCertLoop pool certQuality rest

/-- `CTxMemPool::FindCertWithQuality`: the pair (hash, fee), `(uint256(), -1)`
when nothing is found. -/
def FindCertWithQuality (pool : CTxMemPool) (scId : Nat) (certQuality : Int) :
    Outcome (Nat × Int) :=
  match mapFind pool.mapSidechains scId with
  | none => Outcome.done (0, -1)
  | some r => findCertLoop pool certQuality r.mBackwardCertificates

end CTxMemPool

namespace Scenario

/-- A table of spent outpoints with two outputs of transaction 2 among others. -/
def poolSpent : CTxMemPool :=
  { mapNextTx := [(⟨1, 0⟩, ⟨5, 0⟩), (⟨2, 0⟩, ⟨6, 0⟩), (⟨2, 3⟩, ⟨7, 0⟩), (⟨3, 1⟩, ⟨8, 0⟩)] }

end Scenario

/-! ## Termination and assertions of the graph walks -/

/-- The hashes pushed onto the work deque after the initial seeding, in the
order of pushing, over a run of `walkLoop`: at each iteration the part of the
deque that the inner `for` loop put in front of what was left of it. -/
def walkPushed (deref : Nat → Option CTransactionBase) (direct : CTransactionBase → List Nat)
    (back : Bool) : Nat → List Nat → List Nat → List Nat
  | _, [], _ => []
  | 0, _ :: _, _ => []
  | fuel + 1, v :: vs, res =>
    let h := if back then (v :: vs).getLast (List.cons_ne_nil v vs) else v
    let rest := if back then (v :: vs).dropLast else vs
    match deref h with
    | none => []
    | some cur =>
      let res1 := if cur.GetHash ∈ res then res else res ++ [cur.GetHash]
      let toVisit := CTxMemPool.pushNew res1 rest (direct cur)
      (toVisit.take (toVisit.length - rest.length)).reverse ++
        walkPushed deref direct back fuel toVisit res1

namespace CTxMemPool

/-- Secondary-table consistency: every spender recorded in `mapNextTx` and every
hash stored in a sidechain row as its creation transaction, among its forward
transfers or among its backward-transfer requests resolves to an entry of
`mapTx` or `mapCertificate`. -/
def SecondaryConsistent (pool : CTxMemPool) : Prop :=
  MapAll pool.mapNextTx (fun _ ip => pool.deref ip.ptx ≠ none) ∧
  MapAll pool.mapSidechains (fun _ r =>
    (r.scCreationTxHash ≠ 0 → pool.deref r.scCreationTxHash ≠ none) ∧
    (∀ h ∈ r.fwdTxHashes, pool.deref h ≠ none) ∧
    (∀ h ∈ r.mcBtrsTxHashes, pool.deref h ≠ none))

instance (pool : CTxMemPool) : Decidable (SecondaryConsistent pool) := by
  unfold SecondaryConsistent; infer_instance

/-- The primary tables are keyed by the hash of the stored payload, as
`addUnchecked` is called with `hash = entry.GetTx().GetHash()`. -/
def OwnHashes (pool : CTxMemPool) : Prop :=
  MapAll pool.mapTx (fun h e => e.tx.hash = h) ∧
  MapAll pool.mapCertificate (fun h e => e.cert.hash = h)

instance (pool : CTxMemPool) : Decidable (OwnHashes pool) := by
  unfold OwnHashes; infer_instance

end CTxMemPool

namespace Scenario

/-- A transaction that creates sidechain 100 and forwards to it. -/
def txLoop : CTransaction :=
  { hash := 41, vout := [{}], vsc_ccout := [{ scId := 100 }], vft_ccout := [{ scId := 100 }] }

/-- A transaction that forwards to sidechain 101. -/
def txFeed : CTransaction := { hash := 43, vout := [{}], vft_ccout := [{ scId := 101 }] }

/-- A transaction that spends output 0 of `txFeed` and creates sidechain 101, to
which `txFeed` forwards: each of the two depends on the other. -/
def txCycle : CTransaction :=
  { hash := 42, vin := [⟨⟨43, 0⟩⟩], vout := [{}], vsc_ccout := [{ scId := 101 }] }

/-- The pool after `txLoop`: its dependency relation has a self-loop. -/
def poolLoop : CTxMemPool :=
  { mapTx := [(41, { tx := txLoop })]
    mapSidechains := [(100, { scCreationTxHash := 41, fwdTxHashes := [41] })]
    mapRecentlyAddedTxBase := [(41, CTransactionBase.tx txLoop)]
    nRecentlyAddedSequence := 1
    nTransactionsUpdated := 1 }

/-- A pool whose dependency relation has the cycle 43, 42, 43. -/
def poolCycle : CTxMemPool :=
  { mapTx := [(42, { tx := txCycle }), (43, { tx := txFeed })]
    mapNextTx := [(⟨43, 0⟩, ⟨42, 0⟩)]
    mapSidechains := [(101, { scCreationTxHash := 42, fwdTxHashes := [43] })] }

end Scenario

namespace CTxMemPool

/-! ## Size accounting -/

/-- Pools obtained from a cleared pool by a sequence of completed `addUnchecked`
calls, each for a hash that is in neither primary table, and completed `remove`
calls. -/
inductive Built : CTxMemPool → Prop
  | cleared (p : CTxMemPool) : Built (clear p)
  | addTx {p p1 : CTxMemPool} (hash : Nat) (entry : CTxMemPoolEntry) (fCurrentEstimate : Bool)
      (scIdToCertDataHash : List (Nat × Nat)) : Built p →
      mapFind p.mapTx hash = none → mapFind p.mapCertificate hash = none →
      addUnchecked p hash entry fCurrentEstimate scIdToCertDataHash = Outcome.done (true, p1) →
      Built p1
  | addCert {p p1 : CTxMemPool} (hash : Nat) (entry : CCertificateMemPoolEntry)
      (fCurrentEstimate : Bool) : Built p →
      mapFind p.mapTx hash = none → mapFind p.mapCertificate hash = none →
      addUncheckedCert p hash entry fCurrentEstimate = Outcome.done (true, p1) → Built p1
  | removed {p : CTxMemPool} {st1 : Removal} (removedTxs : List CTransaction)
      (removedCerts : List CScCertificate) (origTx : CTransactionBase) (fRecursive : Bool) :
      Built p → remove ⟨p, removedTxs, removedCerts⟩ origTx fRecursive = Outcome.done st1 →
      Built st1.pool

/-- The sum `checkTotal` of `check` restricted to the transactions. -/
def sumTxSize (pool : CTxMemPool) : Nat := (pool.mapTx.map (fun kv => kv.2.GetTxSize)).sum

/-- The sum `checkTotal` of `check` restricted to the certificates. -/
def sumCertificateSize (pool : CTxMemPool) : Nat :=
  (pool.mapCertificate.map (fun kv => kv.2.GetCertificateSize)).sum

/-- The sum `innerUsage` of `check` over both primary tables. -/
def sumInnerUsage (pool : CTxMemPool) : Nat :=
  (pool.mapTx.map (fun kv => kv.2.DynamicMemoryUsage)).sum +
    (pool.mapCertificate.map (fun kv => kv.2.DynamicMemoryUsage)).sum

/-- The accounting invariant: the primary tables are ordered by key and the
three 64-bit counters hold the sums over the tables. -/
structure Accounted (pool : CTxMemPool) : Prop where
  sortedTx : KeySorted pool.mapTx
  sortedCert : KeySorted pool.mapCertificate
  txSize : pool.totalTxSize = pool.sumTxSize % 2 ^ 64
  certSize : pool.totalCertificateSize = pool.sumCertificateSize % 2 ^ 64
  usage : pool.cachedInnerUsage = pool.sumInnerUsage % 2 ^ 64

end CTxMemPool

namespace Scenario

/-- Entry of `txP` with a size and a memory usage. -/
def entryP : CTxMemPoolEntry := { tx := txP, nTxSize := 250, nUsageSize := 900 }

/-- Entry of `certA` with a size and a memory usage. -/
def entryCertA : CCertificateMemPoolEntry := { cert := certA, nCertificateSize := 1200, nUsageSize := 3000 }

/-- The pool after adding `entryP` and `entryCertA` to the empty pool. -/
def poolSized : CTxMemPool :=
  { mapTx := [(91, entryP)]
    mapCertificate := [(11, entryCertA)]
    mapSidechains := [(200, { mBackwardCertificates := [(10, 11)] })]
    mapRecentlyAddedTxBase := [(11, CTransactionBase.cert certA), (91, CTransactionBase.tx txP)]
    nRecentlyAddedSequence := 2
    nTransactionsUpdated := 2
    nCertificatesUpdated := 1
    totalTxSize := 250
    totalCertificateSize := 1200
    cachedInnerUsage := 3900 }

end Scenario

namespace CoinsSelection

/-! ### The solver for notes -/

/-- A set of notes is admissible for the solver for notes when its total amount
lies between the target amount and the amount ceiling and the size charged for
that many notes is within the size ceiling. -/
def AdmissibleNotes (notesSize : Nat → Nat) (targetAmount targetAmountPlusOffset : Int)
    (availableTotalSize : Nat) (s : List Candidate) : Prop :=
  targetAmount ≤ sumAmount s ∧ sumAmount s ≤ targetAmountPlusOffset ∧
    notesSize s.length ≤ availableTotalSize

instance (notesSize : Nat → Nat) (targetAmount targetAmountPlusOffset : Int)
    (availableTotalSize : Nat) (s : List Candidate) :
    Decidable (AdmissibleNotes notesSize targetAmount targetAmountPlusOffset availableTotalSize
      s) := by
  unfold AdmissibleNotes
  infer_instance

/-- Some subset of the notes is admissible for the solver for notes. -/
def HasAdmissibleNotes (notesSize : Nat → Nat) (amountsAndSizes : List Candidate)
    (targetAmount targetAmountPlusOffset : Int) (availableTotalSize : Nat) : Prop :=
  ∃ s, s.Sublist amountsAndSizes ∧
    AdmissibleNotes notesSize targetAmount targetAmountPlusOffset availableTotalSize s

/-- Modelled from the spec: one iteration of the solver for notes (section 4.1.3),
which has the outer loop of the sliding window with a size that is not additive.
The specification leaves the joinsplit arity open, so the size charged for a
number of selected notes, the joinsplits that the output amounts make mandatory
included, is the parameter `notesSize`.  The note at `hi` is included; when a
ceiling is exceeded the search restarts after the smallest note of the window,
which in descending amount order is the note just included, and nothing is
recorded; otherwise the window is recorded as the current best when it reaches
the target amount and improves the objective. -/
def slideNotes (notesSize : Nat → Nat) (targetAmount targetAmountPlusOffset : Int)
    (availableTotalSize n : Nat) (st : Window × Solution) (c : Candidate) : Window × Solution :=
  let items := st.1.items ++ [c]
  let totalAmount := st.1.totalAmount + c.amount
  let totalSize := notesSize items.length
  if targetAmountPlusOffset < totalAmount ∨ availableTotalSize < totalSize then
    (⟨st.1.lo + items.length, [], 0, notesSize 0⟩, st.2)
  else
    (⟨st.1.lo, items, totalAmount, totalSize⟩,
      if targetAmount ≤ totalAmount ∧ improves items.length totalAmount st.2 = true then
        ⟨List.replicate st.1.lo false ++ List.replicate items.length true ++
          List.replicate (n - st.1.lo - items.length) false,
          totalAmount, totalSize, items.length⟩
      else st.2)

/-- Modelled from the spec: `CCoinsSelectionForNotes::Solve`, declared in the
header only.  The window slides over the array in descending amount order until
`hi` passes the end. -/
def CCoinsSelectionForNotes.Solve (notesSize : Nat → Nat) (amountsAndSizes : List Candidate)
    (targetAmount targetAmountPlusOffset : Int) (availableTotalSize : Nat) : Solution :=
  let arr := PrepareAmounts amountsAndSizes
  (arr.foldl (slideNotes notesSize targetAmount targetAmountPlusOffset availableTotalSize
    arr.length) (⟨0, [], 0, notesSize 0⟩, Solution.reset arr.length)).2

/-- Invariant of the sliding window loop that holds whatever the amounts and the
ceilings: the window is a run of the candidates included so far, the running
totals are those of the window, and the current best is the solution without a
selection unless some subset of the array is admissible. -/
structure SlideRun (arr : List Candidate) (tgt ceil : Int) (sc : Nat) (P : List Candidate)
    (st : Window × Solution) : Prop where
  split : ∃ L, P = L ++ st.1.items
  amount : st.1.totalAmount = sumAmount st.1.items
  size : st.1.totalSize = sumSize st.1.items
  best : st.2 = Solution.reset arr.length ∨
    ∃ s, s.Sublist arr ∧ Admissible tgt ceil sc s

/-- Invariant of the loop of the solver for notes: the window is a run of the
notes included so far, the running amount is that of the window, and the
current best is the solution without a selection unless some subset of the
array is admissible for notes. -/
structure NotesRun (notesSize : Nat → Nat) (arr : List Candidate) (tgt ceil : Int) (sc : Nat)
    (P : List Candidate) (st : Window × Solution) : Prop where
  split : ∃ L, P = L ++ st.1.items
  amount : st.1.totalAmount = sumAmount st.1.items
  best : st.2 = Solution.reset arr.length ∨
    ∃ s, s.Sublist arr ∧ AdmissibleNotes notesSize tgt ceil sc s

end CoinsSelection

namespace Scenario

/-- A size model for notes: 1800 bytes for each joinsplit of two notes, with at
least one joinsplit. -/
def notesSizePairs (k : Nat) : Nat := 1800 * max 1 ((k + 1) / 2)

end Scenario

namespace Scenario

/-! ### Addition followed by removal -/

/-- A transaction with a backward-transfer request for sidechain 300. -/
def txBtr1 : CTransaction := { hash := 51, vout := [{}], vmbtr_out := [{ scId := 300 }] }

/-- A second transaction with a backward-transfer request for sidechain 300. -/
def txBtr2 : CTransaction := { hash := 52, vout := [{}], vmbtr_out := [{ scId := 300 }] }

/-- A transaction with a forward transfer to sidechain 300. -/
def txFwd300 : CTransaction := { hash := 53, vout := [{}], vft_ccout := [{ scId := 300 }] }

/-- The pool after `txBtr1` was added while the active certificate data hash of
sidechain 300 was null. -/
def poolBtrNull : CTxMemPool :=
  { mapTx := [(51, { tx := txBtr1 })]
    mapSidechains := [(300, { mcBtrsTxHashes := [51] })]
    mapRecentlyAddedTxBase := [(51, CTransactionBase.tx txBtr1)]
    nRecentlyAddedSequence := 1
    nTransactionsUpdated := 1 }

/-- A pool whose row for sidechain 300 holds a forward transfer, no
backward-transfer request, and a certificate data hash. -/
def poolSnapshot : CTxMemPool :=
  { mapTx := [(53, { tx := txFwd300 })]
    mapSidechains := [(300, { fwdTxHashes := [53], mcBtrsCertDataHash := 9 })] }

/-- A transaction whose two sidechain-creation outputs carry the same sidechain
id. -/
def txTwice : CTransaction :=
  { hash := 54, vout := [{}], vsc_ccout := [{ scId := 100 }, { scId := 100 }] }

/-- A transaction with the null hash that creates sidechain 100 and forwards to
it. -/
def txNull : CTransaction :=
  { hash := 0, vout := [{}], vsc_ccout := [{ scId := 100 }], vft_ccout := [{ scId := 100 }] }

/-- A transaction that spends an output, has a joinsplit, a CSW input, creates a
sidechain, forwards to it and requests a backward transfer from sidechain 300. -/
def txFull : CTransaction :=
  { hash := 55, vin := [⟨⟨7, 0⟩⟩], vout := [{}], vjoinsplit := [{ nullifiers := [5] }],
    vcsw_ccin := [{ scId := 400, nullifier := 8, nValue := 3 }],
    vsc_ccout := [{ scId := 100 }], vft_ccout := [{ scId := 100 }],
    vmbtr_out := [{ scId := 300 }] }

/-- The pool after `txBtr1` was added with the certificate data hash 7 for
sidechain 300. -/
def poolBtr : CTxMemPool :=
  { mapTx := [(51, { tx := txBtr1 })]
    mapSidechains := [(300, { mcBtrsTxHashes := [51], mcBtrsCertDataHash := 7 })]
    mapRecentlyAddedTxBase := [(51, CTransactionBase.tx txBtr1)]
    nRecentlyAddedSequence := 1
    nTransactionsUpdated := 1 }

end Scenario

namespace Scenario

/-! ### Stored biases and foreign keys -/

/-- A pool that holds the fee bias 5 for hash 7. -/
def poolBiased : CTxMemPool := { mapDeltas := [(7, (0, 5))] }

/-- A transaction of hash 6 that creates sidechain 100 and forwards to it. -/
def txAlias : CTransaction :=
  { hash := 6, vout := [{}], vsc_ccout := [{ scId := 100 }], vft_ccout := [{ scId := 100 }] }

/-- A pool that stores `txAlias` under the key 5, the row of sidechain 100
naming the key. -/
def poolAlias : CTxMemPool :=
  { mapTx := [(5, { tx := txAlias })]
    mapSidechains := [(100, { scCreationTxHash := 5, fwdTxHashes := [5] })] }

end Scenario

/-! ## Lemmas: outcomes -/

namespace Outcome

@[simp] theorem bind_done {α β : Type} (a : α) (f : α → Outcome β) : (done a).bind f = f a := rfl

@[simp] theorem bind_failed {α β : Type} (f : α → Outcome β) : (failed : Outcome α).bind f = failed := rfl

@[simp] theorem bind_timeout {α β : Type} (f : α → Outcome β) :
    (timeout : Outcome α).bind f = timeout := rfl

theorem bind_eq_done {α β : Type} {x : Outcome α} {f : α → Outcome β} {b : β} :
    x.bind f = done b ↔ ∃ a, x = done a ∧ f a = done b := by
  cases x <;> simp [bind]

@[simp] theorem foldl_nil {σ α : Type} (f : σ → α → Outcome σ) (s : σ) : foldl f s [] = done s := rfl

@[simp] theorem foldl_cons {σ α : Type} (f : σ → α → Outcome σ) (s : σ) (a : α) (l : List α) :
    foldl f s (a :: l) = (f s a).bind (fun s1 => foldl f s1 l) := rfl

theorem foldl_append {σ α : Type} (f : σ → α → Outcome σ) (s : σ) (l1 l2 : List α) :
    foldl f s (l1 ++ l2) = (foldl f s l1).bind (fun s1 => foldl f s1 l2) := by
  induction l1 generalizing s with
  | nil => simp
  | cons a l ih =>
    simp only [List.cons_append, foldl_cons]
    cases h : f s a <;> simp [ih]

/-- A loop whose body preserves an invariant and never fails completes in a
state satisfying the invariant. -/
theorem foldl_invariant {σ α : Type} (f : σ → α → Outcome σ) (I : σ → Prop) (l : List α)
    (step : ∀ s, I s → ∀ a ∈ l, ∃ s1, f s a = done s1 ∧ I s1) (s : σ) (hs : I s) :
    ∃ s1, foldl f s l = done s1 ∧ I s1 := by
  induction l generalizing s with
  | nil => exact ⟨s, rfl, hs⟩
  | cons a l ih =>
    obtain ⟨s1, h1, hI⟩ := step s hs a (List.mem_cons_self a l)
    simp only [foldl_cons, h1, bind_done]
    exact ih (fun s hs b hb => step s hs b (List.mem_cons_of_mem a hb)) s1 hI

/-- A completed loop whose body preserves an invariant ends in a state
satisfying the invariant. -/
theorem foldl_preserves {σ α : Type} (f : σ → α → Outcome σ) (I : σ → Prop) (l : List α)
    (step : ∀ s, I s → ∀ a ∈ l, ∀ s1, f s a = done s1 → I s1) (s s2 : σ) (hs : I s)
    (h : foldl f s l = done s2) : I s2 := by
  induction l generalizing s with
  | nil => simp at h; exact h ▸ hs
  | cons a l ih =>
    simp only [foldl_cons, bind_eq_done] at h
    obtain ⟨s1, h1, h2⟩ := h
    exact ih (fun s hs b hb => step s hs b (List.mem_cons_of_mem a hb)) s1
      (step s hs a (List.mem_cons_self a l) s1 h1) h2

end Outcome

/-! ## Lemmas: ordered containers -/

section ContainerLemmas

variable {K V : Type} [DecidableEq K]

@[simp] theorem mapFind_nil (k : K) : mapFind ([] : List (K × V)) k = none := rfl

theorem mapFind_cons (k1 : K) (v : V) (rest : List (K × V)) (k : K) :
    mapFind ((k1, v) :: rest) k = if k1 = k then some v else mapFind rest k := rfl

theorem mapInsert_cons [KeyOrd K] (k1 : K) (v1 : V) (rest : List (K × V)) (k : K) (v : V) :
    mapInsert ((k1, v1) :: rest) k v =
      if k1 = k then (k, v) :: rest
      else if KeyOrd.lt k k1 then (k, v) :: (k1, v1) :: rest
      else (k1, v1) :: mapInsert rest k v := rfl

theorem mapFind_mapInsert [KeyOrd K] (m : List (K × V)) (k : K) (v : V) (k2 : K) :
    mapFind (mapInsert m k v) k2 = if k = k2 then some v else mapFind m k2 := by
  induction m with
  | nil => simp [mapInsert, mapFind_cons]
  | cons kv rest ih =>
    obtain ⟨k1, v1⟩ := kv
    rw [mapInsert_cons]
    by_cases h1 : k1 = k
    · subst h1
      by_cases h3 : k1 = k2 <;> simp [mapFind_cons, h3]
    · by_cases h2 : KeyOrd.lt k k1 = true
      · simp [h1, h2, mapFind_cons]
      · rw [if_neg h1, if_neg h2, mapFind_cons, mapFind_cons, ih]
        by_cases h3 : k1 = k2
        · subst h3
          have : ¬ k = k1 := fun h => h1 h.symm
          simp [this]
        · simp [h3]

theorem mapErase_cons (k1 : K) (v1 : V) (rest : List (K × V)) (k : K) :
    mapErase ((k1, v1) :: rest) k = if k1 = k then mapErase rest k else (k1, v1) :: mapErase rest k := by
  unfold mapErase
  by_cases h : k1 = k <;> simp [List.filter, h]

theorem mapFind_mapErase (m : List (K × V)) (k k2 : K) :
    mapFind (mapErase m k) k2 = if k = k2 then none else mapFind m k2 := by
  induction m with
  | nil => simp [mapErase]
  | cons kv rest ih =>
    obtain ⟨k1, v1⟩ := kv
    rw [mapErase_cons]
    by_cases h1 : k1 = k
    · subst h1
      rw [if_pos rfl, ih, mapFind_cons]
      by_cases h3 : k1 = k2 <;> simp [h3]
    · rw [if_neg h1, mapFind_cons, mapFind_cons, ih]
      by_cases h3 : k1 = k2
      · subst h3
        have : ¬ k = k1 := fun h => h1 h.symm
        simp [this]
      · simp [h3]

theorem mem_of_mapFind {m : List (K × V)} {k : K} {v : V} (h : mapFind m k = some v) :
    (k, v) ∈ m := by
  induction m with
  | nil => simp at h
  | cons kv rest ih =>
    obtain ⟨k1, v1⟩ := kv
    rw [mapFind_cons] at h
    by_cases h1 : k1 = k
    · simp only [h1, if_true, Option.some.injEq] at h
      subst h1; subst h; exact List.mem_cons_self _ _
    · simp only [h1, if_false] at h
      exact List.mem_cons_of_mem _ (ih h)

theorem mapFind_eq_none_iff {m : List (K × V)} {k : K} :
    mapFind m k = none ↔ k ∉ m.map Prod.fst := by
  induction m with
  | nil => simp
  | cons kv rest ih =>
    obtain ⟨k1, v1⟩ := kv
    rw [mapFind_cons]
    by_cases h1 : k1 = k
    · simp [h1]
    · simp only [h1, if_false, ih, List.map_cons, List.mem_cons]
      constructor
      · intro h hc; rcases hc with hc | hc
        · exact h1 hc.symm
        · exact h hc
      · intro h hc; exact h (Or.inr hc)

theorem mapFind_of_mem {m : List (K × V)} (hn : (m.map Prod.fst).Nodup) {k : K} {v : V}
    (h : (k, v) ∈ m) : mapFind m k = some v := by
  induction m with
  | nil => simp at h
  | cons kv rest ih =>
    obtain ⟨k1, v1⟩ := kv
    simp only [List.map_cons, List.nodup_cons] at hn
    rw [mapFind_cons]
    rcases List.mem_cons.mp h with h | h
    · cases h; simp
    · have : k1 ≠ k := by
        intro hk; subst hk
        exact hn.1 (List.mem_map.mpr ⟨(k1, v), h, rfl⟩)
      simp only [this, if_false]
      exact ih hn.2 h

theorem mapAll_iff {m : List (K × V)} {P : K → V → Prop} :
    MapAll m P ↔ ∀ k v, mapFind m k = some v → P k v := by
  constructor
  · intro h k v hf
    exact h (k, v) (mem_of_mapFind hf) v hf
  · intro h kv _ v hf
    exact h kv.1 v hf

theorem optEx_iff {α : Type} {o : Option α} {P : α → Prop} :
    OptEx o P ↔ ∃ a, o = some a ∧ P a := Iff.rfl

theorem mem_mapErase {m : List (K × V)} {k : K} {kv : K × V} :
    kv ∈ mapErase m k ↔ kv ∈ m ∧ kv.1 ≠ k := by
  simp [mapErase, List.mem_filter]

theorem mem_mapInsert [KeyOrd K] {m : List (K × V)} {k : K} {v : V} {kv : K × V}
    (h : kv ∈ mapInsert m k v) : kv = (k, v) ∨ kv ∈ m := by
  induction m with
  | nil =>
    have h0 : kv ∈ [(k, v)] := h
    exact Or.inl (List.mem_singleton.mp h0)
  | cons kv1 rest ih =>
    obtain ⟨k1, v1⟩ := kv1
    rw [mapInsert_cons] at h
    by_cases h1 : k1 = k
    · rw [if_pos h1] at h
      rcases List.mem_cons.mp h with h | h
      · exact Or.inl h
      · exact Or.inr (List.mem_cons_of_mem _ h)
    · by_cases h2 : KeyOrd.lt k k1 = true
      · rw [if_neg h1, if_pos h2] at h
        rcases List.mem_cons.mp h with h | h
        · exact Or.inl h
        · exact Or.inr h
      · rw [if_neg h1, if_neg h2] at h
        rcases List.mem_cons.mp h with h | h
        · exact Or.inr (h ▸ List.mem_cons_self _ _)
        · rcases ih h with h | h
          · exact Or.inl h
          · exact Or.inr (List.mem_cons_of_mem _ h)

theorem keys_mapInsert_perm [KeyOrd K] (m : List (K × V)) (k : K) (v : V)
    (h : mapFind m k = none) : (mapInsert m k v).Perm ((k, v) :: m) := by
  induction m with
  | nil => simp [mapInsert]
  | cons kv1 rest ih =>
    obtain ⟨k1, v1⟩ := kv1
    rw [mapFind_cons] at h
    by_cases h1 : k1 = k
    · simp [h1] at h
    · simp only [h1, if_false] at h
      unfold mapInsert
      by_cases h2 : KeyOrd.lt k k1 = true
      · simp [h1, h2]
      · simp only [h1, h2, if_false]
        exact ((ih h).cons (k1, v1)).trans (List.Perm.swap _ _ _)

theorem keys_mapInsert_mem [KeyOrd K] (m : List (K × V)) (k : K) (v : V) (x : K) :
    x ∈ (mapInsert m k v).map Prod.fst ↔ x = k ∨ x ∈ m.map Prod.fst := by
  have h1 := @mapFind_eq_none_iff K V _ (mapInsert m k v) x
  have h2 := @mapFind_eq_none_iff K V _ m x
  rw [mapFind_mapInsert] at h1
  by_cases hx : k = x
  · subst hx; simp at h1; simp [h1]
  · simp only [hx, if_false] at h1
    have : x ≠ k := fun h => hx h.symm
    simp only [this, false_or]
    rw [← not_iff_not, ← h1, h2]

theorem keySorted_mapInsert [KeyOrd K] [LawfulKeyOrd K] (m : List (K × V)) (k : K) (v : V)
    (hs : KeySorted m) : KeySorted (mapInsert m k v) := by
  induction m with
  | nil => simp [mapInsert, KeySorted]
  | cons kv1 rest ih =>
    obtain ⟨k1, v1⟩ := kv1
    unfold KeySorted at hs ih ⊢
    rw [List.pairwise_cons] at hs
    rw [mapInsert_cons]
    by_cases h1 : k1 = k
    · subst h1
      rw [if_pos rfl, List.pairwise_cons]
      exact ⟨hs.1, hs.2⟩
    · by_cases h2 : KeyOrd.lt k k1 = true
      · rw [if_neg h1, if_pos h2, List.pairwise_cons, List.pairwise_cons]
        refine ⟨?_, hs.1, hs.2⟩
        intro x hx
        rcases List.mem_cons.mp hx with hx | hx
        · subst hx; exact h2
        · exact LawfulKeyOrd.trans _ _ _ h2 (hs.1 x hx)
      · rw [if_neg h1, if_neg h2, List.pairwise_cons]
        refine ⟨?_, ih hs.2⟩
        intro x hx
        rcases mem_mapInsert hx with hx | hx
        · subst hx
          exact LawfulKeyOrd.total k k1 (fun h => h1 h.symm) (by simpa using h2)
        · exact hs.1 x hx

theorem keySorted_mapErase [KeyOrd K] (m : List (K × V)) (k : K) (hs : KeySorted m) :
    KeySorted (mapErase m k) :=
  List.Pairwise.sublist (List.filter_sublist m) hs

omit [DecidableEq K] in
theorem nodup_keys_of_keySorted [KeyOrd K] [LawfulKeyOrd K] {m : List (K × V)}
    (hs : KeySorted m) : (m.map Prod.fst).Nodup := by
  unfold KeySorted at hs
  rw [List.Nodup, List.pairwise_map]
  refine hs.imp ?_
  intro a b hab heq
  rw [heq, LawfulKeyOrd.irrefl] at hab
  cases hab

theorem mapFind_iff_mem [KeyOrd K] [LawfulKeyOrd K] {m : List (K × V)} (hs : KeySorted m)
    {k : K} {v : V} : mapFind m k = some v ↔ (k, v) ∈ m :=
  ⟨mem_of_mapFind, mapFind_of_mem (nodup_keys_of_keySorted hs)⟩

theorem mapErase_perm [KeyOrd K] [LawfulKeyOrd K] {m : List (K × V)} (hs : KeySorted m)
    {k : K} {v : V} (h : mapFind m k = some v) : m.Perm ((k, v) :: mapErase m k) := by
  induction m with
  | nil => simp at h
  | cons kv1 rest ih =>
    obtain ⟨k1, v1⟩ := kv1
    have hn := nodup_keys_of_keySorted hs
    unfold KeySorted at hs
    rw [List.pairwise_cons] at hs
    rw [mapFind_cons] at h
    rw [mapErase_cons]
    by_cases h1 : k1 = k
    · subst h1
      simp only [if_true, Option.some.injEq] at h
      subst h
      have : mapErase rest k1 = rest := by
        unfold mapErase
        rw [List.filter_eq_self]
        intro kv hkv
        simp only [List.map_cons, List.nodup_cons] at hn
        have : kv.1 ≠ k1 := fun hk => hn.1 (hk ▸ List.mem_map_of_mem Prod.fst hkv)
        simpa using this
      rw [if_pos rfl, this]
    · rw [if_neg h1] at h ⊢
      exact ((ih hs.2 h).cons (k1, v1)).trans (List.Perm.swap _ _ _)

/-! ### Sets -/

theorem setInsert_cons [KeyOrd K] (k1 : K) (rest : List K) (k : K) :
    setInsert (k1 :: rest) k =
      if k1 = k then k1 :: rest
      else if KeyOrd.lt k k1 then k :: k1 :: rest
      else k1 :: setInsert rest k := rfl

theorem mem_setInsert [KeyOrd K] {s : List K} {k x : K} :
    x ∈ setInsert s k ↔ x = k ∨ x ∈ s := by
  induction s with
  | nil => simp [setInsert]
  | cons k1 rest ih =>
    rw [setInsert_cons]
    by_cases h1 : k1 = k
    · subst h1; simp
    · by_cases h2 : KeyOrd.lt k k1 = true
      · rw [if_neg h1, if_pos h2]; simp
      · rw [if_neg h1, if_neg h2, List.mem_cons, ih, List.mem_cons]
        tauto

theorem mem_setErase {s : List K} {k x : K} : x ∈ setErase s k ↔ x ∈ s ∧ x ≠ k := by
  simp [setErase, List.mem_filter]

theorem setErase_of_not_mem {s : List K} {k : K} (h : k ∉ s) : setErase s k = s := by
  unfold setErase
  rw [List.filter_eq_self]
  intro x hx
  have : x ≠ k := fun hk => h (hk ▸ hx)
  simpa using this

theorem setErase_idem (s : List K) (k : K) : setErase (setErase s k) k = setErase s k := by
  apply setErase_of_not_mem
  rw [mem_setErase]
  exact fun h => h.2 rfl

end ContainerLemmas

instance : LawfulKeyOrd Nat where
  irrefl a := by simp [KeyOrd.lt]
  trans a b c h1 h2 := by simp only [KeyOrd.lt, decide_eq_true_eq] at *; omega
  total a b h1 h2 := by simp only [KeyOrd.lt, decide_eq_true_eq, decide_eq_false_iff_not] at *; omega

instance : LawfulKeyOrd Int where
  irrefl a := by simp [KeyOrd.lt]
  trans a b c h1 h2 := by simp only [KeyOrd.lt, decide_eq_true_eq] at *; omega
  total a b h1 h2 := by simp only [KeyOrd.lt, decide_eq_true_eq, decide_eq_false_iff_not] at *; omega

instance : LawfulKeyOrd COutPoint where
  irrefl a := by simp [KeyOrd.lt]
  trans a b c h1 h2 := by
    obtain ⟨ah, an⟩ := a
    obtain ⟨bh, bn⟩ := b
    obtain ⟨ch, cn⟩ := c
    simp only [KeyOrd.lt, Bool.or_eq_true, Bool.and_eq_true, decide_eq_true_eq] at *
    omega
  total a b h1 h2 := by
    obtain ⟨ah, an⟩ := a
    obtain ⟨bh, bn⟩ := b
    have hne : ah ≠ bh ∨ an ≠ bn := by
      by_contra hc
      push_neg at hc
      apply h1
      rw [hc.1, hc.2]
    simp only [KeyOrd.lt, Bool.or_eq_true, Bool.and_eq_true, decide_eq_true_eq,
      Bool.or_eq_false_iff, Bool.and_eq_false_iff, decide_eq_false_iff_not] at *
    omega

namespace CTxMemPool

/-! ## Admission pre-check for transactions -/

theorem mapCount_eq_true {K V : Type} [DecidableEq K] {m : List (K × V)} {k : K} :
    mapCount m k = true ↔ mapFind m k ≠ none := by
  unfold mapCount
  cases mapFind m k <;> simp

/-- C10: `checkIncomingTxConflicts` returns false whenever the hash of the
incoming transaction is already in `mapTx`, or one of its inputs spends an
outpoint that is a key of `mapNextTx`, or one of its joinsplit nullifiers is in
`mapNullifiers`, or one of its CSW nullifiers is recorded in the row of its
sidechain, or it creates a sidechain whose row already names a creation
transaction. -/
theorem checkIncomingTxConflicts_rejects (pool : CTxMemPool) (tx : CTransaction)
    (h : mapFind pool.mapTx tx.hash ≠ none ∨
      (∃ vin ∈ tx.vin, mapFind pool.mapNextTx vin.prevout ≠ none) ∨
      (∃ js ∈ tx.vjoinsplit, ∃ nf ∈ js.nullifiers, mapFind pool.mapNullifiers nf ≠ none) ∨
      (∃ csw ∈ tx.vcsw_ccin, ∃ r, mapFind pool.mapSidechains csw.scId = some r ∧
        mapFind r.cswNullifiers csw.nullifier ≠ none) ∨
      (∃ sc ∈ tx.vsc_ccout, ∃ r, mapFind pool.mapSidechains sc.scId = some r ∧
        r.scCreationTxHash ≠ 0)) :
    pool.checkIncomingTxConflicts tx = false := by
  unfold checkIncomingTxConflicts
  simp only
  by_cases h1 : mapCount pool.mapTx tx.hash = true
  · simp [h1]
  rw [if_neg h1]
  by_cases h2 : (tx.vin.any fun vin =>
      mapCount pool.mapNextTx vin.prevout || mapCount pool.mapCertificate vin.prevout.hash) = true
  · simp [h2]
  rw [if_neg h2]
  by_cases h3 : (tx.vsc_ccout.any fun sc => pool.hasSidechainCreationTx sc.scId) = true
  · simp [h3]
  rw [if_neg h3]
  by_cases h4 : (tx.vjoinsplit.any fun joinsplit =>
      joinsplit.nullifiers.any fun nf => mapCount pool.mapNullifiers nf) = true
  · simp [h4]
  rw [if_neg h4]
  by_cases h5 : (tx.vcsw_ccin.any fun csw => pool.HaveCswNullifier csw.scId csw.nullifier) = true
  · simp [h5]
  exfalso
  rcases h with h | ⟨vin, hv, h⟩ | ⟨js, hjs, nf, hnf, h⟩ | ⟨csw, hc, r, hr, h⟩ | ⟨sc, hsc, r, hr, h⟩
  · exact h1 (mapCount_eq_true.mpr h)
  · apply h2
    rw [List.any_eq_true]
    exact ⟨vin, hv, by simp [mapCount_eq_true.mpr h]⟩
  · apply h4
    rw [List.any_eq_true]
    refine ⟨js, hjs, ?_⟩
    rw [List.any_eq_true]
    exact ⟨nf, hnf, mapCount_eq_true.mpr h⟩
  · apply h5
    rw [List.any_eq_true]
    refine ⟨csw, hc, ?_⟩
    unfold HaveCswNullifier
    rw [hr]
    exact mapCount_eq_true.mpr h
  · apply h3
    rw [List.any_eq_true]
    refine ⟨sc, hsc, ?_⟩
    unfold hasSidechainCreationTx
    rw [hr]
    simpa using h

/-- Witness for C10: an incoming transaction that spends an outpoint already
spent by a pool transaction is rejected. -/
theorem checkIncomingTxConflicts_rejects_witness :
    (({ mapTx := [(3, { tx := { hash := 3, vin := [⟨⟨2, 0⟩⟩] } })],
        mapNextTx := [(⟨2, 0⟩, ⟨3, 0⟩)] } : CTxMemPool).checkIncomingTxConflicts
      { hash := 4, vin := [⟨⟨2, 0⟩⟩] }) = false :=
  checkIncomingTxConflicts_rejects _ _
    (Or.inr (Or.inl ⟨⟨⟨2, 0⟩⟩, by decide, by decide⟩))

end CTxMemPool

/-! ## Lemmas: the work-list loop -/

namespace CTxMemPool

theorem mem_pushNew (res : List Nat) (deps toVisit : List Nat) (x : Nat) :
    x ∈ pushNew res toVisit deps ↔ x ∈ toVisit ∨ (x ∈ deps ∧ x ∉ res) := by
  unfold pushNew
  induction deps generalizing toVisit with
  | nil => simp
  | cons d rest ih =>
    rw [List.foldl_cons, ih]
    by_cases hd : d ∉ toVisit ∧ d ∉ res
    · rw [if_pos hd]
      simp only [List.mem_cons]
      constructor
      · rintro (h | h)
        · rcases h with h | h
          · exact Or.inr ⟨Or.inl h, h ▸ hd.2⟩
          · exact Or.inl h
        · exact Or.inr ⟨Or.inr h.1, h.2⟩
      · rintro (h | ⟨h | h, h2⟩)
        · exact Or.inl (Or.inr h)
        · exact Or.inl (Or.inl h)
        · exact Or.inr ⟨h, h2⟩
    · rw [if_neg hd]
      simp only [List.mem_cons]
      constructor
      · rintro (h | h)
        · exact Or.inl h
        · exact Or.inr ⟨Or.inr h.1, h.2⟩
      · rintro (h | ⟨h | h, h2⟩)
        · exact Or.inl h
        · subst h
          have : x ∈ toVisit := by
            by_contra hc
            exact hd ⟨hc, h2⟩
          exact Or.inl this
        · exact Or.inr ⟨h, h2⟩

/-- Pushing unseen hashes of the universe never increases the progress measure. -/
theorem pushNew_measure (U res : List Nat) (deps toVisit : List Nat) (hU : ∀ d ∈ deps, d ∈ U) :
    2 * undiscovered U (pushNew res toVisit deps) res + (pushNew res toVisit deps).length ≤
      2 * undiscovered U toVisit res + toVisit.length := by
  unfold pushNew
  induction deps generalizing toVisit with
  | nil => simp
  | cons d rest ih =>
    rw [List.foldl_cons]
    have hrest : ∀ x ∈ rest, x ∈ U := fun x hx => hU x (List.mem_cons_of_mem _ hx)
    by_cases hd : d ∉ toVisit ∧ d ∉ res
    · rw [if_pos hd]
      refine le_trans (ih (d :: toVisit) hrest) ?_
      have hmem : d ∈ U.toFinset \ (toVisit.toFinset ∪ res.toFinset) := by
        simp only [Finset.mem_sdiff, List.mem_toFinset, Finset.mem_union, not_or]
        exact ⟨hU d (List.mem_cons_self _ _), hd.1, hd.2⟩
      have heq : U.toFinset \ ((d :: toVisit).toFinset ∪ res.toFinset) =
          (U.toFinset \ (toVisit.toFinset ∪ res.toFinset)).erase d := by
        ext x
        simp only [List.toFinset_cons, Finset.mem_sdiff, List.mem_toFinset, Finset.mem_union,
          Finset.mem_insert, not_or, Finset.mem_erase]
        tauto
      have hcard := Finset.card_erase_of_mem hmem
      have hpos : 0 < (U.toFinset \ (toVisit.toFinset ∪ res.toFinset)).card :=
        Finset.card_pos.mpr ⟨d, hmem⟩
      unfold undiscovered
      rw [heq, hcard, List.length_cons]
      omega
    · rw [if_neg hd]
      exact ih toVisit hrest

end CTxMemPool

theorem undiscovered_mono (U tv1 res1 tv2 res2 : List Nat)
    (h : ∀ x, x ∈ tv1 ∨ x ∈ res1 → x ∈ tv2 ∨ x ∈ res2) :
    undiscovered U tv2 res2 ≤ undiscovered U tv1 res1 := by
  unfold undiscovered
  apply Finset.card_le_card
  intro x
  simp only [Finset.mem_sdiff, List.mem_toFinset, Finset.mem_union]
  intro hx
  exact ⟨hx.1, fun hc => hx.2 (h x hc)⟩

theorem walk_pop_spec (back : Bool) (v : Nat) (vs : List Nat) :
    (∀ x, x ∈ v :: vs ↔
      x = (if back then (v :: vs).getLast (List.cons_ne_nil v vs) else v) ∨
      x ∈ (if back then (v :: vs).dropLast else vs)) ∧
    (if back then (v :: vs).dropLast else vs).length = vs.length := by
  cases back
  · simp
  · simp only [if_true]
    constructor
    · intro x
      have h := List.dropLast_append_getLast (List.cons_ne_nil v vs)
      constructor
      · intro hx
        rw [← h] at hx
        rcases List.mem_append.mp hx with hx | hx
        · exact Or.inr hx
        · exact Or.inl (List.mem_singleton.mp hx)
      · intro hx
        rw [← h]
        rcases hx with hx | hx
        · exact List.mem_append_right _ (List.mem_singleton.mpr hx)
        · exact List.mem_append_left _ hx
    · simp

/-- Correctness of the work-list loop.  When resolved entries carry the hash
they are stored under, every neighbour resolves and lies in the universe `U`,
the loop started with enough steps completes, and its result lists, without
repetition, exactly the hashes reachable from the seeds. -/
theorem walkLoop_correct (deref : Nat → Option CTransactionBase)
    (direct : CTransactionBase → List Nat) (back : Bool) (U init : List Nat)
    (hA : ∀ h b, deref h = some b → b.GetHash = h)
    (hB : ∀ h b, deref h = some b → ∀ d ∈ direct b, deref d ≠ none)
    (hU : ∀ h b, deref h = some b → ∀ d ∈ direct b, d ∈ U) :
    ∀ (fuel : Nat) (tv res : List Nat), 2 * undiscovered U tv res + tv.length ≤ fuel →
      res.Nodup →
      (∀ d ∈ tv, WalkReach deref direct init d ∧ deref d ≠ none) →
      (∀ d ∈ res, WalkReach deref direct init d ∧ deref d ≠ none) →
      (∀ h ∈ res, ∀ b, deref h = some b → ∀ d ∈ direct b, d ∈ tv ∨ d ∈ res) →
      (∀ d ∈ init, d ∈ tv ∨ d ∈ res) →
      ∃ out, walkLoop deref direct back fuel tv res = Outcome.done out ∧ out.Nodup ∧
        (∀ d, d ∈ out ↔ WalkReach deref direct init d) ∧ (∀ d ∈ out, deref d ≠ none) ∧
        (∀ d ∈ res, d ∈ out) := by
  intro fuel
  induction fuel with
  | zero =>
    intro tv res hfuel hnd hJ2 hJ3 hJ4 hJ5
    have htv : tv = [] := by
      cases tv with
      | nil => rfl
      | cons v vs => simp at hfuel
    subst htv
    refine ⟨res, by simp [walkLoop], hnd, ?_, fun d hd => (hJ3 d hd).2, fun d hd => hd⟩
    intro d
    constructor
    · exact fun hd => (hJ3 d hd).1
    · intro hr
      induction hr with
      | seed hd => simpa using hJ5 _ hd
      | step _ hb hd ih => simpa using hJ4 _ ih _ hb _ hd
  | succ fuel ih =>
    intro tv res hfuel hnd hJ2 hJ3 hJ4 hJ5
    cases tv with
    | nil =>
      refine ⟨res, by simp [walkLoop], hnd, ?_, fun d hd => (hJ3 d hd).2, fun d hd => hd⟩
      intro d
      constructor
      · exact fun hd => (hJ3 d hd).1
      · intro hr
        induction hr with
        | seed hd => simpa using hJ5 _ hd
        | step _ hb hd ih => simpa using hJ4 _ ih _ hb _ hd
    | cons v vs =>
      obtain ⟨hpop, hlen⟩ := walk_pop_spec back v vs
      generalize hh : (if back then (v :: vs).getLast (List.cons_ne_nil v vs) else v) = h at hpop
      generalize hrest : (if back then (v :: vs).dropLast else vs) = rest at hpop hlen
      have hhmem : h ∈ v :: vs := (hpop h).mpr (Or.inl rfl)
      obtain ⟨hreach, hder⟩ := hJ2 h hhmem
      obtain ⟨cur, hcur⟩ := Option.ne_none_iff_exists'.mp hder
      have hhash : cur.GetHash = h := hA h cur hcur
      have hloop : walkLoop deref direct back (fuel + 1) (v :: vs) res =
          walkLoop deref direct back fuel
            (CTxMemPool.pushNew (if h ∈ res then res else res ++ [h]) rest (direct cur))
            (if h ∈ res then res else res ++ [h]) := by
        simp only [walkLoop, hh, hrest, hcur, hhash]
      rw [hloop]
      generalize hres1 : (if h ∈ res then res else res ++ [h]) = res1
      have hmem1 : ∀ x, x ∈ res1 ↔ x ∈ res ∨ x = h := by
        intro x
        rw [← hres1]
        by_cases hc : h ∈ res
        · rw [if_pos hc]
          constructor
          · exact fun hx => Or.inl hx
          · rintro (hx | hx)
            · exact hx
            · exact hx ▸ hc
        · rw [if_neg hc]; simp
      have hnd1 : res1.Nodup := by
        rw [← hres1]
        by_cases hc : h ∈ res
        · rw [if_pos hc]; exact hnd
        · rw [if_neg hc]
          exact List.Nodup.append hnd (List.nodup_singleton h) (by simpa using hc)
      have hpush := CTxMemPool.mem_pushNew res1 (direct cur) rest
      obtain ⟨out, hout, hn, hiff, hder2, hsub⟩ := ih
        (CTxMemPool.pushNew res1 rest (direct cur)) res1 (by
          have h1 := CTxMemPool.pushNew_measure U res1 (direct cur) rest (hU h cur hcur)
          have h2 : undiscovered U rest res1 ≤ undiscovered U (v :: vs) res := by
            apply undiscovered_mono
            intro x hx
            rcases hx with hx | hx
            · rcases (hpop x).mp hx with hx | hx
              · exact Or.inr ((hmem1 x).mpr (Or.inr hx))
              · exact Or.inl hx
            · exact Or.inr ((hmem1 x).mpr (Or.inl hx))
          simp only [List.length_cons] at hfuel
          omega) hnd1
        (by
          intro d hd
          rcases (hpush d).mp hd with hd | hd
          · exact hJ2 d ((hpop d).mpr (Or.inr hd))
          · exact ⟨WalkReach.step hreach hcur hd.1, hB h cur hcur d hd.1⟩)
        (by
          intro d hd
          rcases (hmem1 d).mp hd with hd | hd
          · exact hJ3 d hd
          · exact hd ▸ ⟨hreach, hder⟩)
        (by
          intro h2 hh2 b hb d hd
          by_cases hdr : d ∈ res1
          · exact Or.inr hdr
          rcases (hmem1 h2).mp hh2 with hh2 | hh2
          · rcases hJ4 h2 hh2 b hb d hd with hx | hx
            · rcases (hpop d).mp hx with hx | hx
              · exact Or.inr ((hmem1 d).mpr (Or.inr hx))
              · exact Or.inl ((hpush d).mpr (Or.inl hx))
            · exact Or.inr ((hmem1 d).mpr (Or.inl hx))
          · subst hh2
            rw [hcur] at hb
            cases hb
            exact Or.inl ((hpush d).mpr (Or.inr ⟨hd, hdr⟩)))
        (by
          intro d hd
          rcases hJ5 d hd with hx | hx
          · rcases (hpop d).mp hx with hx | hx
            · exact Or.inr ((hmem1 d).mpr (Or.inr hx))
            · exact Or.inl ((hpush d).mpr (Or.inl hx))
          · exact Or.inr ((hmem1 d).mpr (Or.inl hx)))
      exact ⟨out, hout, hn, hiff, hder2, fun d hd => hsub d ((hmem1 d).mpr (Or.inl hd))⟩

namespace CTxMemPool

/-! ## Lemmas: reading the well-formedness predicate -/

section WellFormedFacts

variable {pool : CTxMemPool}

theorem WellFormed.tx_hash (hw : WellFormed pool) {h : Nat} {e : CTxMemPoolEntry}
    (he : mapFind pool.mapTx h = some e) : e.tx.hash = h :=
  (mapAll_iff.mp hw.1.1 h e he).1

theorem WellFormed.tx_wf (hw : WellFormed pool) {h : Nat} {e : CTxMemPoolEntry}
    (he : mapFind pool.mapTx h = some e) : TxWF e.tx :=
  (mapAll_iff.mp hw.1.1 h e he).2

theorem WellFormed.cert_hash (hw : WellFormed pool) {h : Nat} {e : CCertificateMemPoolEntry}
    (he : mapFind pool.mapCertificate h = some e) : e.cert.hash = h :=
  (mapAll_iff.mp hw.1.2.1 h e he).1

theorem WellFormed.cert_wf (hw : WellFormed pool) {h : Nat} {e : CCertificateMemPoolEntry}
    (he : mapFind pool.mapCertificate h = some e) : CertWF e.cert :=
  (mapAll_iff.mp hw.1.2.1 h e he).2.1

theorem WellFormed.cert_not_tx (hw : WellFormed pool) {h : Nat} {e : CCertificateMemPoolEntry}
    (he : mapFind pool.mapCertificate h = some e) : mapFind pool.mapTx h = none :=
  (mapAll_iff.mp hw.1.2.1 h e he).2.2

theorem WellFormed.sorted_tx (hw : WellFormed pool) : KeySorted pool.mapTx := hw.1.2.2.1

theorem WellFormed.sorted_cert (hw : WellFormed pool) : KeySorted pool.mapCertificate :=
  hw.1.2.2.2.1

theorem WellFormed.sorted_sc (hw : WellFormed pool) : KeySorted pool.mapSidechains :=
  hw.1.2.2.2.2

theorem WellFormed.next_of_tx (hw : WellFormed pool) {h : Nat} {e : CTxMemPoolEntry}
    (he : mapFind pool.mapTx h = some e) {ix : Nat × CTxIn} (hix : ix ∈ e.tx.vin.enum) :
    mapFind pool.mapNextTx ix.2.prevout = some ⟨h, ix.1⟩ :=
  mapAll_iff.mp hw.2.1.1 h e he ix hix

theorem WellFormed.next_of_cert (hw : WellFormed pool) {h : Nat} {e : CCertificateMemPoolEntry}
    (he : mapFind pool.mapCertificate h = some e) {ix : Nat × CTxIn} (hix : ix ∈ e.cert.vin.enum) :
    mapFind pool.mapNextTx ix.2.prevout = some ⟨h, ix.1⟩ :=
  mapAll_iff.mp hw.2.1.2.1 h e he ix hix

theorem WellFormed.next_backed (hw : WellFormed pool) {o : COutPoint} {ip : CInPoint}
    (h : mapFind pool.mapNextTx o = some ip) :
    ∃ b, pool.deref ip.ptx = some b ∧ (b.GetVin.get? ip.n).map (fun i => i.prevout) = some o :=
  mapAll_iff.mp hw.2.1.2.2 o ip h

theorem WellFormed.nullifier_of_tx (hw : WellFormed pool) {h : Nat} {e : CTxMemPoolEntry}
    (he : mapFind pool.mapTx h = some e) {nf : Nat} (hnf : nf ∈ e.tx.nullifiers) :
    mapFind pool.mapNullifiers nf = some h :=
  mapAll_iff.mp hw.2.2.1.1 h e he nf hnf

theorem WellFormed.nullifier_backed (hw : WellFormed pool) {nf h : Nat}
    (hf : mapFind pool.mapNullifiers nf = some h) :
    ∃ e, mapFind pool.mapTx h = some e ∧ nf ∈ e.tx.nullifiers :=
  mapAll_iff.mp hw.2.2.1.2 nf h hf

theorem WellFormed.row_of_sc (hw : WellFormed pool) {h : Nat} {e : CTxMemPoolEntry}
    (he : mapFind pool.mapTx h = some e) {sc : CTxScCreationOut} (hsc : sc ∈ e.tx.vsc_ccout) :
    ∃ r, mapFind pool.mapSidechains sc.scId = some r ∧ r.scCreationTxHash = h :=
  (mapAll_iff.mp hw.2.2.2.1.1 h e he).1 sc hsc

theorem WellFormed.row_of_fwd (hw : WellFormed pool) {h : Nat} {e : CTxMemPoolEntry}
    (he : mapFind pool.mapTx h = some e) {fwd : CTxForwardTransferOut}
    (hf : fwd ∈ e.tx.vft_ccout) :
    ∃ r, mapFind pool.mapSidechains fwd.scId = some r ∧ h ∈ r.fwdTxHashes :=
  (mapAll_iff.mp hw.2.2.2.1.1 h e he).2.1 fwd hf

theorem WellFormed.row_of_btr (hw : WellFormed pool) {h : Nat} {e : CTxMemPoolEntry}
    (he : mapFind pool.mapTx h = some e) {btr : CBwtRequestOut} (hb : btr ∈ e.tx.vmbtr_out) :
    ∃ r, mapFind pool.mapSidechains btr.scId = some r ∧ h ∈ r.mcBtrsTxHashes :=
  (mapAll_iff.mp hw.2.2.2.1.1 h e he).2.2.1 btr hb

theorem WellFormed.row_of_csw (hw : WellFormed pool) {h : Nat} {e : CTxMemPoolEntry}
    (he : mapFind pool.mapTx h = some e) {csw : CTxCeasedSidechainWithdrawalInput}
    (hc : csw ∈ e.tx.vcsw_ccin) :
    ∃ r, mapFind pool.mapSidechains csw.scId = some r ∧
      mapFind r.cswNullifiers csw.nullifier = some h :=
  (mapAll_iff.mp hw.2.2.2.1.1 h e he).2.2.2 csw hc

theorem WellFormed.row_of_cert (hw : WellFormed pool) {h : Nat} {e : CCertificateMemPoolEntry}
    (he : mapFind pool.mapCertificate h = some e) :
    ∃ r, mapFind pool.mapSidechains e.cert.scId = some r ∧
      mapFind r.mBackwardCertificates e.cert.quality = some h :=
  mapAll_iff.mp hw.2.2.2.1.2 h e he

theorem WellFormed.row_not_null (hw : WellFormed pool) {s : Nat} {r : CSidechainMemPoolEntry}
    (hr : mapFind pool.mapSidechains s = some r) : r.IsNull = false :=
  (mapAll_iff.mp hw.2.2.2.2 s r hr).1

theorem WellFormed.sc_backed (hw : WellFormed pool) {s : Nat} {r : CSidechainMemPoolEntry}
    (hr : mapFind pool.mapSidechains s = some r) (h0 : r.scCreationTxHash ≠ 0) :
    ∃ e, mapFind pool.mapTx r.scCreationTxHash = some e ∧
      s ∈ e.tx.vsc_ccout.map (fun sc => sc.scId) :=
  (mapAll_iff.mp hw.2.2.2.2 s r hr).2.1 h0

theorem WellFormed.fwd_backed (hw : WellFormed pool) {s : Nat} {r : CSidechainMemPoolEntry}
    (hr : mapFind pool.mapSidechains s = some r) {h : Nat} (hh : h ∈ r.fwdTxHashes) :
    ∃ e, mapFind pool.mapTx h = some e ∧ s ∈ e.tx.vft_ccout.map (fun fwd => fwd.scId) :=
  (mapAll_iff.mp hw.2.2.2.2 s r hr).2.2.1 h hh

theorem WellFormed.btr_backed (hw : WellFormed pool) {s : Nat} {r : CSidechainMemPoolEntry}
    (hr : mapFind pool.mapSidechains s = some r) {h : Nat} (hh : h ∈ r.mcBtrsTxHashes) :
    ∃ e, mapFind pool.mapTx h = some e ∧ s ∈ e.tx.vmbtr_out.map (fun btr => btr.scId) :=
  (mapAll_iff.mp hw.2.2.2.2 s r hr).2.2.2.1 h hh

theorem WellFormed.csw_backed (hw : WellFormed pool) {s : Nat} {r : CSidechainMemPoolEntry}
    (hr : mapFind pool.mapSidechains s = some r) {kv : Nat × Nat} (hkv : kv ∈ r.cswNullifiers) :
    ∃ e, mapFind pool.mapTx kv.2 = some e ∧
      (s, kv.1) ∈ e.tx.vcsw_ccin.map (fun c => (c.scId, c.nullifier)) :=
  (mapAll_iff.mp hw.2.2.2.2 s r hr).2.2.2.2.1 kv hkv

theorem WellFormed.cert_backed (hw : WellFormed pool) {s : Nat} {r : CSidechainMemPoolEntry}
    (hr : mapFind pool.mapSidechains s = some r) {kv : Int × Nat}
    (hkv : kv ∈ r.mBackwardCertificates) :
    ∃ e, mapFind pool.mapCertificate kv.2 = some e ∧ e.cert.scId = s ∧ e.cert.quality = kv.1 :=
  (mapAll_iff.mp hw.2.2.2.2 s r hr).2.2.2.2.2.1 kv hkv

theorem WellFormed.csw_total (hw : WellFormed pool) {s : Nat} {r : CSidechainMemPoolEntry}
    (hr : mapFind pool.mapSidechains s = some r) : r.cswTotalAmount = pool.cswSum s :=
  (mapAll_iff.mp hw.2.2.2.2 s r hr).2.2.2.2.2.2

theorem deref_tx {h : Nat} {e : CTxMemPoolEntry} (he : mapFind pool.mapTx h = some e) :
    pool.deref h = some (CTransactionBase.tx e.tx) := by
  simp [deref, he]

theorem deref_cert {h : Nat} {e : CCertificateMemPoolEntry}
    (ht : mapFind pool.mapTx h = none) (he : mapFind pool.mapCertificate h = some e) :
    pool.deref h = some (CTransactionBase.cert e.cert) := by
  simp [deref, ht, he]

theorem deref_cases {h : Nat} {b : CTransactionBase} (hb : pool.deref h = some b) :
    (∃ e, mapFind pool.mapTx h = some e ∧ b = CTransactionBase.tx e.tx) ∨
    (∃ e, mapFind pool.mapTx h = none ∧ mapFind pool.mapCertificate h = some e ∧
      b = CTransactionBase.cert e.cert) := by
  unfold deref at hb
  cases ht : mapFind pool.mapTx h with
  | some e =>
    rw [ht] at hb
    exact Or.inl ⟨e, rfl, by simpa using hb.symm⟩
  | none =>
    rw [ht] at hb
    cases hc : mapFind pool.mapCertificate h with
    | some e =>
      rw [hc] at hb
      exact Or.inr ⟨e, rfl, rfl, by simpa using hb.symm⟩
    | none => rw [hc] at hb; cases hb

theorem deref_ne_none_iff {h : Nat} :
    pool.deref h ≠ none ↔ mapFind pool.mapTx h ≠ none ∨ mapFind pool.mapCertificate h ≠ none := by
  unfold deref
  cases mapFind pool.mapTx h <;> cases mapFind pool.mapCertificate h <;> simp

theorem WellFormed.deref_hash (hw : WellFormed pool) {h : Nat} {b : CTransactionBase}
    (hb : pool.deref h = some b) : b.GetHash = h := by
  rcases deref_cases hb with ⟨e, he, rfl⟩ | ⟨e, _, he, rfl⟩
  · exact hw.tx_hash he
  · exact hw.cert_hash he

end WellFormedFacts

end CTxMemPool

namespace CTxMemPool

/-! ## Lemmas: the two graph walks -/

theorem dependenciesOfLoop_eq (pool : CTxMemPool) (fuel : Nat) (tv res : List Nat) :
    dependenciesOfLoop pool fuel tv res =
      walkLoop pool.deref (mempoolDirectDependenciesOf pool) false fuel tv res := by
  induction fuel generalizing tv res with
  | zero => cases tv <;> simp [dependenciesOfLoop, walkLoop]
  | succ fuel ih =>
    cases tv with
    | nil => simp [dependenciesOfLoop, walkLoop]
    | cons v vs =>
      simp only [dependenciesOfLoop, walkLoop, Bool.false_eq_true, if_false]
      cases pool.deref v with
      | none => rfl
      | some cur => exact ih _ _

theorem dependenciesFromLoop_eq (pool : CTxMemPool) (fuel : Nat) (tv res : List Nat) :
    dependenciesFromLoop pool fuel tv res =
      walkLoop pool.deref (mempoolDirectDependenciesFrom pool) true fuel tv res := by
  induction fuel generalizing tv res with
  | zero => cases tv <;> simp [dependenciesFromLoop, walkLoop]
  | succ fuel ih =>
    cases tv with
    | nil => simp [dependenciesFromLoop, walkLoop]
    | cons v vs =>
      simp only [dependenciesFromLoop, walkLoop, if_true]
      cases pool.deref ((v :: vs).getLast (List.cons_ne_nil v vs)) with
      | none => rfl
      | some cur => exact ih _ _

theorem mem_mempoolDirectDependenciesOf (pool : CTxMemPool) (b : CTransactionBase) (d : Nat) :
    d ∈ mempoolDirectDependenciesOf pool b ↔ IsDirectDescendant pool b d := by
  unfold mempoolDirectDependenciesOf IsDirectDescendant
  have hres : ∀ d, d ∈ ((List.range b.GetVout.length).filterMap fun i =>
      (mapFind pool.mapNextTx ⟨b.GetHash, i⟩).map (fun ip => ip.ptx)) ↔
      ∃ i, i < b.GetVout.length ∧ ∃ ip, mapFind pool.mapNextTx ⟨b.GetHash, i⟩ = some ip ∧
        ip.ptx = d := by
    intro d
    simp only [List.mem_filterMap, List.mem_range, Option.map_eq_some']
  cases b with
  | cert c =>
    simp only [hres]
    constructor
    · exact fun h => Or.inl h
    · rintro (h | ⟨t, ht, _⟩)
      · exact h
      · cases ht
  | tx t =>
    simp only [List.mem_append, hres, List.mem_flatMap]
    constructor
    · rintro (h | ⟨sc, hsc, h⟩)
      · exact Or.inl h
      · refine Or.inr ⟨t, rfl, sc, hsc, ?_⟩
        cases hr : mapFind pool.mapSidechains sc.scId with
        | none => rw [hr] at h; simp at h
        | some r =>
          rw [hr] at h
          exact ⟨r, rfl, List.mem_append.mp h⟩
    · rintro (h | ⟨t1, ht, sc, hsc, r, hr, h⟩)
      · exact Or.inl h
      · cases ht
        refine Or.inr ⟨sc, hsc, ?_⟩
        rw [hr]
        exact List.mem_append.mpr h

theorem mem_mempoolDirectDependenciesFrom (pool : CTxMemPool) (b : CTransactionBase) (a : Nat) :
    a ∈ mempoolDirectDependenciesFrom pool b ↔ IsDirectAncestor pool b a := by
  unfold mempoolDirectDependenciesFrom IsDirectAncestor
  have hres : ∀ a, a ∈ ((b.GetVin.map (fun input => input.prevout.hash)).filter
      (fun h => mapCount pool.mapTx h || mapCount pool.mapCertificate h)) ↔
      ∃ vin ∈ b.GetVin, vin.prevout.hash = a ∧ pool.deref a ≠ none := by
    intro a
    simp only [List.mem_filter, List.mem_map, Bool.or_eq_true, mapCount_eq_true,
      deref_ne_none_iff]
    constructor
    · rintro ⟨⟨vin, hv, rfl⟩, h⟩
      exact ⟨vin, hv, rfl, h⟩
    · rintro ⟨vin, hv, rfl, h⟩
      exact ⟨⟨vin, hv, rfl⟩, h⟩
  have hvia : ∀ {α : Type} (l : List α) (f : α → Nat) (a : Nat),
      a ∈ (l.filterMap fun x => scCreationInPool pool (f x)) ↔
      ∃ s, s ∈ l.map f ∧ ∃ r, mapFind pool.mapSidechains s = some r ∧
        r.scCreationTxHash = a ∧ a ≠ 0 := by
    intro α l f a
    simp only [List.mem_filterMap, List.mem_map, scCreationInPool]
    constructor
    · rintro ⟨x, hx, h⟩
      cases hr : mapFind pool.mapSidechains (f x) with
      | none => rw [hr] at h; cases h
      | some r =>
        rw [hr] at h
        by_cases h0 : r.scCreationTxHash ≠ 0
        · simp only [h0, ne_eq, not_false_eq_true, if_true, Option.some.injEq] at h
          exact ⟨f x, ⟨x, hx, rfl⟩, r, hr, h, h ▸ h0⟩
        · simp [h0] at h
    · rintro ⟨s, ⟨x, hx, rfl⟩, r, hr, h, h0⟩
      refine ⟨x, hx, ?_⟩
      rw [hr]
      subst h
      simp [h0]
  cases b with
  | cert c =>
    simp only [hres]
    constructor
    · exact fun h => Or.inl h
    · rintro (h | ⟨t, ht, _⟩)
      · exact h
      · cases ht
  | tx t =>
    have h1 := hvia t.vft_ccout (fun fwt => fwt.scId) a
    have h2 := hvia t.vmbtr_out (fun btr => btr.scId) a

    simp only [List.mem_append, hres]
    rw [h1, h2]
    constructor
    · rintro ((h | ⟨s, hs, h⟩) | ⟨s, hs, h⟩)
      · exact Or.inl h
      · exact Or.inr ⟨t, rfl, s, Or.inl hs, h⟩
      · exact Or.inr ⟨t, rfl, s, Or.inr hs, h⟩
    · rintro (h | ⟨t1, ht, s, hs | hs, h⟩)
      · exact Or.inl (Or.inl h)
      · cases ht; exact Or.inl (Or.inr ⟨s, hs, h⟩)
      · cases ht; exact Or.inr ⟨s, hs, h⟩

theorem directOf_in_universe (pool : CTxMemPool) (b : CTransactionBase) (d : Nat)
    (h : d ∈ mempoolDirectDependenciesOf pool b) : d ∈ descendantUniverse pool := by
  rw [mem_mempoolDirectDependenciesOf] at h
  unfold descendantUniverse
  rw [List.mem_append]
  rcases h with ⟨i, _, ip, hip, rfl⟩ | ⟨t, _, sc, _, r, hr, h⟩
  · exact Or.inl (List.mem_map.mpr ⟨_, mem_of_mapFind hip, rfl⟩)
  · refine Or.inr (List.mem_flatMap.mpr ⟨_, mem_of_mapFind hr, ?_⟩)
    exact List.mem_append.mpr h

theorem directFrom_in_universe (pool : CTxMemPool) (b : CTransactionBase) (a : Nat)
    (h : a ∈ mempoolDirectDependenciesFrom pool b) : a ∈ ancestorUniverse pool := by
  rw [mem_mempoolDirectDependenciesFrom] at h
  unfold ancestorUniverse
  rcases h with ⟨vin, _, rfl, h⟩ | ⟨t, _, s, _, r, hr, rfl, _⟩
  · rw [deref_ne_none_iff] at h
    rcases h with h | h
    · have := mt mapFind_eq_none_iff.mpr h
      simp only [not_not] at this
      exact List.mem_append_left _ (List.mem_append_left _ this)
    · have := mt mapFind_eq_none_iff.mpr h
      simp only [not_not] at this
      exact List.mem_append_left _ (List.mem_append_right _ this)
  · exact List.mem_append_right _ (List.mem_map.mpr ⟨_, mem_of_mapFind hr, rfl⟩)

theorem WellFormed.directOf_resolves {pool : CTxMemPool} (hw : WellFormed pool)
    (b : CTransactionBase) (d : Nat) (h : d ∈ mempoolDirectDependenciesOf pool b) :
    pool.deref d ≠ none := by
  rw [mem_mempoolDirectDependenciesOf] at h
  rcases h with ⟨i, _, ip, hip, rfl⟩ | ⟨t, _, sc, _, r, hr, h | h⟩
  · obtain ⟨b1, hb1, _⟩ := hw.next_backed hip
    rw [hb1]; simp
  · obtain ⟨e, he, _⟩ := hw.fwd_backed hr h
    rw [deref_tx he]; simp
  · obtain ⟨e, he, _⟩ := hw.btr_backed hr h
    rw [deref_tx he]; simp

theorem WellFormed.directFrom_resolves {pool : CTxMemPool} (hw : WellFormed pool)
    (b : CTransactionBase) (a : Nat) (h : a ∈ mempoolDirectDependenciesFrom pool b) :
    pool.deref a ≠ none := by
  rw [mem_mempoolDirectDependenciesFrom] at h
  rcases h with ⟨vin, _, rfl, h⟩ | ⟨t, _, s, _, r, hr, rfl, h0⟩
  · exact h
  · obtain ⟨e, he, _⟩ := hw.sc_backed hr h0
    rw [deref_tx he]; simp

theorem undiscovered_le (U tv res : List Nat) : undiscovered U tv res ≤ U.length := by
  unfold undiscovered
  exact le_trans (Finset.card_le_card Finset.sdiff_subset) (List.toFinset_card_le U)

theorem walkReach_of_iff (pool : CTxMemPool) (x : CTransactionBase) (d : Nat) :
    WalkReach pool.deref (mempoolDirectDependenciesOf pool) (mempoolDirectDependenciesOf pool x) d ↔
      IsDescendant pool x d := by
  constructor
  · intro h
    induction h with
    | seed hd => exact IsDescendant.direct ((mem_mempoolDirectDependenciesOf _ _ _).mp hd)
    | step _ hb hd ih =>
      exact IsDescendant.step ih hb ((mem_mempoolDirectDependenciesOf _ _ _).mp hd)
  · intro h
    induction h with
    | direct hd => exact WalkReach.seed ((mem_mempoolDirectDependenciesOf _ _ _).mpr hd)
    | step _ hb hd ih =>
      exact WalkReach.step ih hb ((mem_mempoolDirectDependenciesOf _ _ _).mpr hd)

theorem walkReach_from_iff (pool : CTxMemPool) (x : CTransactionBase) (d : Nat) :
    WalkReach pool.deref (mempoolDirectDependenciesFrom pool)
        (mempoolDirectDependenciesFrom pool x) d ↔
      IsAncestor pool x d := by
  constructor
  · intro h
    induction h with
    | seed hd => exact IsAncestor.direct ((mem_mempoolDirectDependenciesFrom _ _ _).mp hd)
    | step _ hb hd ih =>
      exact IsAncestor.step ih hb ((mem_mempoolDirectDependenciesFrom _ _ _).mp hd)
  · intro h
    induction h with
    | direct hd => exact WalkReach.seed ((mem_mempoolDirectDependenciesFrom _ _ _).mpr hd)
    | step _ hb hd ih =>
      exact WalkReach.step ih hb ((mem_mempoolDirectDependenciesFrom _ _ _).mpr hd)

/-- The descendant walk on a well-formed pool: it completes, and its result is a
duplicate-free list of exactly the descendants of `x`, each of them in the pool. -/
theorem mempoolDependenciesOf_correct (pool : CTxMemPool) (x : CTransactionBase)
    (hw : WellFormed pool) :
    ∃ res, mempoolDependenciesOf pool x = Outcome.done res ∧ res.Nodup ∧
      (∀ d, d ∈ res ↔ IsDescendant pool x d) ∧ (∀ d ∈ res, pool.deref d ≠ none) := by
  unfold mempoolDependenciesOf
  simp only [dependenciesOfLoop_eq]
  obtain ⟨out, hout, hn, hiff, hder, _⟩ := walkLoop_correct pool.deref
    (mempoolDirectDependenciesOf pool) false (descendantUniverse pool)
    (mempoolDirectDependenciesOf pool x)
    (fun h b hb => hw.deref_hash hb)
    (fun h b _ d hd => hw.directOf_resolves b d hd)
    (fun h b _ d hd => directOf_in_universe pool b d hd)
    (2 * (descendantUniverse pool).length + (mempoolDirectDependenciesOf pool x).length)
    (mempoolDirectDependenciesOf pool x) []
    (by have := undiscovered_le (descendantUniverse pool) (mempoolDirectDependenciesOf pool x) []
        omega)
    List.nodup_nil
    (fun d hd => ⟨WalkReach.seed hd, hw.directOf_resolves x d hd⟩)
    (fun d hd => by simp at hd)
    (fun h hh => by simp at hh)
    (fun d hd => Or.inl hd)
  exact ⟨out, hout, hn, fun d => (hiff d).trans (walkReach_of_iff pool x d), hder⟩

/-- C8: on a well-formed pool `mempoolDependenciesOf(x)` completes, and its result
is a duplicate-free list whose members are exactly the pool entries reachable
from `x` by one or more direct-descendant steps. -/
theorem mempoolDependenciesOf_spec (pool : CTxMemPool) (x : CTransactionBase)
    (hw : WellFormed pool) :
    ∃ res, mempoolDependenciesOf pool x = Outcome.done res ∧ res.Nodup ∧
      (∀ d, d ∈ res ↔ IsDescendant pool x d) ∧ (∀ d ∈ res, pool.deref d ≠ none) :=
  mempoolDependenciesOf_correct pool x hw

/-- C9: on a well-formed pool `mempoolDependenciesFrom(x)` completes, and its
result is a duplicate-free list whose members are exactly the pool entries
reachable from `x` by one or more direct-ancestor steps. -/
theorem mempoolDependenciesFrom_spec (pool : CTxMemPool) (x : CTransactionBase)
    (hw : WellFormed pool) :
    ∃ res, mempoolDependenciesFrom pool x = Outcome.done res ∧ res.Nodup ∧
      (∀ a, a ∈ res ↔ IsAncestor pool x a) ∧ (∀ a ∈ res, pool.deref a ≠ none) := by
  unfold mempoolDependenciesFrom
  simp only [dependenciesFromLoop_eq]
  obtain ⟨out, hout, hn, hiff, hder, _⟩ := walkLoop_correct pool.deref
    (mempoolDirectDependenciesFrom pool) true (ancestorUniverse pool)
    (mempoolDirectDependenciesFrom pool x)
    (fun h b hb => hw.deref_hash hb)
    (fun h b _ d hd => hw.directFrom_resolves b d hd)
    (fun h b _ d hd => directFrom_in_universe pool b d hd)
    (2 * (ancestorUniverse pool).length + (mempoolDirectDependenciesFrom pool x).length)
    (mempoolDirectDependenciesFrom pool x) []
    (by have := undiscovered_le (ancestorUniverse pool) (mempoolDirectDependenciesFrom pool x) []
        omega)
    List.nodup_nil
    (fun d hd => ⟨WalkReach.seed hd, hw.directFrom_resolves x d hd⟩)
    (fun d hd => by simp at hd)
    (fun h hh => by simp at hh)
    (fun d hd => Or.inl hd)
  exact ⟨out, hout, hn, fun d => (hiff d).trans (walkReach_from_iff pool x d), hder⟩

end CTxMemPool

/-! ## Lemmas: updates of the sidechain table -/

theorem Outcome.foldl_map {σ α β : Type} (f : σ → β → Outcome σ) (g : α → β) (s : σ)
    (l : List α) : Outcome.foldl f s (l.map g) = Outcome.foldl (fun s a => f s (g a)) s l := by
  induction l generalizing s with
  | nil => rfl
  | cons a l ih =>
    simp only [List.map_cons, Outcome.foldl_cons]
    congr 1
    funext s1
    exact ih s1

theorem Outcome.foldl_pure {σ α : Type} (f : σ → α → Outcome σ) (g : σ → α → σ)
    (h : ∀ s a, f s a = Outcome.done (g s a)) (s : σ) (l : List α) :
    Outcome.foldl f s l = Outcome.done (l.foldl g s) := by
  induction l generalizing s with
  | nil => rfl
  | cons a l ih => simp only [Outcome.foldl_cons, h, Outcome.bind_done, ih, List.foldl_cons]

theorem Outcome.foldl_congr {σ α : Type} (f g : σ → α → Outcome σ)
    (h : ∀ s a, f s a = g s a) (s : σ) (l : List α) :
    Outcome.foldl f s l = Outcome.foldl g s l := by
  have : f = g := by funext s a; exact h s a
  rw [this]

namespace CTxMemPool

theorem removeCswStep_eq (m : List (Nat × CSidechainMemPoolEntry))
    (csw : CTxCeasedSidechainWithdrawalInput) :
    removeCswStep m csw = applyStep m (csw.scId, true, cswClean csw) := by
  unfold removeCswStep applyStep cswClean
  cases mapFind m csw.scId <;> rfl

theorem removeBtrStep_eq (hash : Nat) (m : List (Nat × CSidechainMemPoolEntry))
    (btr : CBwtRequestOut) :
    applyStep m (btr.scId, false, btrClean hash) = Outcome.done (removeBtrStep hash m btr) := by
  unfold removeBtrStep applyStep btrClean
  cases mapFind m btr.scId with
  | none => rfl
  | some r =>
    simp only
    by_cases h1 : (setErase r.mcBtrsTxHashes hash).isEmpty = true
    · simp only [h1, if_true]
      split <;> rfl
    · simp only [h1, if_false, Bool.false_eq_true]
      split <;> rfl

theorem removeFwdStep_eq (hash : Nat) (m : List (Nat × CSidechainMemPoolEntry))
    (fwd : CTxForwardTransferOut) :
    applyStep m (fwd.scId, false, fwdClean hash) = Outcome.done (removeFwdStep hash m fwd) := by
  unfold removeFwdStep applyStep fwdClean
  cases mapFind m fwd.scId with
  | none => rfl
  | some r =>
    simp only
    split <;> rfl

theorem removeScStep_eq (m : List (Nat × CSidechainMemPoolEntry)) (sc : CTxScCreationOut) :
    removeScStep m sc = applyStep m (sc.scId, true, scClean) := by
  unfold removeScStep applyStep scClean
  cases mapFind m sc.scId <;> rfl

/-- The sidechain-table updates of `remove` are the uniform updates listed by
`removalSteps`. -/
theorem removeSidechains_eq (tx : CTransaction) (m : List (Nat × CSidechainMemPoolEntry)) :
    removeSidechains tx m = Outcome.foldl applyStep m (removalSteps tx) := by
  unfold removeSidechains removalSteps
  rw [Outcome.foldl_append, Outcome.foldl_append, Outcome.foldl_append]
  rw [Outcome.foldl_map, Outcome.foldl_congr _ _ removeCswStep_eq]
  cases h1 : Outcome.foldl (fun s a => applyStep s (a.scId, true, cswClean a)) m tx.vcsw_ccin with
  | failed => rfl
  | timeout => rfl
  | done m1 =>
    simp only [Outcome.bind_done]
    rw [Outcome.foldl_map,
      Outcome.foldl_pure _ (removeBtrStep tx.hash) (fun s a => removeBtrStep_eq tx.hash s a)]
    simp only [Outcome.bind_done]
    rw [Outcome.foldl_map,
      Outcome.foldl_pure _ (removeFwdStep tx.hash) (fun s a => removeFwdStep_eq tx.hash s a)]
    simp only [Outcome.bind_done]
    rw [Outcome.foldl_map, Outcome.foldl_congr _ _ removeScStep_eq]

end CTxMemPool

theorem applyStep_find (m m1 : List (Nat × CSidechainMemPoolEntry))
    (step : Nat × Bool × (CSidechainMemPoolEntry → CSidechainMemPoolEntry))
    (h : applyStep m step = Outcome.done m1) :
    rowStep step.2.1 step.2.2 (mapFind m step.1) = Outcome.done (mapFind m1 step.1) ∧
      ∀ s, step.1 ≠ s → mapFind m1 s = mapFind m s := by
  unfold applyStep at h
  cases hr : mapFind m step.1 with
  | none =>
    rw [hr] at h
    by_cases hs : step.2.1 = true
    · simp [hs] at h
    · simp only [hs, Bool.false_eq_true, if_false, Outcome.done.injEq] at h
      subst h
      simp [rowStep, hs, hr]
  | some r =>
    rw [hr] at h
    simp only [rowStep, normRow]
    by_cases hn : (step.2.2 r).IsNull = true
    · simp only [hn, if_true, Outcome.done.injEq] at h
      subst h
      simp only [hn, if_true, mapFind_mapErase, true_and]
      intro s hs
      simp [hs]
    · simp only [hn, if_false, Bool.false_eq_true, Outcome.done.injEq] at h
      subst h
      simp only [hn, if_false, Bool.false_eq_true, mapFind_mapInsert, if_true, true_and]
      intro s hs
      simp [hs]

theorem applyStep_sorted (m m1 : List (Nat × CSidechainMemPoolEntry))
    (step : Nat × Bool × (CSidechainMemPoolEntry → CSidechainMemPoolEntry))
    (hs : KeySorted m) (h : applyStep m step = Outcome.done m1) : KeySorted m1 := by
  unfold applyStep at h
  cases hr : mapFind m step.1 with
  | none =>
    rw [hr] at h
    by_cases hst : step.2.1 = true
    · simp [hst] at h
    · simp only [hst, Bool.false_eq_true, if_false, Outcome.done.injEq] at h
      exact h ▸ hs
  | some r =>
    rw [hr] at h
    by_cases hn : (step.2.2 r).IsNull = true
    · simp only [hn, if_true, Outcome.done.injEq] at h
      exact h ▸ keySorted_mapErase m _ hs
    · simp only [hn, if_false, Bool.false_eq_true, Outcome.done.injEq] at h
      exact h ▸ keySorted_mapInsert m _ _ hs

theorem steps_sorted (steps : List (Nat × Bool × (CSidechainMemPoolEntry → CSidechainMemPoolEntry)))
    (m m1 : List (Nat × CSidechainMemPoolEntry)) (hs : KeySorted m)
    (h : Outcome.foldl applyStep m steps = Outcome.done m1) : KeySorted m1 :=
  Outcome.foldl_preserves applyStep KeySorted steps
    (fun s hs a _ s1 h1 => applyStep_sorted s s1 a hs h1) m m1 hs h

/-- A completed sequence of updates acts on each row as its view says. -/
theorem steps_view (steps : List (Nat × Bool × (CSidechainMemPoolEntry → CSidechainMemPoolEntry)))
    (m m1 : List (Nat × CSidechainMemPoolEntry))
    (h : Outcome.foldl applyStep m steps = Outcome.done m1) (s : Nat) :
    viewSteps s steps (mapFind m s) = Outcome.done (mapFind m1 s) := by
  induction steps generalizing m with
  | nil =>
    simp only [Outcome.foldl_nil, Outcome.done.injEq] at h
    subst h; rfl
  | cons step rest ih =>
    simp only [Outcome.foldl_cons, Outcome.bind_eq_done] at h
    obtain ⟨m2, h2, h3⟩ := h
    obtain ⟨hk, ho⟩ := applyStep_find m m2 step h2
    unfold viewSteps
    by_cases hs : step.1 = s
    · rw [if_pos hs]
      subst hs
      rw [hk, Outcome.bind_done]
      exact ih m2 h3
    · rw [if_neg hs, ← ho s hs]
      exact ih m2 h3

/-- A sequence of updates completes when its view on every row does. -/
theorem steps_total (steps : List (Nat × Bool × (CSidechainMemPoolEntry → CSidechainMemPoolEntry)))
    (m : List (Nat × CSidechainMemPoolEntry))
    (h : ∀ s, ∃ o, viewSteps s steps (mapFind m s) = Outcome.done o) :
    ∃ m1, Outcome.foldl applyStep m steps = Outcome.done m1 := by
  induction steps generalizing m with
  | nil => exact ⟨m, rfl⟩
  | cons step rest ih =>
    have hstep : ∃ m2, applyStep m step = Outcome.done m2 := by
      obtain ⟨o, ho⟩ := h step.1
      unfold viewSteps at ho
      rw [if_pos rfl] at ho
      obtain ⟨o1, ho1, _⟩ := Outcome.bind_eq_done.mp ho
      unfold applyStep
      cases hr : mapFind m step.1 with
      | none =>
        rw [hr] at ho1
        by_cases hst : step.2.1 = true
        · simp [rowStep, hst] at ho1
        · simp [hst]
      | some r =>
        simp only
        split <;> exact ⟨_, rfl⟩
    obtain ⟨m2, h2⟩ := hstep
    obtain ⟨hk, ho⟩ := applyStep_find m m2 step h2
    simp only [Outcome.foldl_cons, h2, Outcome.bind_done]
    apply ih m2
    intro s
    obtain ⟨o, hso⟩ := h s
    unfold viewSteps at hso
    by_cases hs : step.1 = s
    · rw [if_pos hs] at hso
      subst hs
      rw [hk, Outcome.bind_done] at hso
      exact ⟨o, hso⟩
    · rw [if_neg hs] at hso
      rw [ho s hs]
      exact ⟨o, hso⟩

theorem viewSteps_none (s : Nat)
    (steps : List (Nat × Bool × (CSidechainMemPoolEntry → CSidechainMemPoolEntry)))
    (h : ∀ step ∈ steps, step.1 = s → step.2.1 = false) :
    viewSteps s steps none = Outcome.done none := by
  induction steps with
  | nil => rfl
  | cons step rest ih =>
    unfold viewSteps
    have hrest := ih (fun st hst => h st (List.mem_cons_of_mem _ hst))
    by_cases hs : step.1 = s
    · rw [if_pos hs]
      have := h step (List.mem_cons_self _ _) hs
      simp only [rowStep, this, Bool.false_eq_true, if_false, Outcome.bind_done]
      exact hrest
    · rw [if_neg hs]; exact hrest

/-- When strict updates always meet a non-null row and updates keep null rows
null, the view of a sequence of updates is the composition of the updates,
erased when null. -/
theorem view_of_safe (s : Nat)
    (steps : List (Nat × Bool × (CSidechainMemPoolEntry → CSidechainMemPoolEntry)))
    (hnull : ∀ step ∈ steps, ∀ x : CSidechainMemPoolEntry, x.IsNull = true →
      (step.2.2 x).IsNull = true)
    (r : CSidechainMemPoolEntry) (hsafe : SafeSteps s steps r) :
    viewSteps s steps (normRow r) = Outcome.done (normRow (compSteps s steps r)) := by
  induction steps generalizing r with
  | nil => rfl
  | cons step rest ih =>
    have hnull1 : ∀ st ∈ rest, ∀ x : CSidechainMemPoolEntry, x.IsNull = true →
        (st.2.2 x).IsNull = true := fun st hst => hnull st (List.mem_cons_of_mem _ hst)
    unfold viewSteps compSteps
    unfold SafeSteps at hsafe
    by_cases hs : step.1 = s
    · rw [if_pos hs] at hsafe ⊢
      rw [if_pos hs]
      by_cases hn : r.IsNull = true
      · have hstrict : step.2.1 = false := by
          by_contra hc
          have := hsafe.1 (by simpa using hc)
          rw [hn] at this
          cases this
        have hn1 := hnull step (List.mem_cons_self _ _) r hn
        have h1 : normRow r = none := by simp [normRow, hn]
        have h2 : normRow (step.2.2 r) = none := by simp [normRow, hn1]
        rw [h1]
        simp only [rowStep, hstrict, Bool.false_eq_true, if_false, Outcome.bind_done]
        rw [← h2]
        exact ih hnull1 _ hsafe.2
      · have h1 : normRow r = some r := by simp [normRow, hn]
        rw [h1]
        simp only [rowStep, Outcome.bind_done]
        exact ih hnull1 _ hsafe.2
    · rw [if_neg hs] at hsafe ⊢
      rw [if_neg hs]
      exact ih hnull1 _ hsafe

theorem compSteps_cons (s : Nat)
    (step : Nat × Bool × (CSidechainMemPoolEntry → CSidechainMemPoolEntry))
    (rest : List (Nat × Bool × (CSidechainMemPoolEntry → CSidechainMemPoolEntry)))
    (r : CSidechainMemPoolEntry) :
    compSteps s (step :: rest) r =
      if step.1 = s then compSteps s rest (step.2.2 r) else compSteps s rest r := rfl

theorem safeSteps_cons (s : Nat)
    (step : Nat × Bool × (CSidechainMemPoolEntry → CSidechainMemPoolEntry))
    (rest : List (Nat × Bool × (CSidechainMemPoolEntry → CSidechainMemPoolEntry)))
    (r : CSidechainMemPoolEntry) :
    SafeSteps s (step :: rest) r =
      if step.1 = s then (step.2.1 = true → r.IsNull = false) ∧ SafeSteps s rest (step.2.2 r)
      else SafeSteps s rest r := rfl

theorem compSteps_append (s : Nat)
    (a b : List (Nat × Bool × (CSidechainMemPoolEntry → CSidechainMemPoolEntry)))
    (r : CSidechainMemPoolEntry) :
    compSteps s (a ++ b) r = compSteps s b (compSteps s a r) := by
  induction a generalizing r with
  | nil => rfl
  | cons step rest ih =>
    simp only [List.cons_append, compSteps]
    split <;> exact ih _

theorem safeSteps_append (s : Nat)
    (a b : List (Nat × Bool × (CSidechainMemPoolEntry → CSidechainMemPoolEntry)))
    (r : CSidechainMemPoolEntry) :
    SafeSteps s (a ++ b) r ↔ SafeSteps s a r ∧ SafeSteps s b (compSteps s a r) := by
  induction a generalizing r with
  | nil => simp [SafeSteps, compSteps]
  | cons step rest ih =>
    rw [List.cons_append, safeSteps_cons, safeSteps_cons, compSteps_cons]
    by_cases hs : step.1 = s
    · rw [if_pos hs, if_pos hs, if_pos hs, ih]; tauto
    · rw [if_neg hs, if_neg hs, if_neg hs]; exact ih _

theorem safeSteps_of_guarded (s : Nat)
    (steps : List (Nat × Bool × (CSidechainMemPoolEntry → CSidechainMemPoolEntry)))
    (h : ∀ step ∈ steps, step.1 = s → step.2.1 = false) (r : CSidechainMemPoolEntry) :
    SafeSteps s steps r := by
  induction steps generalizing r with
  | nil => trivial
  | cons step rest ih =>
    have hrest := fun r => ih (fun st hst => h st (List.mem_cons_of_mem _ hst)) r
    unfold SafeSteps
    split
    · next hs =>
      refine ⟨fun hc => ?_, hrest _⟩
      rw [h step (List.mem_cons_self _ _) hs] at hc
      cases hc
    · exact hrest _

/-! ## Lemmas: the updates made for one transaction -/

theorem foldl_mapErase_eq_filter {K V α : Type} [DecidableEq K] (f : α → K) (l : List α)
    (m : List (K × V)) :
    l.foldl (fun m1 a => mapErase m1 (f a)) m = m.filter (fun kv => decide (kv.1 ∉ l.map f)) := by
  induction l generalizing m with
  | nil => simp
  | cons a rest ih =>
    rw [List.foldl_cons, ih]
    unfold mapErase
    rw [List.filter_filter]
    congr 1
    funext kv
    simp only [List.map_cons, List.mem_cons, not_or, ne_eq, decide_not, Bool.decide_and,
      Bool.and_comm]

theorem mapFind_foldl_mapErase {K V α : Type} [DecidableEq K] (f : α → K) (l : List α)
    (m : List (K × V)) (k : K) :
    mapFind (l.foldl (fun m1 a => mapErase m1 (f a)) m) k =
      if k ∈ l.map f then none else mapFind m k := by
  induction l generalizing m with
  | nil => simp
  | cons a rest ih =>
    rw [List.foldl_cons, ih, mapFind_mapErase]
    by_cases h1 : k ∈ rest.map f
    · simp [h1]
    · by_cases h2 : f a = k
      · simp [h2]
      · have : ¬ k = f a := fun h => h2 h.symm
        simp [h1, h2, this]

theorem mapFind_filter_value {K V : Type} [DecidableEq K] (p : V → Bool) (m : List (K × V))
    (k : K) (v : V) (h : mapFind m k = some v) (hp : p v = true) :
    mapFind (m.filter (fun kv => p kv.2)) k = some v := by
  induction m with
  | nil => simp at h
  | cons kv rest ih =>
    obtain ⟨k1, v1⟩ := kv
    rw [mapFind_cons] at h
    by_cases h1 : k1 = k
    · simp only [h1, if_true, Option.some.injEq] at h
      subst h
      simp [List.filter, hp, mapFind_cons, h1]
    · simp only [h1, if_false] at h
      by_cases h2 : p v1 = true
      · simp [List.filter, h2, mapFind_cons, h1, ih h]
      · simp [List.filter, h2, ih h]

namespace CSidechainMemPoolEntry

theorem isNull_false_of_sc {r : CSidechainMemPoolEntry} (h : r.scCreationTxHash ≠ 0) :
    r.IsNull = false := by
  simp [IsNull, h]

theorem isNull_false_of_fwd {r : CSidechainMemPoolEntry} {x : Nat} (h : x ∈ r.fwdTxHashes) :
    r.IsNull = false := by
  have : r.fwdTxHashes ≠ [] := List.ne_nil_of_mem h
  simp [IsNull, List.isEmpty_iff, this]

theorem isNull_false_of_btr {r : CSidechainMemPoolEntry} {x : Nat} (h : x ∈ r.mcBtrsTxHashes) :
    r.IsNull = false := by
  have : r.mcBtrsTxHashes ≠ [] := List.ne_nil_of_mem h
  simp [IsNull, List.isEmpty_iff, this]

theorem isNull_false_of_csw {r : CSidechainMemPoolEntry} {x : Nat × Nat}
    (h : x ∈ r.cswNullifiers) : r.IsNull = false := by
  have : r.cswNullifiers ≠ [] := List.ne_nil_of_mem h
  simp [IsNull, List.isEmpty_iff, this]

theorem isNull_false_of_cert {r : CSidechainMemPoolEntry} {x : Int × Nat}
    (h : x ∈ r.mBackwardCertificates) : r.IsNull = false := by
  have : r.mBackwardCertificates ≠ [] := List.ne_nil_of_mem h
  simp [IsNull, List.isEmpty_iff, this]

theorem isNull_iff {r : CSidechainMemPoolEntry} :
    r.IsNull = true ↔ r.fwdTxHashes = [] ∧ r.scCreationTxHash = 0 ∧
      r.mBackwardCertificates = [] ∧ r.mcBtrsTxHashes = [] ∧ r.cswNullifiers = [] := by
  simp [IsNull, List.isEmpty_iff, and_assoc]

end CSidechainMemPoolEntry

theorem cswClean_null (csw : CTxCeasedSidechainWithdrawalInput) (x : CSidechainMemPoolEntry)
    (h : x.IsNull = true) : (cswClean csw x).IsNull = true := by
  rw [CSidechainMemPoolEntry.isNull_iff] at h ⊢
  obtain ⟨h1, h2, h3, h4, h5⟩ := h
  simp [cswClean, h1, h2, h3, h4, h5, mapErase]

theorem btrClean_null (hash : Nat) (x : CSidechainMemPoolEntry)
    (h : x.IsNull = true) : (btrClean hash x).IsNull = true := by
  rw [CSidechainMemPoolEntry.isNull_iff] at h ⊢
  obtain ⟨h1, h2, h3, h4, h5⟩ := h
  simp [btrClean, h1, h2, h3, h4, h5, setErase]

theorem fwdClean_null (hash : Nat) (x : CSidechainMemPoolEntry)
    (h : x.IsNull = true) : (fwdClean hash x).IsNull = true := by
  rw [CSidechainMemPoolEntry.isNull_iff] at h ⊢
  obtain ⟨h1, h2, h3, h4, h5⟩ := h
  simp [fwdClean, h1, h2, h3, h4, h5, setErase]

theorem scClean_null (x : CSidechainMemPoolEntry)
    (h : x.IsNull = true) : (scClean x).IsNull = true := by
  rw [CSidechainMemPoolEntry.isNull_iff] at h ⊢
  obtain ⟨h1, h2, h3, h4, h5⟩ := h
  simp [scClean, h1, h2, h3, h4, h5]

theorem removalSteps_null (tx : CTransaction) :
    ∀ step ∈ removalSteps tx, ∀ x : CSidechainMemPoolEntry, x.IsNull = true →
      (step.2.2 x).IsNull = true := by
  intro step hstep x hx
  unfold removalSteps at hstep
  simp only [List.mem_append, List.mem_map] at hstep
  rcases hstep with ((⟨c, _, rfl⟩ | ⟨c, _, rfl⟩) | ⟨c, _, rfl⟩) | ⟨c, _, rfl⟩
  · exact cswClean_null c x hx
  · exact btrClean_null _ x hx
  · exact fwdClean_null _ x hx
  · exact scClean_null x hx

/-! ### Closed forms of the four groups of updates -/

theorem comp_cswSteps (s : Nat) (l : List CTxCeasedSidechainWithdrawalInput)
    (r : CSidechainMemPoolEntry) :
    compSteps s (l.map (fun csw => (csw.scId, true, cswClean csw))) r =
      { r with
        cswNullifiers := (l.filter (fun c => decide (c.scId = s))).foldl
          (fun m c => mapErase m c.nullifier) r.cswNullifiers
        cswTotalAmount := r.cswTotalAmount -
          ((l.filter (fun c => decide (c.scId = s))).map (fun c => c.nValue)).sum } := by
  induction l generalizing r with
  | nil => simp [compSteps]
  | cons c rest ih =>
    rw [List.map_cons, compSteps_cons]
    by_cases hs : c.scId = s
    · simp only [hs, if_true, ih, List.filter, decide_True, List.foldl_cons, List.map_cons,
        List.sum_cons, cswClean]
      congr 1
      omega
    · simp only [hs, if_false, ih, List.filter, decide_False]

theorem btrClean_idem (hash : Nat) (r : CSidechainMemPoolEntry) :
    btrClean hash (btrClean hash r) = btrClean hash r := by
  unfold btrClean
  by_cases h : (setErase r.mcBtrsTxHashes hash).isEmpty = true
  · simp [h, setErase_idem]
  · simp [h, setErase_idem]

theorem comp_btrSteps (s hash : Nat) (l : List CBwtRequestOut) (r : CSidechainMemPoolEntry) :
    compSteps s (l.map (fun btr => (btr.scId, false, btrClean hash))) r =
      if s ∈ l.map (fun btr => btr.scId) then btrClean hash r else r := by
  induction l generalizing r with
  | nil => simp [compSteps]
  | cons c rest ih =>
    rw [List.map_cons, compSteps_cons]
    by_cases hs : c.scId = s
    · simp only [hs, if_true, ih, List.map_cons, List.mem_cons, true_or]
      split
      · exact btrClean_idem hash r
      · rfl
    · have hs1 : ¬ s = c.scId := fun h => hs h.symm
      simp only [hs, if_false, ih, List.map_cons, List.mem_cons, hs1, false_or]

theorem fwdClean_idem (hash : Nat) (r : CSidechainMemPoolEntry) :
    fwdClean hash (fwdClean hash r) = fwdClean hash r := by
  simp [fwdClean, setErase_idem]

theorem comp_fwdSteps (s hash : Nat) (l : List CTxForwardTransferOut)
    (r : CSidechainMemPoolEntry) :
    compSteps s (l.map (fun fwd => (fwd.scId, false, fwdClean hash))) r =
      if s ∈ l.map (fun fwd => fwd.scId) then fwdClean hash r else r := by
  induction l generalizing r with
  | nil => simp [compSteps]
  | cons c rest ih =>
    rw [List.map_cons, compSteps_cons]
    by_cases hs : c.scId = s
    · simp only [hs, if_true, ih, List.map_cons, List.mem_cons, true_or]
      split
      · exact fwdClean_idem hash r
      · rfl
    · have hs1 : ¬ s = c.scId := fun h => hs h.symm
      simp only [hs, if_false, ih, List.map_cons, List.mem_cons, hs1, false_or]

theorem comp_scSteps (s : Nat) (l : List CTxScCreationOut) (r : CSidechainMemPoolEntry) :
    compSteps s (l.map (fun sc => (sc.scId, true, scClean))) r =
      if s ∈ l.map (fun sc => sc.scId) then scClean r else r := by
  induction l generalizing r with
  | nil => simp [compSteps]
  | cons c rest ih =>
    rw [List.map_cons, compSteps_cons]
    by_cases hs : c.scId = s
    · simp only [hs, if_true, ih, List.map_cons, List.mem_cons, true_or]
      split <;> rfl
    · have hs1 : ¬ s = c.scId := fun h => hs h.symm
      simp only [hs, if_false, ih, List.map_cons, List.mem_cons, hs1, false_or]

theorem safe_cswSteps (s : Nat) (h : Nat) (l : List CTxCeasedSidechainWithdrawalInput)
    (r : CSidechainMemPoolEntry)
    (hnd : (l.map (fun c => (c.scId, c.nullifier))).Nodup)
    (hrec : ∀ csw ∈ l, csw.scId = s → mapFind r.cswNullifiers csw.nullifier = some h) :
    SafeSteps s (l.map (fun csw => (csw.scId, true, cswClean csw))) r := by
  induction l generalizing r with
  | nil => trivial
  | cons c rest ih =>
    rw [List.map_cons, safeSteps_cons]
    simp only [List.map_cons, List.nodup_cons] at hnd
    by_cases hs : c.scId = s
    · simp only [hs, if_true, true_implies]
      refine ⟨CSidechainMemPoolEntry.isNull_false_of_csw
        (mem_of_mapFind (hrec c (List.mem_cons_self _ _) hs)), ?_⟩
      apply ih _ hnd.2
      intro csw hcsw hcs
      have hne : c.nullifier ≠ csw.nullifier := by
        intro heq
        apply hnd.1
        rw [List.mem_map]
        exact ⟨csw, hcsw, by rw [hcs, ← hs, heq]⟩
      simp only [cswClean, mapFind_mapErase, hne, if_false]
      exact hrec csw (List.mem_cons_of_mem _ hcsw) hcs
    · simp only [hs, if_false]
      exact ih _ hnd.2 (fun csw hcsw => hrec csw (List.mem_cons_of_mem _ hcsw))

theorem safe_scSteps (s : Nat) (l : List CTxScCreationOut) (r : CSidechainMemPoolEntry)
    (hnd : (l.map (fun sc => sc.scId)).Nodup)
    (hrec : s ∈ l.map (fun sc => sc.scId) → r.scCreationTxHash ≠ 0) :
    SafeSteps s (l.map (fun sc => (sc.scId, true, scClean))) r := by
  induction l generalizing r with
  | nil => trivial
  | cons c rest ih =>
    rw [List.map_cons, safeSteps_cons]
    simp only [List.map_cons, List.nodup_cons] at hnd
    by_cases hs : c.scId = s
    · simp only [hs, if_true, true_implies]
      refine ⟨CSidechainMemPoolEntry.isNull_false_of_sc (hrec (by simp [hs])), ?_⟩
      apply ih _ hnd.2
      intro hc
      exact absurd (hs ▸ hc) hnd.1
    · simp only [hs, if_false]
      apply ih _ hnd.2
      intro hc
      exact hrec (List.mem_cons_of_mem _ hc)

/-- The updates made for a transaction whose references are all recorded in the
row never meet a missing row. -/
theorem safe_removalSteps (tx : CTransaction) (s : Nat) (r : CSidechainMemPoolEntry)
    (hwf : TxWF tx)
    (hcsw : ∀ csw ∈ tx.vcsw_ccin, csw.scId = s →
      mapFind r.cswNullifiers csw.nullifier = some tx.hash)
    (hsc : s ∈ tx.vsc_ccout.map (fun sc => sc.scId) → r.scCreationTxHash = tx.hash) :
    SafeSteps s (removalSteps tx) r := by
  unfold removalSteps
  rw [safeSteps_append, safeSteps_append, safeSteps_append]
  refine ⟨⟨⟨safe_cswSteps s tx.hash _ r hwf.2.2.1 hcsw, ?_⟩, ?_⟩, ?_⟩
  · apply safeSteps_of_guarded
    intro step hstep _
    obtain ⟨c, _, rfl⟩ := List.mem_map.mp hstep
    rfl
  · apply safeSteps_of_guarded
    intro step hstep _
    obtain ⟨c, _, rfl⟩ := List.mem_map.mp hstep
    rfl
  · apply safe_scSteps _ _ _ hwf.2.2.2
    intro hs
    rw [compSteps_append, compSteps_append, comp_cswSteps, comp_btrSteps, comp_fwdSteps]
    have h0 : tx.hash ≠ 0 := hwf.1
    have := hsc hs
    by_cases h1 : s ∈ tx.vmbtr_out.map (fun btr => btr.scId) <;>
      by_cases h2 : s ∈ tx.vft_ccout.map (fun fwd => fwd.scId) <;>
      simp only [h1, h2, if_true, if_false, btrClean, fwdClean] <;>
      first
        | (rw [this]; exact h0)
        | (split <;> (simp only [this]; exact h0))

/-- The composition of the updates made for a transaction whose references are
faithfully recorded in the row removes exactly these references. -/
theorem comp_removalSteps (tx : CTransaction) (s : Nat) (r : CSidechainMemPoolEntry)
    (hcsw1 : ∀ csw ∈ tx.vcsw_ccin, csw.scId = s →
      mapFind r.cswNullifiers csw.nullifier = some tx.hash)
    (hcsw2 : ∀ kv ∈ r.cswNullifiers, kv.2 = tx.hash →
      ∃ csw ∈ tx.vcsw_ccin, csw.scId = s ∧ csw.nullifier = kv.1)
    (hcsw3 : ∀ kv ∈ r.cswNullifiers, mapFind r.cswNullifiers kv.1 = some kv.2)
    (hbtr : s ∈ tx.vmbtr_out.map (fun btr => btr.scId) ↔ tx.hash ∈ r.mcBtrsTxHashes)
    (hfwd : s ∈ tx.vft_ccout.map (fun fwd => fwd.scId) ↔ tx.hash ∈ r.fwdTxHashes)
    (hsc : s ∈ tx.vsc_ccout.map (fun sc => sc.scId) ↔ r.scCreationTxHash = tx.hash) :
    compSteps s (removalSteps tx) r = purgeTx tx.hash (tx.cswAmount s) r := by
  unfold removalSteps
  rw [compSteps_append, compSteps_append, compSteps_append, comp_cswSteps, comp_btrSteps,
    comp_fwdSteps, comp_scSteps]
  have hfilter : (tx.vcsw_ccin.filter (fun c => decide (c.scId = s))).foldl
      (fun m c => mapErase m c.nullifier) r.cswNullifiers =
      r.cswNullifiers.filter (fun kv => decide (kv.2 ≠ tx.hash)) := by
    rw [foldl_mapErase_eq_filter]
    apply List.filter_congr
    intro kv hkv
    by_cases hv : kv.2 = tx.hash
    · obtain ⟨csw, hc, hcs, hn⟩ := hcsw2 kv hkv hv
      have hmem : kv.1 ∈ (tx.vcsw_ccin.filter (fun c => decide (c.scId = s))).map
          (fun c => c.nullifier) :=
        List.mem_map.mpr ⟨csw, List.mem_filter.mpr ⟨hc, by simpa using hcs⟩, hn⟩
      simp [hv, hmem]
    · have hnot : kv.1 ∉ (tx.vcsw_ccin.filter (fun c => decide (c.scId = s))).map
          (fun c => c.nullifier) := by
        intro hmem
        obtain ⟨csw, hc, hn⟩ := List.mem_map.mp hmem
        obtain ⟨hc1, hcs⟩ := List.mem_filter.mp hc
        have h1 := hcsw1 csw hc1 (by simpa using hcs)
        have h2 := hcsw3 kv hkv
        rw [hn, h2] at h1
        exact hv (by simpa using h1)
      simp [hv, hnot]
  have hb1 : tx.hash ∉ r.mcBtrsTxHashes → setErase r.mcBtrsTxHashes tx.hash = r.mcBtrsTxHashes :=
    setErase_of_not_mem
  have hf1 : tx.hash ∉ r.fwdTxHashes → setErase r.fwdTxHashes tx.hash = r.fwdTxHashes :=
    setErase_of_not_mem
  unfold purgeTx CTransaction.cswAmount
  rw [hfilter]
  by_cases h1 : s ∈ tx.vmbtr_out.map (fun btr => btr.scId) <;>
    by_cases h2 : s ∈ tx.vft_ccout.map (fun fwd => fwd.scId) <;>
    by_cases h3 : s ∈ tx.vsc_ccout.map (fun sc => sc.scId) <;>
    have h1' := h1 <;> have h2' := h2 <;> have h3' := h3 <;>
    rw [hbtr] at h1' <;> rw [hfwd] at h2' <;> rw [hsc] at h3' <;>
    simp only [h1, h2, h3, if_true, if_false, btrClean, fwdClean, scClean] <;>
    (try split) <;>
    simp_all

namespace CTxMemPool

/-! ## Lemmas: removing one transaction from a well-formed pool -/

theorem removalSteps_strict_key {tx : CTransaction} {s : Nat}
    {step : Nat × Bool × (CSidechainMemPoolEntry → CSidechainMemPoolEntry)}
    (hstep : step ∈ removalSteps tx) (hk : step.1 = s) (hst : step.2.1 ≠ false) :
    (∃ csw ∈ tx.vcsw_ccin, csw.scId = s) ∨ (∃ sc ∈ tx.vsc_ccout, sc.scId = s) := by
  unfold removalSteps at hstep
  simp only [List.mem_append, List.mem_map] at hstep
  rcases hstep with ((⟨c, hc, rfl⟩ | ⟨c, _, rfl⟩) | ⟨c, _, rfl⟩) | ⟨c, hc, rfl⟩
  · exact Or.inl ⟨c, hc, hk⟩
  · exact absurd rfl hst
  · exact absurd rfl hst
  · exact Or.inr ⟨c, hc, hk⟩

theorem mem_map_pair {tx : CTransaction} {s nf : Nat}
    (h : (s, nf) ∈ tx.vcsw_ccin.map (fun c => (c.scId, c.nullifier))) :
    ∃ csw ∈ tx.vcsw_ccin, csw.scId = s ∧ csw.nullifier = nf := by
  obtain ⟨csw, hc, heq⟩ := List.mem_map.mp h
  simp only [Prod.mk.injEq] at heq
  exact ⟨csw, hc, heq.1, heq.2⟩

/-- On a well-formed pool the sidechain-table updates of `remove` for a pool
transaction complete and purge the transaction from every row. -/
theorem removeSidechains_spec {pool : CTxMemPool} (hw : WellFormed pool) {h : Nat}
    {e : CTxMemPoolEntry} (he : mapFind pool.mapTx h = some e) :
    ∃ m1, removeSidechains e.tx pool.mapSidechains = Outcome.done m1 ∧ KeySorted m1 ∧
      ∀ s, mapFind m1 s =
        (mapFind pool.mapSidechains s).bind (fun r => normRow (purgeTx h (e.tx.cswAmount s) r)) := by
  have hh : e.tx.hash = h := hw.tx_hash he
  have hview : ∀ s, viewSteps s (removalSteps e.tx) (mapFind pool.mapSidechains s) =
      Outcome.done ((mapFind pool.mapSidechains s).bind
        (fun r => normRow (purgeTx h (e.tx.cswAmount s) r))) := by
    intro s
    cases hr : mapFind pool.mapSidechains s with
    | none =>
      simp only [Option.bind]
      apply viewSteps_none
      intro step hstep hk
      by_contra hst
      rcases removalSteps_strict_key hstep hk hst with ⟨csw, hc, hcs⟩ | ⟨sc, hsc, hss⟩
      · obtain ⟨r, hr1, _⟩ := hw.row_of_csw he hc
        rw [hcs, hr] at hr1; cases hr1
      · obtain ⟨r, hr1, _⟩ := hw.row_of_sc he hsc
        rw [hss, hr] at hr1; cases hr1
    | some r =>
      simp only [Option.bind]
      have hcsw1 : ∀ csw ∈ e.tx.vcsw_ccin, csw.scId = s →
          mapFind r.cswNullifiers csw.nullifier = some e.tx.hash := by
        intro csw hc hcs
        obtain ⟨r1, hr1, h1⟩ := hw.row_of_csw he hc
        rw [hcs, hr] at hr1
        cases hr1
        rw [hh]; exact h1
      have hsc1 : s ∈ e.tx.vsc_ccout.map (fun sc => sc.scId) → r.scCreationTxHash = e.tx.hash := by
        intro hs
        obtain ⟨sc, hsc, hss⟩ := List.mem_map.mp hs
        obtain ⟨r1, hr1, h1⟩ := hw.row_of_sc he hsc
        rw [hss, hr] at hr1
        cases hr1
        rw [hh]; exact h1
      have hnn : normRow r = some r := by
        simp [normRow, hw.row_not_null hr]
      rw [← hnn, view_of_safe s _ (removalSteps_null e.tx) r
        (safe_removalSteps e.tx s r (hw.tx_wf he) hcsw1 hsc1)]
      rw [comp_removalSteps e.tx s r hcsw1, hh]
      · intro kv hkv hv
        obtain ⟨e1, he1, hmem⟩ := hw.csw_backed hr hkv
        rw [hv, hh, he] at he1
        cases he1
        exact mem_map_pair hmem
      · intro kv hkv
        obtain ⟨e1, he1, hmem⟩ := hw.csw_backed hr hkv
        obtain ⟨csw, hc, hcs, hn⟩ := mem_map_pair hmem
        obtain ⟨r1, hr1, h1⟩ := hw.row_of_csw he1 hc
        rw [hcs, hr] at hr1
        cases hr1
        rw [← hn]; exact h1
      · constructor
        · intro hs
          obtain ⟨btr, hb, hbs⟩ := List.mem_map.mp hs
          obtain ⟨r1, hr1, h1⟩ := hw.row_of_btr he hb
          rw [hbs, hr] at hr1
          cases hr1
          rw [hh]; exact h1
        · intro hm
          obtain ⟨e1, he1, hmem⟩ := hw.btr_backed hr hm
          rw [hh, he] at he1
          cases he1
          exact hmem
      · constructor
        · intro hs
          obtain ⟨fwd, hf, hfs⟩ := List.mem_map.mp hs
          obtain ⟨r1, hr1, h1⟩ := hw.row_of_fwd he hf
          rw [hfs, hr] at hr1
          cases hr1
          rw [hh]; exact h1
        · intro hm
          obtain ⟨e1, he1, hmem⟩ := hw.fwd_backed hr hm
          rw [hh, he] at he1
          cases he1
          exact hmem
      · constructor
        · exact hsc1
        · intro hm
          have h0 : r.scCreationTxHash ≠ 0 := by
            rw [hm]; exact (hw.tx_wf he).1
          obtain ⟨e1, he1, hmem⟩ := hw.sc_backed hr h0
          rw [hm, hh, he] at he1
          cases he1
          exact hmem
  obtain ⟨m1, hm1⟩ := steps_total (removalSteps e.tx) pool.mapSidechains
    (fun s => ⟨_, hview s⟩)
  refine ⟨m1, by rw [removeSidechains_eq]; exact hm1, steps_sorted _ _ _ hw.sorted_sc hm1, ?_⟩
  intro s
  have := steps_view _ _ _ hm1 s
  rw [hview s] at this
  exact (Outcome.done.inj this).symm

theorem nullifiers_foldl_eq {V : Type} (vjoinsplit : List JSDescription) (m : List (Nat × V)) :
    vjoinsplit.foldl
      (fun m1 joinsplit => joinsplit.nullifiers.foldl (fun m2 nf => mapErase m2 nf) m1) m =
    (vjoinsplit.flatMap (fun js => js.nullifiers)).foldl (fun m2 nf => mapErase m2 nf) m := by
  induction vjoinsplit generalizing m with
  | nil => rfl
  | cons js rest ih =>
    simp only [List.foldl_cons, List.flatMap_cons, List.foldl_append, ih]

/-- On a well-formed pool the removal of a pool transaction completes and yields
the pool with the transaction removed from every table. -/
theorem removeTxEntry_spec (st : Removal) (hw : WellFormed st.pool) {h : Nat}
    {e : CTxMemPoolEntry} (he : mapFind st.pool.mapTx h = some e) :
    ∃ st1, removeTxEntry st h e = Outcome.done st1 ∧ TxRemoved st.pool st1.pool h e ∧
      st1.removedTxs = st.removedTxs ++ [e.tx] ∧ st1.removedCerts = st.removedCerts := by
  obtain ⟨m1, hm1, hsorted, hfind⟩ := removeSidechains_spec hw he
  unfold removeTxEntry
  simp only [CTxMemPoolEntry.GetTx, hm1, Outcome.bind_done]
  refine ⟨_, rfl, ?_, rfl, rfl⟩
  refine ⟨rfl, rfl, ?_, ?_, hfind, hsorted, rfl⟩
  · intro o
    exact mapFind_foldl_mapErase (fun i : CTxIn => i.prevout) e.tx.vin st.pool.mapNextTx o
  · intro nf
    simp only
    rw [nullifiers_foldl_eq]
    have := mapFind_foldl_mapErase (fun x : Nat => x) e.tx.nullifiers st.pool.mapNullifiers nf
    simpa [CTransaction.nullifiers] using this

end CTxMemPool

theorem normRow_eq_some {r r1 : CSidechainMemPoolEntry} (h : normRow r = some r1) :
    r1 = r ∧ r.IsNull = false := by
  unfold normRow at h
  by_cases hn : r.IsNull = true
  · simp [hn] at h
  · simp only [hn, Bool.false_eq_true, if_false, Option.some.injEq] at h
    exact ⟨h.symm, by simpa using hn⟩

theorem normRow_of_not_null {r : CSidechainMemPoolEntry} (h : r.IsNull = false) :
    normRow r = some r := by
  simp [normRow, h]

theorem mem_enum_of_mem {α : Type} {l : List α} {x : α} (h : x ∈ l) : ∃ i, (i, x) ∈ l.enum := by
  obtain ⟨i, hi⟩ := List.get?_of_mem h
  exact ⟨i, List.mk_mem_enum_iff_getElem?.mpr (by rw [← List.get?_eq_getElem?]; exact hi)⟩

namespace CTxMemPool

section TxRemovedFacts

variable {p p1 : CTxMemPool} {h : Nat} {e : CTxMemPoolEntry}

theorem TxRemoved.find_tx (hr : TxRemoved p p1 h e) (k : Nat) :
    mapFind p1.mapTx k = if h = k then none else mapFind p.mapTx k := by
  rw [hr.mapTx, mapFind_mapErase]

theorem TxRemoved.tx_of (hr : TxRemoved p p1 h e) {k : Nat} {e2 : CTxMemPoolEntry}
    (hk : mapFind p1.mapTx k = some e2) : k ≠ h ∧ mapFind p.mapTx k = some e2 := by
  rw [hr.find_tx] at hk
  by_cases hh : h = k
  · simp [hh] at hk
  · simp only [hh, if_false] at hk
    exact ⟨fun hc => hh hc.symm, hk⟩

theorem TxRemoved.tx_to (hr : TxRemoved p p1 h e) {k : Nat} (hk : k ≠ h) :
    mapFind p1.mapTx k = mapFind p.mapTx k := by
  rw [hr.find_tx]
  have : ¬ h = k := fun hc => hk hc.symm
  simp [this]

theorem TxRemoved.deref_eq_txRm (hr : TxRemoved p p1 h e) {k : Nat} (hk : k ≠ h) :
    p1.deref k = p.deref k := by
  unfold deref
  rw [hr.tx_to hk, hr.mapCertificate]

theorem WellFormed.spender_of_prevout (hw : WellFormed p) (he : mapFind p.mapTx h = some e)
    {o : COutPoint} (ho : o ∈ e.tx.vin.map (fun i => i.prevout)) :
    ∃ j, mapFind p.mapNextTx o = some ⟨h, j⟩ ∧ (e.tx.vin.get? j).map (fun i => i.prevout) = some o := by
  obtain ⟨i, hi, rfl⟩ := List.mem_map.mp ho
  obtain ⟨j, hj⟩ := mem_enum_of_mem hi
  refine ⟨j, hw.next_of_tx he hj, ?_⟩
  rw [List.get?_eq_getElem?, List.mk_mem_enum_iff_getElem?.mp hj]
  rfl

theorem WellFormed.spender_of_prevout_cert (hw : WellFormed p) {e2 : CCertificateMemPoolEntry}
    (he : mapFind p.mapCertificate h = some e2)
    {o : COutPoint} (ho : o ∈ e2.cert.vin.map (fun i => i.prevout)) :
    ∃ j, mapFind p.mapNextTx o = some ⟨h, j⟩ := by
  obtain ⟨i, hi, rfl⟩ := List.mem_map.mp ho
  obtain ⟨j, hj⟩ := mem_enum_of_mem hi
  exact ⟨j, hw.next_of_cert he hj⟩

theorem TxRemoved.keysOk_txRm (hr : TxRemoved p p1 h e) (hw : WellFormed p) : KeysOk p1 := by
  refine ⟨mapAll_iff.mpr ?_, mapAll_iff.mpr ?_, ?_, ?_, hr.sortedSc⟩
  · intro k e2 hk
    obtain ⟨_, hk2⟩ := hr.tx_of hk
    exact ⟨hw.tx_hash hk2, hw.tx_wf hk2⟩
  · intro k e2 hk
    rw [hr.mapCertificate] at hk
    refine ⟨hw.cert_hash hk, hw.cert_wf hk, ?_⟩
    rw [hr.find_tx]
    by_cases hh : h = k
    · simp [hh]
    · simp only [hh, if_false]; exact hw.cert_not_tx hk
  · rw [hr.mapTx]; exact keySorted_mapErase _ _ hw.sorted_tx
  · rw [hr.mapCertificate]; exact hw.sorted_cert

theorem TxRemoved.nextTxOk_txRm (hr : TxRemoved p p1 h e) (hw : WellFormed p)
    (he : mapFind p.mapTx h = some e) : NextTxOk p1 := by
  refine ⟨mapAll_iff.mpr ?_, mapAll_iff.mpr ?_, mapAll_iff.mpr ?_⟩
  · intro k e2 hk ix hix
    obtain ⟨hne, hk2⟩ := hr.tx_of hk
    have h1 := hw.next_of_tx hk2 hix
    rw [hr.nextTx]
    by_cases ho : ix.2.prevout ∈ e.tx.vin.map (fun i => i.prevout)
    · obtain ⟨j, hj, _⟩ := hw.spender_of_prevout he ho
      rw [h1] at hj
      simp only [Option.some.injEq, CInPoint.mk.injEq] at hj
      exact absurd hj.1 hne
    · simp only [ho, if_false]; exact h1
  · intro k e2 hk ix hix
    rw [hr.mapCertificate] at hk
    have h1 := hw.next_of_cert hk hix
    rw [hr.nextTx]
    by_cases ho : ix.2.prevout ∈ e.tx.vin.map (fun i => i.prevout)
    · obtain ⟨j, hj, _⟩ := hw.spender_of_prevout he ho
      rw [h1] at hj
      simp only [Option.some.injEq, CInPoint.mk.injEq] at hj
      have := hw.cert_not_tx hk
      rw [hj.1, he] at this
      cases this
    · simp only [ho, if_false]; exact h1
  · intro o ip ho
    rw [hr.nextTx] at ho
    by_cases hmem : o ∈ e.tx.vin.map (fun i => i.prevout)
    · simp [hmem] at ho
    · simp only [hmem, if_false] at ho
      obtain ⟨b, hb, hget⟩ := hw.next_backed ho
      have hne : ip.ptx ≠ h := by
        intro hc
        rw [hc, deref_tx he] at hb
        cases hb
        apply hmem
        simp only [CTransactionBase.GetVin, Option.map_eq_some'] at hget
        obtain ⟨i, hi, hio⟩ := hget
        exact List.mem_map.mpr ⟨i, List.get?_mem hi, hio⟩
      exact ⟨b, by rw [hr.deref_eq_txRm hne]; exact hb, hget⟩

theorem TxRemoved.nullifiersOk_txRm (hr : TxRemoved p p1 h e) (hw : WellFormed p)
    (he : mapFind p.mapTx h = some e) : NullifiersOk p1 := by
  refine ⟨mapAll_iff.mpr ?_, mapAll_iff.mpr ?_⟩
  · intro k e2 hk nf hnf
    obtain ⟨hne, hk2⟩ := hr.tx_of hk
    have h1 := hw.nullifier_of_tx hk2 hnf
    rw [hr.nullifiers]
    by_cases ho : nf ∈ e.tx.nullifiers
    · have h2 := hw.nullifier_of_tx he ho
      rw [h1] at h2
      exact absurd (Option.some.inj h2) hne
    · simp only [ho, if_false]; exact h1
  · intro nf k hk
    rw [hr.nullifiers] at hk
    by_cases hmem : nf ∈ e.tx.nullifiers
    · simp [hmem] at hk
    · simp only [hmem, if_false] at hk
      obtain ⟨e2, he2, hnf⟩ := hw.nullifier_backed hk
      have hne : k ≠ h := by
        intro hc
        rw [hc, he] at he2
        cases he2
        exact hmem hnf
      exact ⟨e2, by rw [hr.tx_to hne]; exact he2, hnf⟩

end TxRemovedFacts

end CTxMemPool

namespace CTxMemPool

section TxRemovedRows

variable {p p1 : CTxMemPool} {h : Nat} {e : CTxMemPoolEntry}

theorem TxRemoved.row_of_txRm (hr : TxRemoved p p1 h e) {s : Nat} {r1 : CSidechainMemPoolEntry}
    (h1 : mapFind p1.mapSidechains s = some r1) :
    ∃ r, mapFind p.mapSidechains s = some r ∧ r1 = purgeTx h (e.tx.cswAmount s) r ∧
      r1.IsNull = false := by
  rw [hr.sidechains] at h1
  cases hrow : mapFind p.mapSidechains s with
  | none => rw [hrow] at h1; cases h1
  | some r =>
    rw [hrow] at h1
    obtain ⟨h2, h3⟩ := normRow_eq_some h1
    exact ⟨r, rfl, h2, h2 ▸ h3⟩

theorem TxRemoved.row_to_txRm (hr : TxRemoved p p1 h e) {s : Nat} {r : CSidechainMemPoolEntry}
    (h1 : mapFind p.mapSidechains s = some r)
    (hn : (purgeTx h (e.tx.cswAmount s) r).IsNull = false) :
    mapFind p1.mapSidechains s = some (purgeTx h (e.tx.cswAmount s) r) := by
  rw [hr.sidechains, h1]
  exact normRow_of_not_null hn

theorem TxRemoved.rowsRecord_txRm (hr : TxRemoved p p1 h e) (hw : WellFormed p) : RowsRecord p1 := by
  refine ⟨mapAll_iff.mpr ?_, mapAll_iff.mpr ?_⟩
  · intro k e2 hk
    obtain ⟨hne, hk2⟩ := hr.tx_of hk
    refine ⟨?_, ?_, ?_, ?_⟩
    · intro sc hsc
      obtain ⟨r, hrow, hcre⟩ := hw.row_of_sc hk2 hsc
      have hf : (purgeTx h (e.tx.cswAmount sc.scId) r).scCreationTxHash = k := by
        simp [purgeTx, hcre, hne]
      refine ⟨_, hr.row_to_txRm hrow ?_, hf⟩
      apply CSidechainMemPoolEntry.isNull_false_of_sc
      rw [hf, ← hw.tx_hash hk2]
      exact (hw.tx_wf hk2).1
    · intro fwd hfwd
      obtain ⟨r, hrow, hmem⟩ := hw.row_of_fwd hk2 hfwd
      have hf : k ∈ (purgeTx h (e.tx.cswAmount fwd.scId) r).fwdTxHashes := by
        simp only [purgeTx, mem_setErase]
        exact ⟨hmem, hne⟩
      exact ⟨_, hr.row_to_txRm hrow (CSidechainMemPoolEntry.isNull_false_of_fwd hf), hf⟩
    · intro btr hbtr
      obtain ⟨r, hrow, hmem⟩ := hw.row_of_btr hk2 hbtr
      have hf : k ∈ (purgeTx h (e.tx.cswAmount btr.scId) r).mcBtrsTxHashes := by
        simp only [purgeTx, mem_setErase]
        exact ⟨hmem, hne⟩
      exact ⟨_, hr.row_to_txRm hrow (CSidechainMemPoolEntry.isNull_false_of_btr hf), hf⟩
    · intro csw hcsw
      obtain ⟨r, hrow, hmem⟩ := hw.row_of_csw hk2 hcsw
      have hf : mapFind (purgeTx h (e.tx.cswAmount csw.scId) r).cswNullifiers csw.nullifier =
          some k := by
        simp only [purgeTx]
        exact mapFind_filter_value (fun v => decide (v ≠ h)) _ _ _ hmem (by simpa using hne)
      exact ⟨_, hr.row_to_txRm hrow (CSidechainMemPoolEntry.isNull_false_of_csw (mem_of_mapFind hf)), hf⟩
  · intro k e2 hk
    rw [hr.mapCertificate] at hk
    obtain ⟨r, hrow, hmem⟩ := hw.row_of_cert hk
    have hf : mapFind (purgeTx h (e.tx.cswAmount e2.cert.scId) r).mBackwardCertificates
        e2.cert.quality = some k := hmem
    exact ⟨_, hr.row_to_txRm hrow (CSidechainMemPoolEntry.isNull_false_of_cert (mem_of_mapFind hf)), hf⟩

theorem cswSum_mapErase (hw : WellFormed p) (he : mapFind p.mapTx h = some e) (s : Nat) :
    ((mapErase p.mapTx h).map (fun kv => kv.2.tx.cswAmount s)).sum =
      p.cswSum s - e.tx.cswAmount s := by
  have h1 := ((mapErase_perm hw.sorted_tx he).map (fun kv => kv.2.tx.cswAmount s)).sum_eq
  unfold cswSum
  rw [h1]
  simp

theorem TxRemoved.rowsBacked_txRm (hr : TxRemoved p p1 h e) (hw : WellFormed p)
    (he : mapFind p.mapTx h = some e) : RowsBacked p1 := by
  refine mapAll_iff.mpr ?_
  intro s r1 hrow1
  obtain ⟨r, hrow, rfl, hnn⟩ := hr.row_of_txRm hrow1
  refine ⟨hnn, ?_, ?_, ?_, ?_, ?_, ?_⟩
  · intro h0
    have hsc : (purgeTx h (e.tx.cswAmount s) r).scCreationTxHash = r.scCreationTxHash ∧
        r.scCreationTxHash ≠ h := by
      by_cases hc : r.scCreationTxHash = h
      · simp [purgeTx, hc] at h0
      · simp [purgeTx, hc]
    rw [hsc.1] at h0 ⊢
    obtain ⟨e2, he2, hmem⟩ := hw.sc_backed hrow h0
    exact ⟨e2, by rw [hr.tx_to hsc.2]; exact he2, hmem⟩
  · intro k hk
    simp only [purgeTx, mem_setErase] at hk
    obtain ⟨e2, he2, hmem⟩ := hw.fwd_backed hrow hk.1
    exact ⟨e2, by rw [hr.tx_to hk.2]; exact he2, hmem⟩
  · intro k hk
    simp only [purgeTx, mem_setErase] at hk
    obtain ⟨e2, he2, hmem⟩ := hw.btr_backed hrow hk.1
    exact ⟨e2, by rw [hr.tx_to hk.2]; exact he2, hmem⟩
  · intro kv hkv
    simp only [purgeTx, List.mem_filter, decide_eq_true_eq] at hkv
    obtain ⟨e2, he2, hmem⟩ := hw.csw_backed hrow hkv.1
    exact ⟨e2, by rw [hr.tx_to hkv.2]; exact he2, hmem⟩
  · intro kv hkv
    obtain ⟨e2, he2, hmem⟩ := hw.cert_backed hrow hkv
    exact ⟨e2, by rw [hr.mapCertificate]; exact he2, hmem⟩
  · have h1 := hw.csw_total hrow
    simp only [purgeTx, h1]
    unfold cswSum
    rw [hr.mapTx, cswSum_mapErase hw he]
    rfl

/-- Removing a pool transaction from a well-formed pool leaves a well-formed pool. -/
theorem TxRemoved.wellFormed_txRm (hr : TxRemoved p p1 h e) (hw : WellFormed p)
    (he : mapFind p.mapTx h = some e) : WellFormed p1 :=
  ⟨hr.keysOk_txRm hw, hr.nextTxOk_txRm hw he, hr.nullifiersOk_txRm hw he, hr.rowsRecord_txRm hw,
    hr.rowsBacked_txRm hw he⟩

end TxRemovedRows

end CTxMemPool

namespace CTxMemPool

/-! ## Lemmas: removing one certificate from a well-formed pool -/

/-- On a well-formed pool the removal of a pool certificate completes and yields
the pool with the certificate removed from every table. -/
theorem removeCertEntry_spec (st : Removal) (hw : WellFormed st.pool) {h : Nat}
    {e : CCertificateMemPoolEntry} (he : mapFind st.pool.mapCertificate h = some e) :
    ∃ st1, removeCertEntry st h e = Outcome.done st1 ∧ CertRemoved st.pool st1.pool h e ∧
      st1.removedTxs = st.removedTxs ∧ st1.removedCerts = st.removedCerts ++ [e.cert] := by
  obtain ⟨r, hrow, _⟩ := hw.row_of_cert he
  unfold removeCertEntry
  simp only [CCertificateMemPoolEntry.GetCertificate, hrow]
  refine ⟨_, rfl, ?_, rfl, rfl⟩
  refine ⟨rfl, rfl, ?_, rfl, ?_, ?_, rfl⟩
  · intro o
    exact mapFind_foldl_mapErase (fun i : CTxIn => i.prevout) e.cert.vin st.pool.mapNextTx o
  · intro s
    simp only
    by_cases hn : (r.EraseCert h).IsNull = true
    · simp only [hn, if_true, mapFind_mapErase]
      by_cases hs : e.cert.scId = s
      · subst hs; simp [hrow, normRow, hn]
      · simp [hs]
    · simp only [hn, Bool.false_eq_true, if_false, mapFind_mapInsert]
      by_cases hs : e.cert.scId = s
      · subst hs; simp [hrow, normRow, hn]
      · simp [hs]
  · simp only
    split
    · exact keySorted_mapErase _ _ hw.sorted_sc
    · exact keySorted_mapInsert _ _ _ hw.sorted_sc

section CertRemovedFacts

variable {p p1 : CTxMemPool} {h : Nat} {e : CCertificateMemPoolEntry}

theorem CertRemoved.find_cert (hr : CertRemoved p p1 h e) (k : Nat) :
    mapFind p1.mapCertificate k = if h = k then none else mapFind p.mapCertificate k := by
  rw [hr.mapCertificate, mapFind_mapErase]

theorem CertRemoved.cert_of (hr : CertRemoved p p1 h e) {k : Nat} {e2 : CCertificateMemPoolEntry}
    (hk : mapFind p1.mapCertificate k = some e2) : k ≠ h ∧ mapFind p.mapCertificate k = some e2 := by
  rw [hr.find_cert] at hk
  by_cases hh : h = k
  · simp [hh] at hk
  · simp only [hh, if_false] at hk
    exact ⟨fun hc => hh hc.symm, hk⟩

theorem CertRemoved.cert_to (hr : CertRemoved p p1 h e) {k : Nat} (hk : k ≠ h) :
    mapFind p1.mapCertificate k = mapFind p.mapCertificate k := by
  rw [hr.find_cert]
  have : ¬ h = k := fun hc => hk hc.symm
  simp [this]

theorem CertRemoved.deref_eq_certRm (hr : CertRemoved p p1 h e) {k : Nat} (hk : k ≠ h) :
    p1.deref k = p.deref k := by
  unfold deref
  rw [hr.cert_to hk, hr.mapTx]

theorem CertRemoved.keysOk_certRm (hr : CertRemoved p p1 h e) (hw : WellFormed p) : KeysOk p1 := by
  refine ⟨mapAll_iff.mpr ?_, mapAll_iff.mpr ?_, ?_, ?_, hr.sortedSc⟩
  · intro k e2 hk
    rw [hr.mapTx] at hk
    exact ⟨hw.tx_hash hk, hw.tx_wf hk⟩
  · intro k e2 hk
    obtain ⟨_, hk2⟩ := hr.cert_of hk
    refine ⟨hw.cert_hash hk2, hw.cert_wf hk2, ?_⟩
    rw [hr.mapTx]
    exact hw.cert_not_tx hk2
  · rw [hr.mapTx]; exact hw.sorted_tx
  · rw [hr.mapCertificate]; exact keySorted_mapErase _ _ hw.sorted_cert

theorem CertRemoved.nextTxOk_certRm (hr : CertRemoved p p1 h e) (hw : WellFormed p)
    (he : mapFind p.mapCertificate h = some e) : NextTxOk p1 := by
  refine ⟨mapAll_iff.mpr ?_, mapAll_iff.mpr ?_, mapAll_iff.mpr ?_⟩
  · intro k e2 hk ix hix
    rw [hr.mapTx] at hk
    have h1 := hw.next_of_tx hk hix
    rw [hr.nextTx]
    by_cases ho : ix.2.prevout ∈ e.cert.vin.map (fun i => i.prevout)
    · obtain ⟨j, hj⟩ := hw.spender_of_prevout_cert he ho
      rw [h1] at hj
      simp only [Option.some.injEq, CInPoint.mk.injEq] at hj
      have := hw.cert_not_tx he
      rw [← hj.1, hk] at this
      cases this
    · simp only [ho, if_false]; exact h1
  · intro k e2 hk ix hix
    obtain ⟨hne, hk2⟩ := hr.cert_of hk
    have h1 := hw.next_of_cert hk2 hix
    rw [hr.nextTx]
    by_cases ho : ix.2.prevout ∈ e.cert.vin.map (fun i => i.prevout)
    · obtain ⟨j, hj⟩ := hw.spender_of_prevout_cert he ho
      rw [h1] at hj
      simp only [Option.some.injEq, CInPoint.mk.injEq] at hj
      exact absurd hj.1 hne
    · simp only [ho, if_false]; exact h1
  · intro o ip ho
    rw [hr.nextTx] at ho
    by_cases hmem : o ∈ e.cert.vin.map (fun i => i.prevout)
    · simp [hmem] at ho
    · simp only [hmem, if_false] at ho
      obtain ⟨b, hb, hget⟩ := hw.next_backed ho
      have hne : ip.ptx ≠ h := by
        intro hc
        rw [hc, deref_cert (hw.cert_not_tx he) he] at hb
        cases hb
        apply hmem
        simp only [CTransactionBase.GetVin, Option.map_eq_some'] at hget
        obtain ⟨i, hi, hio⟩ := hget
        exact List.mem_map.mpr ⟨i, List.get?_mem hi, hio⟩
      exact ⟨b, by rw [hr.deref_eq_certRm hne]; exact hb, hget⟩

theorem CertRemoved.nullifiersOk_certRm (hr : CertRemoved p p1 h e) (hw : WellFormed p) :
    NullifiersOk p1 := by
  unfold NullifiersOk
  rw [hr.mapTx, hr.nullifiers]
  exact hw.2.2.1

theorem CertRemoved.row_to_certRm (hr : CertRemoved p p1 h e) {s : Nat} {r : CSidechainMemPoolEntry}
    (h1 : mapFind p.mapSidechains s = some r) (hn : (r.EraseCert h).IsNull = false) :
    ∃ r1, mapFind p1.mapSidechains s = some r1 ∧
      r1.scCreationTxHash = r.scCreationTxHash ∧ r1.fwdTxHashes = r.fwdTxHashes ∧
      r1.mcBtrsTxHashes = r.mcBtrsTxHashes ∧ r1.cswNullifiers = r.cswNullifiers ∧
      r1.cswTotalAmount = r.cswTotalAmount ∧
      (r1.mBackwardCertificates = r.mBackwardCertificates ∨
        r1.mBackwardCertificates = r.mBackwardCertificates.filter (fun kv => decide (kv.2 ≠ h))) := by
  rw [hr.sidechains]
  by_cases hs : e.cert.scId = s
  · rw [if_pos hs, h1]
    exact ⟨r.EraseCert h, normRow_of_not_null hn, rfl, rfl, rfl, rfl, rfl, Or.inr rfl⟩
  · rw [if_neg hs, h1]
    exact ⟨r, rfl, rfl, rfl, rfl, rfl, rfl, Or.inl rfl⟩

theorem CertRemoved.row_of_certRm (hr : CertRemoved p p1 h e) (hw : WellFormed p) {s : Nat}
    {r1 : CSidechainMemPoolEntry} (h1 : mapFind p1.mapSidechains s = some r1) :
    ∃ r, mapFind p.mapSidechains s = some r ∧
      r1.scCreationTxHash = r.scCreationTxHash ∧ r1.fwdTxHashes = r.fwdTxHashes ∧
      r1.mcBtrsTxHashes = r.mcBtrsTxHashes ∧ r1.cswNullifiers = r.cswNullifiers ∧
      r1.cswTotalAmount = r.cswTotalAmount ∧
      (∀ kv ∈ r1.mBackwardCertificates, kv ∈ r.mBackwardCertificates) ∧
      (e.cert.scId = s → ∀ kv ∈ r1.mBackwardCertificates, kv.2 ≠ h) ∧ r1.IsNull = false := by
  rw [hr.sidechains] at h1
  by_cases hs : e.cert.scId = s
  · rw [if_pos hs] at h1
    cases hrow : mapFind p.mapSidechains s with
    | none => rw [hrow] at h1; cases h1
    | some r =>
      rw [hrow] at h1
      obtain ⟨h2, h3⟩ := normRow_eq_some h1
      subst h2
      refine ⟨r, rfl, rfl, rfl, rfl, rfl, rfl, ?_, ?_, h3⟩
      · intro kv hkv
        simp only [CSidechainMemPoolEntry.EraseCert, List.mem_filter, decide_eq_true_eq] at hkv
        exact hkv.1
      · intro _ kv hkv
        simp only [CSidechainMemPoolEntry.EraseCert, List.mem_filter, decide_eq_true_eq] at hkv
        exact hkv.2
  · rw [if_neg hs] at h1
    exact ⟨r1, h1, rfl, rfl, rfl, rfl, rfl, fun kv hkv => hkv, fun hc => absurd hc hs,
      hw.row_not_null h1⟩

theorem CertRemoved.rowsRecord_certRm (hr : CertRemoved p p1 h e) (hw : WellFormed p) :
    RowsRecord p1 := by
  refine ⟨mapAll_iff.mpr ?_, mapAll_iff.mpr ?_⟩
  · intro k e2 hk
    rw [hr.mapTx] at hk
    refine ⟨?_, ?_, ?_, ?_⟩
    · intro sc hsc
      obtain ⟨r, hrow, hcre⟩ := hw.row_of_sc hk hsc
      have h0 : r.scCreationTxHash ≠ 0 := by
        rw [hcre, ← hw.tx_hash hk]; exact (hw.tx_wf hk).1
      obtain ⟨r1, hr1, hsc1, _⟩ := hr.row_to_certRm hrow
        (CSidechainMemPoolEntry.isNull_false_of_sc (r := r.EraseCert h) h0)
      exact ⟨r1, hr1, hsc1.trans hcre⟩
    · intro fwd hfwd
      obtain ⟨r, hrow, hmem⟩ := hw.row_of_fwd hk hfwd
      obtain ⟨r1, hr1, _, hf1, _⟩ := hr.row_to_certRm hrow
        (CSidechainMemPoolEntry.isNull_false_of_fwd (r := r.EraseCert h) hmem)
      exact ⟨r1, hr1, by show k ∈ r1.fwdTxHashes; rw [hf1]; exact hmem⟩
    · intro btr hbtr
      obtain ⟨r, hrow, hmem⟩ := hw.row_of_btr hk hbtr
      obtain ⟨r1, hr1, _, _, hb1, _⟩ := hr.row_to_certRm hrow
        (CSidechainMemPoolEntry.isNull_false_of_btr (r := r.EraseCert h) hmem)
      exact ⟨r1, hr1, by show k ∈ r1.mcBtrsTxHashes; rw [hb1]; exact hmem⟩
    · intro csw hcsw
      obtain ⟨r, hrow, hmem⟩ := hw.row_of_csw hk hcsw
      obtain ⟨r1, hr1, _, _, _, hc1, _⟩ := hr.row_to_certRm hrow
        (CSidechainMemPoolEntry.isNull_false_of_csw (r := r.EraseCert h) (mem_of_mapFind hmem))
      exact ⟨r1, hr1, by show mapFind r1.cswNullifiers csw.nullifier = some k; rw [hc1]; exact hmem⟩
  · intro k e2 hk
    obtain ⟨hne, hk2⟩ := hr.cert_of hk
    obtain ⟨r, hrow, hmem⟩ := hw.row_of_cert hk2
    have hf : mapFind (r.EraseCert h).mBackwardCertificates e2.cert.quality = some k :=
      mapFind_filter_value (fun v => decide (v ≠ h)) _ _ _ hmem (by simpa using hne)
    obtain ⟨r1, hr1, _, _, _, _, _, hc1⟩ := hr.row_to_certRm hrow
      (CSidechainMemPoolEntry.isNull_false_of_cert (mem_of_mapFind hf))
    refine ⟨r1, hr1, ?_⟩
    rcases hc1 with hc1 | hc1
    · rw [hc1]; exact hmem
    · rw [hc1]; exact hf

theorem CertRemoved.rowsBacked_certRm (hr : CertRemoved p p1 h e) (hw : WellFormed p)
    (he : mapFind p.mapCertificate h = some e) : RowsBacked p1 := by
  refine mapAll_iff.mpr ?_
  intro s r1 hrow1
  obtain ⟨r, hrow, hsc, hfwd, hbtr, hcsw, htot, hcert, hne, hnn⟩ := hr.row_of_certRm hw hrow1
  refine ⟨hnn, ?_, ?_, ?_, ?_, ?_, ?_⟩
  · intro h0
    rw [hsc] at h0 ⊢
    rw [hr.mapTx]
    exact hw.sc_backed hrow h0
  · intro k hk
    rw [hfwd] at hk
    rw [hr.mapTx]
    exact hw.fwd_backed hrow hk
  · intro k hk
    rw [hbtr] at hk
    rw [hr.mapTx]
    exact hw.btr_backed hrow hk
  · intro kv hkv
    rw [hcsw] at hkv
    rw [hr.mapTx]
    exact hw.csw_backed hrow hkv
  · intro kv hkv
    obtain ⟨e2, he2, hs2, hq2⟩ := hw.cert_backed hrow (hcert kv hkv)
    have hk : kv.2 ≠ h := by
      intro hc
      rw [hc, he] at he2
      cases he2
      exact hne hs2 kv hkv hc
    exact ⟨e2, by rw [hr.cert_to hk]; exact he2, hs2, hq2⟩
  · rw [htot, hw.csw_total hrow]
    unfold cswSum
    rw [hr.mapTx]

/-- Removing a pool certificate from a well-formed pool leaves a well-formed pool. -/
theorem CertRemoved.wellFormed_certRm (hr : CertRemoved p p1 h e) (hw : WellFormed p)
    (he : mapFind p.mapCertificate h = some e) : WellFormed p1 :=
  ⟨hr.keysOk_certRm hw, hr.nextTxOk_certRm hw he, hr.nullifiersOk_certRm hw, hr.rowsRecord_certRm hw, hr.rowsBacked_certRm hw he⟩

end CertRemovedFacts

end CTxMemPool

theorem firstOcc_of_nodup {l : List Nat} (h : l.Nodup) : firstOcc l = l := by
  induction l with
  | nil => rfl
  | cons a rest ih =>
    rw [List.nodup_cons] at h
    unfold firstOcc
    rw [ih h.2, List.filter_eq_self.mpr]
    intro k hk
    have : k ≠ a := fun hc => h.1 (hc ▸ hk)
    simpa using this

theorem firstOcc_cons (h : Nat) (rest : List Nat) :
    firstOcc (h :: rest) = h :: (firstOcc rest).filter (fun k => decide (k ≠ h)) := rfl

theorem mem_firstOcc {l : List Nat} {k : Nat} : k ∈ firstOcc l ↔ k ∈ l := by
  induction l with
  | nil => simp [firstOcc]
  | cons a rest ih =>
    unfold firstOcc
    simp only [List.mem_cons, List.mem_filter, ih, decide_eq_true_eq]
    by_cases hk : k = a
    · simp [hk]
    · simp [hk]

namespace CTxMemPool

/-! ## Lemmas: the loop of `remove` -/

/-- One iteration of the loop of `remove` on a well-formed pool: it completes,
the pool stays well-formed, the hash is gone from both primary tables, every
other entry is untouched, and the payload found is appended to its list. -/
theorem removeOne_spec (st : Removal) (hw : WellFormed st.pool) (h : Nat) :
    ∃ st1, removeOne st h = Outcome.done st1 ∧ WellFormed st1.pool ∧
      (∀ k, mapFind st1.pool.mapTx k = if h = k then none else mapFind st.pool.mapTx k) ∧
      (∀ k, mapFind st1.pool.mapCertificate k =
        if h = k then none else mapFind st.pool.mapCertificate k) ∧
      st1.removedTxs = st.removedTxs ++ (st.pool.txAt h).toList ∧
      st1.removedCerts = st.removedCerts ++ (st.pool.certAt h).toList ∧
      st1.pool.mapDeltas = st.pool.mapDeltas := by
  unfold removeOne
  cases ht : mapFind st.pool.mapTx h with
  | some e =>
    obtain ⟨st1, h1, hrem, hout1, hout2⟩ := removeTxEntry_spec st hw ht
    have hcert : mapFind st.pool.mapCertificate h = none := by
      cases hc : mapFind st.pool.mapCertificate h with
      | none => rfl
      | some e2 =>
        have := hw.cert_not_tx hc
        rw [ht] at this
        cases this
    refine ⟨st1, h1, hrem.wellFormed_txRm hw ht, hrem.find_tx, ?_, ?_, ?_, hrem.mapDeltas⟩
    · intro k
      rw [hrem.mapCertificate]
      by_cases hk : h = k
      · rw [if_pos hk, ← hk, hcert]
      · rw [if_neg hk]
    · rw [hout1]; simp [txAt, ht]
    · rw [hout2]; simp [certAt, hcert]
  | none =>
    simp only
    cases hc : mapFind st.pool.mapCertificate h with
    | some e =>
      obtain ⟨st1, h1, hrem, hout1, hout2⟩ := removeCertEntry_spec st hw hc
      refine ⟨st1, h1, hrem.wellFormed_certRm hw hc, ?_, hrem.find_cert, ?_, ?_, hrem.mapDeltas⟩
      · intro k
        rw [hrem.mapTx]
        by_cases hk : h = k
        · rw [if_pos hk, ← hk, ht]
        · rw [if_neg hk]
      · rw [hout1]; simp [txAt, ht]
      · rw [hout2]; simp [certAt, hc]
    | none =>
      refine ⟨st, rfl, hw, ?_, ?_, ?_, ?_, rfl⟩
      · intro k
        by_cases hk : h = k
        · rw [if_pos hk, ← hk, ht]
        · rw [if_neg hk]
      · intro k
        by_cases hk : h = k
        · rw [if_pos hk, ← hk, hc]
        · rw [if_neg hk]
      · simp [txAt, ht]
      · simp [certAt, hc]

/-- The loop of `remove` over a list of hashes on a well-formed pool: it
completes, the pool stays well-formed, exactly the listed hashes are gone from
the primary tables, and the payloads found are appended in list order. -/
theorem removeLoop_spec (objs : List Nat) (st : Removal) (hw : WellFormed st.pool) :
    ∃ st1, Outcome.foldl removeOne st objs = Outcome.done st1 ∧ WellFormed st1.pool ∧
      (∀ k, mapFind st1.pool.mapTx k = if k ∈ objs then none else mapFind st.pool.mapTx k) ∧
      (∀ k, mapFind st1.pool.mapCertificate k =
        if k ∈ objs then none else mapFind st.pool.mapCertificate k) ∧
      st1.removedTxs = st.removedTxs ++ (firstOcc objs).filterMap st.pool.txAt ∧
      st1.removedCerts = st.removedCerts ++ (firstOcc objs).filterMap st.pool.certAt ∧
      st1.pool.mapDeltas = st.pool.mapDeltas := by
  induction objs generalizing st with
  | nil => exact ⟨st, rfl, hw, by simp, by simp, by simp [firstOcc], by simp [firstOcc], rfl⟩
  | cons h rest ih =>
    obtain ⟨st1, h1, hw1, htx1, hcert1, hout1, hout2, hd1⟩ := removeOne_spec st hw h
    obtain ⟨st2, h2, hw2, htx2, hcert2, hout3, hout4, hd2⟩ := ih st1 hw1
    refine ⟨st2, by simp only [Outcome.foldl_cons, h1, Outcome.bind_done, h2], hw2, ?_, ?_, ?_, ?_,
      hd2.trans hd1⟩
    · intro k
      rw [htx2, htx1]
      by_cases hk : k ∈ rest
      · simp [hk]
      · by_cases hk2 : h = k
        · simp [hk2]
        · have : ¬ k = h := fun hc => hk2 hc.symm
          simp [hk, hk2, this]
    · intro k
      rw [hcert2, hcert1]
      by_cases hk : k ∈ rest
      · simp [hk]
      · by_cases hk2 : h = k
        · simp [hk2]
        · have : ¬ k = h := fun hc => hk2 hc.symm
          simp [hk, hk2, this]
    · rw [hout3, hout1, List.append_assoc]
      congr 1
      have hrest : (firstOcc rest).filterMap st1.pool.txAt =
          ((firstOcc rest).filter (fun k => decide (k ≠ h))).filterMap st.pool.txAt := by
        rw [List.filterMap_filter]
        apply List.filterMap_congr
        intro k _
        by_cases hk : k = h
        · simp [txAt, htx1, hk]
        · have : ¬ h = k := fun hc => hk hc.symm
          simp [txAt, htx1, hk, this]
      rw [hrest, firstOcc_cons, List.filterMap_cons]
      cases st.pool.txAt h <;> simp
    · rw [hout4, hout2, List.append_assoc]
      congr 1
      have hrest : (firstOcc rest).filterMap st1.pool.certAt =
          ((firstOcc rest).filter (fun k => decide (k ≠ h))).filterMap st.pool.certAt := by
        rw [List.filterMap_filter]
        apply List.filterMap_congr
        intro k _
        by_cases hk : k = h
        · simp [certAt, hcert1, hk]
        · have : ¬ h = k := fun hc => hk hc.symm
          simp [certAt, hcert1, hk, this]
      rw [hrest, firstOcc_cons, List.filterMap_cons]
      cases st.pool.certAt h <;> simp

/-- Behaviour of `remove` on a well-formed pool. -/
theorem remove_spec (st : Removal) (hw : WellFormed st.pool) (origTx : CTransactionBase)
    (fRecursive : Bool) :
    ∃ deps st1,
      (if fRecursive then mempoolDependenciesOf st.pool origTx else Outcome.done []) =
        Outcome.done deps ∧
      deps.Nodup ∧ (∀ d ∈ deps, st.pool.deref d ≠ none) ∧
      remove st origTx fRecursive = Outcome.done st1 ∧ WellFormed st1.pool ∧
      (∀ k, mapFind st1.pool.mapTx k =
        if k ∈ origTx.GetHash :: deps then none else mapFind st.pool.mapTx k) ∧
      (∀ k, mapFind st1.pool.mapCertificate k =
        if k ∈ origTx.GetHash :: deps then none else mapFind st.pool.mapCertificate k) ∧
      st1.removedTxs = st.removedTxs ++
        (origTx.GetHash :: deps.filter (fun k => decide (k ≠ origTx.GetHash))).filterMap
          st.pool.txAt ∧
      st1.removedCerts = st.removedCerts ++
        (origTx.GetHash :: deps.filter (fun k => decide (k ≠ origTx.GetHash))).filterMap
          st.pool.certAt ∧
      st1.pool.mapDeltas = st.pool.mapDeltas := by
  have hdeps : ∃ deps,
      (if fRecursive then mempoolDependenciesOf st.pool origTx else Outcome.done []) =
        Outcome.done deps ∧ deps.Nodup ∧ (∀ d ∈ deps, st.pool.deref d ≠ none) := by
    cases fRecursive with
    | false => exact ⟨[], rfl, List.nodup_nil, by simp⟩
    | true =>
      obtain ⟨res, h1, h2, _, h4⟩ := mempoolDependenciesOf_correct st.pool origTx hw
      exact ⟨res, by simpa using h1, h2, h4⟩
  obtain ⟨deps, hd1, hd2, hd3⟩ := hdeps
  obtain ⟨st1, h1, hw1, htx, hcert, hout1, hout2, hdel⟩ :=
    removeLoop_spec (origTx.GetHash :: deps) st hw
  refine ⟨deps, st1, hd1, hd2, hd3, ?_, hw1, htx, hcert, ?_, ?_, hdel⟩
  · unfold remove objToRemove
    rw [hd1]
    simpa using h1
  · rw [hout1, firstOcc_cons, firstOcc_of_nodup hd2]
  · rw [hout2, firstOcc_cons, firstOcc_of_nodup hd2]

end CTxMemPool

namespace CTxMemPool

/-! ## Recursive removal -/

/-- C1: on a well-formed pool, `remove(x, …, recursive = true)` completes and
removes from the pool exactly `x` and the descendants of `x` as computed by
`mempoolDependenciesOf` before the call: none of these hashes is left in
`mapTx` or `mapCertificate`, and every other hash is bound as before. -/
theorem remove_recursive_exact (st : Removal) (x : CTransactionBase)
    (hw : WellFormed st.pool) :
    ∃ deps st1, mempoolDependenciesOf st.pool x = Outcome.done deps ∧
      remove st x true = Outcome.done st1 ∧
      (∀ h, h ∈ x.GetHash :: deps →
        mapFind st1.pool.mapTx h = none ∧ mapFind st1.pool.mapCertificate h = none) ∧
      (∀ h, h ∉ x.GetHash :: deps →
        mapFind st1.pool.mapTx h = mapFind st.pool.mapTx h ∧
        mapFind st1.pool.mapCertificate h = mapFind st.pool.mapCertificate h) := by
  obtain ⟨deps, st1, hd, _, _, hrem, _, htx, hcert, _⟩ := remove_spec st hw x true
  refine ⟨deps, st1, by simpa using hd, hrem, ?_, ?_⟩
  · intro h hh
    rw [htx, hcert]
    simp only [hh, if_true, and_self]
  · intro h hh
    rw [htx, hcert]
    simp only [hh, if_false, and_self]

/-- Witness for C1: scenario S4, removing the sidechain creation. -/
theorem remove_recursive_exact_witness :
    ∃ deps st1, mempoolDependenciesOf Scenario.poolS4 (CTransactionBase.tx Scenario.txCreate) =
        Outcome.done deps ∧
      remove ⟨Scenario.poolS4, [], []⟩ (CTransactionBase.tx Scenario.txCreate) true =
        Outcome.done st1 ∧
      (∀ h, h ∈ (CTransactionBase.tx Scenario.txCreate).GetHash :: deps →
        mapFind st1.pool.mapTx h = none ∧ mapFind st1.pool.mapCertificate h = none) ∧
      (∀ h, h ∉ (CTransactionBase.tx Scenario.txCreate).GetHash :: deps →
        mapFind st1.pool.mapTx h = mapFind Scenario.poolS4.mapTx h ∧
        mapFind st1.pool.mapCertificate h = mapFind Scenario.poolS4.mapCertificate h) :=
  remove_recursive_exact ⟨Scenario.poolS4, [], []⟩ (CTransactionBase.tx Scenario.txCreate)
    (by decide)

/-- C2, counterexample: in scenario S4 the pool built by adding the creation, the
forward transfer and the spender is well-formed, and removing the creation
recursively appends the creation first, then the forward transfer, then the
spender; the list is not the spender, the forward transfer, the creation. -/
theorem remove_order_counterexample :
    Scenario.addAll {} [Scenario.txCreate, Scenario.txForward, Scenario.txSpend] =
        Outcome.done Scenario.poolS4 ∧
      WellFormed Scenario.poolS4 ∧
      ∃ st1, remove ⟨Scenario.poolS4, [], []⟩ (CTransactionBase.tx Scenario.txCreate) true =
          Outcome.done st1 ∧
        st1.removedTxs = [Scenario.txCreate, Scenario.txForward, Scenario.txSpend] ∧
        st1.removedTxs ≠ [Scenario.txSpend, Scenario.txForward, Scenario.txCreate] := by
  refine ⟨by decide, by decide, ⟨{ nTransactionsUpdated := 6, nRecentlyAddedSequence := 3 },
    [Scenario.txCreate, Scenario.txForward, Scenario.txSpend], []⟩, by decide, rfl, by decide⟩

/-- C2, amended: on a well-formed pool, `remove(x, …, recursive = true)` processes
`x` first and then its descendants in the order of `mempoolDependenciesOf`; the
payloads are appended to the output lists in that order, so `x` precedes all of
its removed descendants. -/
theorem remove_appends_origin_first (st : Removal) (x : CTransactionBase)
    (hw : WellFormed st.pool) :
    ∃ deps st1, mempoolDependenciesOf st.pool x = Outcome.done deps ∧
      remove st x true = Outcome.done st1 ∧
      st1.removedTxs = st.removedTxs ++
        (x.GetHash :: deps.filter (fun k => decide (k ≠ x.GetHash))).filterMap st.pool.txAt ∧
      st1.removedCerts = st.removedCerts ++
        (x.GetHash :: deps.filter (fun k => decide (k ≠ x.GetHash))).filterMap st.pool.certAt := by
  obtain ⟨deps, st1, hd, _, _, hrem, _, _, _, hout1, hout2, _⟩ := remove_spec st hw x true
  exact ⟨deps, st1, by simpa using hd, hrem, hout1, hout2⟩

/-- Witness for the amended C2: scenario S4. -/
theorem remove_appends_origin_first_witness :
    ∃ deps st1, mempoolDependenciesOf Scenario.poolS4 (CTransactionBase.tx Scenario.txCreate) =
        Outcome.done deps ∧
      remove ⟨Scenario.poolS4, [], []⟩ (CTransactionBase.tx Scenario.txCreate) true =
        Outcome.done st1 ∧
      st1.removedTxs = [] ++
        ((CTransactionBase.tx Scenario.txCreate).GetHash ::
          deps.filter (fun k => decide (k ≠ (CTransactionBase.tx Scenario.txCreate).GetHash))).filterMap
            Scenario.poolS4.txAt ∧
      st1.removedCerts = [] ++
        ((CTransactionBase.tx Scenario.txCreate).GetHash ::
          deps.filter (fun k => decide (k ≠ (CTransactionBase.tx Scenario.txCreate).GetHash))).filterMap
            Scenario.poolS4.certAt :=
  remove_appends_origin_first ⟨Scenario.poolS4, [], []⟩ (CTransactionBase.tx Scenario.txCreate)
    (by decide)

/-- Witness for C8: the descendants of the sidechain creation in scenario S4. -/
theorem mempoolDependenciesOf_spec_witness :
    ∃ res, mempoolDependenciesOf Scenario.poolS4 (CTransactionBase.tx Scenario.txCreate) =
        Outcome.done res ∧ res.Nodup ∧
      (∀ d, d ∈ res ↔ IsDescendant Scenario.poolS4 (CTransactionBase.tx Scenario.txCreate) d) ∧
      (∀ d ∈ res, Scenario.poolS4.deref d ≠ none) :=
  mempoolDependenciesOf_spec Scenario.poolS4 (CTransactionBase.tx Scenario.txCreate) (by decide)

/-- Witness for C9: the ancestors of the spender in scenario S4. -/
theorem mempoolDependenciesFrom_spec_witness :
    ∃ res, mempoolDependenciesFrom Scenario.poolS4 (CTransactionBase.tx Scenario.txSpend) =
        Outcome.done res ∧ res.Nodup ∧
      (∀ a, a ∈ res ↔ IsAncestor Scenario.poolS4 (CTransactionBase.tx Scenario.txSpend) a) ∧
      (∀ a ∈ res, Scenario.poolS4.deref a ≠ none) :=
  mempoolDependenciesFrom_spec Scenario.poolS4 (CTransactionBase.tx Scenario.txSpend) (by decide)

end CTxMemPool

namespace CTxMemPool

/-! ## Lemmas: sequences of removals -/

theorem Shrinks.refl (st : Removal) (hw : WellFormed st.pool) : Shrinks st st :=
  ⟨hw, fun _ _ h => h, fun _ _ h => h,
    fun k e h1 h2 => (by rw [h1] at h2; cases h2),
    fun k e h1 h2 => (by rw [h1] at h2; cases h2),
    fun _ h => h, fun _ h => h⟩

theorem Shrinks.trans {st st1 st2 : Removal} (h1 : Shrinks st st1) (h2 : Shrinks st1 st2) :
    Shrinks st st2 := by
  refine ⟨h2.wf, fun k e h => h1.tx_sub k e (h2.tx_sub k e h),
    fun k e h => h1.cert_sub k e (h2.cert_sub k e h), ?_, ?_,
    fun t h => h2.txs_keep t (h1.txs_keep t h), fun c h => h2.certs_keep c (h1.certs_keep c h)⟩
  · intro k e hk hn
    cases hm : mapFind st1.pool.mapTx k with
    | none => exact h2.txs_keep _ (h1.txs_out k e hk hm)
    | some e1 =>
      have := h1.tx_sub k e1 hm
      rw [hk] at this
      cases this
      exact h2.txs_out k e hm hn
  · intro k e hk hn
    cases hm : mapFind st1.pool.mapCertificate k with
    | none => exact h2.certs_keep _ (h1.certs_out k e hk hm)
    | some e1 =>
      have := h1.cert_sub k e1 hm
      rw [hk] at this
      cases this
      exact h2.certs_out k e hm hn

theorem Shrinks.tx_none {st st1 : Removal} (h : Shrinks st st1) {k : Nat}
    (hk : mapFind st.pool.mapTx k = none) : mapFind st1.pool.mapTx k = none := by
  cases hm : mapFind st1.pool.mapTx k with
  | none => rfl
  | some e =>
    have := h.tx_sub k e hm
    rw [hk] at this
    cases this

theorem Shrinks.cert_none {st st1 : Removal} (h : Shrinks st st1) {k : Nat}
    (hk : mapFind st.pool.mapCertificate k = none) : mapFind st1.pool.mapCertificate k = none := by
  cases hm : mapFind st1.pool.mapCertificate k with
  | none => rfl
  | some e =>
    have := h.cert_sub k e hm
    rw [hk] at this
    cases this

/-- On a well-formed pool `remove` completes, only removes, and removes the entry
stored under the hash of `origTx`. -/
theorem remove_shrinks (st : Removal) (hw : WellFormed st.pool) (origTx : CTransactionBase)
    (fRecursive : Bool) :
    ∃ st1, remove st origTx fRecursive = Outcome.done st1 ∧ Shrinks st st1 ∧
      mapFind st1.pool.mapTx origTx.GetHash = none ∧
      mapFind st1.pool.mapCertificate origTx.GetHash = none ∧
      st1.pool.mapDeltas = st.pool.mapDeltas ∧
      (fRecursive = false → ∀ k, k ≠ origTx.GetHash →
        mapFind st1.pool.mapTx k = mapFind st.pool.mapTx k ∧
        mapFind st1.pool.mapCertificate k = mapFind st.pool.mapCertificate k) := by
  obtain ⟨deps, st1, hd, _, _, hrem, hw1, htx, hcert, hout1, hout2, hdel⟩ :=
    remove_spec st hw origTx fRecursive
  have hin : ∀ k, k ∈ origTx.GetHash :: deps →
      k ∈ origTx.GetHash :: deps.filter (fun k => decide (k ≠ origTx.GetHash)) := by
    intro k hk
    by_cases h0 : k = origTx.GetHash
    · rw [h0]; exact List.mem_cons_self _ _
    · rcases List.mem_cons.mp hk with hk | hk
      · exact absurd hk h0
      · exact List.mem_cons_of_mem _ (List.mem_filter.mpr ⟨hk, by simpa using h0⟩)
  refine ⟨st1, hrem, ⟨hw1, ?_, ?_, ?_, ?_, ?_, ?_⟩, ?_, ?_, hdel, ?_⟩
  · intro k e hk
    rw [htx] at hk
    by_cases hm : k ∈ origTx.GetHash :: deps
    · rw [if_pos hm] at hk; cases hk
    · rw [if_neg hm] at hk; exact hk
  · intro k e hk
    rw [hcert] at hk
    by_cases hm : k ∈ origTx.GetHash :: deps
    · rw [if_pos hm] at hk; cases hk
    · rw [if_neg hm] at hk; exact hk
  · intro k e hk hn
    rw [htx] at hn
    by_cases hm : k ∈ origTx.GetHash :: deps
    · rw [hout1]
      apply List.mem_append_right
      rw [List.mem_filterMap]
      exact ⟨k, hin k hm, by simp [txAt, hk]⟩
    · rw [if_neg hm, hk] at hn; cases hn
  · intro k e hk hn
    rw [hcert] at hn
    by_cases hm : k ∈ origTx.GetHash :: deps
    · rw [hout2]
      apply List.mem_append_right
      rw [List.mem_filterMap]
      exact ⟨k, hin k hm, by simp [certAt, hk]⟩
    · rw [if_neg hm, hk] at hn; cases hn
  · intro t ht
    rw [hout1]; exact List.mem_append_left _ ht
  · intro c hc
    rw [hout2]; exact List.mem_append_left _ hc
  · rw [htx]; simp
  · rw [hcert]; simp
  · intro hf k hk
    subst hf
    simp only [Bool.false_eq_true, if_false, Outcome.done.injEq] at hd
    subst hd
    rw [htx, hcert]
    simp [hk]

/-- Second loop of the bulk removals over transactions, on a well-formed pool. -/
theorem removeCollectedTxs_spec (hashes : List Nat) (st : Removal) (hw : WellFormed st.pool) :
    ∃ st1, removeCollectedTxs st hashes = Outcome.done st1 ∧ Shrinks st st1 ∧
      ∀ h ∈ hashes, mapFind st1.pool.mapTx h = none := by
  unfold removeCollectedTxs
  induction hashes generalizing st with
  | nil => exact ⟨st, rfl, Shrinks.refl st hw, by simp⟩
  | cons h rest ih =>
    have hstep : ∃ st1, removeIfTx st h = Outcome.done st1 ∧
        Shrinks st st1 ∧ mapFind st1.pool.mapTx h = none := by
      unfold removeIfTx
      cases hm : mapFind st.pool.mapTx h with
      | none => exact ⟨st, rfl, Shrinks.refl st hw, hm⟩
      | some e =>
        obtain ⟨st1, h1, hs, hn, _⟩ := remove_shrinks st hw (CTransactionBase.tx e.GetTx) true
        refine ⟨st1, h1, hs, ?_⟩
        have : (CTransactionBase.tx e.GetTx).GetHash = h := hw.tx_hash hm
        rw [← this]; exact hn
    obtain ⟨st1, h1, hs1, hn1⟩ := hstep
    obtain ⟨st2, h2, hs2, hn2⟩ := ih st1 hs1.wf
    refine ⟨st2, ?_, hs1.trans hs2, ?_⟩
    · simp only [Outcome.foldl_cons]
      rw [h1]
      exact h2
    · intro k hk
      rcases List.mem_cons.mp hk with hk | hk
      · rw [hk]; exact hs2.tx_none hn1
      · exact hn2 k hk

/-- Second loop of the bulk removals over certificates, on a well-formed pool. -/
theorem removeCollectedCerts_spec (hashes : List Nat) (st : Removal) (hw : WellFormed st.pool) :
    ∃ st1, removeCollectedCerts st hashes = Outcome.done st1 ∧ Shrinks st st1 ∧
      ∀ h ∈ hashes, mapFind st1.pool.mapCertificate h = none := by
  unfold removeCollectedCerts
  induction hashes generalizing st with
  | nil => exact ⟨st, rfl, Shrinks.refl st hw, by simp⟩
  | cons h rest ih =>
    have hstep : ∃ st1, removeIfCert st h = Outcome.done st1 ∧
        Shrinks st st1 ∧ mapFind st1.pool.mapCertificate h = none := by
      unfold removeIfCert
      cases hm : mapFind st.pool.mapCertificate h with
      | none => exact ⟨st, rfl, Shrinks.refl st hw, hm⟩
      | some e =>
        obtain ⟨st1, h1, hs, _, hn, _⟩ :=
          remove_shrinks st hw (CTransactionBase.cert e.GetCertificate) true
        refine ⟨st1, h1, hs, ?_⟩
        have : (CTransactionBase.cert e.GetCertificate).GetHash = h := hw.cert_hash hm
        rw [← this]; exact hn
    obtain ⟨st1, h1, hs1, hn1⟩ := hstep
    obtain ⟨st2, h2, hs2, hn2⟩ := ih st1 hs1.wf
    refine ⟨st2, ?_, hs1.trans hs2, ?_⟩
    · simp only [Outcome.foldl_cons]
      rw [h1]
      exact h2
    · intro k hk
      rcases List.mem_cons.mp hk with hk | hk
      · rw [hk]; exact hs2.cert_none hn1
      · exact hn2 k hk

/-- Removal of the entry a table points to, on a well-formed pool. -/
theorem removeConflicting_spec (st : Removal) (hw : WellFormed st.pool) (self ptx : Nat)
    (hp : st.pool.deref ptx ≠ none) :
    ∃ st1, removeConflicting st self ptx = Outcome.done st1 ∧ Shrinks st st1 ∧
      (ptx ≠ self → mapFind st1.pool.mapTx ptx = none ∧
        mapFind st1.pool.mapCertificate ptx = none) := by
  unfold removeConflicting
  obtain ⟨b, hb⟩ := Option.ne_none_iff_exists'.mp hp
  have hh : b.GetHash = ptx := hw.deref_hash hb
  rw [hb]
  simp only
  by_cases hne : b.GetHash ≠ self
  · rw [if_pos hne]
    obtain ⟨st1, h1, hs, hn1, hn2, _⟩ := remove_shrinks st hw b true
    exact ⟨st1, h1, hs, fun _ => by rw [← hh]; exact ⟨hn1, hn2⟩⟩
  · rw [if_neg hne]
    refine ⟨st, rfl, Shrinks.refl st hw, fun hc => ?_⟩
    exact absurd (hh ▸ hc) hne

/-- Loop of `removeConflicts` over the inputs, on a well-formed pool. -/
theorem removeInputConflicts_spec (vin : List CTxIn) (st : Removal) (hw : WellFormed st.pool)
    (self : Nat) :
    ∃ st1, removeInputConflicts st self vin = Outcome.done st1 ∧ Shrinks st st1 := by
  unfold removeInputConflicts
  induction vin generalizing st with
  | nil => exact ⟨st, rfl, Shrinks.refl st hw⟩
  | cons txin rest ih =>
    have hstep : ∃ st1, removeInputConflict self st txin = Outcome.done st1 ∧
        Shrinks st st1 := by
      unfold removeInputConflict
      cases hm : mapFind st.pool.mapNextTx txin.prevout with
      | none => exact ⟨st, rfl, Shrinks.refl st hw⟩
      | some ip =>
        obtain ⟨b, hb, _⟩ := hw.next_backed hm
        obtain ⟨st1, h1, hs, _⟩ := removeConflicting_spec st hw self ip.ptx (by rw [hb]; simp)
        exact ⟨st1, h1, hs⟩
    obtain ⟨st1, h1, hs1⟩ := hstep
    obtain ⟨st2, h2, hs2⟩ := ih st1 hs1.wf
    refine ⟨st2, ?_, hs1.trans hs2⟩
    simp only [Outcome.foldl_cons]
    rw [h1]
    exact h2

end CTxMemPool

namespace CTxMemPool

/-! ## Confirmed certificates -/

theorem lowerQual_fold (pool : CTxMemPool) (cert : CScCertificate) (table : List (Int × Nat))
    (acc : List Nat)
    (hb : ∀ kv ∈ table, ∃ e, mapFind pool.mapCertificate kv.2 = some e) :
    ∃ out, Outcome.foldl (lowerQualStep pool cert) acc table = Outcome.done out ∧
      (∀ x ∈ acc, x ∈ out) ∧
      ∀ kv ∈ table, ∀ e, mapFind pool.mapCertificate kv.2 = some e →
        e.cert.epochNumber = cert.epochNumber → e.cert.quality ≤ cert.quality →
        e.cert.hash ∈ out := by
  induction table generalizing acc with
  | nil => exact ⟨acc, rfl, fun x hx => hx, by simp⟩
  | cons kv rest ih =>
    obtain ⟨e, he⟩ := hb kv (List.mem_cons_self _ _)
    have hrest : ∀ kv1 ∈ rest, ∃ e, mapFind pool.mapCertificate kv1.2 = some e :=
      fun kv1 h1 => hb kv1 (List.mem_cons_of_mem _ h1)
    simp only [Outcome.foldl_cons, lowerQualStep, he, CCertificateMemPoolEntry.GetCertificate]
    by_cases hc : e.cert.epochNumber = cert.epochNumber ∧ e.cert.quality ≤ cert.quality
    · rw [if_pos hc, Outcome.bind_done]
      obtain ⟨out, h1, h2, h3⟩ := ih (setInsert acc e.cert.hash) hrest
      refine ⟨out, h1, fun x hx => h2 x (mem_setInsert.mpr (Or.inr hx)), ?_⟩
      intro kv1 hkv1 e1 he1 hep hq
      rcases List.mem_cons.mp hkv1 with hk | hk
      · subst hk
        rw [he] at he1
        cases he1
        exact h2 _ (mem_setInsert.mpr (Or.inl rfl))
      · exact h3 kv1 hk e1 he1 hep hq
    · rw [if_neg hc, Outcome.bind_done]
      obtain ⟨out, h1, h2, h3⟩ := ih acc hrest
      refine ⟨out, h1, h2, ?_⟩
      intro kv1 hkv1 e1 he1 hep hq
      rcases List.mem_cons.mp hkv1 with hk | hk
      · subst hk
        rw [he] at he1
        cases he1
        exact absurd ⟨hep, hq⟩ hc
      · exact h3 kv1 hk e1 he1 hep hq

/-- Certificate overload of `removeConflicts` on a well-formed pool: it completes,
only removes, and leaves no certificate of the same sidechain and epoch whose
quality is not higher than that of the confirmed certificate. -/
theorem removeConflictsCert_spec (st : Removal) (hw : WellFormed st.pool) (cert : CScCertificate) :
    ∃ st1, removeConflictsCert st cert = Outcome.done st1 ∧ Shrinks st st1 ∧
      ∀ k e, mapFind st1.pool.mapCertificate k = some e → e.cert.scId = cert.scId →
        e.cert.epochNumber = cert.epochNumber → ¬ e.cert.quality ≤ cert.quality := by
  unfold removeConflictsCert
  obtain ⟨stb, hb1, hsb⟩ := removeInputConflicts_spec cert.vin st hw cert.hash
  rw [hb1, Outcome.bind_done]
  cases hrow : mapFind stb.pool.mapSidechains cert.scId with
  | none =>
    refine ⟨stb, rfl, hsb, ?_⟩
    intro k e hk hsc _ _
    obtain ⟨r, hr, _⟩ := hsb.wf.row_of_cert hk
    rw [hsc, hrow] at hr
    cases hr
  | some r =>
    simp only
    obtain ⟨hashes, hl1, _, hl3⟩ := lowerQual_fold stb.pool cert r.mBackwardCertificates []
      (fun kv hkv => by
        obtain ⟨e, he, _⟩ := hsb.wf.cert_backed hrow hkv
        exact ⟨e, he⟩)
    unfold lowerQualCerts
    rw [hl1, Outcome.bind_done]
    obtain ⟨stc, hc1, hsc, hcn⟩ := removeCollectedCerts_spec hashes stb hsb.wf
    refine ⟨stc, hc1, hsb.trans hsc, ?_⟩
    intro k e hk hs hep hq
    have hkb := hsc.cert_sub k e hk
    obtain ⟨r1, hr1, hq1⟩ := hsb.wf.row_of_cert hkb
    rw [hs, hrow] at hr1
    cases hr1
    have hmem := hl3 _ (mem_of_mapFind hq1) e hkb hep hq
    rw [hsb.wf.cert_hash hkb] at hmem
    have := hcn k hmem
    rw [hk] at this
    cases this

/-- C3: on a well-formed pool, `removeForBlock([c], …)` for a certificate `c`
completes; afterwards the pool holds no certificate for the sidechain and epoch
of `c` whose quality is at most that of `c`, and every certificate that left the
pool, other than the confirmed one, has been appended to `removedCerts`. -/
theorem removeForBlockCert_supersedes (st : Removal) (c : CScCertificate) (nBlockHeight : Nat)
    (hw : WellFormed st.pool) :
    ∃ st1, removeForBlockCert st [c] nBlockHeight = Outcome.done st1 ∧
      (∀ k e, mapFind st1.pool.mapCertificate k = some e → e.cert.scId = c.scId →
        e.cert.epochNumber = c.epochNumber → ¬ e.cert.quality ≤ c.quality) ∧
      (∀ k e, mapFind st.pool.mapCertificate k = some e →
        mapFind st1.pool.mapCertificate k = none → k = c.hash ∨ e.cert ∈ st1.removedCerts) := by
  obtain ⟨d, hd1, hds, _, _, _, hframe⟩ :=
    remove_shrinks { pool := st.pool, removedTxs := [], removedCerts := [] } hw
      (CTransactionBase.cert c) false
  obtain ⟨st2, h21, h2s, h2q⟩ := removeConflictsCert_spec { st with pool := d.pool } hds.wf c
  refine ⟨{ st2 with pool := ClearPrioritisation st2.pool c.hash }, ?_, h2q, ?_⟩
  · unfold removeForBlockCert
    simp only [Outcome.foldl_cons, Outcome.foldl_nil, removeForBlockCertStep, hd1,
      Outcome.bind_done, h21]
  · intro k e hk hn
    by_cases hkc : k = c.hash
    · exact Or.inl hkc
    · right
      have h1 := (hframe rfl k hkc).2
      exact h2s.certs_out k e (by rw [← hk]; exact h1) hn

/-- Witness for C3: scenario S3, certificate `B` is confirmed while `A` and `B`
are in the pool. -/
theorem removeForBlockCert_supersedes_witness :
    ∃ st1, removeForBlockCert ⟨Scenario.poolS3, [], []⟩ [Scenario.certB] 7 = Outcome.done st1 ∧
      (∀ k e, mapFind st1.pool.mapCertificate k = some e → e.cert.scId = Scenario.certB.scId →
        e.cert.epochNumber = Scenario.certB.epochNumber →
        ¬ e.cert.quality ≤ Scenario.certB.quality) ∧
      (∀ k e, mapFind Scenario.poolS3.mapCertificate k = some e →
        mapFind st1.pool.mapCertificate k = none →
        k = Scenario.certB.hash ∨ e.cert ∈ st1.removedCerts) :=
  removeForBlockCert_supersedes ⟨Scenario.poolS3, [], []⟩ Scenario.certB 7 (by decide)

end CTxMemPool

namespace CTxMemPool

/-! ## Withdrawals beyond the sidechain balance -/

theorem cswAmount_nonneg (tx : CTransaction) (s : Nat)
    (h : ∀ csw ∈ tx.vcsw_ccin, 0 ≤ csw.nValue) : 0 ≤ tx.cswAmount s := by
  unfold CTransaction.cswAmount
  apply List.sum_nonneg
  intro x hx
  obtain ⟨csw, hc, rfl⟩ := List.mem_map.mp hx
  exact h csw (List.mem_filter.mp hc).1

theorem cswAmount_eq_zero (tx : CTransaction) (s : Nat)
    (h : ∀ csw ∈ tx.vcsw_ccin, csw.scId ≠ s) : tx.cswAmount s = 0 := by
  unfold CTransaction.cswAmount
  have : tx.vcsw_ccin.filter (fun csw => decide (csw.scId = s)) = [] := by
    rw [List.filter_eq_nil_iff]
    intro csw hc
    simpa using h csw hc
  rw [this]
  rfl

theorem cswSum_eq_zero (pool : CTxMemPool) (hs : KeySorted pool.mapTx) (s : Nat)
    (h : ∀ k e, mapFind pool.mapTx k = some e → ∀ csw ∈ e.tx.vcsw_ccin, csw.scId ≠ s) :
    pool.cswSum s = 0 := by
  unfold cswSum
  apply List.sum_eq_zero
  intro x hx
  obtain ⟨kv, hkv, rfl⟩ := List.mem_map.mp hx
  exact cswAmount_eq_zero _ _ (h kv.1 kv.2 (mapFind_of_mem (nodup_keys_of_keySorted hs) hkv))

theorem cswSum_ne_zero (pool : CTxMemPool) (hs : KeySorted pool.mapTx) (s : Nat)
    (h : pool.cswSum s ≠ 0) :
    ∃ k e, mapFind pool.mapTx k = some e ∧ ∃ csw ∈ e.tx.vcsw_ccin, csw.scId = s := by
  by_contra hc
  apply h
  apply cswSum_eq_zero pool hs
  intro k e he csw hcsw heq
  exact hc ⟨k, e, he, csw, hcsw, heq⟩

theorem cswSum_mono (p p1 : CTxMemPool) (hs : KeySorted p.mapTx) (hs1 : KeySorted p1.mapTx)
    (hsub : ∀ k e, mapFind p1.mapTx k = some e → mapFind p.mapTx k = some e)
    (hpos : ∀ k e, mapFind p.mapTx k = some e → ∀ csw ∈ e.tx.vcsw_ccin, 0 ≤ csw.nValue)
    (s : Nat) : p1.cswSum s ≤ p.cswSum s := by
  have hnd1 : p1.mapTx.Nodup := List.Nodup.of_map _ (nodup_keys_of_keySorted hs1)
  have hss : p1.mapTx ⊆ p.mapTx := by
    intro kv hkv
    exact mem_of_mapFind (hsub kv.1 kv.2 (mapFind_of_mem (nodup_keys_of_keySorted hs1) hkv))
  obtain ⟨l, hl1, hl2⟩ := List.subperm_of_subset hnd1 hss
  unfold cswSum
  rw [← (hl1.map (fun kv => kv.2.tx.cswAmount s)).sum_eq]
  apply List.Sublist.sum_le_sum (hl2.map _)
  intro x hx
  obtain ⟨kv, hkv, rfl⟩ := List.mem_map.mp hx
  exact cswAmount_nonneg _ _ (hpos kv.1 kv.2 (mapFind_of_mem (nodup_keys_of_keySorted hs) hkv))

theorem collectCswTxs_spec (pool : CTxMemPool) (nullifiers : List (Nat × Nat)) (acc : List Nat)
    (hb : ∀ kv ∈ nullifiers, ∃ e, mapFind pool.mapTx kv.2 = some e ∧ e.tx.hash = kv.2) :
    ∃ out, collectCswTxs (pool, acc) nullifiers = (pool, out) ∧ (∀ x ∈ acc, x ∈ out) ∧
      ∀ kv ∈ nullifiers, kv.2 ∈ out := by
  unfold collectCswTxs
  induction nullifiers generalizing acc with
  | nil => exact ⟨acc, rfl, fun x hx => hx, by simp⟩
  | cons kv rest ih =>
    obtain ⟨e, he, hh⟩ := hb kv (List.mem_cons_self _ _)
    have hidx : mapTxIndex pool kv.2 = (pool, e) := by simp [mapTxIndex, he]
    simp only [List.foldl_cons, hidx, CTxMemPoolEntry.GetTx, hh]
    obtain ⟨out, h1, h2, h3⟩ :=
      ih (setInsert acc kv.2) (fun kv1 h1 => hb kv1 (List.mem_cons_of_mem _ h1))
    refine ⟨out, h1, fun x hx => h2 x (mem_setInsert.mpr (Or.inr hx)), ?_⟩
    intro kv1 hkv1
    rcases List.mem_cons.mp hkv1 with rfl | hk
    · exact h2 _ (mem_setInsert.mpr (Or.inl rfl))
    · exact h3 kv1 hk

theorem outOfBalance_fold (pool : CTxMemPool) (view : CCoinsViewCache) (hw : WellFormed pool)
    (rows : List (Nat × CSidechainMemPoolEntry)) (acc : List Nat)
    (hrows : ∀ row ∈ rows, mapFind pool.mapSidechains row.1 = some row.2)
    (hview : ∀ row ∈ rows, row.2.cswTotalAmount ≠ 0 → ∃ sc, view.GetSidechain row.1 = some sc) :
    ∃ out, Outcome.foldl (outOfBalanceStep view) (pool, acc) rows = Outcome.done (pool, out) ∧
      (∀ x ∈ acc, x ∈ out) ∧
      ∀ row ∈ rows, ∀ sc, view.GetSidechain row.1 = some sc → row.2.cswTotalAmount ≠ 0 →
        sc.balance < row.2.cswTotalAmount → ∀ kv ∈ row.2.cswNullifiers, kv.2 ∈ out := by
  induction rows generalizing acc with
  | nil => exact ⟨acc, rfl, fun x hx => hx, by simp⟩
  | cons row rest ih =>
    have hrest := fun r h => hrows r (List.mem_cons_of_mem _ h)
    have hvrest := fun r h => hview r (List.mem_cons_of_mem _ h)
    rw [Outcome.foldl_cons]
    by_cases h0 : row.2.cswTotalAmount = 0
    · simp only [outOfBalanceStep, h0, if_true, Outcome.bind_done]
      obtain ⟨out, h1, h2, h3⟩ := ih acc hrest hvrest
      refine ⟨out, h1, h2, ?_⟩
      intro r hr sc hsc hne hlt
      rcases List.mem_cons.mp hr with rfl | hr1
      · exact absurd h0 hne
      · exact h3 r hr1 sc hsc hne hlt
    · obtain ⟨sc0, hsc0⟩ := hview row (List.mem_cons_self _ _) h0
      by_cases hle : row.2.cswTotalAmount ≤ sc0.balance
      · simp only [outOfBalanceStep, h0, if_false, hsc0, hle, if_true, Outcome.bind_done]
        obtain ⟨out, h1, h2, h3⟩ := ih acc hrest hvrest
        refine ⟨out, h1, h2, ?_⟩
        intro r hr sc hsc hne hlt
        rcases List.mem_cons.mp hr with rfl | hr1
        · rw [hsc0] at hsc
          cases hsc
          omega
        · exact h3 r hr1 sc hsc hne hlt
      · simp only [outOfBalanceStep, h0, if_false, hsc0, hle, Outcome.bind_done]
        obtain ⟨mid, hm1, hm2, hm3⟩ := collectCswTxs_spec pool row.2.cswNullifiers acc
          (fun kv hkv => by
            obtain ⟨e, he, _⟩ := hw.csw_backed (hrows row (List.mem_cons_self _ _)) hkv
            exact ⟨e, he, hw.tx_hash he⟩)
        rw [hm1]
        obtain ⟨out, h1, h2, h3⟩ := ih mid hrest hvrest
        refine ⟨out, h1, fun x hx => h2 x (hm2 x hx), ?_⟩
        intro r hr sc hsc hne hlt
        rcases List.mem_cons.mp hr with rfl | hr1
        · intro kv hkv
          exact h2 _ (hm3 kv hkv)
        · exact h3 r hr1 sc hsc hne hlt

/-- Effect of `removeOutOfScBalanceCsw` on a well-formed pool when the chain view
knows every sidechain with a pending withdrawal: the call completes, only
removes, and no transaction with a CSW input for an oversubscribed sidechain is
left. -/
theorem removeOutOfScBalanceCsw_spec (st : Removal) (view : CCoinsViewCache)
    (hw : WellFormed st.pool)
    (hview : ∀ k e, mapFind st.pool.mapTx k = some e → ∀ csw ∈ e.tx.vcsw_ccin,
      ∃ sc, view.GetSidechain csw.scId = some sc) :
    ∃ st1, removeOutOfScBalanceCsw st view = Outcome.done st1 ∧ Shrinks st st1 ∧
      ∀ s r sc, mapFind st.pool.mapSidechains s = some r → view.GetSidechain s = some sc →
        r.cswTotalAmount ≠ 0 → sc.balance < r.cswTotalAmount →
        ∀ k e, mapFind st1.pool.mapTx k = some e → ∀ csw ∈ e.tx.vcsw_ccin, csw.scId ≠ s := by
  have hnd := nodup_keys_of_keySorted hw.sorted_sc
  obtain ⟨hashes, hf1, _, hf3⟩ := outOfBalance_fold st.pool view hw st.pool.mapSidechains []
    (fun row hrow => mapFind_of_mem hnd hrow)
    (fun row hrow hne => by
      have hr := mapFind_of_mem hnd hrow
      rw [hw.csw_total hr] at hne
      obtain ⟨k, e, he, csw, hc, heq⟩ := cswSum_ne_zero st.pool hw.sorted_tx row.1 hne
      rw [← heq]
      exact hview k e he csw hc)
  obtain ⟨st1, h1, hsh, hgone⟩ := removeCollectedTxs_spec hashes st hw
  refine ⟨st1, ?_, hsh, ?_⟩
  · unfold removeOutOfScBalanceCsw
    rw [hf1, Outcome.bind_done]
    exact h1
  · intro s r sc hr hsc hne hlt k e he csw hc heq
    have he0 := hsh.tx_sub k e he
    obtain ⟨r1, hr1, hnf⟩ := hw.row_of_csw he0 hc
    rw [heq, hr] at hr1
    cases hr1
    have := hgone k (hf3 (s, r) (mem_of_mapFind hr) sc hsc hne hlt _ (mem_of_mapFind hnf))
    rw [he] at this
    cases this

end CTxMemPool

namespace CTxMemPool

theorem isNull_of_empty (r : CSidechainMemPoolEntry) (h1 : r.fwdTxHashes = [])
    (h2 : r.scCreationTxHash = 0) (h3 : r.mBackwardCertificates = []) (h4 : r.mcBtrsTxHashes = [])
    (h5 : r.cswNullifiers = []) : r.IsNull = true := by
  simp [CSidechainMemPoolEntry.IsNull, h1, h2, h3, h4, h5]

/-- C5 (amended): on a well-formed pool whose CSW amounts are non-negative, with
a chain view that knows every sidechain with a pending CSW and reports
non-negative balances, `removeOutOfScBalanceCsw` completes, and afterwards every
sidechain row still in the pool has `cswTotalAmount` at most the balance the view
reports for that sidechain. -/
theorem removeOutOfScBalanceCsw_bounded (st : Removal) (view : CCoinsViewCache)
    (hw : WellFormed st.pool)
    (hview : ∀ k e, mapFind st.pool.mapTx k = some e → ∀ csw ∈ e.tx.vcsw_ccin,
      ∃ sc, view.GetSidechain csw.scId = some sc)
    (hpos : ∀ k e, mapFind st.pool.mapTx k = some e → ∀ csw ∈ e.tx.vcsw_ccin, 0 ≤ csw.nValue)
    (hbal : ∀ s sc, view.GetSidechain s = some sc → 0 ≤ sc.balance) :
    ∃ st1, removeOutOfScBalanceCsw st view = Outcome.done st1 ∧
      ∀ s r sc, mapFind st1.pool.mapSidechains s = some r → view.GetSidechain s = some sc →
        r.cswTotalAmount ≤ sc.balance := by
  obtain ⟨st1, h1, hsh, hgone⟩ := removeOutOfScBalanceCsw_spec st view hw hview
  refine ⟨st1, h1, ?_⟩
  intro s r sc hr hsc
  rw [hsh.wf.csw_total hr]
  by_cases hz : st1.pool.cswSum s = 0
  · rw [hz]
    exact hbal s sc hsc
  · obtain ⟨k, e, he, csw, hc, heq⟩ := cswSum_ne_zero st1.pool hsh.wf.sorted_tx s hz
    obtain ⟨r0, hr0, _⟩ := hw.row_of_csw (hsh.tx_sub k e he) hc
    rw [heq] at hr0
    have hmono := cswSum_mono st.pool st1.pool hw.sorted_tx hsh.wf.sorted_tx hsh.tx_sub hpos s
    rw [← hw.csw_total hr0] at hmono
    by_cases hle : r0.cswTotalAmount ≤ sc.balance
    · omega
    · have hb := hbal s sc hsc
      exact absurd heq (hgone s r0 sc hr0 hsc (by omega) (by omega) k e he csw hc)

/-- Witness for C5: scenario S5, three withdrawals of 40 against a balance of 100. -/
theorem removeOutOfScBalanceCsw_bounded_witness :
    ∃ st1, removeOutOfScBalanceCsw ⟨Scenario.poolS5, [], []⟩ Scenario.viewS5 = Outcome.done st1 ∧
      ∀ s r sc, mapFind st1.pool.mapSidechains s = some r →
        Scenario.viewS5.GetSidechain s = some sc → r.cswTotalAmount ≤ sc.balance :=
  removeOutOfScBalanceCsw_bounded ⟨Scenario.poolS5, [], []⟩ Scenario.viewS5 (by decide)
    (fun k e he csw hc => by
      obtain ⟨sc, h, _⟩ := mapAll_iff.mp (by decide :
        MapAll Scenario.poolS5.mapTx (fun _ e => ∀ csw ∈ e.tx.vcsw_ccin,
          OptEx (Scenario.viewS5.GetSidechain csw.scId) (fun _ => True))) k e he csw hc
      exact ⟨sc, h⟩)
    (mapAll_iff.mp (by decide :
      MapAll Scenario.poolS5.mapTx (fun _ e => ∀ csw ∈ e.tx.vcsw_ccin, 0 ≤ csw.nValue)))
    (fun s sc h => by
      unfold Scenario.viewS5 at h
      simp only at h
      split at h
      · cases h; decide
      · cases h)

/-- C6 (amended): on a well-formed pool, with a chain view that knows every
sidechain with a pending CSW, let `s` be a sidechain whose row total exceeds the
non-negative balance the view reports.  Then `removeOutOfScBalanceCsw` completes and removes
every pool transaction with a CSW input for `s`, appending it to `removedTxs`;
afterwards the pool's CSW sum for `s` is 0, a remaining row for `s` has total 0
and no nullifier, and the row is erased when no remaining transaction creates,
funds or requests from `s` and no remaining certificate is for `s`. -/
theorem removeOutOfScBalanceCsw_drains (st : Removal) (view : CCoinsViewCache)
    (hw : WellFormed st.pool)
    (hview : ∀ k e, mapFind st.pool.mapTx k = some e → ∀ csw ∈ e.tx.vcsw_ccin,
      ∃ sc, view.GetSidechain csw.scId = some sc)
    (s : Nat) (r : CSidechainMemPoolEntry) (sc : CSidechain)
    (hr : mapFind st.pool.mapSidechains s = some r) (hsc : view.GetSidechain s = some sc)
    (hbal : 0 ≤ sc.balance) (hover : sc.balance < r.cswTotalAmount) :
    ∃ st1, removeOutOfScBalanceCsw st view = Outcome.done st1 ∧
      (∀ k e, mapFind st.pool.mapTx k = some e → (∃ csw ∈ e.tx.vcsw_ccin, csw.scId = s) →
        mapFind st1.pool.mapTx k = none ∧ e.tx ∈ st1.removedTxs) ∧
      st1.pool.cswSum s = 0 ∧
      (∀ r1, mapFind st1.pool.mapSidechains s = some r1 →
        r1.cswTotalAmount = 0 ∧ r1.cswNullifiers = []) ∧
      ((∀ k e, mapFind st1.pool.mapTx k = some e →
          (∀ x ∈ e.tx.vsc_ccout, x.scId ≠ s) ∧ (∀ x ∈ e.tx.vft_ccout, x.scId ≠ s) ∧
            (∀ x ∈ e.tx.vmbtr_out, x.scId ≠ s)) →
        (∀ k e, mapFind st1.pool.mapCertificate k = some e → e.cert.scId ≠ s) →
        mapFind st1.pool.mapSidechains s = none) := by
  obtain ⟨st1, h1, hsh, hgone⟩ := removeOutOfScBalanceCsw_spec st view hw hview
  have hnone : ∀ k e, mapFind st1.pool.mapTx k = some e → ∀ csw ∈ e.tx.vcsw_ccin, csw.scId ≠ s :=
    hgone s r sc hr hsc (by omega) hover
  have hsum : st1.pool.cswSum s = 0 := cswSum_eq_zero st1.pool hsh.wf.sorted_tx s hnone
  have hnf : ∀ r1, mapFind st1.pool.mapSidechains s = some r1 → r1.cswNullifiers = [] := by
    intro r1 hr1
    rw [List.eq_nil_iff_forall_not_mem]
    intro kv hkv
    obtain ⟨e, he, hm⟩ := hsh.wf.csw_backed hr1 hkv
    obtain ⟨csw, hc, heq⟩ := List.mem_map.mp hm
    exact hnone _ e he csw hc (congrArg Prod.fst heq)
  refine ⟨st1, h1, ?_, hsum, ?_, ?_⟩
  · intro k e he ⟨csw, hc, heq⟩
    have hk : mapFind st1.pool.mapTx k = none := by
      cases hf : mapFind st1.pool.mapTx k with
      | none => rfl
      | some e1 =>
        have he1 := hsh.tx_sub k e1 hf
        rw [he] at he1
        cases he1
        exact absurd heq (hnone k e hf csw hc)
    exact ⟨hk, hsh.txs_out k e he hk⟩
  · intro r1 hr1
    exact ⟨by rw [hsh.wf.csw_total hr1, hsum], hnf r1 hr1⟩
  · intro hno hnocert
    cases hf : mapFind st1.pool.mapSidechains s with
    | none => rfl
    | some r1 =>
      have hnull := hsh.wf.row_not_null hf
      rw [isNull_of_empty r1 ?_ ?_ ?_ ?_ (hnf r1 hf)] at hnull
      · cases hnull
      · rw [List.eq_nil_iff_forall_not_mem]
        intro h hh
        obtain ⟨e, he, hm⟩ := hsh.wf.fwd_backed hf hh
        obtain ⟨x, hx, heq⟩ := List.mem_map.mp hm
        exact (hno h e he).2.1 x hx heq
      · by_contra h0
        obtain ⟨e, he, hm⟩ := hsh.wf.sc_backed hf h0
        obtain ⟨x, hx, heq⟩ := List.mem_map.mp hm
        exact (hno _ e he).1 x hx heq
      · rw [List.eq_nil_iff_forall_not_mem]
        intro kv hkv
        obtain ⟨e, he, heq, _⟩ := hsh.wf.cert_backed hf hkv
        exact hnocert _ e he heq
      · rw [List.eq_nil_iff_forall_not_mem]
        intro h hh
        obtain ⟨e, he, hm⟩ := hsh.wf.btr_backed hf hh
        obtain ⟨x, hx, heq⟩ := List.mem_map.mp hm
        exact (hno h e he).2.2 x hx heq

/-- Witness for C6: scenario S5, sidechain 100 with balance 100 and a pool total
of 120. -/
theorem removeOutOfScBalanceCsw_drains_witness :
    ∃ st1, removeOutOfScBalanceCsw ⟨Scenario.poolS5, [], []⟩ Scenario.viewS5 = Outcome.done st1 ∧
      (∀ k e, mapFind Scenario.poolS5.mapTx k = some e →
        (∃ csw ∈ e.tx.vcsw_ccin, csw.scId = 100) →
        mapFind st1.pool.mapTx k = none ∧ e.tx ∈ st1.removedTxs) ∧
      st1.pool.cswSum 100 = 0 ∧
      (∀ r1, mapFind st1.pool.mapSidechains 100 = some r1 →
        r1.cswTotalAmount = 0 ∧ r1.cswNullifiers = []) ∧
      ((∀ k e, mapFind st1.pool.mapTx k = some e →
          (∀ x ∈ e.tx.vsc_ccout, x.scId ≠ 100) ∧ (∀ x ∈ e.tx.vft_ccout, x.scId ≠ 100) ∧
            (∀ x ∈ e.tx.vmbtr_out, x.scId ≠ 100)) →
        (∀ k e, mapFind st1.pool.mapCertificate k = some e → e.cert.scId ≠ 100) →
        mapFind st1.pool.mapSidechains 100 = none) :=
  removeOutOfScBalanceCsw_drains ⟨Scenario.poolS5, [], []⟩ Scenario.viewS5 (by decide)
    (fun k e he csw hc => by
      obtain ⟨sc, h, _⟩ := mapAll_iff.mp (by decide :
        MapAll Scenario.poolS5.mapTx (fun _ e => ∀ csw ∈ e.tx.vcsw_ccin,
          OptEx (Scenario.viewS5.GetSidechain csw.scId) (fun _ => True))) k e he csw hc
      exact ⟨sc, h⟩)
    100 { cswNullifiers := [(1, 21), (2, 22), (3, 23)], cswTotalAmount := 120 } { balance := 100 }
    (by decide) (by decide) (by decide) (by decide)

end CTxMemPool

/-! ## Lemmas: insertion into the tables -/

section InsertLemmas

variable {K V : Type} [DecidableEq K] [KeyOrd K]

theorem mapInsert_ne_nil (m : List (K × V)) (k : K) (v : V) : mapInsert m k v ≠ [] := by
  intro h
  have := mapFind_mapInsert m k v k
  rw [h] at this
  simp [mapFind] at this

theorem setInsert_ne_nil (s : List K) (k : K) : setInsert s k ≠ [] := by
  intro h
  have : k ∈ setInsert s k := mem_setInsert.mpr (Or.inl rfl)
  rw [h] at this
  cases this

theorem mapInsert_perm [LawfulKeyOrd K] {m : List (K × V)} {k : K} (v : V)
    (h : mapFind m k = none) : (mapInsert m k v).Perm ((k, v) :: m) := by
  induction m with
  | nil => simp [mapInsert]
  | cons kv1 rest ih =>
    obtain ⟨k1, v1⟩ := kv1
    rw [mapFind_cons] at h
    by_cases h1 : k1 = k
    · rw [if_pos h1] at h
      cases h
    · rw [if_neg h1] at h
      rw [mapInsert_cons, if_neg h1]
      by_cases h2 : KeyOrd.lt k k1 = true
      · rw [if_pos h2]
      · rw [if_neg h2]
        exact ((ih h).cons (k1, v1)).trans (List.Perm.swap _ _ _)

theorem mapFind_insertAll (keys : List K) (v : V) (m : List (K × V)) (k : K) :
    mapFind (keys.foldl (fun m2 x => mapInsert m2 x v) m) k =
      if k ∈ keys then some v else mapFind m k := by
  induction keys generalizing m with
  | nil => simp
  | cons x rest ih =>
    rw [List.foldl_cons, ih, mapFind_mapInsert]
    by_cases h1 : k ∈ rest
    · simp [h1]
    · by_cases h2 : x = k
      · simp [h2]
      · have : k ≠ x := fun h => h2 h.symm
        simp [h1, h2, this]

theorem mem_insertAll (keys : List K) (v : V) (m : List (K × V)) (kv : K × V)
    (h : kv ∈ keys.foldl (fun m2 x => mapInsert m2 x v) m) :
    kv ∈ m ∨ (kv.2 = v ∧ kv.1 ∈ keys) := by
  induction keys generalizing m with
  | nil => exact Or.inl h
  | cons x rest ih =>
    rw [List.foldl_cons] at h
    rcases ih _ h with h1 | ⟨h1, h2⟩
    · rcases mem_mapInsert h1 with h3 | h3
      · subst h3
        exact Or.inr ⟨rfl, List.mem_cons_self _ _⟩
      · exact Or.inl h3
    · exact Or.inr ⟨h1, List.mem_cons_of_mem _ h2⟩

end InsertLemmas

namespace CTxMemPool

theorem addNextTx_other (hash : Nat) (vin : List CTxIn) (m : List (COutPoint × CInPoint)) (i : Nat)
    (o : COutPoint) (ho : o ∉ vin.map (fun x => x.prevout)) :
    mapFind (addNextTx hash m vin i) o = mapFind m o := by
  induction vin generalizing m i with
  | nil => rfl
  | cons txin rest ih =>
    simp only [List.map_cons, List.mem_cons, not_or] at ho
    rw [addNextTx, ih _ _ ho.2, mapFind_mapInsert, if_neg (fun h => ho.1 h.symm)]

theorem addNextTx_own (hash : Nat) (vin : List CTxIn) (m : List (COutPoint × CInPoint)) (i : Nat)
    (hn : (vin.map (fun x => x.prevout)).Nodup) (ix : Nat × CTxIn) (hix : ix ∈ vin.enumFrom i) :
    mapFind (addNextTx hash m vin i) ix.2.prevout = some ⟨hash, ix.1⟩ := by
  induction vin generalizing m i with
  | nil => simp at hix
  | cons txin rest ih =>
    simp only [List.map_cons, List.nodup_cons] at hn
    rw [List.enumFrom_cons] at hix
    rw [addNextTx]
    rcases List.mem_cons.mp hix with h | h
    · subst h
      rw [addNextTx_other _ _ _ _ _ hn.1, mapFind_mapInsert, if_pos rfl]
    · exact ih _ _ hn.2 h

theorem mapFind_addNullifiers (hash : Nat) (vjoinsplit : List JSDescription) (m : List (Nat × Nat))
    (nf : Nat) :
    mapFind (addNullifiers hash m vjoinsplit) nf =
      if nf ∈ vjoinsplit.flatMap (fun js => js.nullifiers) then some hash else mapFind m nf := by
  unfold addNullifiers
  induction vjoinsplit generalizing m with
  | nil => simp
  | cons js rest ih =>
    rw [List.foldl_cons, ih, mapFind_insertAll]
    simp only [List.flatMap_cons, List.mem_append]
    by_cases h1 : nf ∈ rest.flatMap (fun js => js.nullifiers)
    · simp [h1]
    · by_cases h2 : nf ∈ js.nullifiers
      · simp [h1, h2]
      · simp [h1, h2]

/-! ## Lemmas: rows written by `addUnchecked` -/

theorem rowOrDefault_scModify (m : List (Nat × CSidechainMemPoolEntry)) (k : Nat)
    (f : CSidechainMemPoolEntry → CSidechainMemPoolEntry) (s : Nat) :
    rowOrDefault (scModify m k f) s =
      if k = s then f (rowOrDefault m s) else rowOrDefault m s := by
  unfold scModify rowOrDefault
  rw [mapFind_mapInsert]
  by_cases h : k = s
  · subst h; simp
  · simp [h]

theorem has_scModify (m : List (Nat × CSidechainMemPoolEntry)) (k : Nat)
    (f : CSidechainMemPoolEntry → CSidechainMemPoolEntry) (s : Nat) :
    mapFind (scModify m k f) s ≠ none ↔ (k = s ∨ mapFind m s ≠ none) := by
  unfold scModify
  rw [mapFind_mapInsert]
  by_cases h : k = s
  · simp [h]
  · simp [h]

theorem sorted_scModify (m : List (Nat × CSidechainMemPoolEntry)) (k : Nat)
    (f : CSidechainMemPoolEntry → CSidechainMemPoolEntry) (hs : KeySorted m) :
    KeySorted (scModify m k f) :=
  keySorted_mapInsert _ _ _ hs

section RowFolds

variable {X : Type}
  (step : List (Nat × CSidechainMemPoolEntry) → X → Outcome (List (Nat × CSidechainMemPoolEntry)))
  (key : X → Nat) (f : X → CSidechainMemPoolEntry → CSidechainMemPoolEntry)

theorem row_foldl
    (hrow : ∀ m x m1 s, step m x = Outcome.done m1 →
      rowOrDefault m1 s = if key x = s then f x (rowOrDefault m s) else rowOrDefault m s)
    (xs : List X) (m m2 : List (Nat × CSidechainMemPoolEntry))
    (h : Outcome.foldl step m xs = Outcome.done m2) (s : Nat) :
    rowOrDefault m2 s =
      (xs.filter (fun x => decide (key x = s))).foldl (fun r x => f x r) (rowOrDefault m s) := by
  induction xs generalizing m with
  | nil =>
    simp only [Outcome.foldl_nil, Outcome.done.injEq] at h
    subst h; rfl
  | cons x rest ih =>
    simp only [Outcome.foldl_cons, Outcome.bind_eq_done] at h
    obtain ⟨m1, h1, h2⟩ := h
    rw [ih m1 h2, hrow m x m1 s h1]
    by_cases hk : key x = s
    · simp [List.filter_cons, hk]
    · simp [List.filter_cons, hk]

theorem has_foldl
    (hhas : ∀ m x m1 s, step m x = Outcome.done m1 →
      (mapFind m1 s ≠ none ↔ (key x = s ∨ mapFind m s ≠ none)))
    (xs : List X) (m m2 : List (Nat × CSidechainMemPoolEntry))
    (h : Outcome.foldl step m xs = Outcome.done m2) (s : Nat) :
    mapFind m2 s ≠ none ↔ (s ∈ xs.map key ∨ mapFind m s ≠ none) := by
  induction xs generalizing m with
  | nil =>
    simp only [Outcome.foldl_nil, Outcome.done.injEq] at h
    subst h; simp
  | cons x rest ih =>
    simp only [Outcome.foldl_cons, Outcome.bind_eq_done] at h
    obtain ⟨m1, h1, h2⟩ := h
    rw [ih m1 h2, hhas m x m1 s h1]
    simp only [List.map_cons, List.mem_cons]
    constructor
    · rintro (h | h | h)
      · exact Or.inl (Or.inr h)
      · exact Or.inl (Or.inl h.symm)
      · exact Or.inr h
    · rintro ((h | h) | h)
      · exact Or.inr (Or.inl h.symm)
      · exact Or.inl h
      · exact Or.inr (Or.inr h)

theorem sorted_foldl
    (hsorted : ∀ m x m1, step m x = Outcome.done m1 → KeySorted m → KeySorted m1)
    (xs : List X) (m m2 : List (Nat × CSidechainMemPoolEntry))
    (h : Outcome.foldl step m xs = Outcome.done m2) (hs : KeySorted m) : KeySorted m2 :=
  Outcome.foldl_preserves step (fun m => KeySorted m) xs
    (fun m hm x _ m1 h1 => hsorted m x m1 h1 hm) m m2 hs h

end RowFolds

theorem foldl_done_eq {σ α : Type} (f : σ → α → σ) (s : σ) (l : List α) :
    Outcome.foldl (fun s a => Outcome.done (f s a)) s l = Outcome.done (l.foldl f s) := by
  induction l generalizing s with
  | nil => rfl
  | cons a rest ih => simp [ih]

theorem foldl_proj {X β : Type} (F : X → CSidechainMemPoolEntry → CSidechainMemPoolEntry)
    (π : CSidechainMemPoolEntry → β) (hπ : ∀ x r, π (F x r) = π r) (xs : List X)
    (r : CSidechainMemPoolEntry) : π (xs.foldl (fun r x => F x r) r) = π r := by
  induction xs generalizing r with
  | nil => rfl
  | cons x rest ih => rw [List.foldl_cons, ih, hπ]

end CTxMemPool

namespace CTxMemPool

theorem row_addCswStep (h : Nat) (m : List (Nat × CSidechainMemPoolEntry))
    (csw : CTxCeasedSidechainWithdrawalInput) (s : Nat) :
    rowOrDefault (addCswStep h m csw) s =
      if csw.scId = s then cswRow h csw (rowOrDefault m s) else rowOrDefault m s := by
  unfold addCswStep
  simp only [rowOrDefault_scModify]
  by_cases hk : csw.scId = s
  · simp only [hk, if_true]; rfl
  · simp only [hk, if_false]

theorem has_addCswStep (h : Nat) (m : List (Nat × CSidechainMemPoolEntry))
    (csw : CTxCeasedSidechainWithdrawalInput) (s : Nat) :
    mapFind (addCswStep h m csw) s ≠ none ↔ (csw.scId = s ∨ mapFind m s ≠ none) := by
  unfold addCswStep
  simp only [has_scModify]
  tauto

theorem addBtrStep_done (h : Nat) (aux : List (Nat × Nat))
    (m m1 : List (Nat × CSidechainMemPoolEntry)) (btr : CBwtRequestOut)
    (hd : addBtrStep h aux m btr = Outcome.done m1) :
    (∀ s, rowOrDefault m1 s =
      if btr.scId = s then btrRow h aux btr (rowOrDefault m s) else rowOrDefault m s) ∧
    (∀ s, mapFind m1 s ≠ none ↔ (btr.scId = s ∨ mapFind m s ≠ none)) ∧
    (KeySorted m → KeySorted m1) := by
  unfold addBtrStep at hd
  simp only [rowOrDefault_scModify, if_true] at hd
  by_cases h0 : (rowOrDefault m btr.scId).mcBtrsCertDataHash = 0
  · simp only [h0, if_true] at hd
    cases haux : mapFind aux btr.scId with
    | none => simp [haux] at hd
    | some d =>
      simp only [haux, Outcome.done.injEq] at hd
      subst hd
      refine ⟨?_, ?_, ?_⟩
      · intro s
        simp only [rowOrDefault_scModify]
        by_cases hk : btr.scId = s
        · subst hk
          simp only [if_true, btrRow, h0, haux, Option.getD_some]
        · simp only [hk, if_false]
      · intro s
        simp only [has_scModify]
        tauto
      · intro hs
        exact sorted_scModify _ _ _ (sorted_scModify _ _ _ hs)
  · simp only [h0, if_false, Outcome.done.injEq] at hd
    subst hd
    refine ⟨?_, ?_, ?_⟩
    · intro s
      simp only [rowOrDefault_scModify]
      by_cases hk : btr.scId = s
      · subst hk
        simp only [if_true, btrRow, h0, if_false]
      · simp only [hk, if_false]
    · intro s
      exact has_scModify _ _ _ _
    · intro hs
      exact sorted_scModify _ _ _ hs

theorem filter_ne_nil_iff_mem_map {X : Type} (xs : List X) (key : X → Nat) (s : Nat) :
    xs.filter (fun x => decide (key x = s)) ≠ [] ↔ s ∈ xs.map key := by
  rw [Ne, List.filter_eq_nil_iff]
  simp only [decide_eq_true_eq, not_forall, List.mem_map]
  constructor
  · rintro ⟨x, hx, hk⟩
    exact ⟨x, hx, not_not.mp hk⟩
  · rintro ⟨x, hx, hk⟩
    exact ⟨x, hx, not_not.mpr hk⟩

theorem sc_foldl (h : Nat) (xs : List CTxScCreationOut) (r : CSidechainMemPoolEntry) :
    (xs.foldl (fun r x => scRow h x r) r).scCreationTxHash =
      if xs = [] then r.scCreationTxHash else h := by
  induction xs generalizing r with
  | nil => rfl
  | cons x rest ih =>
    rw [List.foldl_cons, ih]
    by_cases hr : rest = []
    · simp [hr, scRow]
    · simp [hr]

theorem fwd_foldl (h : Nat) (xs : List CTxForwardTransferOut) (r : CSidechainMemPoolEntry)
    (x : Nat) :
    x ∈ (xs.foldl (fun r y => fwdRow h y r) r).fwdTxHashes ↔
      (x ∈ r.fwdTxHashes ∨ (x = h ∧ xs ≠ [])) := by
  induction xs generalizing r with
  | nil => simp
  | cons y rest ih =>
    rw [List.foldl_cons, ih]
    simp only [fwdRow, mem_setInsert, ne_eq, reduceCtorEq, not_false_eq_true, and_true]
    tauto

theorem btr_foldl (h : Nat) (aux : List (Nat × Nat)) (xs : List CBwtRequestOut)
    (r : CSidechainMemPoolEntry) (x : Nat) :
    x ∈ (xs.foldl (fun r y => btrRow h aux y r) r).mcBtrsTxHashes ↔
      (x ∈ r.mcBtrsTxHashes ∨ (x = h ∧ xs ≠ [])) := by
  induction xs generalizing r with
  | nil => simp
  | cons y rest ih =>
    rw [List.foldl_cons, ih]
    simp only [btrRow, mem_setInsert, ne_eq, reduceCtorEq, not_false_eq_true, and_true]
    tauto

theorem csw_foldl_total (h : Nat) (xs : List CTxCeasedSidechainWithdrawalInput)
    (r : CSidechainMemPoolEntry) :
    (xs.foldl (fun r y => cswRow h y r) r).cswTotalAmount =
      r.cswTotalAmount + (xs.map (fun c => c.nValue)).sum := by
  induction xs generalizing r with
  | nil => simp
  | cons y rest ih =>
    rw [List.foldl_cons, ih]
    simp only [cswRow, List.map_cons, List.sum_cons]
    omega

theorem csw_foldl_nfs (h : Nat) (xs : List CTxCeasedSidechainWithdrawalInput)
    (r : CSidechainMemPoolEntry) :
    (xs.foldl (fun r y => cswRow h y r) r).cswNullifiers =
      (xs.map (fun c => c.nullifier)).foldl (fun m2 x => mapInsert m2 x h) r.cswNullifiers := by
  induction xs generalizing r with
  | nil => rfl
  | cons y rest ih =>
    rw [List.foldl_cons, ih]
    rfl

theorem mem_filter_nullifiers (xs : List CTxCeasedSidechainWithdrawalInput) (s nf : Nat) :
    nf ∈ (xs.filter (fun c => decide (c.scId = s))).map (fun c => c.nullifier) ↔
      (s, nf) ∈ xs.map (fun c => (c.scId, c.nullifier)) := by
  simp only [List.mem_map, List.mem_filter, decide_eq_true_eq, Prod.mk.injEq]
  constructor
  · rintro ⟨c, ⟨hc, hs⟩, hn⟩
    exact ⟨c, hc, hs, hn⟩
  · rintro ⟨c, hc, hs, hn⟩
    exact ⟨c, ⟨hc, hs⟩, hn⟩

end CTxMemPool

namespace CTxMemPool

theorem cswLoop_spec (h : Nat) (xs : List CTxCeasedSidechainWithdrawalInput)
    (m : List (Nat × CSidechainMemPoolEntry)) :
    (∀ s, rowOrDefault (xs.foldl (addCswStep h) m) s =
      (xs.filter (fun x => decide (x.scId = s))).foldl (fun r x => cswRow h x r)
        (rowOrDefault m s)) ∧
    (∀ s, mapFind (xs.foldl (addCswStep h) m) s ≠ none ↔
      (s ∈ xs.map (fun x => x.scId) ∨ mapFind m s ≠ none)) ∧
    (KeySorted m → KeySorted (xs.foldl (addCswStep h) m)) := by
  have hf := foldl_done_eq (addCswStep h) m xs
  refine ⟨fun s => ?_, fun s => ?_, fun hs => ?_⟩
  · exact row_foldl _ (fun x => x.scId) (cswRow h)
      (fun m x m1 s hd => by cases hd; exact row_addCswStep h m x s) xs m _ hf s
  · exact has_foldl _ (fun x => x.scId)
      (fun m x m1 s hd => by cases hd; exact has_addCswStep h m x s) xs m _ hf s
  · exact sorted_foldl _
      (fun m x m1 hd hs => by
        cases hd
        unfold addCswStep
        exact sorted_scModify _ _ _ (sorted_scModify _ _ _ hs)) xs m _ hf hs

theorem scLoop_spec (h : Nat) (xs : List CTxScCreationOut)
    (m : List (Nat × CSidechainMemPoolEntry)) :
    (∀ s, rowOrDefault (xs.foldl (addScStep h) m) s =
      (xs.filter (fun x => decide (x.scId = s))).foldl (fun r x => scRow h x r)
        (rowOrDefault m s)) ∧
    (∀ s, mapFind (xs.foldl (addScStep h) m) s ≠ none ↔
      (s ∈ xs.map (fun x => x.scId) ∨ mapFind m s ≠ none)) ∧
    (KeySorted m → KeySorted (xs.foldl (addScStep h) m)) := by
  have hf := foldl_done_eq (addScStep h) m xs
  refine ⟨fun s => ?_, fun s => ?_, fun hs => ?_⟩
  · exact row_foldl _ (fun x => x.scId) (scRow h)
      (fun m x m1 s hd => by cases hd; exact rowOrDefault_scModify _ _ _ s) xs m _ hf s
  · exact has_foldl _ (fun x => x.scId)
      (fun m x m1 s hd => by cases hd; exact has_scModify _ _ _ s) xs m _ hf s
  · exact sorted_foldl _
      (fun m x m1 hd hs => by cases hd; exact sorted_scModify _ _ _ hs) xs m _ hf hs

theorem fwdLoop_spec (h : Nat) (xs : List CTxForwardTransferOut)
    (m : List (Nat × CSidechainMemPoolEntry)) :
    (∀ s, rowOrDefault (xs.foldl (addFwdStep h) m) s =
      (xs.filter (fun x => decide (x.scId = s))).foldl (fun r x => fwdRow h x r)
        (rowOrDefault m s)) ∧
    (∀ s, mapFind (xs.foldl (addFwdStep h) m) s ≠ none ↔
      (s ∈ xs.map (fun x => x.scId) ∨ mapFind m s ≠ none)) ∧
    (KeySorted m → KeySorted (xs.foldl (addFwdStep h) m)) := by
  have hf := foldl_done_eq (addFwdStep h) m xs
  refine ⟨fun s => ?_, fun s => ?_, fun hs => ?_⟩
  · exact row_foldl _ (fun x => x.scId) (fwdRow h)
      (fun m x m1 s hd => by cases hd; exact rowOrDefault_scModify _ _ _ s) xs m _ hf s
  · exact has_foldl _ (fun x => x.scId)
      (fun m x m1 s hd => by cases hd; exact has_scModify _ _ _ s) xs m _ hf s
  · exact sorted_foldl _
      (fun m x m1 hd hs => by cases hd; exact sorted_scModify _ _ _ hs) xs m _ hf hs

theorem btrLoop_spec (h : Nat) (aux : List (Nat × Nat)) (xs : List CBwtRequestOut)
    (m m1 : List (Nat × CSidechainMemPoolEntry))
    (hd : Outcome.foldl (addBtrStep h aux) m xs = Outcome.done m1) :
    (∀ s, rowOrDefault m1 s =
      (xs.filter (fun x => decide (x.scId = s))).foldl (fun r x => btrRow h aux x r)
        (rowOrDefault m s)) ∧
    (∀ s, mapFind m1 s ≠ none ↔ (s ∈ xs.map (fun x => x.scId) ∨ mapFind m s ≠ none)) ∧
    (KeySorted m → KeySorted m1) := by
  refine ⟨fun s => ?_, fun s => ?_, fun hs => ?_⟩
  · exact row_foldl _ (fun x => x.scId) (btrRow h aux)
      (fun m x m1 s hd => (addBtrStep_done h aux m m1 x hd).1 s) xs m _ hd s
  · exact has_foldl _ (fun x => x.scId)
      (fun m x m1 s hd => (addBtrStep_done h aux m m1 x hd).2.1 s) xs m _ hd s
  · exact sorted_foldl _
      (fun m x m1 hd hs => (addBtrStep_done h aux m m1 x hd).2.2 hs) xs m _ hd hs

/-- Rows after the sidechain loops of `addUnchecked` for a transaction. -/
theorem addSidechains_spec (h : Nat) (tx : CTransaction) (aux : List (Nat × Nat))
    (m m4 : List (Nat × CSidechainMemPoolEntry)) (hh : tx.hash = h)
    (hd : addSidechains h tx aux m = Outcome.done m4) :
    (∀ s, mapFind m4 s ≠ none ↔
      (mapFind m s ≠ none ∨ s ∈ tx.vcsw_ccin.map (fun c => c.scId) ∨
        s ∈ tx.vsc_ccout.map (fun c => c.scId) ∨ s ∈ tx.vft_ccout.map (fun c => c.scId) ∨
        s ∈ tx.vmbtr_out.map (fun c => c.scId))) ∧
    (∀ s, (rowOrDefault m4 s).scCreationTxHash =
      if s ∈ tx.vsc_ccout.map (fun c => c.scId) then h
      else (rowOrDefault m s).scCreationTxHash) ∧
    (∀ s x, x ∈ (rowOrDefault m4 s).fwdTxHashes ↔
      (x ∈ (rowOrDefault m s).fwdTxHashes ∨ (x = h ∧ s ∈ tx.vft_ccout.map (fun c => c.scId)))) ∧
    (∀ s x, x ∈ (rowOrDefault m4 s).mcBtrsTxHashes ↔
      (x ∈ (rowOrDefault m s).mcBtrsTxHashes ∨
        (x = h ∧ s ∈ tx.vmbtr_out.map (fun c => c.scId)))) ∧
    (∀ s, (rowOrDefault m4 s).mBackwardCertificates = (rowOrDefault m s).mBackwardCertificates) ∧
    (∀ s, (rowOrDefault m4 s).cswTotalAmount =
      (rowOrDefault m s).cswTotalAmount + tx.cswAmount s) ∧
    (∀ s, (rowOrDefault m4 s).cswNullifiers =
      ((tx.vcsw_ccin.filter (fun c => decide (c.scId = s))).map (fun c => c.nullifier)).foldl
        (fun m2 x => mapInsert m2 x h) (rowOrDefault m s).cswNullifiers) ∧
    (KeySorted m → KeySorted m4) := by
  unfold addSidechains at hd
  simp only [hh] at hd
  obtain ⟨c1, c2, c3⟩ := cswLoop_spec h tx.vcsw_ccin m
  obtain ⟨s1, s2, s3⟩ := scLoop_spec h tx.vsc_ccout (tx.vcsw_ccin.foldl (addCswStep h) m)
  obtain ⟨f1, f2, f3⟩ := fwdLoop_spec h tx.vft_ccout
    (tx.vsc_ccout.foldl (addScStep h) (tx.vcsw_ccin.foldl (addCswStep h) m))
  obtain ⟨b1, b2, b3⟩ := btrLoop_spec h aux tx.vmbtr_out _ m4 hd
  refine ⟨?_, ?_, ?_, ?_, ?_, ?_, ?_, ?_⟩
  · intro s
    rw [b2, f2, s2, c2]
    tauto
  · intro s
    rw [b1, foldl_proj (btrRow h aux) (fun r => r.scCreationTxHash) (fun _ _ => rfl),
      f1, foldl_proj (fwdRow h) (fun r => r.scCreationTxHash) (fun _ _ => rfl),
      s1, sc_foldl, c1, foldl_proj (cswRow h) (fun r => r.scCreationTxHash) (fun _ _ => rfl)]
    by_cases hs : s ∈ tx.vsc_ccout.map (fun c => c.scId)
    · rw [if_pos hs, if_neg ((filter_ne_nil_iff_mem_map _ _ s).mpr hs)]
    · rw [if_neg hs, if_pos (not_not.mp (fun hne => hs ((filter_ne_nil_iff_mem_map _ _ s).mp hne)))]
  · intro s x
    rw [b1, foldl_proj (btrRow h aux) (fun r => r.fwdTxHashes) (fun _ _ => rfl),
      f1, fwd_foldl, s1, foldl_proj (scRow h) (fun r => r.fwdTxHashes) (fun _ _ => rfl),
      c1, foldl_proj (cswRow h) (fun r => r.fwdTxHashes) (fun _ _ => rfl),
      filter_ne_nil_iff_mem_map]
  · intro s x
    rw [b1, btr_foldl, f1, foldl_proj (fwdRow h) (fun r => r.mcBtrsTxHashes) (fun _ _ => rfl),
      s1, foldl_proj (scRow h) (fun r => r.mcBtrsTxHashes) (fun _ _ => rfl),
      c1, foldl_proj (cswRow h) (fun r => r.mcBtrsTxHashes) (fun _ _ => rfl),
      filter_ne_nil_iff_mem_map]
  · intro s
    rw [b1, foldl_proj (btrRow h aux) (fun r => r.mBackwardCertificates) (fun _ _ => rfl),
      f1, foldl_proj (fwdRow h) (fun r => r.mBackwardCertificates) (fun _ _ => rfl),
      s1, foldl_proj (scRow h) (fun r => r.mBackwardCertificates) (fun _ _ => rfl),
      c1, foldl_proj (cswRow h) (fun r => r.mBackwardCertificates) (fun _ _ => rfl)]
  · intro s
    rw [b1, foldl_proj (btrRow h aux) (fun r => r.cswTotalAmount) (fun _ _ => rfl),
      f1, foldl_proj (fwdRow h) (fun r => r.cswTotalAmount) (fun _ _ => rfl),
      s1, foldl_proj (scRow h) (fun r => r.cswTotalAmount) (fun _ _ => rfl),
      c1, csw_foldl_total]
    rfl
  · intro s
    rw [b1, foldl_proj (btrRow h aux) (fun r => r.cswNullifiers) (fun _ _ => rfl),
      f1, foldl_proj (fwdRow h) (fun r => r.cswNullifiers) (fun _ _ => rfl),
      s1, foldl_proj (scRow h) (fun r => r.cswNullifiers) (fun _ _ => rfl),
      c1, csw_foldl_nfs]
  · intro hs
    exact b3 (f3 (s3 (c3 hs)))

/-- Effect of a completed `addUnchecked` of a transaction under its own hash,
with pairwise distinct input outpoints. -/
theorem addUnchecked_spec (p p1 : CTxMemPool) (h : Nat) (e : CTxMemPoolEntry) (f b : Bool)
    (aux : List (Nat × Nat)) (hh : e.tx.hash = h)
    (hn : (e.tx.vin.map (fun i => i.prevout)).Nodup)
    (hs : KeySorted p.mapSidechains)
    (hd : addUnchecked p h e f aux = Outcome.done (b, p1)) : TxAdded p p1 h e := by
  unfold addUnchecked at hd
  simp only [CTxMemPoolEntry.GetTx, Outcome.bind_eq_done, Outcome.done.injEq, Prod.mk.injEq] at hd
  obtain ⟨scs, hscs, _, hp⟩ := hd
  obtain ⟨a1, a2, a3, a4, a5, a6, a7, a8⟩ := addSidechains_spec h e.tx aux _ scs hh hscs
  subst hp
  subst hh
  refine ⟨rfl, rfl, ?_, ?_, ?_, a1, a2, a3, a4, a5, a6, ?_, ?_, a8 hs⟩
  · intro ix hix
    exact addNextTx_own e.tx.hash e.tx.vin p.mapNextTx 0 hn ix hix
  · intro o ho
    exact addNextTx_other _ _ _ _ _ ho
  · intro nf
    exact mapFind_addNullifiers e.tx.hash e.tx.vjoinsplit p.mapNullifiers nf
  · intro s nf
    show mapFind (rowOrDefault scs s).cswNullifiers nf = _
    rw [a7, mapFind_insertAll]
    simp only [mem_filter_nullifiers]
  · intro s kv hkv
    have hkv1 : kv ∈ (rowOrDefault scs s).cswNullifiers := hkv
    rw [a7] at hkv1
    rcases mem_insertAll _ _ _ _ hkv1 with h1 | ⟨h1, h2⟩
    · exact Or.inl h1
    · exact Or.inr ⟨h1, (mem_filter_nullifiers _ _ _).mp h2⟩

/-- Effect of a completed `addUnchecked` of a certificate under its own hash,
with pairwise distinct input outpoints. -/
theorem addUncheckedCert_spec (p p1 : CTxMemPool) (h : Nat) (e : CCertificateMemPoolEntry)
    (f b : Bool) (hh : e.cert.hash = h) (hn : (e.cert.vin.map (fun i => i.prevout)).Nodup)
    (hd : addUncheckedCert p h e f = Outcome.done (b, p1)) : CertAdded p p1 h e := by
  unfold addUncheckedCert at hd
  simp only [CCertificateMemPoolEntry.GetCertificate] at hd
  split at hd
  · cases hd
  · rename_i hclash
    simp only [Outcome.done.injEq, Prod.mk.injEq] at hd
    obtain ⟨_, hp⟩ := hd
    subst hp
    subst hh
    refine ⟨rfl, rfl, ?_, ?_, rfl, rfl, ?_⟩
    · intro ix hix
      exact addNextTx_own e.cert.hash e.cert.vin p.mapNextTx 0 hn ix hix
    · intro o ho
      exact addNextTx_other _ _ _ _ _ ho
    · intro r hr
      rw [hr] at hclash
      simp only [mapCount] at hclash
      cases hq : mapFind r.mBackwardCertificates e.cert.quality with
      | none => rfl
      | some v => simp [hq] at hclash

end CTxMemPool

namespace CTxMemPool

/-! ## Well-formedness after the addition of one transaction -/

theorem checkIncomingTxConflicts_true (p : CTxMemPool) (tx : CTransaction)
    (h : checkIncomingTxConflicts p tx = true) :
    mapFind p.mapTx tx.hash = none ∧
    (∀ vin ∈ tx.vin, mapFind p.mapNextTx vin.prevout = none) ∧
    (∀ sc ∈ tx.vsc_ccout, p.hasSidechainCreationTx sc.scId = false) ∧
    (∀ nf ∈ tx.nullifiers, mapFind p.mapNullifiers nf = none) ∧
    (∀ csw ∈ tx.vcsw_ccin, p.HaveCswNullifier csw.scId csw.nullifier = false) := by
  unfold checkIncomingTxConflicts at h
  simp only at h
  split at h
  · cases h
  rename_i h1
  split at h
  · cases h
  rename_i h2
  split at h
  · cases h
  rename_i h3
  split at h
  · cases h
  rename_i h4
  split at h
  · cases h
  rename_i h5
  refine ⟨?_, ?_, ?_, ?_, ?_⟩
  · cases hf : mapFind p.mapTx tx.hash with
    | none => rfl
    | some v => simp [mapCount, hf] at h1
  · intro vin hv
    cases hf : mapFind p.mapNextTx vin.prevout with
    | none => rfl
    | some v =>
      exfalso
      apply h2
      rw [List.any_eq_true]
      exact ⟨vin, hv, by simp [mapCount, hf]⟩
  · intro sc hsc
    cases hf : p.hasSidechainCreationTx sc.scId with
    | false => rfl
    | true =>
      exfalso
      apply h3
      rw [List.any_eq_true]
      exact ⟨sc, hsc, hf⟩
  · intro nf hnf
    unfold CTransaction.nullifiers at hnf
    obtain ⟨js, hjs, hmem⟩ := List.mem_flatMap.mp hnf
    cases hf : mapFind p.mapNullifiers nf with
    | none => rfl
    | some v =>
      exfalso
      apply h4
      rw [List.any_eq_true]
      refine ⟨js, hjs, ?_⟩
      rw [List.any_eq_true]
      exact ⟨nf, hmem, by simp [mapCount, hf]⟩
  · intro csw hc
    cases hf : p.HaveCswNullifier csw.scId csw.nullifier with
    | false => rfl
    | true =>
      exfalso
      apply h5
      rw [List.any_eq_true]
      exact ⟨csw, hc, hf⟩

theorem rowOrDefault_some {m : List (Nat × CSidechainMemPoolEntry)} {s : Nat}
    {r : CSidechainMemPoolEntry} (h : mapFind m s = some r) : rowOrDefault m s = r := by
  simp [rowOrDefault, h]

theorem rowOrDefault_none {m : List (Nat × CSidechainMemPoolEntry)} {s : Nat}
    (h : mapFind m s = none) : rowOrDefault m s = {} := by
  simp [rowOrDefault, h]

theorem row_of_has {m : List (Nat × CSidechainMemPoolEntry)} {s : Nat}
    (h : mapFind m s ≠ none) : mapFind m s = some (rowOrDefault m s) := by
  cases hf : mapFind m s with
  | none => exact absurd hf h
  | some r => rw [rowOrDefault_some hf]

theorem isNull_false_iff (r : CSidechainMemPoolEntry) :
    r.IsNull = false ↔ (r.fwdTxHashes ≠ [] ∨ r.scCreationTxHash ≠ 0 ∨
      r.mBackwardCertificates ≠ [] ∨ r.mcBtrsTxHashes ≠ [] ∨ r.cswNullifiers ≠ []) := by
  unfold CSidechainMemPoolEntry.IsNull
  simp only [Bool.and_eq_false_iff, List.isEmpty_eq_false, decide_eq_false_iff_not, ne_eq,
    List.isEmpty_iff]
  tauto

theorem ne_nil_of_find {K V : Type} [DecidableEq K] {m : List (K × V)} {k : K} {v : V}
    (h : mapFind m k = some v) : m ≠ [] := by
  intro hm
  rw [hm] at h
  cases h

theorem find_of_ne_nil {K V : Type} [DecidableEq K] {m : List (K × V)} (h : m ≠ []) :
    ∃ k v, mapFind m k = some v := by
  cases m with
  | nil => exact absurd rfl h
  | cons kv rest => exact ⟨kv.1, kv.2, by simp [mapFind]⟩

end CTxMemPool

namespace CTxMemPool

section TxAddedFacts

variable {p p1 : CTxMemPool} {h : Nat} {e : CTxMemPoolEntry}

theorem TxAdded.find_txAdd (ha : TxAdded p p1 h e) (k : Nat) :
    mapFind p1.mapTx k = if h = k then some e else mapFind p.mapTx k := by
  rw [ha.mapTx, mapFind_mapInsert]

theorem TxAdded.old_txAdd (ha : TxAdded p p1 h e) (hf : TxFresh p h e) {k : Nat}
    {e1 : CTxMemPoolEntry} (he : mapFind p.mapTx k = some e1) : mapFind p1.mapTx k = some e1 := by
  rw [ha.find_txAdd, if_neg, he]
  intro hk
  rw [← hk, hf.noTx] at he
  cases he

theorem TxAdded.new_txAdd (ha : TxAdded p p1 h e) : mapFind p1.mapTx h = some e := by
  rw [ha.find_txAdd, if_pos rfl]

theorem TxAdded.cases_txAdd (ha : TxAdded p p1 h e) {k : Nat} {e1 : CTxMemPoolEntry}
    (he : mapFind p1.mapTx k = some e1) :
    (k = h ∧ e1 = e) ∨ (k ≠ h ∧ mapFind p.mapTx k = some e1) := by
  rw [ha.find_txAdd] at he
  by_cases hk : h = k
  · rw [if_pos hk] at he
    cases he
    exact Or.inl ⟨hk.symm, rfl⟩
  · rw [if_neg hk] at he
    exact Or.inr ⟨fun h1 => hk h1.symm, he⟩

theorem TxAdded.deref_txAdd (ha : TxAdded p p1 h e) (hf : TxFresh p h e) {x : Nat}
    {b : CTransactionBase} (hb : p.deref x = some b) : p1.deref x = some b := by
  have hx : h ≠ x := by
    intro hx
    subst hx
    simp [deref, hf.noTx, hf.noCert] at hb
  unfold deref at hb ⊢
  rw [ha.find_txAdd, if_neg hx, ha.mapCertificate]
  exact hb

theorem TxAdded.keysOk_txAdd (ha : TxAdded p p1 h e) (hw : WellFormed p) (hf : TxFresh p h e) :
    KeysOk p1 := by
  refine ⟨mapAll_iff.mpr ?_, mapAll_iff.mpr ?_, ?_, ?_, ha.sortedSc⟩
  · intro k e1 he1
    rcases ha.cases_txAdd he1 with ⟨rfl, rfl⟩ | ⟨_, h0⟩
    · exact ⟨hf.hash, hf.wf⟩
    · exact ⟨hw.tx_hash h0, hw.tx_wf h0⟩
  · intro k e1 he1
    rw [ha.mapCertificate] at he1
    refine ⟨hw.cert_hash he1, hw.cert_wf he1, ?_⟩
    rw [ha.find_txAdd, if_neg, hw.cert_not_tx he1]
    intro hk
    rw [← hk, hf.noCert] at he1
    cases he1
  · rw [ha.mapTx]
    exact keySorted_mapInsert _ _ _ hw.sorted_tx
  · rw [ha.mapCertificate]
    exact hw.sorted_cert

theorem TxAdded.nextTxOk_txAdd (ha : TxAdded p p1 h e) (hw : WellFormed p) (hf : TxFresh p h e) :
    NextTxOk p1 := by
  have hold : ∀ o ip, mapFind p.mapNextTx o = some ip →
      o ∉ e.tx.vin.map (fun i => i.prevout) := by
    intro o ip ho hmem
    obtain ⟨vin, hv, rfl⟩ := List.mem_map.mp hmem
    rw [hf.inputs vin hv] at ho
    cases ho
  refine ⟨mapAll_iff.mpr ?_, mapAll_iff.mpr ?_, mapAll_iff.mpr ?_⟩
  · intro k e1 he1 ix hix
    rcases ha.cases_txAdd he1 with ⟨rfl, rfl⟩ | ⟨_, h0⟩
    · exact ha.next_new ix hix
    · have h1 := hw.next_of_tx h0 hix
      rw [ha.next_old _ (hold _ _ h1)]
      exact h1
  · intro k e1 he1 ix hix
    rw [ha.mapCertificate] at he1
    have h1 := hw.next_of_cert he1 hix
    rw [ha.next_old _ (hold _ _ h1)]
    exact h1
  · intro o ip hip
    by_cases hmem : o ∈ e.tx.vin.map (fun i => i.prevout)
    · obtain ⟨vin, hv, rfl⟩ := List.mem_map.mp hmem
      obtain ⟨j, hj⟩ := mem_enum_of_mem hv
      have h1 := ha.next_new (j, vin) hj
      rw [hip] at h1
      cases h1
      refine ⟨CTransactionBase.tx e.tx, deref_tx ha.new_txAdd, ?_⟩
      show (e.tx.vin.get? j).map (fun i => i.prevout) = some vin.prevout
      rw [List.get?_eq_getElem?, List.mk_mem_enum_iff_getElem?.mp hj]
      rfl
    · rw [ha.next_old o hmem] at hip
      obtain ⟨b, hb, hv⟩ := hw.next_backed hip
      exact ⟨b, ha.deref_txAdd hf hb, hv⟩

theorem TxAdded.nullifiersOk_txAdd (ha : TxAdded p p1 h e) (hw : WellFormed p)
    (hf : TxFresh p h e) : NullifiersOk p1 := by
  refine ⟨mapAll_iff.mpr ?_, mapAll_iff.mpr ?_⟩
  · intro k e1 he1 nf hnf
    rcases ha.cases_txAdd he1 with ⟨rfl, rfl⟩ | ⟨_, h0⟩
    · rw [ha.nullifiers, if_pos hnf]
    · have h1 := hw.nullifier_of_tx h0 hnf
      rw [ha.nullifiers, if_neg, h1]
      intro hmem
      rw [hf.nullifiers nf hmem] at h1
      cases h1
  · intro nf k hk
    rw [ha.nullifiers] at hk
    by_cases hmem : nf ∈ e.tx.nullifiers
    · rw [if_pos hmem] at hk
      cases hk
      exact ⟨e, ha.new_txAdd, hmem⟩
    · rw [if_neg hmem] at hk
      obtain ⟨e1, he1, h1⟩ := hw.nullifier_backed hk
      exact ⟨e1, ha.old_txAdd hf he1, h1⟩

end TxAddedFacts

end CTxMemPool

namespace CTxMemPool

section TxAddedRows

variable {p p1 : CTxMemPool} {h : Nat} {e : CTxMemPoolEntry}

theorem TxAdded.row_old_txAdd (ha : TxAdded p p1 h e) {s : Nat} {r : CSidechainMemPoolEntry}
    (hr : mapFind p.mapSidechains s = some r) :
    mapFind p1.mapSidechains s = some (rowOrDefault p1.mapSidechains s) := by
  apply row_of_has
  rw [ha.has]
  left
  rw [hr]
  simp

theorem TxAdded.rowsRecord_txAdd (ha : TxAdded p p1 h e) (hw : WellFormed p)
    (hf : TxFresh p h e) : RowsRecord p1 := by
  refine ⟨mapAll_iff.mpr ?_, mapAll_iff.mpr ?_⟩
  · intro k e1 he1
    rcases ha.cases_txAdd he1 with ⟨rfl, rfl⟩ | ⟨_, h0⟩
    · refine ⟨?_, ?_, ?_, ?_⟩
      · intro sc hsc
        have hm : sc.scId ∈ e1.tx.vsc_ccout.map (fun c => c.scId) := List.mem_map_of_mem _ hsc
        refine ⟨_, row_of_has ((ha.has _).mpr (Or.inr (Or.inr (Or.inl hm)))), ?_⟩
        beta_reduce
        rw [ha.scCreation, if_pos hm]
      · intro fwd hfwd
        have hm : fwd.scId ∈ e1.tx.vft_ccout.map (fun c => c.scId) := List.mem_map_of_mem _ hfwd
        refine ⟨_, row_of_has ((ha.has _).mpr (Or.inr (Or.inr (Or.inr (Or.inl hm))))), ?_⟩
        beta_reduce
        exact (ha.fwd _ _).mpr (Or.inr ⟨rfl, hm⟩)
      · intro btr hbtr
        have hm : btr.scId ∈ e1.tx.vmbtr_out.map (fun c => c.scId) := List.mem_map_of_mem _ hbtr
        refine ⟨_, row_of_has ((ha.has _).mpr (Or.inr (Or.inr (Or.inr (Or.inr hm))))), ?_⟩
        beta_reduce
        exact (ha.btr _ _).mpr (Or.inr ⟨rfl, hm⟩)
      · intro csw hcsw
        have hm : csw.scId ∈ e1.tx.vcsw_ccin.map (fun c => c.scId) := List.mem_map_of_mem _ hcsw
        refine ⟨_, row_of_has ((ha.has _).mpr (Or.inr (Or.inl hm))), ?_⟩
        beta_reduce
        rw [ha.nfs_find, if_pos]
        exact List.mem_map.mpr ⟨csw, hcsw, rfl⟩
    · refine ⟨?_, ?_, ?_, ?_⟩
      · intro sc hsc
        obtain ⟨r, hr, hrk⟩ := hw.row_of_sc h0 hsc
        refine ⟨_, ha.row_old_txAdd hr, ?_⟩
        beta_reduce
        rw [ha.scCreation, if_neg, rowOrDefault_some hr, hrk]
        intro hm
        obtain ⟨sc1, hsc1, heq⟩ := List.mem_map.mp hm
        have hno := hf.creations sc1 hsc1
        have hk0 : k ≠ 0 := by
          rw [← hw.tx_hash h0]
          exact (hw.tx_wf h0).1
        have heq1 : sc1.scId = sc.scId := heq
        rw [heq1] at hno
        simp [hasSidechainCreationTx, hr, hrk, hk0] at hno
      · intro fwd hfwd
        obtain ⟨r, hr, hrk⟩ := hw.row_of_fwd h0 hfwd
        refine ⟨_, ha.row_old_txAdd hr, ?_⟩
        beta_reduce
        rw [ha.fwd, rowOrDefault_some hr]
        exact Or.inl hrk
      · intro btr hbtr
        obtain ⟨r, hr, hrk⟩ := hw.row_of_btr h0 hbtr
        refine ⟨_, ha.row_old_txAdd hr, ?_⟩
        beta_reduce
        rw [ha.btr, rowOrDefault_some hr]
        exact Or.inl hrk
      · intro csw hcsw
        obtain ⟨r, hr, hrk⟩ := hw.row_of_csw h0 hcsw
        refine ⟨_, ha.row_old_txAdd hr, ?_⟩
        beta_reduce
        rw [ha.nfs_find, if_neg, rowOrDefault_some hr, hrk]
        intro hm
        obtain ⟨c1, hc1, heq⟩ := List.mem_map.mp hm
        have hno := hf.csws c1 hc1
        simp only [Prod.mk.injEq] at heq
        rw [heq.1, heq.2] at hno
        simp [HaveCswNullifier, hr, mapCount, hrk] at hno
  · intro k e1 he1
    rw [ha.mapCertificate] at he1
    obtain ⟨r, hr, hrk⟩ := hw.row_of_cert he1
    refine ⟨_, ha.row_old_txAdd hr, ?_⟩
    beta_reduce
    rw [ha.certs, rowOrDefault_some hr, hrk]

theorem cswSum_mapInsert (p : CTxMemPool) (h : Nat) (e : CTxMemPoolEntry)
    (hn : mapFind p.mapTx h = none) (s : Nat) :
    ((mapInsert p.mapTx h e).map (fun kv => kv.2.tx.cswAmount s)).sum =
      p.cswSum s + e.tx.cswAmount s := by
  have h1 := ((mapInsert_perm e hn).map (fun kv => kv.2.tx.cswAmount s)).sum_eq
  unfold cswSum
  rw [h1]
  simp only [List.map_cons, List.sum_cons]
  omega

theorem WellFormed.cswSum_no_row {p : CTxMemPool} (hw : WellFormed p) {s : Nat}
    (hr : mapFind p.mapSidechains s = none) : p.cswSum s = 0 := by
  apply cswSum_eq_zero p hw.sorted_tx
  intro k e he csw hc heq
  obtain ⟨r, hr1, _⟩ := hw.row_of_csw he hc
  rw [heq, hr] at hr1
  cases hr1

theorem WellFormed.row_total {p : CTxMemPool} (hw : WellFormed p) (s : Nat) :
    (rowOrDefault p.mapSidechains s).cswTotalAmount = p.cswSum s := by
  cases hr : mapFind p.mapSidechains s with
  | none => rw [rowOrDefault_none hr, hw.cswSum_no_row hr]
  | some r => rw [rowOrDefault_some hr, hw.csw_total hr]

theorem TxAdded.rowsBacked_txAdd (ha : TxAdded p p1 h e) (hw : WellFormed p)
    (hf : TxFresh p h e) : RowsBacked p1 := by
  have hh0 : h ≠ 0 := by
    rw [← hf.hash]
    exact hf.wf.1
  unfold RowsBacked
  refine mapAll_iff.mpr ?_
  intro s r1 hr1
  have hrow : rowOrDefault p1.mapSidechains s = r1 := rowOrDefault_some hr1
  have hdef : mapFind p.mapSidechains s = none → rowOrDefault p.mapSidechains s = {} :=
    fun hn => rowOrDefault_none hn
  refine ⟨?_, ?_, ?_, ?_, ?_, ?_, ?_⟩
  · rw [isNull_false_iff]
    cases hr0 : mapFind p.mapSidechains s with
    | some r0 =>
      have hnn := (isNull_false_iff r0).mp (hw.row_not_null hr0)
      have hrow0 := rowOrDefault_some hr0
      rcases hnn with hn | hn | hn | hn | hn
      · obtain ⟨x, hx⟩ := List.exists_mem_of_ne_nil _ hn
        left
        apply List.ne_nil_of_mem
        rw [← hrow, ha.fwd, hrow0]
        exact Or.inl hx
      · right; left
        rw [← hrow, ha.scCreation, hrow0]
        split
        · exact hh0
        · exact hn
      · right; right; left
        rw [← hrow, ha.certs, hrow0]
        exact hn
      · obtain ⟨x, hx⟩ := List.exists_mem_of_ne_nil _ hn
        right; right; right; left
        apply List.ne_nil_of_mem
        rw [← hrow, ha.btr, hrow0]
        exact Or.inl hx
      · obtain ⟨k, v, hkv⟩ := find_of_ne_nil hn
        right; right; right; right
        have := ha.nfs_find s k
        rw [hrow, hrow0, hkv] at this
        split at this
        · exact ne_nil_of_find this
        · exact ne_nil_of_find this
    | none =>
      have hhas : mapFind p1.mapSidechains s ≠ none := by rw [hr1]; simp
      rw [ha.has, hr0] at hhas
      rcases hhas with hn | hn | hn | hn | hn
      · exact absurd rfl hn
      · obtain ⟨c, hc, heq⟩ := List.mem_map.mp hn
        right; right; right; right
        have := ha.nfs_find s c.nullifier
        rw [hrow, if_pos (List.mem_map.mpr ⟨c, hc, by rw [← heq]⟩)] at this
        exact ne_nil_of_find this
      · right; left
        rw [← hrow, ha.scCreation, if_pos hn]
        exact hh0
      · left
        apply List.ne_nil_of_mem
        rw [← hrow, ha.fwd]
        exact Or.inr ⟨rfl, hn⟩
      · right; right; right; left
        apply List.ne_nil_of_mem
        rw [← hrow, ha.btr]
        exact Or.inr ⟨rfl, hn⟩
  · intro hne
    rw [← hrow, ha.scCreation] at hne ⊢
    by_cases hm : s ∈ e.tx.vsc_ccout.map (fun c => c.scId)
    · rw [if_pos hm]
      exact ⟨e, ha.new_txAdd, hm⟩
    · rw [if_neg hm] at hne ⊢
      cases hr0 : mapFind p.mapSidechains s with
      | none =>
        rw [hdef hr0] at hne
        exact absurd rfl hne
      | some r0 =>
        rw [rowOrDefault_some hr0] at hne ⊢
        obtain ⟨e0, he0, hs0⟩ := hw.sc_backed hr0 hne
        exact ⟨e0, ha.old_txAdd hf he0, hs0⟩
  · intro x hx
    rw [← hrow, ha.fwd] at hx
    rcases hx with hx | ⟨rfl, hm⟩
    · cases hr0 : mapFind p.mapSidechains s with
      | none =>
        rw [hdef hr0] at hx
        cases hx
      | some r0 =>
        rw [rowOrDefault_some hr0] at hx
        obtain ⟨e0, he0, hs0⟩ := hw.fwd_backed hr0 hx
        exact ⟨e0, ha.old_txAdd hf he0, hs0⟩
    · exact ⟨e, ha.new_txAdd, hm⟩
  · intro x hx
    rw [← hrow, ha.btr] at hx
    rcases hx with hx | ⟨rfl, hm⟩
    · cases hr0 : mapFind p.mapSidechains s with
      | none =>
        rw [hdef hr0] at hx
        cases hx
      | some r0 =>
        rw [rowOrDefault_some hr0] at hx
        obtain ⟨e0, he0, hs0⟩ := hw.btr_backed hr0 hx
        exact ⟨e0, ha.old_txAdd hf he0, hs0⟩
    · exact ⟨e, ha.new_txAdd, hm⟩
  · intro kv hkv
    rw [← hrow] at hkv
    rcases ha.nfs_mem s kv hkv with hx | ⟨hk, hm⟩
    · cases hr0 : mapFind p.mapSidechains s with
      | none =>
        rw [hdef hr0] at hx
        cases hx
      | some r0 =>
        rw [rowOrDefault_some hr0] at hx
        obtain ⟨e0, he0, hs0⟩ := hw.csw_backed hr0 hx
        exact ⟨e0, ha.old_txAdd hf he0, hs0⟩
    · rw [hk]
      exact ⟨e, ha.new_txAdd, hm⟩
  · intro kv hkv
    rw [← hrow, ha.certs] at hkv
    cases hr0 : mapFind p.mapSidechains s with
    | none =>
      rw [hdef hr0] at hkv
      cases hkv
    | some r0 =>
      rw [rowOrDefault_some hr0] at hkv
      obtain ⟨e0, he0, hs0⟩ := hw.cert_backed hr0 hkv
      exact ⟨e0, by rw [ha.mapCertificate]; exact he0, hs0⟩
  · rw [← hrow, ha.total, hw.row_total]
    unfold cswSum
    rw [ha.mapTx, cswSum_mapInsert p h e hf.noTx s]
    rfl

theorem TxAdded.wellFormed_txAdd (ha : TxAdded p p1 h e) (hw : WellFormed p)
    (hf : TxFresh p h e) : WellFormed p1 :=
  ⟨ha.keysOk_txAdd hw hf, ha.nextTxOk_txAdd hw hf, ha.nullifiersOk_txAdd hw hf,
    ha.rowsRecord_txAdd hw hf, ha.rowsBacked_txAdd hw hf⟩

end TxAddedRows

end CTxMemPool

namespace CTxMemPool

/-! ## Well-formedness after the addition of one certificate -/

section CertAddedFacts

variable {p p1 : CTxMemPool} {h : Nat} {e : CCertificateMemPoolEntry}

theorem CertAdded.find_certAdd (ha : CertAdded p p1 h e) (k : Nat) :
    mapFind p1.mapCertificate k = if h = k then some e else mapFind p.mapCertificate k := by
  rw [ha.mapCertificate, mapFind_mapInsert]

theorem CertAdded.old_certAdd (ha : CertAdded p p1 h e) (hf : CertFresh p h e) {k : Nat}
    {e1 : CCertificateMemPoolEntry} (he : mapFind p.mapCertificate k = some e1) :
    mapFind p1.mapCertificate k = some e1 := by
  rw [ha.find_certAdd, if_neg, he]
  intro hk
  rw [← hk, hf.noCert] at he
  cases he

theorem CertAdded.new_certAdd (ha : CertAdded p p1 h e) :
    mapFind p1.mapCertificate h = some e := by
  rw [ha.find_certAdd, if_pos rfl]

theorem CertAdded.cases_certAdd (ha : CertAdded p p1 h e) {k : Nat}
    {e1 : CCertificateMemPoolEntry} (he : mapFind p1.mapCertificate k = some e1) :
    (k = h ∧ e1 = e) ∨ (k ≠ h ∧ mapFind p.mapCertificate k = some e1) := by
  rw [ha.find_certAdd] at he
  by_cases hk : h = k
  · rw [if_pos hk] at he
    cases he
    exact Or.inl ⟨hk.symm, rfl⟩
  · rw [if_neg hk] at he
    exact Or.inr ⟨fun h1 => hk h1.symm, he⟩

theorem CertAdded.deref_certAdd (ha : CertAdded p p1 h e) (hf : CertFresh p h e) {x : Nat}
    {b : CTransactionBase} (hb : p.deref x = some b) : p1.deref x = some b := by
  have hx : h ≠ x := by
    intro hx
    subst hx
    simp [deref, hf.noTx, hf.noCert] at hb
  unfold deref at hb ⊢
  rw [ha.find_certAdd, if_neg hx, ha.mapTx]
  exact hb

theorem CertAdded.row_certAdd (ha : CertAdded p p1 h e) (s : Nat) :
    mapFind p1.mapSidechains s =
      if e.cert.scId = s then
        some { rowOrDefault p.mapSidechains s with
          mBackwardCertificates :=
            mapInsert (rowOrDefault p.mapSidechains s).mBackwardCertificates e.cert.quality h }
      else mapFind p.mapSidechains s := by
  rw [ha.sidechains]
  unfold scModify
  rw [mapFind_mapInsert]
  by_cases hk : e.cert.scId = s
  · subst hk; simp
  · simp [hk]

theorem CertAdded.keysOk_certAdd (ha : CertAdded p p1 h e) (hw : WellFormed p)
    (hf : CertFresh p h e) : KeysOk p1 := by
  refine ⟨mapAll_iff.mpr ?_, mapAll_iff.mpr ?_, ?_, ?_, ?_⟩
  · intro k e1 he1
    rw [ha.mapTx] at he1
    exact ⟨hw.tx_hash he1, hw.tx_wf he1⟩
  · intro k e1 he1
    rcases ha.cases_certAdd he1 with ⟨rfl, rfl⟩ | ⟨_, h0⟩
    · exact ⟨hf.hash, hf.wf, by rw [ha.mapTx]; exact hf.noTx⟩
    · exact ⟨hw.cert_hash h0, hw.cert_wf h0, by rw [ha.mapTx]; exact hw.cert_not_tx h0⟩
  · rw [ha.mapTx]
    exact hw.sorted_tx
  · rw [ha.mapCertificate]
    exact keySorted_mapInsert _ _ _ hw.sorted_cert
  · rw [ha.sidechains]
    exact sorted_scModify _ _ _ hw.sorted_sc

theorem CertAdded.nextTxOk_certAdd (ha : CertAdded p p1 h e) (hw : WellFormed p)
    (hf : CertFresh p h e) : NextTxOk p1 := by
  have hold : ∀ o ip, mapFind p.mapNextTx o = some ip →
      o ∉ e.cert.vin.map (fun i => i.prevout) := by
    intro o ip ho hmem
    obtain ⟨vin, hv, rfl⟩ := List.mem_map.mp hmem
    rw [hf.inputs vin hv] at ho
    cases ho
  refine ⟨mapAll_iff.mpr ?_, mapAll_iff.mpr ?_, mapAll_iff.mpr ?_⟩
  · intro k e1 he1 ix hix
    rw [ha.mapTx] at he1
    have h1 := hw.next_of_tx he1 hix
    rw [ha.next_old _ (hold _ _ h1)]
    exact h1
  · intro k e1 he1 ix hix
    rcases ha.cases_certAdd he1 with ⟨rfl, rfl⟩ | ⟨_, h0⟩
    · exact ha.next_new ix hix
    · have h1 := hw.next_of_cert h0 hix
      rw [ha.next_old _ (hold _ _ h1)]
      exact h1
  · intro o ip hip
    by_cases hmem : o ∈ e.cert.vin.map (fun i => i.prevout)
    · obtain ⟨vin, hv, rfl⟩ := List.mem_map.mp hmem
      obtain ⟨j, hj⟩ := mem_enum_of_mem hv
      have h1 := ha.next_new (j, vin) hj
      rw [hip] at h1
      cases h1
      refine ⟨CTransactionBase.cert e.cert,
        deref_cert (by rw [ha.mapTx]; exact hf.noTx) ha.new_certAdd, ?_⟩
      show (e.cert.vin.get? j).map (fun i => i.prevout) = some vin.prevout
      rw [List.get?_eq_getElem?, List.mk_mem_enum_iff_getElem?.mp hj]
      rfl
    · rw [ha.next_old o hmem] at hip
      obtain ⟨b, hb, hv⟩ := hw.next_backed hip
      exact ⟨b, ha.deref_certAdd hf hb, hv⟩

theorem CertAdded.nullifiersOk_certAdd (ha : CertAdded p p1 h e) (hw : WellFormed p) :
    NullifiersOk p1 := by
  unfold NullifiersOk
  rw [ha.mapTx, ha.nullifiers]
  exact hw.2.2.1

theorem CertAdded.row_keep_certAdd (ha : CertAdded p p1 h e) {s : Nat}
    {r : CSidechainMemPoolEntry} (hr : mapFind p.mapSidechains s = some r) :
    ∃ r1, mapFind p1.mapSidechains s = some r1 ∧
      r1.scCreationTxHash = r.scCreationTxHash ∧ r1.fwdTxHashes = r.fwdTxHashes ∧
      r1.mcBtrsTxHashes = r.mcBtrsTxHashes ∧ r1.cswNullifiers = r.cswNullifiers ∧
      r1.cswTotalAmount = r.cswTotalAmount ∧
      (r1.mBackwardCertificates = r.mBackwardCertificates ∨
        (e.cert.scId = s ∧
          r1.mBackwardCertificates = mapInsert r.mBackwardCertificates e.cert.quality h)) := by
  rw [ha.row_certAdd]
  by_cases hk : e.cert.scId = s
  · rw [if_pos hk, rowOrDefault_some hr]
    exact ⟨_, rfl, rfl, rfl, rfl, rfl, rfl, Or.inr ⟨hk, rfl⟩⟩
  · rw [if_neg hk]
    exact ⟨r, hr, rfl, rfl, rfl, rfl, rfl, Or.inl rfl⟩

theorem CertAdded.rowsRecord_certAdd (ha : CertAdded p p1 h e) (hw : WellFormed p)
    (hf : CertFresh p h e) : RowsRecord p1 := by
  refine ⟨mapAll_iff.mpr ?_, mapAll_iff.mpr ?_⟩
  · intro k e1 he1
    rw [ha.mapTx] at he1
    refine ⟨?_, ?_, ?_, ?_⟩
    · intro sc hsc
      obtain ⟨r, hr, hrk⟩ := hw.row_of_sc he1 hsc
      obtain ⟨r1, hr1, h1, _⟩ := ha.row_keep_certAdd hr
      exact ⟨r1, hr1, by beta_reduce; rw [h1, hrk]⟩
    · intro fwd hfwd
      obtain ⟨r, hr, hrk⟩ := hw.row_of_fwd he1 hfwd
      obtain ⟨r1, hr1, _, h1, _⟩ := ha.row_keep_certAdd hr
      exact ⟨r1, hr1, by beta_reduce; rw [h1]; exact hrk⟩
    · intro btr hbtr
      obtain ⟨r, hr, hrk⟩ := hw.row_of_btr he1 hbtr
      obtain ⟨r1, hr1, _, _, h1, _⟩ := ha.row_keep_certAdd hr
      exact ⟨r1, hr1, by beta_reduce; rw [h1]; exact hrk⟩
    · intro csw hcsw
      obtain ⟨r, hr, hrk⟩ := hw.row_of_csw he1 hcsw
      obtain ⟨r1, hr1, _, _, _, h1, _⟩ := ha.row_keep_certAdd hr
      exact ⟨r1, hr1, by beta_reduce; rw [h1]; exact hrk⟩
  · intro k e1 he1
    rcases ha.cases_certAdd he1 with ⟨rfl, rfl⟩ | ⟨_, h0⟩
    · refine ⟨_, by rw [ha.row_certAdd, if_pos rfl], ?_⟩
      beta_reduce
      rw [mapFind_mapInsert, if_pos rfl]
    · obtain ⟨r, hr, hrk⟩ := hw.row_of_cert h0
      obtain ⟨r1, hr1, _, _, _, _, _, h1 | ⟨hs, h1⟩⟩ := ha.row_keep_certAdd hr
      · exact ⟨r1, hr1, by beta_reduce; rw [h1]; exact hrk⟩
      · refine ⟨r1, hr1, ?_⟩
        beta_reduce
        rw [h1, mapFind_mapInsert, if_neg]
        · exact hrk
        · intro hq
          have := ha.fresh r (by rw [hs]; exact hr)
          rw [hq, hrk] at this
          cases this

theorem CertAdded.rowsBacked_certAdd (ha : CertAdded p p1 h e) (hw : WellFormed p)
    (hf : CertFresh p h e) : RowsBacked p1 := by
  unfold RowsBacked
  refine mapAll_iff.mpr ?_
  intro s r1 hr1
  have hsum : p1.cswSum s = p.cswSum s := by
    unfold cswSum
    rw [ha.mapTx]
  rw [ha.row_certAdd] at hr1
  by_cases hk : e.cert.scId = s
  · rw [if_pos hk] at hr1
    cases hr1
    have hdef : mapFind p.mapSidechains s = none → rowOrDefault p.mapSidechains s = {} :=
      fun hn => rowOrDefault_none hn
    refine ⟨?_, ?_, ?_, ?_, ?_, ?_, ?_⟩
    · rw [isNull_false_iff]
      right; right; left
      exact mapInsert_ne_nil _ _ _
    · intro hne
      simp only at hne ⊢
      cases hr0 : mapFind p.mapSidechains s with
      | none =>
        rw [hdef hr0] at hne
        exact absurd rfl hne
      | some r0 =>
        rw [rowOrDefault_some hr0] at hne ⊢
        obtain ⟨e0, he0, hs0⟩ := hw.sc_backed hr0 hne
        exact ⟨e0, by rw [ha.mapTx]; exact he0, hs0⟩
    · intro x hx
      simp only at hx
      cases hr0 : mapFind p.mapSidechains s with
      | none =>
        rw [hdef hr0] at hx
        cases hx
      | some r0 =>
        rw [rowOrDefault_some hr0] at hx
        obtain ⟨e0, he0, hs0⟩ := hw.fwd_backed hr0 hx
        exact ⟨e0, by rw [ha.mapTx]; exact he0, hs0⟩
    · intro x hx
      simp only at hx
      cases hr0 : mapFind p.mapSidechains s with
      | none =>
        rw [hdef hr0] at hx
        cases hx
      | some r0 =>
        rw [rowOrDefault_some hr0] at hx
        obtain ⟨e0, he0, hs0⟩ := hw.btr_backed hr0 hx
        exact ⟨e0, by rw [ha.mapTx]; exact he0, hs0⟩
    · intro kv hkv
      simp only at hkv
      cases hr0 : mapFind p.mapSidechains s with
      | none =>
        rw [hdef hr0] at hkv
        cases hkv
      | some r0 =>
        rw [rowOrDefault_some hr0] at hkv
        obtain ⟨e0, he0, hs0⟩ := hw.csw_backed hr0 hkv
        exact ⟨e0, by rw [ha.mapTx]; exact he0, hs0⟩
    · intro kv hkv
      simp only at hkv
      rcases mem_mapInsert hkv with hnew | hold
      · subst hnew
        exact ⟨e, ha.new_certAdd, hk, rfl⟩
      · cases hr0 : mapFind p.mapSidechains s with
        | none =>
          rw [hdef hr0] at hold
          cases hold
        | some r0 =>
          rw [rowOrDefault_some hr0] at hold
          obtain ⟨e0, he0, hs0⟩ := hw.cert_backed hr0 hold
          exact ⟨e0, ha.old_certAdd hf he0, hs0⟩
    · rw [hsum]
      exact hw.row_total s
  · rw [if_neg hk] at hr1
    refine ⟨hw.row_not_null hr1, ?_, ?_, ?_, ?_, ?_, ?_⟩
    · intro hne
      obtain ⟨e0, he0, hs0⟩ := hw.sc_backed hr1 hne
      exact ⟨e0, by rw [ha.mapTx]; exact he0, hs0⟩
    · intro x hx
      obtain ⟨e0, he0, hs0⟩ := hw.fwd_backed hr1 hx
      exact ⟨e0, by rw [ha.mapTx]; exact he0, hs0⟩
    · intro x hx
      obtain ⟨e0, he0, hs0⟩ := hw.btr_backed hr1 hx
      exact ⟨e0, by rw [ha.mapTx]; exact he0, hs0⟩
    · intro kv hkv
      obtain ⟨e0, he0, hs0⟩ := hw.csw_backed hr1 hkv
      exact ⟨e0, by rw [ha.mapTx]; exact he0, hs0⟩
    · intro kv hkv
      obtain ⟨e0, he0, hs0⟩ := hw.cert_backed hr1 hkv
      exact ⟨e0, ha.old_certAdd hf he0, hs0⟩
    · rw [hsum]
      exact hw.csw_total hr1

theorem CertAdded.wellFormed_certAdd (ha : CertAdded p p1 h e) (hw : WellFormed p)
    (hf : CertFresh p h e) : WellFormed p1 :=
  ⟨ha.keysOk_certAdd hw hf, ha.nextTxOk_certAdd hw hf, ha.nullifiersOk_certAdd hw,
    ha.rowsRecord_certAdd hw hf, ha.rowsBacked_certAdd hw hf⟩

end CertAddedFacts

end CTxMemPool

namespace CTxMemPool

/-! ## Well-formedness after the removal operations -/

theorem remove_wf (st st1 : Removal) (x : CTransactionBase) (f : Bool)
    (hw : WellFormed st.pool) (h : remove st x f = Outcome.done st1) : WellFormed st1.pool := by
  obtain ⟨st2, h2, hs, _⟩ := remove_shrinks st hw x f
  rw [h] at h2
  cases h2
  exact hs.wf

theorem removeConflicting_wf (st st1 : Removal) (self ptx : Nat) (hw : WellFormed st.pool)
    (h : removeConflicting st self ptx = Outcome.done st1) : WellFormed st1.pool := by
  unfold removeConflicting at h
  split at h
  · cases h
  · split at h
    · exact remove_wf _ _ _ _ hw h
    · cases h; exact hw

theorem removeInputConflicts_wf (st st1 : Removal) (self : Nat) (vin : List CTxIn)
    (hw : WellFormed st.pool) (h : removeInputConflicts st self vin = Outcome.done st1) :
    WellFormed st1.pool := by
  obtain ⟨st2, h2, hs⟩ := removeInputConflicts_spec vin st hw self
  rw [h] at h2
  cases h2
  exact hs.wf

theorem removeNullifierConflicts_wf (st st1 : Removal) (self : Nat)
    (vjoinsplit : List JSDescription) (hw : WellFormed st.pool)
    (h : removeNullifierConflicts st self vjoinsplit = Outcome.done st1) :
    WellFormed st1.pool := by
  unfold removeNullifierConflicts at h
  refine Outcome.foldl_preserves _ (fun s => WellFormed s.pool) vjoinsplit ?_ st st1 hw h
  intro s hs js _ s1 h1
  refine Outcome.foldl_preserves _ (fun s => WellFormed s.pool) js.nullifiers ?_ s s1 hs h1
  intro s2 hs2 nf _ s3 h3
  unfold removeNullifierConflict at h3
  split at h3
  · cases h3; exact hs2
  · exact removeConflicting_wf _ _ _ _ hs2 h3

theorem removeCswConflicts_wf (st st1 : Removal) (self : Nat)
    (vcsw : List CTxCeasedSidechainWithdrawalInput) (hw : WellFormed st.pool)
    (h : removeCswConflicts st self vcsw = Outcome.done st1) : WellFormed st1.pool := by
  unfold removeCswConflicts at h
  refine Outcome.foldl_preserves _ (fun s => WellFormed s.pool) vcsw ?_ st st1 hw h
  intro s hs csw _ s1 h1
  unfold removeCswConflict at h1
  split at h1
  · cases h1; exact hs
  · split at h1
    · cases h1; exact hs
    · split at h1
      · cases h1
      · split at h1
        · exact remove_wf _ _ _ _ hs h1
        · cases h1; exact hs

theorem removeOutOfScBalanceCsw_wf (st st1 : Removal) (view : CCoinsViewCache)
    (hw : WellFormed st.pool) (h : removeOutOfScBalanceCsw st view = Outcome.done st1) :
    WellFormed st1.pool := by
  unfold removeOutOfScBalanceCsw at h
  rw [Outcome.bind_eq_done] at h
  obtain ⟨acc, hacc, h2⟩ := h
  have hnd := nodup_keys_of_keySorted hw.sorted_sc
  have hpool : acc.1 = st.pool := by
    refine Outcome.foldl_preserves (outOfBalanceStep view) (fun a => a.1 = st.pool)
      st.pool.mapSidechains ?_ (st.pool, []) acc rfl hacc
    intro a ha row hrow a1 h1
    unfold outOfBalanceStep at h1
    split at h1
    · cases h1; exact ha
    · split at h1
      · cases h1
      · split at h1
        · cases h1; exact ha
        · simp only [Outcome.done.injEq] at h1
          obtain ⟨out, ho, _⟩ := collectCswTxs_spec st.pool row.2.cswNullifiers a.2
            (fun kv hkv => by
              obtain ⟨e, he, _⟩ := hw.csw_backed (mapFind_of_mem hnd hrow) hkv
              exact ⟨e, he, hw.tx_hash he⟩)
          have ha2 : a = (st.pool, a.2) := by rw [← ha]
          rw [ha2, ho] at h1
          rw [← h1]
  obtain ⟨st2, h3, hs, _⟩ := removeCollectedTxs_spec acc.2 { st with pool := acc.1 }
    (by rw [hpool]; exact hw)
  rw [h2] at h3
  cases h3
  exact hs.wf

theorem removeConflicts_wf (st st1 : Removal) (tx : CTransaction) (view : CCoinsViewCache)
    (hw : WellFormed st.pool) (h : removeConflicts st tx view = Outcome.done st1) :
    WellFormed st1.pool := by
  unfold removeConflicts at h
  simp only [Outcome.bind_eq_done] at h
  obtain ⟨s1, h1, s2, h2, s3, h3, h4⟩ := h
  exact removeOutOfScBalanceCsw_wf _ _ _
    (removeCswConflicts_wf _ _ _ _
      (removeNullifierConflicts_wf _ _ _ _ (removeInputConflicts_wf _ _ _ _ hw h1) h2) h3) h4

theorem clearPrioritisation_wf (p : CTxMemPool) (hash : Nat) (hw : WellFormed p) :
    WellFormed (ClearPrioritisation p hash) := hw

theorem removeForBlock_wf (st st1 : Removal) (vtx : List CTransaction) (nBlockHeight : Nat)
    (fCurrentEstimate : Bool) (view : CCoinsViewCache) (hw : WellFormed st.pool)
    (h : removeForBlock st vtx nBlockHeight fCurrentEstimate view = Outcome.done st1) :
    WellFormed st1.pool := by
  unfold removeForBlock at h
  refine Outcome.foldl_preserves _ (fun s => WellFormed s.pool) vtx ?_ st st1 hw h
  intro s hs tx _ s1 h1
  unfold removeForBlockTx at h1
  simp only [Outcome.bind_eq_done, Outcome.done.injEq] at h1
  obtain ⟨d, hd, s2, h2, h3⟩ := h1
  have hwd : WellFormed d.pool :=
    remove_wf { pool := s.pool, removedTxs := [], removedCerts := [] } d _ _ hs hd
  have hw2 : WellFormed s2.pool := removeConflicts_wf { s with pool := d.pool } s2 tx view hwd h2
  rw [← h3]
  exact clearPrioritisation_wf _ _ hw2

theorem removeForBlockCert_wf (st st1 : Removal) (vcert : List CScCertificate)
    (nBlockHeight : Nat) (hw : WellFormed st.pool)
    (h : removeForBlockCert st vcert nBlockHeight = Outcome.done st1) :
    WellFormed st1.pool := by
  unfold removeForBlockCert at h
  simp only [Outcome.bind_eq_done, Outcome.done.injEq] at h
  obtain ⟨acc, hacc, hst⟩ := h
  rw [← hst]
  refine Outcome.foldl_preserves removeForBlockCertStep (fun a => WellFormed a.1.pool) vcert ?_
    _ acc hw hacc
  intro a ha cert _ a1 h1
  unfold removeForBlockCertStep at h1
  simp only [Outcome.bind_eq_done, Outcome.done.injEq] at h1
  obtain ⟨d, hd, s2, h2, h3⟩ := h1
  have hwd : WellFormed d.pool := remove_wf { a.2 with pool := a.1.pool } d _ _ ha hd
  obtain ⟨s3, h4, hs, _⟩ := removeConflictsCert_spec { a.1 with pool := d.pool } hwd cert
  rw [h2] at h4
  cases h4
  rw [← h3]
  exact clearPrioritisation_wf _ _ hs.wf

/-! ## Admission of a certificate -/

theorem checkIncomingCertConflicts_true (p : CTxMemPool) (cert : CScCertificate)
    (h : checkIncomingCertConflicts p cert = Outcome.done true) :
    mapFind p.mapCertificate cert.hash = none ∧
    (∀ vin ∈ cert.vin, mapFind p.mapNextTx vin.prevout = none) := by
  unfold checkIncomingCertConflicts at h
  simp only at h
  split at h
  · cases h
  rename_i h1
  split at h
  · cases h
  rename_i h2
  refine ⟨?_, ?_⟩
  · cases hf : mapFind p.mapCertificate cert.hash with
    | none => rfl
    | some v => simp [mapCount, hf] at h1
  · intro vin hv
    cases hf : mapFind p.mapNextTx vin.prevout with
    | none => rfl
    | some v =>
      exfalso
      apply h2
      rw [List.any_eq_true]
      exact ⟨vin, hv, by simp [mapCount, hf]⟩

end CTxMemPool

namespace CTxMemPool

/-! ## Reachable pools -/

/-- Every reachable pool is well-formed. -/
theorem reachable_wellFormed (p : CTxMemPool) (h : Reachable p) : WellFormed p := by
  induction h with
  | empty => decide
  | byAddTx p p1 hash entry f b aux _ hh hwf htx hcert hchk hd ih =>
    obtain ⟨_, c2, c3, c4, c5⟩ := checkIncomingTxConflicts_true p entry.tx hchk
    have ha := addUnchecked_spec p p1 hash entry f b aux hh hwf.2.1 ih.sorted_sc hd
    exact ha.wellFormed_txAdd ih ⟨hh, hwf, htx, hcert, c2, c3, c4, c5⟩
  | byAddCert p p1 hash entry f b _ hh hwf htx hcert hchk hd ih =>
    obtain ⟨_, c2⟩ := checkIncomingCertConflicts_true p entry.cert hchk
    have ha := addUncheckedCert_spec p p1 hash entry f b hh hwf hd
    exact ha.wellFormed_certAdd ih ⟨hh, hwf, htx, hcert, c2⟩
  | byRemove st st1 origTx fRecursive _ hd ih => exact remove_wf st st1 origTx fRecursive ih hd
  | byRemoveForBlock st st1 vtx nBlockHeight f view _ hd ih =>
    exact removeForBlock_wf st st1 vtx nBlockHeight f view ih hd
  | byRemoveForBlockCert st st1 vcert nBlockHeight _ hd ih =>
    exact removeForBlockCert_wf st st1 vcert nBlockHeight ih hd

/-- A well-formed pool passes the assertions of `check` on the secondary tables. -/
theorem WellFormed.checkTables_holds {p : CTxMemPool} (hw : WellFormed p) : checkTables p := by
  refine ⟨mapAll_iff.mpr ?_, mapAll_iff.mpr ?_, hw.2.1.2.2, mapAll_iff.mpr ?_⟩
  · intro k e he
    have hk : e.GetTx.hash = k := hw.tx_hash he
    simp only [hk]
    refine ⟨?_, ?_, ?_, ?_, ?_⟩
    · intro ix hix
      exact ⟨_, hw.next_of_tx he hix, rfl, rfl⟩
    · intro sc hsc
      exact hw.row_of_sc he hsc
    · intro fwd hfwd
      exact hw.row_of_fwd he hfwd
    · intro csw hcsw
      exact hw.row_of_csw he hcsw
    · intro btr hbtr
      exact hw.row_of_btr he hbtr
  · intro k e he
    have hk : e.GetCertificate.hash = k := hw.cert_hash he
    simp only [hk]
    refine ⟨?_, ?_⟩
    · obtain ⟨r, hr, hq⟩ := hw.row_of_cert he
      refine ⟨r, hr, ?_⟩
      unfold CSidechainMemPoolEntry.HasCert
      beta_reduce
      rw [List.any_eq_true]
      exact ⟨_, mem_of_mapFind hq, by simp⟩
    · intro ix hix
      exact ⟨_, hw.next_of_cert he hix, rfl, rfl⟩
  · intro nf k hk
    obtain ⟨e, he, _⟩ := hw.nullifier_backed hk
    exact ⟨e, he, trivial⟩

/-- C4, counterexample: `txCswA` and `txCswB` withdraw 40 each from sidechain 100
under the same CSW nullifier.  Adding `txCswA` and then `txCswB` to the empty
pool, each under a hash that is not in the pool, and removing `txCswA`, erases
the row of sidechain 100 while `txCswB` is still in `mapTx`: the CSW inputs in
the pool sum to 40 and the row total is not 40. -/
theorem csw_conservation_counterexample :
    mapFind ({} : CTxMemPool).mapTx 41 = none ∧
      addUnchecked {} 41 { tx := Scenario.txCswA } true [] =
        Outcome.done (true, Scenario.poolCswA) ∧
      mapFind Scenario.poolCswA.mapTx 42 = none ∧
      addUnchecked Scenario.poolCswA 42 { tx := Scenario.txCswB } true [] =
        Outcome.done (true, Scenario.poolCswAB) ∧
      remove ⟨Scenario.poolCswAB, [], []⟩ (CTransactionBase.tx Scenario.txCswA) false =
        Outcome.done ⟨Scenario.poolCswB, [Scenario.txCswA], []⟩ ∧
      Scenario.poolCswB.cswSum 100 = 40 ∧
      mapFind Scenario.poolCswB.mapSidechains 100 = none ∧
      (rowOrDefault Scenario.poolCswB.mapSidechains 100).cswTotalAmount ≠
        Scenario.poolCswB.cswSum 100 := by
  decide

/-- C4 (amended): in every pool reached from the empty pool by completed calls of
`addUnchecked`, `remove` and `removeForBlock`, where each added entry is
internally well-formed, stored under its own hash, new to the pool and accepted
by the conflict check, the row total of every sidechain equals the sum of the
values of the CSW inputs for that sidechain over the transactions of `mapTx`;
a missing row counts as total 0, and a row has total 0 when no transaction of
the pool has a CSW input for the sidechain. -/
theorem reachable_csw_conservation (p : CTxMemPool) (h : Reachable p) (s : Nat) :
    (rowOrDefault p.mapSidechains s).cswTotalAmount = p.cswSum s ∧
      (∀ r, mapFind p.mapSidechains s = some r → r.cswTotalAmount = p.cswSum s) ∧
      ((∀ k e, mapFind p.mapTx k = some e → ∀ csw ∈ e.tx.vcsw_ccin, csw.scId ≠ s) →
        ∀ r, mapFind p.mapSidechains s = some r → r.cswTotalAmount = 0) := by
  have hw := reachable_wellFormed p h
  refine ⟨hw.row_total s, fun r hr => hw.csw_total hr, ?_⟩
  intro hno r hr
  rw [hw.csw_total hr]
  exact cswSum_eq_zero p hw.sorted_tx s hno

/-- Witness for C4: scenario S5, the pool reached by admitting the three
withdrawals of 40 from sidechain 100. -/
theorem reachable_csw_conservation_witness :
    (rowOrDefault Scenario.poolS5.mapSidechains 100).cswTotalAmount =
        Scenario.poolS5.cswSum 100 ∧
      (∀ r, mapFind Scenario.poolS5.mapSidechains 100 = some r →
        r.cswTotalAmount = Scenario.poolS5.cswSum 100) ∧
      ((∀ k e, mapFind Scenario.poolS5.mapTx k = some e →
          ∀ csw ∈ e.tx.vcsw_ccin, csw.scId ≠ 100) →
        ∀ r, mapFind Scenario.poolS5.mapSidechains 100 = some r → r.cswTotalAmount = 0) :=
  reachable_csw_conservation Scenario.poolS5
    (Reachable.byAddTx Scenario.poolS5b Scenario.poolS5 23 { tx := Scenario.txCsw3 } true true []
      (Reachable.byAddTx Scenario.poolS5a Scenario.poolS5b 22 { tx := Scenario.txCsw2 } true true []
        (Reachable.byAddTx {} Scenario.poolS5a 21 { tx := Scenario.txCsw1 } true true []
          Reachable.empty rfl (by decide) (by decide) (by decide) (by decide) (by decide))
        rfl (by decide) (by decide) (by decide) (by decide) (by decide))
      rfl (by decide) (by decide) (by decide) (by decide) (by decide))
    100

/-- C7, counterexample: `txDup` spends the same outpoint with both of its inputs.
On the empty pool it is in neither primary table and `checkIncomingTxConflicts`
returns true; `addUnchecked` completes and leaves `mapNextTx` pointing to input 1
for that outpoint, so the assertion of `check` for input 0 fails. -/
theorem check_tables_counterexample :
    mapFind ({} : CTxMemPool).mapTx 31 = none ∧
      mapFind ({} : CTxMemPool).mapCertificate 31 = none ∧
      checkIncomingTxConflicts {} Scenario.txDup = true ∧
      addUnchecked {} 31 { tx := Scenario.txDup } true [] =
        Outcome.done (true, Scenario.poolDup) ∧
      mapFind Scenario.poolDup.mapNextTx ⟨9, 0⟩ = some ⟨31, 1⟩ ∧
      ¬ checkTables Scenario.poolDup := by
  decide

/-- C7 (amended): in every pool reached from the empty pool by completed calls of
`addUnchecked`, `remove` and `removeForBlock`, where each added entry is
internally well-formed (non-null hash, pairwise distinct input outpoints, CSW
nullifiers per sidechain and created sidechains), is stored under its own hash,
is in neither primary table and was accepted by `checkIncomingTxConflicts` or
`checkIncomingCertConflicts`, the assertions of `check` on the secondary tables
hold. -/
theorem reachable_checkTables (p : CTxMemPool) (h : Reachable p) : checkTables p :=
  (reachable_wellFormed p h).checkTables_holds

/-- Witness for C7: scenario S4, the pool reached by admitting the sidechain
creation, the forward transfer and the spender of the forward transfer. -/
theorem reachable_checkTables_witness : checkTables Scenario.poolS4 :=
  reachable_checkTables Scenario.poolS4
    (Reachable.byAddTx Scenario.poolS4b Scenario.poolS4 3 { tx := Scenario.txSpend } true true []
      (Reachable.byAddTx Scenario.poolS4a Scenario.poolS4b 2 { tx := Scenario.txForward }
        true true []
        (Reachable.byAddTx {} Scenario.poolS4a 1 { tx := Scenario.txCreate } true true []
          Reachable.empty rfl (by decide) (by decide) (by decide) (by decide) (by decide))
        rfl (by decide) (by decide) (by decide) (by decide) (by decide))
      rfl (by decide) (by decide) (by decide) (by decide) (by decide))

end CTxMemPool

namespace CTxMemPool

/-- C5, counterexample.  First part: `poolNeg` is well-formed and the view
`viewNeg` knows both sidechains with pending CSWs; sidechain 100 is
oversubscribed (60 against 50), sidechain 200 is not (20 against 25).  The call
removes `txOver` and its spender `txNeg`, whose CSW input for sidechain 200 has
value -10, and leaves the row of sidechain 200 with total 30, above the balance
25.  Second part: in scenario S4 the row of sidechain 100 has total 0; with a
view that reports the balance -1 the call removes nothing and the row total
stays above the balance. -/
theorem removeOutOfScBalanceCsw_bounded_counterexample :
    (WellFormed Scenario.poolNeg ∧
      MapAll Scenario.poolNeg.mapTx (fun _ e => ∀ csw ∈ e.tx.vcsw_ccin,
        (Scenario.viewNeg.GetSidechain csw.scId).isSome = true) ∧
      removeOutOfScBalanceCsw ⟨Scenario.poolNeg, [], []⟩ Scenario.viewNeg =
        Outcome.done ⟨Scenario.poolNegAfter, [Scenario.txOver, Scenario.txNeg], []⟩ ∧
      OptEx (mapFind Scenario.poolNegAfter.mapSidechains 200) (fun r =>
        OptEx (Scenario.viewNeg.GetSidechain 200) (fun sc =>
          ¬ r.cswTotalAmount ≤ sc.balance))) ∧
    (WellFormed Scenario.poolS4 ∧
      MapAll Scenario.poolS4.mapTx (fun _ e => ∀ csw ∈ e.tx.vcsw_ccin,
        (Scenario.viewDebt.GetSidechain csw.scId).isSome = true) ∧
      removeOutOfScBalanceCsw ⟨Scenario.poolS4, [], []⟩ Scenario.viewDebt =
        Outcome.done ⟨Scenario.poolS4, [], []⟩ ∧
      OptEx (mapFind Scenario.poolS4.mapSidechains 100) (fun r =>
        OptEx (Scenario.viewDebt.GetSidechain 100) (fun sc =>
          ¬ r.cswTotalAmount ≤ sc.balance))) := by
  decide

/-- C6, counterexample.  First part: `poolS5Other` is well-formed and the row
total of sidechain 100 (120) exceeds the balance 100 that `viewS5` reports, but
the pool also holds a CSW for sidechain 50, which the view does not know: the
assertion on `GetSidechain` fails and nothing is removed.  Second part:
`poolZero` is well-formed and the row total of sidechain 300 (0) exceeds the
balance -1 that `viewDebt` reports; the call skips the row because its total is
0 and the transaction with the CSW input for sidechain 300 stays in the pool. -/
theorem removeOutOfScBalanceCsw_drains_counterexample :
    (WellFormed Scenario.poolS5Other ∧
      OptEx (mapFind Scenario.poolS5Other.mapSidechains 100) (fun r =>
        OptEx (Scenario.viewS5.GetSidechain 100) (fun sc => sc.balance < r.cswTotalAmount)) ∧
      removeOutOfScBalanceCsw ⟨Scenario.poolS5Other, [], []⟩ Scenario.viewS5 = Outcome.failed) ∧
    (WellFormed Scenario.poolZero ∧
      MapAll Scenario.poolZero.mapTx (fun _ e => ∀ csw ∈ e.tx.vcsw_ccin,
        (Scenario.viewDebt.GetSidechain csw.scId).isSome = true) ∧
      OptEx (mapFind Scenario.poolZero.mapSidechains 300) (fun r =>
        OptEx (Scenario.viewDebt.GetSidechain 300) (fun sc => sc.balance < r.cswTotalAmount)) ∧
      removeOutOfScBalanceCsw ⟨Scenario.poolZero, [], []⟩ Scenario.viewDebt =
        Outcome.done ⟨Scenario.poolZero, [], []⟩ ∧
      mapFind Scenario.poolZero.mapTx 25 = some { tx := Scenario.txZero }) := by
  decide

end CTxMemPool

namespace CTxMemPool

/-! ## Admission pre-check for certificates -/

/-- On a well-formed pool the ancestor walk completes with exactly the ancestors. -/
theorem mempoolDependenciesFrom_total (pool : CTxMemPool) (x : CTransactionBase)
    (hw : WellFormed pool) :
    ∃ res, mempoolDependenciesFrom pool x = Outcome.done res ∧
      (∀ a, a ∈ res ↔ IsAncestor pool x a) := by
  unfold mempoolDependenciesFrom
  simp only [dependenciesFromLoop_eq]
  obtain ⟨out, hout, hn, hiff, hder, _⟩ := walkLoop_correct pool.deref
    (mempoolDirectDependenciesFrom pool) true (ancestorUniverse pool)
    (mempoolDirectDependenciesFrom pool x)
    (fun h b hb => hw.deref_hash hb)
    (fun h b _ d hd => hw.directFrom_resolves b d hd)
    (fun h b _ d hd => directFrom_in_universe pool b d hd)
    (2 * (ancestorUniverse pool).length + (mempoolDirectDependenciesFrom pool x).length)
    (mempoolDirectDependenciesFrom pool x) []
    (by have := undiscovered_le (ancestorUniverse pool) (mempoolDirectDependenciesFrom pool x) []
        omega)
    List.nodup_nil
    (fun d hd => ⟨WalkReach.seed hd, hw.directFrom_resolves x d hd⟩)
    (fun d hd => by simp at hd)
    (fun h hh => by simp at hh)
    (fun d hd => Or.inl hd)
  exact ⟨out, hout, fun d => (hiff d).trans (walkReach_from_iff pool x d)⟩

/-- Quality test of `checkIncomingCertConflicts` on one dependency. -/
theorem qualityClash_iff (pool : CTxMemPool) (c : CScCertificate) (deps : List Nat) :
    (deps.any fun dep =>
        match mapFind pool.mapCertificate dep with
        | none => false
        | some e =>
          let certDep := e.GetCertificate
          decide (certDep.scId = c.scId) && decide (certDep.quality ≥ c.quality)) = true ↔
      ∃ dh ∈ deps, ∃ ed, mapFind pool.mapCertificate dh = some ed ∧ ed.cert.scId = c.scId ∧
        ed.cert.quality ≥ c.quality := by
  rw [List.any_eq_true]
  constructor
  · rintro ⟨dh, hdh, h⟩
    cases hf : mapFind pool.mapCertificate dh with
    | none => simp [hf] at h
    | some e =>
      simp only [hf, CCertificateMemPoolEntry.GetCertificate, Bool.and_eq_true,
        decide_eq_true_eq] at h
      exact ⟨dh, hdh, e, hf, h.1, h.2⟩
  · rintro ⟨dh, hdh, ed, hf, h1, h2⟩
    refine ⟨dh, hdh, ?_⟩
    simp only [hf, CCertificateMemPoolEntry.GetCertificate, Bool.and_eq_true, decide_eq_true_eq]
    exact ⟨h1, h2⟩

/-- Every call of `checkIncomingCertConflicts` on a well-formed pool completes. -/
theorem checkIncomingCertConflicts_total (pool : CTxMemPool) (c : CScCertificate)
    (hw : WellFormed pool) :
    checkIncomingCertConflicts pool c = Outcome.done false ∨
      checkIncomingCertConflicts pool c = Outcome.done true := by
  obtain ⟨deps, hdeps, _⟩ := mempoolDependenciesFrom_total pool (CTransactionBase.cert c) hw
  have hb : ∃ b, checkIncomingCertConflicts pool c = Outcome.done b := by
    unfold checkIncomingCertConflicts
    simp only
    split
    · exact ⟨false, rfl⟩
    · split
      · exact ⟨false, rfl⟩
      · rw [hdeps, Outcome.bind_done]
        exact ⟨_, rfl⟩
  obtain ⟨b, hb⟩ := hb
  cases b
  · exact Or.inl hb
  · exact Or.inr hb

/-- Value of `checkIncomingCertConflicts` when the certificate is new and its
inputs pass the input loop. -/
theorem checkIncomingCertConflicts_eval (pool : CTxMemPool) (c : CScCertificate)
    (hw : WellFormed pool) (hfresh : mapFind pool.mapCertificate c.hash = none)
    (hin : ∀ vin ∈ c.vin, mapFind pool.mapNextTx vin.prevout = none ∧
      ∀ e, mapFind pool.mapCertificate vin.prevout.hash = some e →
        e.cert.IsBackwardTransfer vin.prevout.n = false) :
    (checkIncomingCertConflicts pool c = Outcome.done false ↔
      ∃ dh ed, IsAncestor pool (CTransactionBase.cert c) dh ∧
        mapFind pool.mapCertificate dh = some ed ∧ ed.cert.scId = c.scId ∧
        ed.cert.quality ≥ c.quality) ∧
    (checkIncomingCertConflicts pool c = Outcome.done true ↔
      ¬ ∃ dh ed, IsAncestor pool (CTransactionBase.cert c) dh ∧
        mapFind pool.mapCertificate dh = some ed ∧ ed.cert.scId = c.scId ∧
        ed.cert.quality ≥ c.quality) := by
  obtain ⟨deps, hdeps, hiff⟩ := mempoolDependenciesFrom_total pool (CTransactionBase.cert c) hw
  have h1 : mapCount pool.mapCertificate c.hash = false := by simp [mapCount, hfresh]
  have hval : checkIncomingCertConflicts pool c = Outcome.done (!(deps.any fun dep =>
        match mapFind pool.mapCertificate dep with
        | none => false
        | some e =>
          let certDep := e.GetCertificate
          decide (certDep.scId = c.scId) && decide (certDep.quality ≥ c.quality))) := by
    unfold checkIncomingCertConflicts
    simp only [h1, hdeps, Outcome.bind_done, Bool.false_eq_true, if_false]
    split
    · rename_i hany
      exfalso
      rw [List.any_eq_true] at hany
      obtain ⟨vin, hv, h⟩ := hany
      obtain ⟨hn, hb⟩ := hin vin hv
      cases hf : mapFind pool.mapCertificate vin.prevout.hash with
      | none => simp [mapCount, hn, hf] at h
      | some e =>
        have := hb e hf
        simp [mapCount, hn, hf, CCertificateMemPoolEntry.GetCertificate, this] at h
    · rfl
  have hq := qualityClash_iff pool c deps
  have hex : (∃ dh ∈ deps, ∃ ed, mapFind pool.mapCertificate dh = some ed ∧
      ed.cert.scId = c.scId ∧ ed.cert.quality ≥ c.quality) ↔
      ∃ dh ed, IsAncestor pool (CTransactionBase.cert c) dh ∧
        mapFind pool.mapCertificate dh = some ed ∧ ed.cert.scId = c.scId ∧
        ed.cert.quality ≥ c.quality := by
    constructor
    · rintro ⟨dh, hdh, ed, h⟩
      exact ⟨dh, ed, (hiff dh).mp hdh, h⟩
    · rintro ⟨dh, ed, ha, h⟩
      exact ⟨dh, (hiff dh).mpr ha, ed, h⟩
  rw [hval, ← hex, ← hq]
  constructor
  · simp
  · simp

end CTxMemPool

namespace CTxMemPool

theorem checkIncomingTxConflicts_certOutput (pool : CTxMemPool) (tx : CTransaction)
    (htx : ∃ vin ∈ tx.vin, mapFind pool.mapCertificate vin.prevout.hash ≠ none) :
    checkIncomingTxConflicts pool tx = false := by
  obtain ⟨vin, hv, hne⟩ := htx
  unfold checkIncomingTxConflicts
  simp only
  split
  · rfl
  · split
    · rfl
    · rename_i h2
      exfalso
      apply h2
      rw [List.any_eq_true]
      refine ⟨vin, hv, ?_⟩
      rw [Bool.or_eq_true]
      right
      exact mapCount_eq_true.mpr hne

/-- The only ancestor of `certHigh` in `poolD` is `certD`. -/
theorem ancestors_certHigh (dh : Nat)
    (h : IsAncestor Scenario.poolD (CTransactionBase.cert Scenario.certHigh) dh) : dh = 71 := by
  obtain ⟨deps, hdeps, hiff⟩ := mempoolDependenciesFrom_total Scenario.poolD
    (CTransactionBase.cert Scenario.certHigh) (by decide)
  have hval : mempoolDependenciesFrom Scenario.poolD (CTransactionBase.cert Scenario.certHigh) =
      Outcome.done [71] := by decide
  rw [hval] at hdeps
  cases hdeps
  simpa using (hiff dh).mpr h

/-- In `poolD` the certificate `certD` is an ancestor of `certLow`. -/
theorem ancestor_certLow :
    IsAncestor Scenario.poolD (CTransactionBase.cert Scenario.certLow) 71 :=
  IsAncestor.direct ((mem_mempoolDirectDependenciesFrom _ _ _).mp (by decide))

/-- C11, counterexample: `poolD` is well-formed and holds the certificate `certD`,
whose output 0 is change.  The transaction `txChange` is not in the pool, has no
joinsplit, CSW input or sidechain creation, and its only input spends that
output, which no pool entry spends; `checkIncomingTxConflicts` returns false. -/
theorem change_output_counterexample :
    WellFormed Scenario.poolD ∧
      mapFind Scenario.poolD.mapCertificate 71 = some { cert := Scenario.certD } ∧
      Scenario.certD.IsBackwardTransfer 0 = false ∧
      Scenario.txChange.vin = [⟨⟨71, 0⟩⟩] ∧
      mapFind Scenario.poolD.mapTx Scenario.txChange.hash = none ∧
      mapFind Scenario.poolD.mapNextTx ⟨71, 0⟩ = none ∧
      Scenario.txChange.vjoinsplit = [] ∧ Scenario.txChange.vcsw_ccin = [] ∧
      Scenario.txChange.vsc_ccout = [] ∧
      checkIncomingTxConflicts Scenario.poolD Scenario.txChange = false := by
  decide

/-- C11 (amended): on a well-formed pool, an incoming certificate that is not in
the pool, whose inputs spend no outpoint already spent in the pool and no
backward-transfer output of a pool certificate (change outputs are allowed), and
all of whose ancestor certificates for the same sidechain have lower quality, is
accepted by `checkIncomingCertConflicts`; an incoming transaction with an input
that spends any output of a pool certificate is rejected by
`checkIncomingTxConflicts`. -/
theorem change_output_spend (pool : CTxMemPool) (hw : WellFormed pool) (c : CScCertificate)
    (tx : CTransaction) (hfresh : mapFind pool.mapCertificate c.hash = none)
    (hin : ∀ vin ∈ c.vin, mapFind pool.mapNextTx vin.prevout = none ∧
      ∀ e, mapFind pool.mapCertificate vin.prevout.hash = some e →
        e.cert.IsBackwardTransfer vin.prevout.n = false)
    (hq : ∀ dh ed, IsAncestor pool (CTransactionBase.cert c) dh →
      mapFind pool.mapCertificate dh = some ed → ed.cert.scId = c.scId →
      ed.cert.quality < c.quality)
    (htx : ∃ vin ∈ tx.vin, mapFind pool.mapCertificate vin.prevout.hash ≠ none) :
    checkIncomingCertConflicts pool c = Outcome.done true ∧
      checkIncomingTxConflicts pool tx = false := by
  refine ⟨?_, checkIncomingTxConflicts_certOutput pool tx htx⟩
  apply (checkIncomingCertConflicts_eval pool c hw hfresh hin).2.mpr
  rintro ⟨dh, ed, ha, hf, hs, hge⟩
  have := hq dh ed ha hf hs
  omega

/-- Witness for C11: `certHigh` and `txChange` both spend the change output of
`certD` in `poolD`. -/
theorem change_output_spend_witness :
    checkIncomingCertConflicts Scenario.poolD Scenario.certHigh = Outcome.done true ∧
      checkIncomingTxConflicts Scenario.poolD Scenario.txChange = false :=
  change_output_spend Scenario.poolD (by decide) Scenario.certHigh Scenario.txChange (by decide)
    (by
      intro vin hv
      have hvin : vin = ⟨⟨71, 0⟩⟩ := by simpa [Scenario.certHigh] using hv
      subst hvin
      refine ⟨by decide, ?_⟩
      intro e he
      have he1 : e = { cert := Scenario.certD } := by
        have : mapFind Scenario.poolD.mapCertificate 71 = some { cert := Scenario.certD } := by
          decide
        rw [this] at he
        cases he
        rfl
      subst he1
      decide)
    (by
      intro dh ed ha hf _
      have hdh := ancestors_certHigh dh ha
      subst hdh
      have : mapFind Scenario.poolD.mapCertificate 71 = some { cert := Scenario.certD } := by
        decide
      rw [this] at hf
      cases hf
      decide)
    ⟨⟨⟨71, 0⟩⟩, by decide, by decide⟩

/-- C12: on a well-formed pool, when a pool certificate for the same sidechain
whose quality is at least that of the incoming certificate `c` is an ancestor of
`c`, `checkIncomingCertConflicts(c)` returns false. -/
theorem checkIncomingCertConflicts_quality (pool : CTxMemPool) (hw : WellFormed pool)
    (c : CScCertificate) (dh : Nat) (ed : CCertificateMemPoolEntry)
    (hanc : IsAncestor pool (CTransactionBase.cert c) dh)
    (hd : mapFind pool.mapCertificate dh = some ed) (hsc : ed.cert.scId = c.scId)
    (hq : ed.cert.quality ≥ c.quality) :
    checkIncomingCertConflicts pool c = Outcome.done false := by
  obtain ⟨deps, hdeps, hiff⟩ := mempoolDependenciesFrom_total pool (CTransactionBase.cert c) hw
  have hany := (qualityClash_iff pool c deps).mpr ⟨dh, (hiff dh).mpr hanc, ed, hd, hsc, hq⟩
  unfold checkIncomingCertConflicts
  simp only
  split
  · rfl
  · split
    · rfl
    · rw [hdeps, Outcome.bind_done, hany]
      rfl

/-- Witness for C12: `certLow` (quality 5) spends the change output of `certD`
(quality 10) in `poolD`. -/
theorem checkIncomingCertConflicts_quality_witness :
    checkIncomingCertConflicts Scenario.poolD Scenario.certLow = Outcome.done false :=
  checkIncomingCertConflicts_quality Scenario.poolD (by decide) Scenario.certLow 71
    { cert := Scenario.certD } ancestor_certLow (by decide) (by decide) (by decide)

/-- C13, counterexample: `poolD` is well-formed; its certificate `certD` is for
the same sidechain as the incoming `certHigh`, is its ancestor (the walk returns
its hash), and has the lower quality, 10 against 20; `checkIncomingCertConflicts`
returns true. -/
theorem lower_quality_counterexample :
    WellFormed Scenario.poolD ∧
      mapFind Scenario.poolD.mapCertificate 71 = some { cert := Scenario.certD } ∧
      Scenario.certD.scId = Scenario.certHigh.scId ∧
      Scenario.certD.quality ≤ Scenario.certHigh.quality ∧
      mempoolDependenciesFrom Scenario.poolD (CTransactionBase.cert Scenario.certHigh) =
        Outcome.done [71] ∧
      checkIncomingCertConflicts Scenario.poolD Scenario.certHigh = Outcome.done true := by
  decide

/-- C13 (amended): on a well-formed pool, for an incoming certificate `c` that
is not in the pool and whose inputs pass the input loop,
`checkIncomingCertConflicts(c)` returns false exactly when some pool certificate
for the same sidechain is an ancestor of `c` and its quality is higher than or
equal to that of `c`; when every such ancestor has lower quality it returns
true. -/
theorem checkIncomingCertConflicts_exact (pool : CTxMemPool) (hw : WellFormed pool)
    (c : CScCertificate) (hfresh : mapFind pool.mapCertificate c.hash = none)
    (hin : ∀ vin ∈ c.vin, mapFind pool.mapNextTx vin.prevout = none ∧
      ∀ e, mapFind pool.mapCertificate vin.prevout.hash = some e →
        e.cert.IsBackwardTransfer vin.prevout.n = false) :
    (checkIncomingCertConflicts pool c = Outcome.done false ↔
      ∃ dh ed, IsAncestor pool (CTransactionBase.cert c) dh ∧
        mapFind pool.mapCertificate dh = some ed ∧ ed.cert.scId = c.scId ∧
        ed.cert.quality ≥ c.quality) ∧
    ((∀ dh ed, IsAncestor pool (CTransactionBase.cert c) dh →
        mapFind pool.mapCertificate dh = some ed → ed.cert.scId = c.scId →
        ed.cert.quality < c.quality) →
      checkIncomingCertConflicts pool c = Outcome.done true) := by
  obtain ⟨h1, h2⟩ := checkIncomingCertConflicts_eval pool c hw hfresh hin
  refine ⟨h1, ?_⟩
  intro hq
  apply h2.mpr
  rintro ⟨dh, ed, ha, hf, hs, hge⟩
  have := hq dh ed ha hf hs
  omega

/-- Witness for C13: `certLow` against `poolD`. -/
theorem checkIncomingCertConflicts_exact_witness :
    (checkIncomingCertConflicts Scenario.poolD Scenario.certLow = Outcome.done false ↔
      ∃ dh ed, IsAncestor Scenario.poolD (CTransactionBase.cert Scenario.certLow) dh ∧
        mapFind Scenario.poolD.mapCertificate dh = some ed ∧
        ed.cert.scId = Scenario.certLow.scId ∧ ed.cert.quality ≥ Scenario.certLow.quality) ∧
    ((∀ dh ed, IsAncestor Scenario.poolD (CTransactionBase.cert Scenario.certLow) dh →
        mapFind Scenario.poolD.mapCertificate dh = some ed →
        ed.cert.scId = Scenario.certLow.scId → ed.cert.quality < Scenario.certLow.quality) →
      checkIncomingCertConflicts Scenario.poolD Scenario.certLow = Outcome.done true) :=
  checkIncomingCertConflicts_exact Scenario.poolD (by decide) Scenario.certLow (by decide)
    (by
      intro vin hv
      have hvin : vin = ⟨⟨71, 0⟩⟩ := by simpa [Scenario.certLow] using hv
      subst hvin
      refine ⟨by decide, ?_⟩
      intro e he
      have : mapFind Scenario.poolD.mapCertificate 71 = some { cert := Scenario.certD } := by
        decide
      rw [this] at he
      cases he
      decide)

end CTxMemPool

namespace CTxMemPool

/-! ## `clear` -/

/-- Tables after `clear`: five are emptied, `mapNullifiers` and the recently-added
queue are left as they were. -/
theorem clear_tables (pool : CTxMemPool) :
    (clear pool).mapTx = [] ∧ (clear pool).mapCertificate = [] ∧ (clear pool).mapNextTx = [] ∧
      (clear pool).mapSidechains = [] ∧ (clear pool).mapDeltas = [] ∧
      (clear pool).mapNullifiers = pool.mapNullifiers ∧
      (clear pool).mapRecentlyAddedTxBase = pool.mapRecentlyAddedTxBase :=
  ⟨rfl, rfl, rfl, rfl, rfl, rfl, rfl⟩

/-- C16: evaluation of `clear` on the pool that holds `txShielded`, whose
joinsplit nullifier is 5.  After `clear` the five tables it names are empty, but
`mapNullifiers` still holds nullifier 5 and the recently-added queue still holds
the transaction; `checkIncomingTxConflicts` on the cleared pool rejects
`txShielded2`, a transaction that is not in the pool and uses nullifier 5, and
the assertion of `check` on `mapNullifiers` fails on the cleared pool. -/
theorem clear_keeps_nullifiers :
    addUnchecked {} 61 { tx := Scenario.txShielded } true [] =
        Outcome.done (true, Scenario.poolShielded) ∧
      (clear Scenario.poolShielded).mapTx = [] ∧
      (clear Scenario.poolShielded).mapCertificate = [] ∧
      (clear Scenario.poolShielded).mapNextTx = [] ∧
      (clear Scenario.poolShielded).mapSidechains = [] ∧
      (clear Scenario.poolShielded).mapDeltas = [] ∧
      (clear Scenario.poolShielded).mapNullifiers = [(5, 61)] ∧
      (clear Scenario.poolShielded).mapRecentlyAddedTxBase =
        [(61, CTransactionBase.tx Scenario.txShielded)] ∧
      checkIncomingTxConflicts (clear Scenario.poolShielded) Scenario.txShielded2 = false ∧
      ¬ checkTables (clear Scenario.poolShielded) := by
  decide

/-! ## Effect of `addUnchecked` on arbitrary pools -/

/-- C18: `addUnchecked(hash, certEntry)` fails its assertion exactly when the pool
has a row for the sidechain of the certificate whose backward-certificate table
has the quality of the certificate as a key; otherwise it returns true, and
afterwards the row of the sidechain maps the quality to `hash`. -/
theorem addUncheckedCert_exact (pool : CTxMemPool) (hash : Nat)
    (entry : CCertificateMemPoolEntry) (fCurrentEstimate : Bool) :
    (addUncheckedCert pool hash entry fCurrentEstimate = Outcome.failed ↔
      ∃ r, mapFind pool.mapSidechains entry.GetCertificate.scId = some r ∧
        mapFind r.mBackwardCertificates entry.GetCertificate.quality ≠ none) ∧
    ((¬ ∃ r, mapFind pool.mapSidechains entry.GetCertificate.scId = some r ∧
        mapFind r.mBackwardCertificates entry.GetCertificate.quality ≠ none) →
      ∃ p1, addUncheckedCert pool hash entry fCurrentEstimate = Outcome.done (true, p1) ∧
        mapFind p1.mapCertificate hash = some entry ∧
        ∃ r1, mapFind p1.mapSidechains entry.GetCertificate.scId = some r1 ∧
          mapFind r1.mBackwardCertificates entry.GetCertificate.quality = some hash) := by
  unfold addUncheckedCert
  simp only
  split
  · rename_i h
    have hex : ∃ r, mapFind pool.mapSidechains entry.GetCertificate.scId = some r ∧
        mapFind r.mBackwardCertificates entry.GetCertificate.quality ≠ none := by
      split at h
      · cases h
      · rename_i r hr
        exact ⟨r, hr, mapCount_eq_true.mp h⟩
    exact ⟨⟨fun _ => hex, fun _ => rfl⟩, fun hno => absurd hex hno⟩
  · rename_i h
    have hno : ¬ ∃ r, mapFind pool.mapSidechains entry.GetCertificate.scId = some r ∧
        mapFind r.mBackwardCertificates entry.GetCertificate.quality ≠ none := by
      rintro ⟨r, hr, hq⟩
      apply h
      split
      · rename_i hn
        rw [hr] at hn
        cases hn
      · rename_i r1 hr1
        rw [hr] at hr1
        cases hr1
        exact mapCount_eq_true.mpr hq
    refine ⟨⟨fun hf => (by cases hf), fun hex => absurd hex hno⟩, fun _ => ?_⟩
    refine ⟨_, rfl, ?_, ?_⟩
    · simp only [mapFind_mapInsert, if_true]
    · refine ⟨{ rowOrDefault pool.mapSidechains entry.GetCertificate.scId with
          mBackwardCertificates :=
            mapInsert (rowOrDefault pool.mapSidechains entry.GetCertificate.scId).mBackwardCertificates
              entry.GetCertificate.quality hash }, ?_, ?_⟩
      · simp only [scModify, mapFind_mapInsert, if_true]
      · simp only [mapFind_mapInsert, if_true]

end CTxMemPool

namespace CTxMemPool

/-- C19: a completed `addUnchecked(hash, txEntry, …)` of a transaction with
pairwise distinct prevouts, `hash` being the hash of the transaction, returns true
and updates every index: `mapTx[hash]` is the entry; every input is marked in
`mapNextTx` with the transaction and the input index; every joinsplit nullifier
is in `mapNullifiers` with the transaction; the row of every CSW input maps its
nullifier to `hash`, and the row total of every sidechain has grown by the sum of
the CSW values of the transaction for that sidechain; `scCreationTxHash` is
`hash` for every created sidechain; `hash` is in `fwdTxHashes` and
`mcBtrsTxHashes` of the sidechains of its forward transfers and BTRs. -/
theorem addUnchecked_indexes (pool p1 : CTxMemPool) (hash : Nat) (entry : CTxMemPoolEntry)
    (fCurrentEstimate b : Bool) (scIdToCertDataHash : List (Nat × Nat))
    (hh : entry.tx.hash = hash) (hn : (entry.tx.vin.map (fun i => i.prevout)).Nodup)
    (hd : addUnchecked pool hash entry fCurrentEstimate scIdToCertDataHash =
      Outcome.done (b, p1)) :
    b = true ∧ mapFind p1.mapTx hash = some entry ∧
      (∀ ix ∈ entry.tx.vin.enum, mapFind p1.mapNextTx ix.2.prevout = some ⟨hash, ix.1⟩) ∧
      (∀ nf ∈ entry.tx.nullifiers, mapFind p1.mapNullifiers nf = some hash) ∧
      (∀ csw ∈ entry.tx.vcsw_ccin, ∃ r1, mapFind p1.mapSidechains csw.scId = some r1 ∧
        mapFind r1.cswNullifiers csw.nullifier = some hash) ∧
      (∀ s, (rowOrDefault p1.mapSidechains s).cswTotalAmount =
        (rowOrDefault pool.mapSidechains s).cswTotalAmount + entry.tx.cswAmount s) ∧
      (∀ sc ∈ entry.tx.vsc_ccout, ∃ r1, mapFind p1.mapSidechains sc.scId = some r1 ∧
        r1.scCreationTxHash = hash) ∧
      (∀ fwd ∈ entry.tx.vft_ccout, ∃ r1, mapFind p1.mapSidechains fwd.scId = some r1 ∧
        hash ∈ r1.fwdTxHashes) ∧
      (∀ btr ∈ entry.tx.vmbtr_out, ∃ r1, mapFind p1.mapSidechains btr.scId = some r1 ∧
        hash ∈ r1.mcBtrsTxHashes) := by
  unfold addUnchecked at hd
  simp only [CTxMemPoolEntry.GetTx, Outcome.bind_eq_done, Outcome.done.injEq,
    Prod.mk.injEq] at hd
  obtain ⟨scs, hscs, hb, hp⟩ := hd
  obtain ⟨a1, a2, a3, a4, a5, a6, a7, a8⟩ :=
    addSidechains_spec hash entry.tx scIdToCertDataHash _ scs hh hscs
  subst hp
  subst hh
  refine ⟨hb.symm, ?_, ?_, ?_, ?_, a6, ?_, ?_, ?_⟩
  · simp only [mapFind_mapInsert, if_true]
  · intro ix hix
    exact addNextTx_own entry.tx.hash entry.tx.vin pool.mapNextTx 0 hn ix hix
  · intro nf hnf
    have := mapFind_addNullifiers entry.tx.hash entry.tx.vjoinsplit pool.mapNullifiers nf
    exact this.trans (if_pos hnf)
  · intro csw hcsw
    have hm : csw.scId ∈ entry.tx.vcsw_ccin.map (fun c => c.scId) := List.mem_map_of_mem _ hcsw
    refine ⟨_, row_of_has ((a1 _).mpr (Or.inr (Or.inl hm))), ?_⟩
    rw [a7, mapFind_insertAll, if_pos]
    exact (mem_filter_nullifiers _ _ _).mpr (List.mem_map.mpr ⟨csw, hcsw, rfl⟩)
  · intro sc hsc
    have hm : sc.scId ∈ entry.tx.vsc_ccout.map (fun c => c.scId) := List.mem_map_of_mem _ hsc
    refine ⟨_, row_of_has ((a1 _).mpr (Or.inr (Or.inr (Or.inl hm)))), ?_⟩
    rw [a2, if_pos hm]
  · intro fwd hfwd
    have hm : fwd.scId ∈ entry.tx.vft_ccout.map (fun c => c.scId) := List.mem_map_of_mem _ hfwd
    refine ⟨_, row_of_has ((a1 _).mpr (Or.inr (Or.inr (Or.inr (Or.inl hm))))), ?_⟩
    exact (a3 _ _).mpr (Or.inr ⟨rfl, hm⟩)
  · intro btr hbtr
    have hm : btr.scId ∈ entry.tx.vmbtr_out.map (fun c => c.scId) := List.mem_map_of_mem _ hbtr
    refine ⟨_, row_of_has ((a1 _).mpr (Or.inr (Or.inr (Or.inr (Or.inr hm))))), ?_⟩
    exact (a4 _ _).mpr (Or.inr ⟨rfl, hm⟩)

/-- Witness for C19: adding the spender of scenario S4 to the pool that holds the
creation and the forward transfer. -/
theorem addUnchecked_indexes_witness :
    true = true ∧ mapFind Scenario.poolS4.mapTx 3 = some { tx := Scenario.txSpend } ∧
      (∀ ix ∈ Scenario.txSpend.vin.enum,
        mapFind Scenario.poolS4.mapNextTx ix.2.prevout = some ⟨3, ix.1⟩) ∧
      (∀ nf ∈ Scenario.txSpend.nullifiers, mapFind Scenario.poolS4.mapNullifiers nf = some 3) ∧
      (∀ csw ∈ Scenario.txSpend.vcsw_ccin,
        ∃ r1, mapFind Scenario.poolS4.mapSidechains csw.scId = some r1 ∧
          mapFind r1.cswNullifiers csw.nullifier = some 3) ∧
      (∀ s, (rowOrDefault Scenario.poolS4.mapSidechains s).cswTotalAmount =
        (rowOrDefault Scenario.poolS4b.mapSidechains s).cswTotalAmount +
          Scenario.txSpend.cswAmount s) ∧
      (∀ sc ∈ Scenario.txSpend.vsc_ccout,
        ∃ r1, mapFind Scenario.poolS4.mapSidechains sc.scId = some r1 ∧
          r1.scCreationTxHash = 3) ∧
      (∀ fwd ∈ Scenario.txSpend.vft_ccout,
        ∃ r1, mapFind Scenario.poolS4.mapSidechains fwd.scId = some r1 ∧ 3 ∈ r1.fwdTxHashes) ∧
      (∀ btr ∈ Scenario.txSpend.vmbtr_out,
        ∃ r1, mapFind Scenario.poolS4.mapSidechains btr.scId = some r1 ∧
          3 ∈ r1.mcBtrsTxHashes) :=
  addUnchecked_indexes Scenario.poolS4b Scenario.poolS4 3 { tx := Scenario.txSpend } true true []
    rfl (by decide) (by decide)

theorem addBtrStep_failed_iff (h : Nat) (aux : List (Nat × Nat))
    (m : List (Nat × CSidechainMemPoolEntry)) (btr : CBwtRequestOut) :
    (addBtrStep h aux m btr = Outcome.failed ↔
      (mapFind aux btr.scId = none ∧ (rowOrDefault m btr.scId).mcBtrsCertDataHash = 0)) ∧
    addBtrStep h aux m btr ≠ Outcome.timeout := by
  unfold addBtrStep
  simp only [rowOrDefault_scModify, if_true]
  by_cases h0 : (rowOrDefault m btr.scId).mcBtrsCertDataHash = 0
  · simp only [h0, if_true]
    cases haux : mapFind aux btr.scId with
    | none => simp
    | some d => simp
  · simp only [h0, if_false]
    simp

theorem addBtrStep_snapshot (h : Nat) (aux : List (Nat × Nat))
    (m m1 : List (Nat × CSidechainMemPoolEntry)) (btr : CBwtRequestOut)
    (hd : addBtrStep h aux m btr = Outcome.done m1) (s : Nat) (hs : mapFind aux s = none) :
    (rowOrDefault m1 s).mcBtrsCertDataHash = (rowOrDefault m s).mcBtrsCertDataHash := by
  rw [(addBtrStep_done h aux m m1 btr hd).1 s]
  by_cases hk : btr.scId = s
  · subst hk
    rw [if_pos rfl]
    simp only [btrRow, hs, Option.getD_none]
    split
    · rename_i h0
      exact h0.symm
    · rfl
  · rw [if_neg hk]

theorem btrLoop_failed_iff (h : Nat) (aux : List (Nat × Nat)) (xs : List CBwtRequestOut)
    (m : List (Nat × CSidechainMemPoolEntry)) :
    (Outcome.foldl (addBtrStep h aux) m xs = Outcome.failed ↔
      ∃ btr ∈ xs, mapFind aux btr.scId = none ∧
        (rowOrDefault m btr.scId).mcBtrsCertDataHash = 0) ∧
    Outcome.foldl (addBtrStep h aux) m xs ≠ Outcome.timeout := by
  induction xs generalizing m with
  | nil => simp
  | cons x rest ih =>
    obtain ⟨hf, ht⟩ := addBtrStep_failed_iff h aux m x
    rw [Outcome.foldl_cons]
    cases hstep : addBtrStep h aux m x with
    | timeout => exact absurd hstep ht
    | failed =>
      have := hf.mp hstep
      simp only [Outcome.bind_failed, true_iff, ne_eq, reduceCtorEq, not_false_eq_true, and_true]
      exact ⟨x, List.mem_cons_self _ _, this⟩
    | done m1 =>
      rw [Outcome.bind_done]
      obtain ⟨ih1, ih2⟩ := ih m1
      refine ⟨?_, ih2⟩
      rw [ih1]
      have hx : ¬ (mapFind aux x.scId = none ∧ (rowOrDefault m x.scId).mcBtrsCertDataHash = 0) := by
        intro hc
        have := hf.mpr hc
        rw [hstep] at this
        cases this
      constructor
      · rintro ⟨btr, hb, ha, h0⟩
        refine ⟨btr, List.mem_cons_of_mem _ hb, ha, ?_⟩
        rw [← addBtrStep_snapshot h aux m m1 x hstep btr.scId ha]
        exact h0
      · rintro ⟨btr, hb, ha, h0⟩
        rcases List.mem_cons.mp hb with rfl | hb1
        · exact absurd ⟨ha, h0⟩ hx
        · refine ⟨btr, hb1, ha, ?_⟩
          rw [addBtrStep_snapshot h aux m m1 x hstep btr.scId ha]
          exact h0

/-- C20: `addUnchecked(hash, txEntry, currentEstimate, scIdToCertDataHash)` fails
(throws out of `scIdToCertDataHash.at`) exactly when the transaction has a BTR
output for a sidechain that has no entry in `scIdToCertDataHash` and whose row
has a null `mcBtrsCertDataHash` (a missing row counts as null; the snapshot is
not written by the earlier loops); for every other input it returns true. -/
theorem addUnchecked_fails_iff (pool : CTxMemPool) (hash : Nat) (entry : CTxMemPoolEntry)
    (fCurrentEstimate : Bool) (scIdToCertDataHash : List (Nat × Nat)) :
    (addUnchecked pool hash entry fCurrentEstimate scIdToCertDataHash = Outcome.failed ↔
      ∃ btr ∈ entry.tx.vmbtr_out, mapFind scIdToCertDataHash btr.scId = none ∧
        (rowOrDefault pool.mapSidechains btr.scId).mcBtrsCertDataHash = 0) ∧
    ((¬ ∃ btr ∈ entry.tx.vmbtr_out, mapFind scIdToCertDataHash btr.scId = none ∧
        (rowOrDefault pool.mapSidechains btr.scId).mcBtrsCertDataHash = 0) →
      ∃ p1, addUnchecked pool hash entry fCurrentEstimate scIdToCertDataHash =
        Outcome.done (true, p1)) := by
  obtain ⟨c1, _, _⟩ := cswLoop_spec entry.tx.hash entry.tx.vcsw_ccin pool.mapSidechains
  obtain ⟨s1, _, _⟩ := scLoop_spec hash entry.tx.vsc_ccout
    (entry.tx.vcsw_ccin.foldl (addCswStep entry.tx.hash) pool.mapSidechains)
  obtain ⟨f1, _, _⟩ := fwdLoop_spec hash entry.tx.vft_ccout
    (entry.tx.vsc_ccout.foldl (addScStep hash)
      (entry.tx.vcsw_ccin.foldl (addCswStep entry.tx.hash) pool.mapSidechains))
  have hsnap : ∀ s, (rowOrDefault (entry.tx.vft_ccout.foldl (addFwdStep hash)
      (entry.tx.vsc_ccout.foldl (addScStep hash)
        (entry.tx.vcsw_ccin.foldl (addCswStep entry.tx.hash) pool.mapSidechains))) s).mcBtrsCertDataHash =
      (rowOrDefault pool.mapSidechains s).mcBtrsCertDataHash := by
    intro s
    rw [f1, foldl_proj (fwdRow hash) (fun r => r.mcBtrsCertDataHash) (fun _ _ => rfl),
      s1, foldl_proj (scRow hash) (fun r => r.mcBtrsCertDataHash) (fun _ _ => rfl),
      c1, foldl_proj (cswRow entry.tx.hash) (fun r => r.mcBtrsCertDataHash) (fun _ _ => rfl)]
  obtain ⟨b1, b2⟩ := btrLoop_failed_iff hash scIdToCertDataHash entry.tx.vmbtr_out
    (entry.tx.vft_ccout.foldl (addFwdStep hash)
      (entry.tx.vsc_ccout.foldl (addScStep hash)
        (entry.tx.vcsw_ccin.foldl (addCswStep entry.tx.hash) pool.mapSidechains)))
  simp only [hsnap] at b1
  unfold addUnchecked addSidechains
  simp only [CTxMemPoolEntry.GetTx]
  cases hfold : Outcome.foldl (addBtrStep hash scIdToCertDataHash)
      (entry.tx.vft_ccout.foldl (addFwdStep hash)
        (entry.tx.vsc_ccout.foldl (addScStep hash)
          (entry.tx.vcsw_ccin.foldl (addCswStep entry.tx.hash) pool.mapSidechains)))
      entry.tx.vmbtr_out with
  | timeout => exact absurd hfold b2
  | failed =>
    have hex := b1.mp hfold
    simp only [Outcome.bind_failed, true_iff]
    exact ⟨hex, fun hno => absurd hex hno⟩
  | done scs =>
    have hno : ¬ ∃ btr ∈ entry.tx.vmbtr_out, mapFind scIdToCertDataHash btr.scId = none ∧
        (rowOrDefault pool.mapSidechains btr.scId).mcBtrsCertDataHash = 0 := by
      intro hex
      have := b1.mpr hex
      rw [hfold] at this
      cases this
    simp only [Outcome.bind_done, reduceCtorEq, false_iff]
    exact ⟨hno, fun _ => ⟨_, rfl⟩⟩

end CTxMemPool

namespace CTxMemPool

/-- In a well-formed pool a sidechain has a row exactly when a pool transaction
creates it, forwards to it, requests a backward transfer from it or withdraws
from it, or a pool certificate is for it. -/
theorem WellFormed.row_iff (hw : WellFormed pool) (s : Nat) :
    mapFind pool.mapSidechains s ≠ none ↔
      (∃ h e, mapFind pool.mapTx h = some e ∧
        (s ∈ e.tx.vsc_ccout.map (fun sc => sc.scId) ∨
          s ∈ e.tx.vft_ccout.map (fun fwd => fwd.scId) ∨
          s ∈ e.tx.vmbtr_out.map (fun btr => btr.scId) ∨
          s ∈ e.tx.vcsw_ccin.map (fun csw => csw.scId))) ∨
      (∃ h e, mapFind pool.mapCertificate h = some e ∧ e.cert.scId = s) := by
  constructor
  · intro hne
    have hrow := row_of_has hne
    have hnn := hw.row_not_null hrow
    rcases (isNull_false_iff _).mp hnn with hf | hsc | hc | hb | hcsw
    · obtain ⟨x, hx⟩ := List.exists_mem_of_ne_nil _ hf
      obtain ⟨e, he, hm⟩ := hw.fwd_backed hrow hx
      exact Or.inl ⟨_, e, he, Or.inr (Or.inl hm)⟩
    · obtain ⟨e, he, hm⟩ := hw.sc_backed hrow hsc
      exact Or.inl ⟨_, e, he, Or.inl hm⟩
    · obtain ⟨kv, hkv⟩ := List.exists_mem_of_ne_nil _ hc
      obtain ⟨e, he, hs, _⟩ := hw.cert_backed hrow hkv
      exact Or.inr ⟨_, e, he, hs⟩
    · obtain ⟨x, hx⟩ := List.exists_mem_of_ne_nil _ hb
      obtain ⟨e, he, hm⟩ := hw.btr_backed hrow hx
      exact Or.inl ⟨_, e, he, Or.inr (Or.inr (Or.inl hm))⟩
    · obtain ⟨kv, hkv⟩ := List.exists_mem_of_ne_nil _ hcsw
      obtain ⟨e, he, hm⟩ := hw.csw_backed hrow hkv
      refine Or.inl ⟨_, e, he, Or.inr (Or.inr (Or.inr ?_))⟩
      obtain ⟨c, hc, hceq⟩ := List.mem_map.mp hm
      exact List.mem_map.mpr ⟨c, hc, (Prod.mk.inj hceq).1⟩
  · rintro (⟨h, e, he, hsc | hf | hb | hcsw⟩ | ⟨h, e, he, hs⟩)
    · obtain ⟨sc, hsc1, rfl⟩ := List.mem_map.mp hsc
      obtain ⟨r, hr, _⟩ := hw.row_of_sc he hsc1
      rw [hr]
      exact Option.some_ne_none _
    · obtain ⟨fwd, hf1, rfl⟩ := List.mem_map.mp hf
      obtain ⟨r, hr, _⟩ := hw.row_of_fwd he hf1
      rw [hr]
      exact Option.some_ne_none _
    · obtain ⟨btr, hb1, rfl⟩ := List.mem_map.mp hb
      obtain ⟨r, hr, _⟩ := hw.row_of_btr he hb1
      rw [hr]
      exact Option.some_ne_none _
    · obtain ⟨csw, hc1, rfl⟩ := List.mem_map.mp hcsw
      obtain ⟨r, hr, _⟩ := hw.row_of_csw he hc1
      rw [hr]
      exact Option.some_ne_none _
    · obtain ⟨r, hr, _⟩ := hw.row_of_cert he
      rw [← hs, hr]
      exact Option.some_ne_none _

/-- C17: in every pool reached from the empty pool by completed calls of
`addUnchecked` (of admitted entries), `remove` and `removeForBlock`,
`mapSidechains` has a row for the sidechain id `s` if and only if some
transaction of `mapTx` creates `s`, forwards to `s`, has a BTR for `s` or a CSW
input for `s`, or some certificate of `mapCertificate` is for `s`. -/
theorem reachable_row_iff (p : CTxMemPool) (hr : Reachable p) (s : Nat) :
    mapFind p.mapSidechains s ≠ none ↔
      (∃ h e, mapFind p.mapTx h = some e ∧
        (s ∈ e.tx.vsc_ccout.map (fun sc => sc.scId) ∨
          s ∈ e.tx.vft_ccout.map (fun fwd => fwd.scId) ∨
          s ∈ e.tx.vmbtr_out.map (fun btr => btr.scId) ∨
          s ∈ e.tx.vcsw_ccin.map (fun csw => csw.scId))) ∨
      (∃ h e, mapFind p.mapCertificate h = some e ∧ e.cert.scId = s) :=
  (reachable_wellFormed p hr).row_iff s

/-- Witness for C17: sidechain 100 in the pool of scenario S4, reached by
admitting the sidechain creation, the forward transfer and its spender. -/
theorem reachable_row_iff_witness :
    mapFind Scenario.poolS4.mapSidechains 100 ≠ none ↔
      (∃ h e, mapFind Scenario.poolS4.mapTx h = some e ∧
        (100 ∈ e.tx.vsc_ccout.map (fun sc => sc.scId) ∨
          100 ∈ e.tx.vft_ccout.map (fun fwd => fwd.scId) ∨
          100 ∈ e.tx.vmbtr_out.map (fun btr => btr.scId) ∨
          100 ∈ e.tx.vcsw_ccin.map (fun csw => csw.scId))) ∨
      (∃ h e, mapFind Scenario.poolS4.mapCertificate h = some e ∧ e.cert.scId = 100) :=
  reachable_row_iff Scenario.poolS4
    (Reachable.byAddTx Scenario.poolS4b Scenario.poolS4 3 { tx := Scenario.txSpend } true true []
      (Reachable.byAddTx Scenario.poolS4a Scenario.poolS4b 2 { tx := Scenario.txForward }
        true true []
        (Reachable.byAddTx {} Scenario.poolS4a 1 { tx := Scenario.txCreate } true true []
          Reachable.empty rfl (by decide) (by decide) (by decide) (by decide) (by decide))
        rfl (by decide) (by decide) (by decide) (by decide) (by decide))
      rfl (by decide) (by decide) (by decide) (by decide) (by decide)) 100

end CTxMemPool

theorem Outcome.foldl_fixed {σ α : Type} (f : σ → α → Outcome σ) (s : σ) (l : List α)
    (h : ∀ a ∈ l, f s a = Outcome.done s) : Outcome.foldl f s l = Outcome.done s := by
  induction l with
  | nil => rfl
  | cons a rest ih =>
    rw [Outcome.foldl_cons, h a (List.mem_cons_self _ _), Outcome.bind_done]
    exact ih (fun x hx => h x (List.mem_cons_of_mem _ hx))

namespace CTxMemPool

/-- Non-recursive `remove` of a transaction that is in a well-formed pool. -/
theorem remove_single (st : Removal) (hw : WellFormed st.pool) (t : CTransaction)
    {e : CTxMemPoolEntry} (he : mapFind st.pool.mapTx t.hash = some e) :
    ∃ st1, remove st (CTransactionBase.tx t) false = Outcome.done st1 ∧
      TxRemoved st.pool st1.pool t.hash e ∧
      st1.removedTxs = st.removedTxs ++ [e.tx] ∧ st1.removedCerts = st.removedCerts := by
  obtain ⟨st1, h1, h2, h3, h4⟩ := removeTxEntry_spec st hw he
  refine ⟨st1, ?_, h2, h3, h4⟩
  unfold remove objToRemove
  simp only [Bool.false_eq_true, if_false, Outcome.bind_done, CTransactionBase.GetHash,
    Outcome.foldl_cons, Outcome.foldl_nil]
  unfold removeOne
  rw [he]
  simp only [h1, Outcome.bind_done]

/-- The first loop of `removeOutOfScBalanceCsw` collects nothing when every row
has the total 0 or a total within the balance of a sidechain the view knows. -/
theorem outOfBalance_fold_id (view : CCoinsViewCache) (pool : CTxMemPool)
    (rows : List (Nat × CSidechainMemPoolEntry)) (acc : List Nat)
    (h : ∀ row ∈ rows, row.2.cswTotalAmount = 0 ∨
      ∃ sc, view.GetSidechain row.1 = some sc ∧ row.2.cswTotalAmount ≤ sc.balance) :
    Outcome.foldl (outOfBalanceStep view) (pool, acc) rows = Outcome.done (pool, acc) := by
  apply Outcome.foldl_fixed
  intro row hrow
  by_cases h0 : row.2.cswTotalAmount = 0
  · simp only [outOfBalanceStep, h0, if_true]
  · rcases h row hrow with hz | ⟨sc, hsc, hle⟩
    · exact absurd hz h0
    · simp only [outOfBalanceStep, h0, if_false, hsc, hle, if_true]

theorem removeOutOfScBalanceCsw_id (st : Removal) (view : CCoinsViewCache)
    (h : ∀ row ∈ st.pool.mapSidechains, row.2.cswTotalAmount = 0 ∨
      ∃ sc, view.GetSidechain row.1 = some sc ∧ row.2.cswTotalAmount ≤ sc.balance) :
    removeOutOfScBalanceCsw st view = Outcome.done st := by
  unfold removeOutOfScBalanceCsw
  rw [outOfBalance_fold_id view st.pool st.pool.mapSidechains [] h]
  rfl

/-- After the removal of the transaction `e` the loops of `removeConflicts` over
its inputs, joinsplit nullifiers and CSW inputs find nothing. -/
theorem removeConflicts_after_remove (st : Removal) (p : CTxMemPool) (hw : WellFormed p)
    {h : Nat} {e : CTxMemPoolEntry} (he : mapFind p.mapTx h = some e)
    (hr : TxRemoved p st.pool h e) (view : CCoinsViewCache) :
    removeConflicts st e.tx view = removeOutOfScBalanceCsw st view := by
  have hin : removeInputConflicts st e.tx.hash e.tx.vin = Outcome.done st := by
    unfold removeInputConflicts
    apply Outcome.foldl_fixed
    intro txin htx
    unfold removeInputConflict
    rw [hr.nextTx, if_pos (List.mem_map_of_mem _ htx)]
  have hnf : removeNullifierConflicts st e.tx.hash e.tx.vjoinsplit = Outcome.done st := by
    unfold removeNullifierConflicts
    apply Outcome.foldl_fixed
    intro js hjs
    apply Outcome.foldl_fixed
    intro nf hnf
    unfold removeNullifierConflict
    have hmem : nf ∈ e.tx.nullifiers := by
      unfold CTransaction.nullifiers
      exact List.mem_flatMap.mpr ⟨js, hjs, hnf⟩
    rw [hr.nullifiers, if_pos hmem]
  have hcsw : removeCswConflicts st e.tx.hash e.tx.vcsw_ccin = Outcome.done st := by
    unfold removeCswConflicts
    apply Outcome.foldl_fixed
    intro csw hc
    unfold removeCswConflict
    cases hrow : mapFind st.pool.mapSidechains csw.scId with
    | none => rfl
    | some r1 =>
      obtain ⟨r, hr0, hr1, _⟩ := hr.row_of_txRm hrow
      have hnone : mapFind r1.cswNullifiers csw.nullifier = none := by
        rw [hr1]
        simp only [purgeTx]
        obtain ⟨r2, hr2, hnf2⟩ := hw.row_of_csw he hc
        rw [hr0] at hr2
        cases hr2
        cases hf : mapFind (r.cswNullifiers.filter (fun kv => decide (kv.2 ≠ h))) csw.nullifier with
        | none => rfl
        | some v =>
          exfalso
          have hmem := mem_of_mapFind hf
          obtain ⟨hm1, hm2⟩ := List.mem_filter.mp hmem
          obtain ⟨e2, he2, hmem2⟩ := hw.csw_backed hr0 hm1
          obtain ⟨c, hc2, hceq⟩ := List.mem_map.mp hmem2
          obtain ⟨hc3, hc4⟩ := Prod.mk.inj hceq
          obtain ⟨r3, hr3, hnf3⟩ := hw.row_of_csw he2 hc2
          rw [hc3, hr0] at hr3
          cases hr3
          rw [hc4] at hnf3
          simp only at hnf3
          rw [hnf2] at hnf3
          cases hnf3
          simp at hm2
      simp only [hnone]
  unfold removeConflicts
  rw [hin, Outcome.bind_done, hnf, Outcome.bind_done, hcsw, Outcome.bind_done]

/-- C14, counterexample: the pool `poolNegPos` is well-formed, the view `viewNeg`
knows sidechain 200 with balance 25 and the pending total is 20; `txNeg`, whose
CSW input has the value -10, is in the pool.  `removeForBlock([txNeg])` raises
the total to 30, so the other transaction `txPos` is removed as out of balance
and appended to the conflicting transactions. -/
theorem removeForBlock_frame_counterexample :
    WellFormed Scenario.poolNegPos ∧
      mapFind Scenario.poolNegPos.mapTx Scenario.txNeg.hash = some { tx := Scenario.txNeg } ∧
      MapAll Scenario.poolNegPos.mapSidechains (fun s r =>
        OptEx (Scenario.viewNeg.GetSidechain s) (fun sc => r.cswTotalAmount ≤ sc.balance)) ∧
      removeForBlock ⟨Scenario.poolNegPos, [], []⟩ [Scenario.txNeg] 7 true Scenario.viewNeg =
        Outcome.done ⟨{ nTransactionsUpdated := 2 }, [Scenario.txPos], []⟩ ∧
      mapFind Scenario.poolNegPos.mapTx Scenario.txPos.hash = some { tx := Scenario.txPos } ∧
      Scenario.txPos.hash ≠ Scenario.txNeg.hash := by
  decide

/-- C14 (amended): let the pool be well-formed, let the transaction `t` be in
the pool with non-negative CSW input values, and let every sidechain with a
pending CSW be known to the chain view with a pending total that does not
exceed its balance.  Then `removeForBlock([t], …)` completes; afterwards `t` is
not in the pool, every other entry of `mapTx` and `mapCertificate` is bound as
before, and the lists of conflicting transactions and certificates are
unchanged. -/
theorem removeForBlock_frame (st : Removal) (t : CTransaction) (nBlockHeight : Nat)
    (fCurrentEstimate : Bool) (view : CCoinsViewCache) (hw : WellFormed st.pool)
    (hin : OptEx (mapFind st.pool.mapTx t.hash) (fun e => e.tx = t))
    (hpos : ∀ csw ∈ t.vcsw_ccin, 0 ≤ csw.nValue)
    (hbal : MapAll st.pool.mapTx (fun _ e => ∀ csw ∈ e.tx.vcsw_ccin,
      OptEx (view.GetSidechain csw.scId) (fun sc =>
        (rowOrDefault st.pool.mapSidechains csw.scId).cswTotalAmount ≤ sc.balance))) :
    ∃ st1, removeForBlock st [t] nBlockHeight fCurrentEstimate view = Outcome.done st1 ∧
      mapFind st1.pool.mapTx t.hash = none ∧
      (∀ k, k ≠ t.hash → mapFind st1.pool.mapTx k = mapFind st.pool.mapTx k) ∧
      st1.pool.mapCertificate = st.pool.mapCertificate ∧
      st1.removedTxs = st.removedTxs ∧ st1.removedCerts = st.removedCerts := by
  obtain ⟨e, he, het⟩ := hin
  subst het
  obtain ⟨d, hd1, hrm, _, _⟩ :=
    remove_single { pool := st.pool, removedTxs := [], removedCerts := [] } hw e.tx he
  have hrm1 : TxRemoved st.pool d.pool e.tx.hash e := hrm
  have hw1 : WellFormed d.pool := hrm1.wellFormed_txRm hw he
  have hid : removeConflicts { st with pool := d.pool } e.tx view =
      Outcome.done { st with pool := d.pool } := by
    rw [removeConflicts_after_remove { st with pool := d.pool } st.pool hw he hrm1 view]
    apply removeOutOfScBalanceCsw_id
    intro row hrow
    have hr1 : mapFind d.pool.mapSidechains row.1 = some row.2 :=
      mapFind_of_mem (nodup_keys_of_keySorted hw1.sorted_sc) hrow
    by_cases h0 : row.2.cswTotalAmount = 0
    · exact Or.inl h0
    · right
      have hsum : d.pool.cswSum row.1 ≠ 0 := by
        rw [← hw1.csw_total hr1]
        exact h0
      obtain ⟨k, e2, he2, csw, hc, heq⟩ := cswSum_ne_zero d.pool hw1.sorted_tx row.1 hsum
      obtain ⟨_, he0⟩ := hrm1.tx_of he2
      obtain ⟨sc, hsc, hle⟩ := mapAll_iff.mp hbal k e2 he0 csw hc
      obtain ⟨r, hr0, hreq, _⟩ := hrm1.row_of_txRm hr1
      rw [heq] at hsc hle
      rw [rowOrDefault_some hr0] at hle
      refine ⟨sc, hsc, ?_⟩
      have hnn := cswAmount_nonneg e.tx row.1 hpos
      rw [hreq]
      simp only [purgeTx]
      omega
  refine ⟨{ st with pool := ClearPrioritisation d.pool e.tx.hash }, ?_, ?_, ?_, ?_, rfl, rfl⟩
  · unfold removeForBlock
    simp only [Outcome.foldl_cons, Outcome.foldl_nil, removeForBlockTx, hd1, Outcome.bind_done,
      hid]
  · show mapFind d.pool.mapTx e.tx.hash = none
    rw [hrm1.find_tx, if_pos rfl]
  · intro k hk
    show mapFind d.pool.mapTx k = mapFind st.pool.mapTx k
    exact hrm1.tx_to hk
  · show d.pool.mapCertificate = st.pool.mapCertificate
    exact hrm1.mapCertificate

/-- Witness for C14: scenario S4, the sidechain creation `T1` is confirmed while
its descendants `T2` and `T3` are in the pool. -/
theorem removeForBlock_frame_witness :
    ∃ st1, removeForBlock ⟨Scenario.poolS4, [], []⟩ [Scenario.txCreate] 7 true
        Scenario.viewS5 = Outcome.done st1 ∧
      mapFind st1.pool.mapTx Scenario.txCreate.hash = none ∧
      (∀ k, k ≠ Scenario.txCreate.hash →
        mapFind st1.pool.mapTx k = mapFind Scenario.poolS4.mapTx k) ∧
      st1.pool.mapCertificate = Scenario.poolS4.mapCertificate ∧
      st1.removedTxs = [] ∧ st1.removedCerts = [] :=
  removeForBlock_frame ⟨Scenario.poolS4, [], []⟩ Scenario.txCreate 7 true Scenario.viewS5
    (by decide) (by decide) (by decide) (by decide)

end CTxMemPool

namespace CTxMemPool

/-! ## Recursive removals are closed under descendants -/

theorem deref_congr {p p1 : CTxMemPool} {k : Nat}
    (h1 : mapFind p1.mapTx k = mapFind p.mapTx k)
    (h2 : mapFind p1.mapCertificate k = mapFind p.mapCertificate k) : p1.deref k = p.deref k := by
  unfold deref
  rw [h1, h2]

theorem deref_eq_none {p : CTxMemPool} {k : Nat} (h1 : mapFind p.mapTx k = none)
    (h2 : mapFind p.mapCertificate k = none) : p.deref k = none := by
  unfold deref
  rw [h1, h2]

theorem deref_none_iff {p : CTxMemPool} {k : Nat} :
    p.deref k = none ↔ mapFind p.mapTx k = none ∧ mapFind p.mapCertificate k = none := by
  have := (@deref_ne_none_iff p k).not
  simp only [ne_eq, not_not, not_or] at this
  exact this

theorem WellFormed.spender_of_deref {p : CTxMemPool} (hw : WellFormed p) {k : Nat}
    {b : CTransactionBase} (hb : p.deref k = some b) {o : COutPoint}
    (ho : o ∈ b.GetVin.map (fun i => i.prevout)) : ∃ j, mapFind p.mapNextTx o = some ⟨k, j⟩ := by
  rcases deref_cases hb with ⟨e, he, rfl⟩ | ⟨e, _, he, rfl⟩
  · obtain ⟨j, hj, _⟩ := hw.spender_of_prevout he ho
    exact ⟨j, hj⟩
  · exact hw.spender_of_prevout_cert he ho

theorem Shrinks.deref_sub {st st1 : Removal} (hs : Shrinks st st1) (hw : WellFormed st.pool)
    {k : Nat} {b : CTransactionBase} (h : st1.pool.deref k = some b) :
    st.pool.deref k = some b := by
  rcases deref_cases h with ⟨e, he, rfl⟩ | ⟨e, _, he, rfl⟩
  · exact deref_tx (hs.tx_sub k e he)
  · have hc := hs.cert_sub k e he
    exact deref_cert (hw.cert_not_tx hc) hc

theorem Shrinks.deref_none {st st1 : Removal} (hs : Shrinks st st1) {k : Nat}
    (h : st.pool.deref k = none) : st1.pool.deref k = none := by
  obtain ⟨h1, h2⟩ := deref_none_iff.mp h
  exact deref_eq_none (hs.tx_none h1) (hs.cert_none h2)

/-- A direct-descendant step of the larger pool is a step of the smaller pool
when its target is still there. -/
theorem directDescendant_transfer {p0 p : CTxMemPool} (hw0 : WellFormed p0) (hw : WellFormed p)
    (hsub : ∀ k b, p.deref k = some b → p0.deref k = some b) {b : CTransactionBase} {d : Nat}
    (hd : IsDirectDescendant p0 b d) (hin : p.deref d ≠ none) : IsDirectDescendant p b d := by
  obtain ⟨bd, hbd⟩ := Option.ne_none_iff_exists'.mp hin
  have hbd0 := hsub d bd hbd
  rcases hd with ⟨i, hi, ip, hip, hptx⟩ | ⟨t, ht, sc, hsc, r, hr, hfb⟩
  · obtain ⟨b1, hb1, hget⟩ := hw0.next_backed hip
    rw [hptx, hbd0] at hb1
    cases hb1
    have ho : (⟨b.GetHash, i⟩ : COutPoint) ∈ bd.GetVin.map (fun i => i.prevout) := by
      obtain ⟨x, hx, hxe⟩ := Option.map_eq_some'.mp hget
      exact List.mem_map.mpr ⟨x, List.get?_mem hx, hxe⟩
    obtain ⟨j, hj⟩ := hw.spender_of_deref hbd ho
    exact Or.inl ⟨i, hi, ⟨d, j⟩, hj, rfl⟩
  · refine Or.inr ⟨t, ht, sc, hsc, ?_⟩
    rcases hfb with hf | hb
    · obtain ⟨e, he, hmem⟩ := hw0.fwd_backed hr hf
      rw [deref_tx he] at hbd0
      cases hbd0
      rcases deref_cases hbd with ⟨e1, he1, heq⟩ | ⟨e1, _, _, heq⟩
      · have hinj : e.tx = e1.tx := CTransactionBase.tx.inj heq
        obtain ⟨fwd, hfwd, hfe⟩ := List.mem_map.mp hmem
        rw [hinj] at hfwd
        obtain ⟨r1, hr1, hm1⟩ := hw.row_of_fwd he1 hfwd
        exact ⟨r1, by rw [← hfe]; exact hr1, Or.inl hm1⟩
      · cases heq
    · obtain ⟨e, he, hmem⟩ := hw0.btr_backed hr hb
      rw [deref_tx he] at hbd0
      cases hbd0
      rcases deref_cases hbd with ⟨e1, he1, heq⟩ | ⟨e1, _, _, heq⟩
      · have hinj : e.tx = e1.tx := CTransactionBase.tx.inj heq
        obtain ⟨btr, hbtr, hbe⟩ := List.mem_map.mp hmem
        rw [hinj] at hbtr
        obtain ⟨r1, hr1, hm1⟩ := hw.row_of_btr he1 hbtr
        exact ⟨r1, by rw [← hbe]; exact hr1, Or.inr hm1⟩
      · cases heq

theorem DescClosed.trans_closed {p0 p1 p2 : CTxMemPool} (hw0 : WellFormed p0) (hw1 : WellFormed p1)
    (hsub01 : ∀ k b, p1.deref k = some b → p0.deref k = some b)
    (hnone12 : ∀ k, p1.deref k = none → p2.deref k = none)
    (h01 : DescClosed p0 p1) (h12 : DescClosed p1 p2) : DescClosed p0 p2 := by
  intro y b d hy0 hy2 hd
  cases hy1 : p1.deref y with
  | none => exact hnone12 d (h01 y b d hy0 hy1 hd)
  | some b1 =>
    have := hsub01 y b1 hy1
    rw [hy0] at this
    cases this
    cases hd1 : p1.deref d with
    | none => exact hnone12 d hd1
    | some bd =>
      have hstep := directDescendant_transfer hw0 hw1 hsub01 hd (by rw [hd1]; simp)
      exact h12 y b d hy1 hy2 hstep

theorem Prunes.refl_prunes (st : Removal) (hw : WellFormed st.pool) : Prunes st st :=
  ⟨Shrinks.refl st hw, fun y b d h0 h1 _ => (by rw [h0] at h1; cases h1), ⟨[], by simp⟩,
    ⟨[], by simp⟩⟩

theorem Prunes.trans_prunes {st st1 st2 : Removal} (h1 : Prunes st st1) (h2 : Prunes st1 st2)
    (hw : WellFormed st.pool) : Prunes st st2 := by
  refine ⟨h1.shrinks.trans h2.shrinks, ?_, ?_, ?_⟩
  · exact DescClosed.trans_closed hw h1.shrinks.wf (fun k b h => h1.shrinks.deref_sub hw h)
      (fun k h => h2.shrinks.deref_none h) h1.closed h2.closed
  · obtain ⟨l1, hl1⟩ := h1.txs_ext
    obtain ⟨l2, hl2⟩ := h2.txs_ext
    exact ⟨l1 ++ l2, by rw [hl2, hl1, List.append_assoc]⟩
  · obtain ⟨l1, hl1⟩ := h1.certs_ext
    obtain ⟨l2, hl2⟩ := h2.certs_ext
    exact ⟨l1 ++ l2, by rw [hl2, hl1, List.append_assoc]⟩

/-- Recursive `remove` of an entry of a well-formed pool. -/
theorem remove_prunes (st : Removal) (hw : WellFormed st.pool) (x : CTransactionBase)
    (hx : st.pool.deref x.GetHash = some x) :
    ∃ st1, remove st x true = Outcome.done st1 ∧ Prunes st st1 ∧
      st1.pool.deref x.GetHash = none := by
  obtain ⟨deps, st1, hd, _, _, hrem, hw1, htx, hcert, hout1, hout2, _⟩ :=
    remove_spec st hw x true
  obtain ⟨st2, hrem2, hsh, _⟩ := remove_shrinks st hw x true
  rw [hrem] at hrem2
  cases hrem2
  obtain ⟨res, hres, _, hiff0, _⟩ := mempoolDependenciesOf_correct st.pool x hw
  simp only [if_true] at hd
  rw [hres] at hd
  have hdeps : res = deps := Outcome.done.inj hd
  have hiff : ∀ d, d ∈ deps ↔ IsDescendant st.pool x d := by
    rw [← hdeps]
    exact hiff0
  have hgone : ∀ k, k ∈ x.GetHash :: deps → st1.pool.deref k = none := by
    intro k hk
    apply deref_eq_none
    · rw [htx, if_pos hk]
    · rw [hcert, if_pos hk]
  refine ⟨st1, hrem, ⟨hsh, ?_, ⟨_, hout1⟩, ⟨_, hout2⟩⟩, hgone _ (List.mem_cons_self _ _)⟩
  intro y b d hy0 hy1 hdd
  have hy : y ∈ x.GetHash :: deps := by
    by_contra hn
    have := @deref_congr st.pool st1.pool y
      (by rw [htx, if_neg hn]) (by rw [hcert, if_neg hn])
    rw [hy1, hy0] at this
    cases this
  apply hgone
  apply List.mem_cons_of_mem
  rcases List.mem_cons.mp hy with rfl | hy
  · rw [hx] at hy0
    cases hy0
    exact (hiff d).mpr (IsDescendant.direct hdd)
  · exact (hiff d).mpr (IsDescendant.step ((hiff y).mp hy) hy0 hdd)

theorem removeConflicting_prunes (st : Removal) (hw : WellFormed st.pool) (self ptx : Nat)
    (hp : st.pool.deref ptx ≠ none) :
    ∃ st1, removeConflicting st self ptx = Outcome.done st1 ∧ Prunes st st1 ∧
      (ptx ≠ self → st1.pool.deref ptx = none) := by
  unfold removeConflicting
  obtain ⟨b, hb⟩ := Option.ne_none_iff_exists'.mp hp
  have hh : b.GetHash = ptx := hw.deref_hash hb
  rw [hb]
  simp only
  by_cases hne : b.GetHash ≠ self
  · rw [if_pos hne]
    obtain ⟨st1, h1, hs, hn⟩ := remove_prunes st hw b (by rw [hh]; exact hb)
    exact ⟨st1, h1, hs, fun _ => by rw [← hh]; exact hn⟩
  · rw [if_neg hne]
    refine ⟨st, rfl, Prunes.refl_prunes st hw, fun hc => ?_⟩
    exact absurd (hh ▸ hc) hne

/-- A loop whose body only prunes, and leaves no entry other than `self` with
the property ruled out for its item, prunes and leaves no such entry for any
item. -/
theorem prunes_foldl {α : Type} (f : Removal → α → Outcome Removal) (self : Nat)
    (R : α → CTransactionBase → Prop)
    (hstep : ∀ st a, WellFormed st.pool → ∃ st1, f st a = Outcome.done st1 ∧ Prunes st st1 ∧
      ∀ k b, st1.pool.deref k = some b → k ≠ self → R a b)
    (l : List α) (st : Removal) (hw : WellFormed st.pool) :
    ∃ st1, Outcome.foldl f st l = Outcome.done st1 ∧ Prunes st st1 ∧
      ∀ a ∈ l, ∀ k b, st1.pool.deref k = some b → k ≠ self → R a b := by
  induction l generalizing st with
  | nil => exact ⟨st, rfl, Prunes.refl_prunes st hw, by simp⟩
  | cons a rest ih =>
    obtain ⟨st1, h1, hp1, hr1⟩ := hstep st a hw
    obtain ⟨st2, h2, hp2, hr2⟩ := ih st1 hp1.shrinks.wf
    refine ⟨st2, ?_, hp1.trans_prunes hp2 hw, ?_⟩
    · rw [Outcome.foldl_cons, h1, Outcome.bind_done]
      exact h2
    · intro x hx k b hk hne
      rcases List.mem_cons.mp hx with rfl | hx1
      · exact hr1 k b (hp2.shrinks.deref_sub hp1.shrinks.wf hk) hne
      · exact hr2 x hx1 k b hk hne

/-- Loop of `removeConflicts` over the inputs: afterwards no entry other than
`self` spends a prevout of the list. -/
theorem removeInputConflicts_prunes (vin : List CTxIn) (st : Removal) (hw : WellFormed st.pool)
    (self : Nat) :
    ∃ st1, removeInputConflicts st self vin = Outcome.done st1 ∧ Prunes st st1 ∧
      ∀ txin ∈ vin, ∀ k b, st1.pool.deref k = some b → k ≠ self →
        txin.prevout ∉ b.GetVin.map (fun i => i.prevout) := by
  unfold removeInputConflicts
  refine prunes_foldl (removeInputConflict self) self
    (fun txin b => txin.prevout ∉ b.GetVin.map (fun i => i.prevout)) ?_ vin st hw
  intro s txin hws
  unfold removeInputConflict
  cases hm : mapFind s.pool.mapNextTx txin.prevout with
  | none =>
    refine ⟨s, rfl, Prunes.refl_prunes s hws, ?_⟩
    intro k b hk _ hmem
    obtain ⟨j, hj⟩ := hws.spender_of_deref hk hmem
    rw [hm] at hj
    cases hj
  | some ip =>
    obtain ⟨b1, hb1, _⟩ := hws.next_backed hm
    obtain ⟨s1, h1, hp, hn⟩ := removeConflicting_prunes s hws self ip.ptx (by rw [hb1]; simp)
    refine ⟨s1, h1, hp, ?_⟩
    intro k b hk hne hmem
    obtain ⟨j, hj⟩ := hws.spender_of_deref (hp.shrinks.deref_sub hws hk) hmem
    rw [hm] at hj
    cases hj
    rw [hn hne] at hk
    cases hk

/-- Loop of `removeConflicts` over the joinsplit nullifiers: afterwards no
transaction other than `self` holds a nullifier of the list. -/
theorem removeNullifierConflicts_prunes (vjoinsplit : List JSDescription) (st : Removal)
    (hw : WellFormed st.pool) (self : Nat) :
    ∃ st1, removeNullifierConflicts st self vjoinsplit = Outcome.done st1 ∧ Prunes st st1 ∧
      ∀ js ∈ vjoinsplit, ∀ k b, st1.pool.deref k = some b → k ≠ self →
        ∀ nf ∈ js.nullifiers, ∀ t, b = CTransactionBase.tx t → nf ∉ t.nullifiers := by
  unfold removeNullifierConflicts
  refine prunes_foldl _ self
    (fun js b => ∀ nf ∈ js.nullifiers, ∀ t, b = CTransactionBase.tx t → nf ∉ t.nullifiers)
    ?_ vjoinsplit st hw
  intro s js hws
  obtain ⟨s1, h1, hp, hr⟩ := prunes_foldl (removeNullifierConflict self) self
    (fun nf b => ∀ t, b = CTransactionBase.tx t → nf ∉ t.nullifiers) (by
      intro s2 nf hw2
      unfold removeNullifierConflict
      cases hm : mapFind s2.pool.mapNullifiers nf with
      | none =>
        refine ⟨s2, rfl, Prunes.refl_prunes s2 hw2, ?_⟩
        intro k b hk _ t ht hmem
        rcases deref_cases hk with ⟨e, he, heq⟩ | ⟨e, _, _, heq⟩
        · rw [ht] at heq
          have hinj : t = e.tx := CTransactionBase.tx.inj heq
          rw [hinj] at hmem
          have := hw2.nullifier_of_tx he hmem
          rw [hm] at this
          cases this
        · rw [ht] at heq
          cases heq
      | some ptx =>
        obtain ⟨e0, he0, _⟩ := hw2.nullifier_backed hm
        obtain ⟨s3, h3, hp3, hn3⟩ := removeConflicting_prunes s2 hw2 self ptx
          (by rw [deref_tx he0]; simp)
        refine ⟨s3, h3, hp3, ?_⟩
        intro k b hk hne t ht hmem
        rcases deref_cases (hp3.shrinks.deref_sub hw2 hk) with ⟨e, he, heq⟩ | ⟨e, _, _, heq⟩
        · rw [ht] at heq
          have hinj : t = e.tx := CTransactionBase.tx.inj heq
          rw [hinj] at hmem
          have := hw2.nullifier_of_tx he hmem
          rw [hm] at this
          cases this
          rw [hn3 hne] at hk
          cases hk
        · rw [ht] at heq
          cases heq) js.nullifiers s hws
  exact ⟨s1, h1, hp, fun k b hk hne nf hnf => hr nf hnf k b hk hne⟩

/-- Loop of `removeConflicts` over the CSW inputs: afterwards no transaction
other than `self` holds a CSW nullifier of the list for the same sidechain. -/
theorem removeCswConflicts_prunes (vcsw : List CTxCeasedSidechainWithdrawalInput) (st : Removal)
    (hw : WellFormed st.pool) (self : Nat) :
    ∃ st1, removeCswConflicts st self vcsw = Outcome.done st1 ∧ Prunes st st1 ∧
      ∀ csw ∈ vcsw, ∀ k b, st1.pool.deref k = some b → k ≠ self →
        ∀ t, b = CTransactionBase.tx t → ∀ c ∈ t.vcsw_ccin,
          ¬ (c.scId = csw.scId ∧ c.nullifier = csw.nullifier) := by
  unfold removeCswConflicts
  refine prunes_foldl (removeCswConflict self) self
    (fun csw b => ∀ t, b = CTransactionBase.tx t → ∀ c ∈ t.vcsw_ccin,
      ¬ (c.scId = csw.scId ∧ c.nullifier = csw.nullifier)) ?_ vcsw st hw
  intro s csw hws
  have hfind : ∀ (s1 : Removal), Shrinks s s1 → ∀ k b, s1.pool.deref k = some b →
      ∀ t, b = CTransactionBase.tx t → ∀ c ∈ t.vcsw_ccin, c.scId = csw.scId →
        c.nullifier = csw.nullifier →
        ∃ r, mapFind s.pool.mapSidechains csw.scId = some r ∧
          mapFind r.cswNullifiers csw.nullifier = some k := by
    intro s1 hs1 k b hk t ht c hc h1 h2
    rcases deref_cases (hs1.deref_sub hws hk) with ⟨e, he, heq⟩ | ⟨e, _, _, heq⟩
    · rw [ht] at heq
      have hinj : t = e.tx := CTransactionBase.tx.inj heq
      rw [hinj] at hc
      obtain ⟨r, hr, hnf⟩ := hws.row_of_csw he hc
      rw [h1] at hr
      rw [h2] at hnf
      exact ⟨r, hr, hnf⟩
    · rw [ht] at heq
      cases heq
  unfold removeCswConflict
  cases hrow : mapFind s.pool.mapSidechains csw.scId with
  | none =>
    refine ⟨s, rfl, Prunes.refl_prunes s hws, ?_⟩
    intro k b hk _ t ht c hc hcc
    obtain ⟨r, hr, _⟩ := hfind s (Shrinks.refl s hws) k b hk t ht c hc hcc.1 hcc.2
    rw [hrow] at hr
    cases hr
  | some r =>
    simp only
    cases hnf : mapFind r.cswNullifiers csw.nullifier with
    | none =>
      refine ⟨s, rfl, Prunes.refl_prunes s hws, ?_⟩
      intro k b hk _ t ht c hc hcc
      obtain ⟨r1, hr1, hnf1⟩ := hfind s (Shrinks.refl s hws) k b hk t ht c hc hcc.1 hcc.2
      rw [hrow] at hr1
      cases hr1
      rw [hnf] at hnf1
      cases hnf1
    | some txHash =>
      simp only
      obtain ⟨e, he, _⟩ := hws.csw_backed hrow (mem_of_mapFind hnf)
      have he1 : mapFind s.pool.mapTx txHash = some e := he
      have hh : e.tx.hash = txHash := hws.tx_hash he1
      rw [he1]
      simp only [CTxMemPoolEntry.GetTx]
      by_cases hne : e.tx.hash ≠ self
      · rw [if_pos hne]
        obtain ⟨s1, h1, hp, hn⟩ := remove_prunes s hws (CTransactionBase.tx e.tx)
          (by rw [CTransactionBase.GetHash, hh]; exact deref_tx he1)
        refine ⟨s1, h1, hp, ?_⟩
        intro k b hk _ t ht c hc hcc
        obtain ⟨r1, hr1, hnf1⟩ := hfind s1 hp.shrinks k b hk t ht c hc hcc.1 hcc.2
        rw [hrow] at hr1
        cases hr1
        rw [hnf] at hnf1
        cases hnf1
        rw [CTransactionBase.GetHash, hh] at hn
        rw [hn] at hk
        cases hk
      · rw [if_neg hne]
        refine ⟨s, rfl, Prunes.refl_prunes s hws, ?_⟩
        intro k b hk hks t ht c hc hcc
        obtain ⟨r1, hr1, hnf1⟩ := hfind s (Shrinks.refl s hws) k b hk t ht c hc hcc.1 hcc.2
        rw [hrow] at hr1
        cases hr1
        rw [hnf] at hnf1
        cases hnf1
        exact hne (by rw [hh]; exact hks)

theorem removeCollectedTxs_prunes (hashes : List Nat) (st : Removal) (hw : WellFormed st.pool) :
    ∃ st1, removeCollectedTxs st hashes = Outcome.done st1 ∧ Prunes st st1 := by
  unfold removeCollectedTxs
  obtain ⟨st1, h1, hp, _⟩ := prunes_foldl removeIfTx 0 (fun _ _ => True) (by
    intro s h hws
    unfold removeIfTx
    cases hm : mapFind s.pool.mapTx h with
    | none => exact ⟨s, rfl, Prunes.refl_prunes s hws, fun _ _ _ _ => trivial⟩
    | some e =>
      have hh : e.tx.hash = h := hws.tx_hash hm
      obtain ⟨s1, h1, hp, _⟩ := remove_prunes s hws (CTransactionBase.tx e.tx)
        (by rw [CTransactionBase.GetHash, hh]; exact deref_tx hm)
      exact ⟨s1, h1, hp, fun _ _ _ _ => trivial⟩) hashes st hw
  exact ⟨st1, h1, hp⟩

theorem removeOutOfScBalanceCsw_prunes (st : Removal) (view : CCoinsViewCache)
    (hw : WellFormed st.pool)
    (hview : ∀ k e, mapFind st.pool.mapTx k = some e → ∀ csw ∈ e.tx.vcsw_ccin,
      ∃ sc, view.GetSidechain csw.scId = some sc) :
    ∃ st1, removeOutOfScBalanceCsw st view = Outcome.done st1 ∧ Prunes st st1 := by
  have hnd := nodup_keys_of_keySorted hw.sorted_sc
  obtain ⟨hashes, hf1, _, _⟩ := outOfBalance_fold st.pool view hw st.pool.mapSidechains []
    (fun row hrow => mapFind_of_mem hnd hrow)
    (fun row hrow hne => by
      have hr := mapFind_of_mem hnd hrow
      rw [hw.csw_total hr] at hne
      obtain ⟨k, e, he, csw, hc, heq⟩ := cswSum_ne_zero st.pool hw.sorted_tx row.1 hne
      rw [← heq]
      exact hview k e he csw hc)
  obtain ⟨st1, h1, hp⟩ := removeCollectedTxs_prunes hashes st hw
  refine ⟨st1, ?_, hp⟩
  unfold removeOutOfScBalanceCsw
  rw [hf1, Outcome.bind_done]
  exact h1

/-- The removed entries of a pruning are closed under descendants. -/
theorem Prunes.descendants_gone {st st1 : Removal} (hp : Prunes st st1) {k : Nat}
    {b : CTransactionBase} (hk : st.pool.deref k = some b) (hg : st1.pool.deref k = none)
    {d : Nat} (hd : IsDescendant st.pool b d) : st1.pool.deref d = none := by
  induction hd with
  | direct h => exact hp.closed k b _ hk hg h
  | step _ hy hdd ih => exact hp.closed _ _ _ hy ih hdd

/-- C15, counterexample: the pool `poolCswA` is well-formed and holds a
withdrawal from sidechain 100; with a chain view that does not know sidechain
100, `removeConflicts` stops at the assertion of `removeOutOfScBalanceCsw`
instead of returning. -/
theorem removeConflicts_counterexample :
    WellFormed Scenario.poolCswA ∧
      removeConflicts ⟨Scenario.poolCswA, [], []⟩ Scenario.txSpend Scenario.viewEmpty =
        Outcome.failed := by
  decide

/-- C15 (amended): on a well-formed pool, with a chain view that knows every
sidechain with a pending CSW, `removeConflicts(tx, removedTxs, removedCerts)`
completes.  Afterwards no pool entry other than `tx` spends a prevout of `tx`,
and no pool transaction other than `tx` holds a joinsplit nullifier of `tx` or a
CSW nullifier of `tx`; every entry other than `tx` that shared one of them has
left the pool together with its descendants; every entry that left the pool is
in the matching output list, and the output lists were extended at their
end. -/
theorem removeConflicts_exact (st : Removal) (tx : CTransaction) (view : CCoinsViewCache)
    (hw : WellFormed st.pool)
    (hview : MapAll st.pool.mapTx (fun _ e => ∀ csw ∈ e.tx.vcsw_ccin,
      OptEx (view.GetSidechain csw.scId) (fun _ => True))) :
    ∃ st1, removeConflicts st tx view = Outcome.done st1 ∧
      (∀ k b, st1.pool.deref k = some b → k ≠ tx.hash → ¬ SharesWith b tx) ∧
      (∀ k b, st.pool.deref k = some b → k ≠ tx.hash → SharesWith b tx →
        st1.pool.deref k = none ∧ ∀ d, IsDescendant st.pool b d → st1.pool.deref d = none) ∧
      (∀ k e, mapFind st.pool.mapTx k = some e → mapFind st1.pool.mapTx k = none →
        e.tx ∈ st1.removedTxs) ∧
      (∀ k e, mapFind st.pool.mapCertificate k = some e →
        mapFind st1.pool.mapCertificate k = none → e.cert ∈ st1.removedCerts) ∧
      (∃ l, st1.removedTxs = st.removedTxs ++ l) ∧
      (∃ l, st1.removedCerts = st.removedCerts ++ l) := by
  obtain ⟨s1, h1, hp1, hr1⟩ := removeInputConflicts_prunes tx.vin st hw tx.hash
  have hw1 := hp1.shrinks.wf
  obtain ⟨s2, h2, hp2, hr2⟩ := removeNullifierConflicts_prunes tx.vjoinsplit s1 hw1 tx.hash
  have hw2 := hp2.shrinks.wf
  obtain ⟨s3, h3, hp3, hr3⟩ := removeCswConflicts_prunes tx.vcsw_ccin s2 hw2 tx.hash
  have hw3 := hp3.shrinks.wf
  have hp03 : Prunes st s3 := (hp1.trans_prunes hp2 hw).trans_prunes hp3 hw
  obtain ⟨s4, h4, hp4⟩ := removeOutOfScBalanceCsw_prunes s3 view hw3 (by
    intro k e he csw hc
    obtain ⟨sc, hsc, _⟩ := mapAll_iff.mp hview k e (hp03.shrinks.tx_sub k e he) csw hc
    exact ⟨sc, hsc⟩)
  have hp : Prunes st s4 := hp03.trans_prunes hp4 hw
  have hclean : ∀ k b, s4.pool.deref k = some b → k ≠ tx.hash → ¬ SharesWith b tx := by
    intro k b hk hne hsh
    have hk3 := hp4.shrinks.deref_sub hw3 hk
    have hk2 := hp3.shrinks.deref_sub hw2 hk3
    have hk1 := hp2.shrinks.deref_sub hw1 hk2
    rcases hsh with ⟨i, hi, j, hj, hij⟩ | ⟨t, ht, ⟨nf, hnf, hnf2⟩ | ⟨c, hc, c1, hc1, hcc⟩⟩
    · exact hr1 j hj k b hk1 hne (List.mem_map.mpr ⟨i, hi, hij⟩)
    · unfold CTransaction.nullifiers at hnf2
      obtain ⟨js, hjs, hmem⟩ := List.mem_flatMap.mp hnf2
      exact hr2 js hjs k b hk2 hne nf hmem t ht hnf
    · exact hr3 c1 hc1 k b hk3 hne t ht c hc hcc
  refine ⟨s4, ?_, hclean, ?_, hp.shrinks.txs_out, hp.shrinks.certs_out, hp.txs_ext, hp.certs_ext⟩
  · unfold removeConflicts
    rw [h1, Outcome.bind_done, h2, Outcome.bind_done, h3, Outcome.bind_done]
    exact h4
  · intro k b hk hne hsh
    have hgone : s4.pool.deref k = none := by
      cases hk4 : s4.pool.deref k with
      | none => rfl
      | some b4 =>
        have := hp.shrinks.deref_sub hw hk4
        rw [hk] at this
        cases this
        exact absurd hsh (hclean k b hk4 hne)
    exact ⟨hgone, fun d hd => hp.descendants_gone hk hgone hd⟩

/-- Witness for C15: scenario S4 with a confirmed transaction that spends the
output `T3` spends. -/
theorem removeConflicts_exact_witness :
    ∃ st1, removeConflicts ⟨Scenario.poolS4, [], []⟩ Scenario.txRival Scenario.viewS5 =
        Outcome.done st1 ∧
      (∀ k b, st1.pool.deref k = some b → k ≠ Scenario.txRival.hash →
        ¬ SharesWith b Scenario.txRival) ∧
      (∀ k b, Scenario.poolS4.deref k = some b → k ≠ Scenario.txRival.hash →
        SharesWith b Scenario.txRival →
        st1.pool.deref k = none ∧
          ∀ d, IsDescendant Scenario.poolS4 b d → st1.pool.deref d = none) ∧
      (∀ k e, mapFind Scenario.poolS4.mapTx k = some e → mapFind st1.pool.mapTx k = none →
        e.tx ∈ st1.removedTxs) ∧
      (∀ k e, mapFind Scenario.poolS4.mapCertificate k = some e →
        mapFind st1.pool.mapCertificate k = none → e.cert ∈ st1.removedCerts) ∧
      (∃ l, st1.removedTxs = [] ++ l) ∧ (∃ l, st1.removedCerts = [] ++ l) :=
  removeConflicts_exact ⟨Scenario.poolS4, [], []⟩ Scenario.txRival Scenario.viewS5
    (by decide) (by decide)

end CTxMemPool

namespace CCoinsViewMemPool

/-! ## The view of the chain through the pool -/

/-- C26: the membership queries of `CCoinsViewMemPool` are the union of pool and
chain: `GetNullifier(nf)` is true iff `nf` is a key of `mapNullifiers` or the
chain holds it; `HaveSidechain(s)` is true iff the pool holds an unconfirmed
creation for `s` or the chain has `s`; `HaveCswNullifier(s, nf)` is true iff the
pool or the chain holds the CSW nullifier. -/
theorem membership_union (base : CCoinsViewCache) (mempool : CTxMemPool) (s nf : Nat) :
    (GetNullifier base mempool nf = true ↔
      mapFind mempool.mapNullifiers nf ≠ none ∨ base.GetNullifier nf = true) ∧
    (HaveSidechain base mempool s = true ↔
      mempool.hasSidechainCreationTx s = true ∨ base.HaveSidechain s = true) ∧
    (HaveCswNullifier base mempool s nf = true ↔
      mempool.HaveCswNullifier s nf = true ∨ base.HaveCswNullifier s nf = true) := by
  refine ⟨?_, ?_, ?_⟩
  · unfold GetNullifier mapCount
    cases mapFind mempool.mapNullifiers nf <;> simp
  · unfold HaveSidechain
    simp
  · unfold HaveCswNullifier
    simp

/-- C25, counterexample: the pool `poolRowless` holds the certificate 11 in
`mapCertificate` but has no row for its sidechain; `GetCoins(11)` does not
return (`mapSidechains.at` throws). -/
theorem getCoins_counterexample :
    mapFind Scenario.poolRowless.mapCertificate 11 = some { cert := Scenario.certA } ∧
      GetCoins Scenario.viewEmpty Scenario.poolRowless 11 = Outcome.failed := by
  decide

/-- C25 (amended): on a well-formed pool `GetCoins(h)` returns true with coins
built from the pool transaction at height `MEMPOOL_HEIGHT` when `h` is in
`mapTx`; with coins built from the pool certificate at height `MEMPOOL_HEIGHT`
when `h` is in `mapCertificate` only; and otherwise it returns true iff the chain
view returns coins for `h` and those coins are not pruned, in which case it
returns the coins of the chain. -/
theorem getCoins_exact (base : CCoinsViewCache) (mempool : CTxMemPool) (h : Nat)
    (hw : CTxMemPool.WellFormed mempool) :
    (∀ e, mapFind mempool.mapTx h = some e →
      GetCoins base mempool h =
        Outcome.done (some (CCoins.ofTx e.tx CTxMemPool.MEMPOOL_HEIGHT))) ∧
    (∀ e, mapFind mempool.mapTx h = none → mapFind mempool.mapCertificate h = some e →
      ∃ top, GetCoins base mempool h =
        Outcome.done (some (CCoins.ofCert e.cert CTxMemPool.MEMPOOL_HEIGHT
          CTxMemPool.MEMPOOL_HEIGHT top))) ∧
    (mapFind mempool.mapTx h = none → mapFind mempool.mapCertificate h = none →
      ∃ res, GetCoins base mempool h = Outcome.done res ∧
        (res ≠ none ↔ ∃ coins, base.GetCoins h = some coins ∧ coins.IsPruned = false) ∧
        (∀ coins, res = some coins → base.GetCoins h = some coins)) := by
  refine ⟨?_, ?_, ?_⟩
  · intro e he
    unfold GetCoins
    rw [he]
    rfl
  · intro e ht he
    obtain ⟨r, hr, hq⟩ := hw.row_of_cert he
    unfold GetCoins
    rw [ht]
    simp only [he, CCertificateMemPoolEntry.GetCertificate, hr]
    cases hl : r.mBackwardCertificates.getLast? with
    | none =>
      rw [List.getLast?_eq_none_iff] at hl
      rw [hl] at hq
      cases hq
    | some top => exact ⟨_, rfl⟩
  · intro ht hc
    unfold GetCoins
    rw [ht]
    simp only [hc]
    cases hb : base.GetCoins h with
    | none => exact ⟨none, rfl, by simp, by simp⟩
    | some coins =>
      cases hp : coins.IsPruned with
      | true => exact ⟨none, by simp [hp], by simp [hp], by simp⟩
      | false => exact ⟨some coins, by simp [hp], by simp [hp], by simp⟩

/-- Witness for C25: the certificate of scenario S3 with the higher quality. -/
theorem getCoins_exact_witness :
    (∀ e, mapFind Scenario.poolS3.mapTx 12 = some e →
      GetCoins Scenario.viewEmpty Scenario.poolS3 12 =
        Outcome.done (some (CCoins.ofTx e.tx CTxMemPool.MEMPOOL_HEIGHT))) ∧
    (∀ e, mapFind Scenario.poolS3.mapTx 12 = none →
      mapFind Scenario.poolS3.mapCertificate 12 = some e →
      ∃ top, GetCoins Scenario.viewEmpty Scenario.poolS3 12 =
        Outcome.done (some (CCoins.ofCert e.cert CTxMemPool.MEMPOOL_HEIGHT
          CTxMemPool.MEMPOOL_HEIGHT top))) ∧
    (mapFind Scenario.poolS3.mapTx 12 = none → mapFind Scenario.poolS3.mapCertificate 12 = none →
      ∃ res, GetCoins Scenario.viewEmpty Scenario.poolS3 12 = Outcome.done res ∧
        (res ≠ none ↔
          ∃ coins, Scenario.viewEmpty.GetCoins 12 = some coins ∧ coins.IsPruned = false) ∧
        (∀ coins, res = some coins → Scenario.viewEmpty.GetCoins 12 = some coins)) :=
  getCoins_exact Scenario.viewEmpty Scenario.poolS3 12 (by decide)

/-- C24, counterexample.  First part: `poolOwed` is well-formed and its row for
sidechain 200 has the CSW total -10; the chain reports the balance 25, and
`GetSidechain(200)` returns true with the balance 25, not 25 - (-10) = 35.
Second part: the row of sidechain 100 in `poolDangling` names a creation
transaction that is not in `mapTx`, and `GetSidechain(100)` does not return. -/
theorem getSidechain_counterexample :
    (CTxMemPool.WellFormed Scenario.poolOwed ∧
      (rowOrDefault Scenario.poolOwed.mapSidechains 200).cswTotalAmount = -10 ∧
      Scenario.viewNeg.GetSidechain 200 = some { balance := 25 } ∧
      GetSidechain Scenario.viewNeg Scenario.poolOwed 200 {} =
        Outcome.done (some { balance := 25 })) ∧
    (Scenario.poolDangling.hasSidechainCreationTx 100 = true ∧
      GetSidechain Scenario.viewEmpty Scenario.poolDangling 100 {} = Outcome.failed) := by
  decide

/-- C24 (amended): on a well-formed pool `GetSidechain(s, info)` completes; it
returns false iff the pool has no unconfirmed creation for `s` and the chain view
has no sidechain `s`; when it returns true, the source record is the caller's
record filled from the creation transaction of the pool (its balance is the
balance on entry) or else the record of the chain, and the returned balance is
the balance of the source record minus the CSW total of the pool's row for `s`
when that total is positive, and the balance of the source record otherwise. -/
theorem getSidechain_exact (base : CCoinsViewCache) (mempool : CTxMemPool) (s : Nat)
    (info : CSidechain) (hw : CTxMemPool.WellFormed mempool) :
    ∃ res, GetSidechain base mempool s info = Outcome.done res ∧
      (res = none ↔ mempool.hasSidechainCreationTx s = false ∧ base.GetSidechain s = none) ∧
      ∀ out, res = some out →
        ∃ src, sidechainSource base mempool s info = Outcome.done (some src) ∧
          (mempool.hasSidechainCreationTx s = true → src.balance = info.balance) ∧
          (mempool.hasSidechainCreationTx s = false → base.GetSidechain s = some src) ∧
          out.balance = src.balance -
            (if 0 < (rowOrDefault mempool.mapSidechains s).cswTotalAmount then
              (rowOrDefault mempool.mapSidechains s).cswTotalAmount else 0) := by
  have hbal : ∀ src : CSidechain, (applyCswTotal mempool s src).balance = src.balance -
      (if 0 < (rowOrDefault mempool.mapSidechains s).cswTotalAmount then
        (rowOrDefault mempool.mapSidechains s).cswTotalAmount else 0) := by
    intro src
    unfold applyCswTotal rowOrDefault
    cases hr : mapFind mempool.mapSidechains s with
    | none => simp
    | some r =>
      simp only [Option.getD_some, gt_iff_lt]
      split <;> simp
  have hsrc : ∃ o, sidechainSource base mempool s info = Outcome.done o ∧
      (o = none ↔ mempool.hasSidechainCreationTx s = false ∧ base.GetSidechain s = none) ∧
      ∀ src, o = some src →
        (mempool.hasSidechainCreationTx s = true → src.balance = info.balance) ∧
        (mempool.hasSidechainCreationTx s = false → base.GetSidechain s = some src) := by
    unfold sidechainSource
    cases hc : mempool.hasSidechainCreationTx s with
    | false =>
      simp only [Bool.false_eq_true, if_false]
      refine ⟨_, rfl, by simp, ?_⟩
      intro src hs
      exact ⟨fun h => (by cases h), fun _ => hs⟩
    | true =>
      simp only [if_true]
      unfold CTxMemPool.hasSidechainCreationTx at hc
      cases hr : mapFind mempool.mapSidechains s with
      | none => rw [hr] at hc; cases hc
      | some r =>
        rw [hr] at hc
        simp only [decide_eq_true_eq] at hc
        obtain ⟨e, he, _⟩ := hw.sc_backed hr hc
        simp only [he, CTxMemPoolEntry.GetTx]
        cases hf : e.tx.vsc_ccout.find? (fun scCreation => decide (s = scCreation.scId)) with
        | none =>
          refine ⟨_, rfl, by simp, ?_⟩
          intro src hs
          cases hs
          exact ⟨fun _ => rfl, fun h => by cases h⟩
        | some sc =>
          refine ⟨_, rfl, by simp, ?_⟩
          intro src hs
          cases hs
          exact ⟨fun _ => rfl, fun h => by cases h⟩
  obtain ⟨o, ho, hnone, hsome⟩ := hsrc
  unfold GetSidechain
  rw [ho, Outcome.bind_done]
  cases o with
  | none =>
    refine ⟨none, rfl, ?_, ?_⟩
    · simpa using hnone
    · intro out h
      cases h
  | some src =>
    refine ⟨some (applyCswTotal mempool s src), rfl, ?_, ?_⟩
    · constructor
      · intro h
        cases h
      · intro h
        have := hnone.mpr h
        cases this
    · intro out h
      cases h
      obtain ⟨h1, h2⟩ := hsome src rfl
      exact ⟨src, rfl, h1, h2, hbal src⟩

/-- Witness for C24: sidechain 100 in scenario S5, where the pool has no creation
for it, the chain reports the balance 100 and the pending CSW total is 120. -/
theorem getSidechain_exact_witness :
    ∃ res, GetSidechain Scenario.viewS5 Scenario.poolS5 100 {} = Outcome.done res ∧
      (res = none ↔ Scenario.poolS5.hasSidechainCreationTx 100 = false ∧
        Scenario.viewS5.GetSidechain 100 = none) ∧
      ∀ out, res = some out →
        ∃ src, sidechainSource Scenario.viewS5 Scenario.poolS5 100 {} = Outcome.done (some src) ∧
          (Scenario.poolS5.hasSidechainCreationTx 100 = true →
            src.balance = ({} : CSidechain).balance) ∧
          (Scenario.poolS5.hasSidechainCreationTx 100 = false →
            Scenario.viewS5.GetSidechain 100 = some src) ∧
          out.balance = src.balance -
            (if 0 < (rowOrDefault Scenario.poolS5.mapSidechains 100).cswTotalAmount then
              (rowOrDefault Scenario.poolS5.mapSidechains 100).cswTotalAmount else 0) :=
  getSidechain_exact Scenario.viewS5 Scenario.poolS5 100 {} (by decide)

end CCoinsViewMemPool

namespace CTxMemPool

/-! ## Prioritisation -/

theorem wrapInt64_add (a b : Int) : wrapInt64 (a + wrapInt64 b) = wrapInt64 (a + b) := by
  unfold wrapInt64
  omega

theorem wrapInt64_of_range (x : Int) (h1 : -(2 ^ 63) ≤ x) (h2 : x < 2 ^ 63) : wrapInt64 x = x := by
  unfold wrapInt64
  omega

/-- C27 (amended): after `PrioritiseTransaction(h, _, p1, d1)` followed by
`PrioritiseTransaction(h, _, p2, d2)`, `ApplyDeltas(h, p, f)` returns the fee
`f` plus the fee bias recorded for `h` before the two calls plus `d1 + d2`, in
64-bit arithmetic, which is `f + d1 + d2` when no bias was recorded for `h`
before; for a hash with no recorded bias, and after `ClearPrioritisation(h)`,
`ApplyDeltas(h, p, f)` leaves `p` and `f` unchanged. -/
theorem prioritise_accumulates (pool : CTxMemPool) (h : Nat) (p1 d1 p2 d2 p f : Int) :
    (ApplyDeltas (PrioritiseTransaction (PrioritiseTransaction pool h p1 d1) h p2 d2) h p f).2 =
        wrapInt64 (f + ((mapFind pool.mapDeltas h).getD (0, 0)).2 + d1 + d2) ∧
      (mapFind pool.mapDeltas h = none →
        (ApplyDeltas (PrioritiseTransaction (PrioritiseTransaction pool h p1 d1) h p2 d2)
          h p f).2 = wrapInt64 (f + (d1 + d2))) ∧
      (mapFind pool.mapDeltas h = none → ApplyDeltas pool h p f = (p, f)) ∧
      ApplyDeltas (ClearPrioritisation pool h) h p f = (p, f) := by
  have hgen : (ApplyDeltas (PrioritiseTransaction (PrioritiseTransaction pool h p1 d1) h p2 d2)
      h p f).2 = wrapInt64 (f + ((mapFind pool.mapDeltas h).getD (0, 0)).2 + d1 + d2) := by
    unfold ApplyDeltas PrioritiseTransaction
    simp only [mapFind_mapInsert, if_true, Option.getD_some]
    rw [wrapInt64_add, ← Int.add_assoc, Int.add_comm _ d2, ← Int.add_assoc, wrapInt64_add]
    congr 1
    omega
  refine ⟨hgen, ?_, ?_, ?_⟩
  · intro hn
    rw [hgen, hn]
    congr 1
    simp only [Option.getD_none]
    omega
  · intro hn
    unfold ApplyDeltas
    rw [hn]
  · unfold ApplyDeltas ClearPrioritisation
    simp only [mapFind_mapErase, if_true]

end CTxMemPool

namespace CTxMemPool

/-! ## Removal by anchor -/

/-- A direct-descendant step of the smaller pool is a step of the larger pool. -/
theorem directDescendant_lift {p0 p : CTxMemPool} (hw0 : WellFormed p0) (hw : WellFormed p)
    (hsub : ∀ k b, p.deref k = some b → p0.deref k = some b) {b : CTransactionBase} {d : Nat}
    (hd : IsDirectDescendant p b d) : IsDirectDescendant p0 b d := by
  rcases hd with ⟨i, hi, ip, hip, hptx⟩ | ⟨t, ht, sc, hsc, r, hr, hfb⟩
  · obtain ⟨b1, hb1, hget⟩ := hw.next_backed hip
    have hb0 := hsub _ _ hb1
    have ho : (⟨b.GetHash, i⟩ : COutPoint) ∈ b1.GetVin.map (fun i => i.prevout) := by
      obtain ⟨x, hx, hxe⟩ := Option.map_eq_some'.mp hget
      exact List.mem_map.mpr ⟨x, List.get?_mem hx, hxe⟩
    obtain ⟨j, hj⟩ := hw0.spender_of_deref hb0 ho
    exact Or.inl ⟨i, hi, ⟨ip.ptx, j⟩, hj, hptx⟩
  · refine Or.inr ⟨t, ht, sc, hsc, ?_⟩
    rcases hfb with hf | hb
    · obtain ⟨e, he, hmem⟩ := hw.fwd_backed hr hf
      have hb0 := hsub _ _ (deref_tx he)
      rcases deref_cases hb0 with ⟨e0, he0, heq⟩ | ⟨e0, _, _, heq⟩
      · have hinj : e.tx = e0.tx := CTransactionBase.tx.inj heq
        obtain ⟨fwd, hfwd, hfe⟩ := List.mem_map.mp hmem
        rw [hinj] at hfwd
        obtain ⟨r0, hr0, hm0⟩ := hw0.row_of_fwd he0 hfwd
        exact ⟨r0, by rw [← hfe]; exact hr0, Or.inl hm0⟩
      · cases heq
    · obtain ⟨e, he, hmem⟩ := hw.btr_backed hr hb
      have hb0 := hsub _ _ (deref_tx he)
      rcases deref_cases hb0 with ⟨e0, he0, heq⟩ | ⟨e0, _, _, heq⟩
      · have hinj : e.tx = e0.tx := CTransactionBase.tx.inj heq
        obtain ⟨btr, hbtr, hbe⟩ := List.mem_map.mp hmem
        rw [hinj] at hbtr
        obtain ⟨r0, hr0, hm0⟩ := hw0.row_of_btr he0 hbtr
        exact ⟨r0, by rw [← hbe]; exact hr0, Or.inr hm0⟩
      · cases heq

theorem isDescendant_lift {p0 p : CTxMemPool} (hw0 : WellFormed p0) (hw : WellFormed p)
    (hsub : ∀ k b, p.deref k = some b → p0.deref k = some b) {x : CTransactionBase} {d : Nat}
    (hd : IsDescendant p x d) : IsDescendant p0 x d := by
  induction hd with
  | direct h => exact IsDescendant.direct (directDescendant_lift hw0 hw hsub h)
  | step _ hy hdd ih => exact IsDescendant.step ih (hsub _ _ hy) (directDescendant_lift hw0 hw hsub hdd)

theorem PoolPruned.deref_sub_pool {p0 p : CTxMemPool} {Root : CTransactionBase → Prop}
    (hp : PoolPruned p0 p Root) (hw0 : WellFormed p0) {k : Nat} {b : CTransactionBase}
    (h : p.deref k = some b) : p0.deref k = some b := by
  rcases deref_cases h with ⟨e, he, rfl⟩ | ⟨e, _, he, rfl⟩
  · exact deref_tx (hp.tx_sub k e he)
  · have hc := hp.cert_sub k e he
    exact deref_cert (hw0.cert_not_tx hc) hc

theorem PoolPruned.start_pool (p0 : CTxMemPool) (hw0 : WellFormed p0) (Root : CTransactionBase → Prop) :
    PoolPruned p0 p0 Root :=
  ⟨hw0, fun _ _ h => h, fun _ _ h => h, fun y b d h0 h1 _ => (by rw [h0] at h1; cases h1),
    fun k h0 h1 => absurd h1 h0⟩

/-- Recursive `remove` of `x` on a well-formed pool in which the hash of `x`, when
bound, is bound to `x`. -/
theorem remove_bounded (st : Removal) (hw : WellFormed st.pool) (x : CTransactionBase)
    (hx : ∀ b, st.pool.deref x.GetHash = some b → b = x) :
    ∃ st1, remove st x true = Outcome.done st1 ∧ Shrinks st st1 ∧
      DescClosed st.pool st1.pool ∧ st1.pool.deref x.GetHash = none ∧
      (∀ l, st.removedTxs = l → ∃ l1, st1.removedTxs = l ++ l1) ∧
      (∀ l, st.removedCerts = l → ∃ l1, st1.removedCerts = l ++ l1) ∧
      ∀ k, st1.pool.deref k = none → st.pool.deref k ≠ none →
        k = x.GetHash ∨ IsDescendant st.pool x k := by
  obtain ⟨deps, st1, hd, _, _, hrem, hw1, htx, hcert, hout1, hout2, _⟩ :=
    remove_spec st hw x true
  obtain ⟨st2, hrem2, hsh, _⟩ := remove_shrinks st hw x true
  rw [hrem] at hrem2
  cases hrem2
  obtain ⟨res, hres, _, hiff0, _⟩ := mempoolDependenciesOf_correct st.pool x hw
  simp only [if_true] at hd
  rw [hres] at hd
  have hdeps : res = deps := Outcome.done.inj hd
  have hiff : ∀ d, d ∈ deps ↔ IsDescendant st.pool x d := by
    rw [← hdeps]
    exact hiff0
  have hgone : ∀ k, k ∈ x.GetHash :: deps → st1.pool.deref k = none := by
    intro k hk
    apply deref_eq_none
    · rw [htx, if_pos hk]
    · rw [hcert, if_pos hk]
  have hkept : ∀ k, k ∉ x.GetHash :: deps → st1.pool.deref k = st.pool.deref k := by
    intro k hn
    exact @deref_congr st.pool st1.pool k (by rw [htx, if_neg hn]) (by rw [hcert, if_neg hn])
  refine ⟨st1, hrem, hsh, ?_, hgone _ (List.mem_cons_self _ _),
    fun l hl => ⟨_, by rw [hout1, hl]⟩, fun l hl => ⟨_, by rw [hout2, hl]⟩, ?_⟩
  · intro y b d hy0 hy1 hdd
    have hy : y ∈ x.GetHash :: deps := by
      by_contra hn
      have := hkept y hn
      rw [hy1, hy0] at this
      cases this
    apply hgone
    apply List.mem_cons_of_mem
    rcases List.mem_cons.mp hy with rfl | hy
    · have := hx b hy0
      subst this
      exact (hiff d).mpr (IsDescendant.direct hdd)
    · exact (hiff d).mpr (IsDescendant.step ((hiff y).mp hy) hy0 hdd)
  · intro k hk1 hk0
    have hk : k ∈ x.GetHash :: deps := by
      by_contra hn
      have := hkept k hn
      rw [hk1] at this
      exact hk0 this.symm
    rcases List.mem_cons.mp hk with rfl | hk
    · exact Or.inl rfl
    · exact Or.inr ((hiff k).mp hk)

/-- One more recursive removal of a root keeps `PoolPruned`. -/
theorem PoolPruned.step_pool {p0 : CTxMemPool} {Root : CTransactionBase → Prop} (hw0 : WellFormed p0)
    (st st1 : Removal) (hp : PoolPruned p0 st.pool Root) (x : CTransactionBase) (hroot : Root x)
    (hx0 : p0.deref x.GetHash = some x)
    (hrem : remove st x true = Outcome.done st1) :
    PoolPruned p0 st1.pool Root ∧ Shrinks st st1 ∧ st1.pool.deref x.GetHash = none := by
  have hx : ∀ b, st.pool.deref x.GetHash = some b → b = x := by
    intro b hb
    have := hp.deref_sub_pool hw0 hb
    rw [hx0] at this
    cases this
    rfl
  obtain ⟨st2, h2, hsh, hcl, hgone, _, _, hb⟩ := remove_bounded st hp.wf x hx
  rw [hrem] at h2
  cases h2
  refine ⟨⟨hsh.wf, fun k e h => hp.tx_sub k e (hsh.tx_sub k e h),
    fun k e h => hp.cert_sub k e (hsh.cert_sub k e h), ?_, ?_⟩, hsh, hgone⟩
  · exact DescClosed.trans_closed hw0 hp.wf (fun k b h => hp.deref_sub_pool hw0 h)
      (fun k h => hsh.deref_none h) hp.closed hcl
  · intro k hk0 hk1
    cases hk : st.pool.deref k with
    | none => exact hp.bounded k hk0 hk
    | some b =>
      rcases hb k hk1 (by rw [hk]; simp) with rfl | hdesc
      · exact ⟨x, hroot, Or.inl rfl⟩
      · exact ⟨x, hroot, Or.inr (isDescendant_lift hw0 hp.wf (fun k b h => hp.deref_sub_pool hw0 h) hdesc)⟩

theorem PoolPruned.descendants_out {p0 p : CTxMemPool} {Root : CTransactionBase → Prop}
    (hp : PoolPruned p0 p Root) {k : Nat} {b : CTransactionBase} (hk : p0.deref k = some b)
    (hg : p.deref k = none) {d : Nat} (hd : IsDescendant p0 b d) : p.deref d = none := by
  induction hd with
  | direct h => exact hp.closed k b _ hk hg h
  | step _ hy hdd ih => exact hp.closed _ _ _ hy ih hdd

theorem PoolPruned.deref_gone {p0 p : CTxMemPool} {Root : CTransactionBase → Prop}
    (hp : PoolPruned p0 p Root) {k : Nat} (h : p0.deref k = none) : p.deref k = none := by
  obtain ⟨h1, h2⟩ := deref_none_iff.mp h
  apply deref_eq_none
  · cases hm : mapFind p.mapTx k with
    | none => rfl
    | some e => rw [hp.tx_sub k e hm] at h1; cases h1
  · cases hm : mapFind p.mapCertificate k with
    | none => rfl
    | some e => rw [hp.cert_sub k e hm] at h2; cases h2

theorem usesAnchor_iff (R : Nat) (tx : CTransaction) :
    usesAnchor R tx = true ↔ ∃ js ∈ tx.vjoinsplit, js.anchor = R := by
  unfold usesAnchor
  simp only [List.any_eq_true, decide_eq_true_eq]

/-- Second loop of `removeWithAnchor` on roots taken from the initial pool. -/
theorem removeAnchored_fold {p0 : CTxMemPool} {Root : CTransactionBase → Prop}
    (hw0 : WellFormed p0) (txs : List CTransaction)
    (hroots : ∀ t ∈ txs, Root (CTransactionBase.tx t) ∧
      p0.deref t.hash = some (CTransactionBase.tx t))
    (p : CTxMemPool) (hp : PoolPruned p0 p Root) :
    ∃ p1, Outcome.foldl removeAnchored p txs = Outcome.done p1 ∧ PoolPruned p0 p1 Root ∧
      (∀ k, p.deref k = none → p1.deref k = none) ∧
      ∀ t ∈ txs, p1.deref t.hash = none := by
  induction txs generalizing p with
  | nil => exact ⟨p, rfl, hp, fun _ h => h, by simp⟩
  | cons t rest ih =>
    obtain ⟨hr, hd⟩ := hroots t (List.mem_cons_self _ _)
    obtain ⟨st1, h1, _⟩ := remove_shrinks { pool := p, removedTxs := [], removedCerts := [] }
      hp.wf (CTransactionBase.tx t) true
    obtain ⟨hp1, hsh, hgone⟩ := PoolPruned.step_pool hw0
      { pool := p, removedTxs := [], removedCerts := [] } st1 hp (CTransactionBase.tx t) hr hd h1
    obtain ⟨p2, h2, hp2, hn2, hg2⟩ :=
      ih (fun t ht => hroots t (List.mem_cons_of_mem _ ht)) st1.pool hp1
    refine ⟨p2, ?_, hp2, fun k hk => hn2 k (hsh.deref_none hk), ?_⟩
    · rw [Outcome.foldl_cons]
      unfold removeAnchored
      rw [h1]
      exact h2
    · intro t1 ht1
      rcases List.mem_cons.mp ht1 with rfl | hrest
      · exact hn2 _ hgone
      · exact hg2 t1 hrest

/-- Effect of `removeWithAnchor` on a well-formed pool. -/
theorem removeWithAnchor_correct (pool : CTxMemPool) (R : Nat) (hw : WellFormed pool) :
    ∃ p1, removeWithAnchor pool R = Outcome.done p1 ∧ WellFormed p1 ∧
      (∀ k e, mapFind p1.mapTx k = some e → ∀ js ∈ e.tx.vjoinsplit, js.anchor ≠ R) ∧
      (∀ k e, mapFind pool.mapTx k = some e → (∃ js ∈ e.tx.vjoinsplit, js.anchor = R) →
        p1.deref k = none ∧
          ∀ d, IsDescendant pool (CTransactionBase.tx e.tx) d → p1.deref d = none) ∧
      (∀ k, (mapFind p1.mapTx k = mapFind pool.mapTx k ∧
          mapFind p1.mapCertificate k = mapFind pool.mapCertificate k) ∨
        ∃ k0 e0, mapFind pool.mapTx k0 = some e0 ∧ (∃ js ∈ e0.tx.vjoinsplit, js.anchor = R) ∧
          (k = k0 ∨ IsDescendant pool (CTransactionBase.tx e0.tx) k)) := by
  let Root : CTransactionBase → Prop := fun x =>
    ∃ k0 e0, mapFind pool.mapTx k0 = some e0 ∧ usesAnchor R e0.tx = true ∧
      x = CTransactionBase.tx e0.tx
  have hnd := nodup_keys_of_keySorted hw.sorted_tx
  have hroots : ∀ t ∈ (pool.mapTx.filter (fun kv => usesAnchor R kv.2.GetTx)).map
      (fun kv => kv.2.GetTx), Root (CTransactionBase.tx t) ∧
        pool.deref t.hash = some (CTransactionBase.tx t) := by
    intro t ht
    obtain ⟨kv, hkv, rfl⟩ := List.mem_map.mp ht
    obtain ⟨hmem, huse⟩ := List.mem_filter.mp hkv
    have hf := mapFind_of_mem hnd hmem
    have hh : kv.2.tx.hash = kv.1 := hw.tx_hash hf
    refine ⟨⟨kv.1, kv.2, hf, huse, rfl⟩, ?_⟩
    show pool.deref kv.2.tx.hash = _
    rw [hh]
    exact deref_tx hf
  obtain ⟨p1, h1, hp, _, hgone⟩ := removeAnchored_fold hw _ hroots pool
    (PoolPruned.start_pool pool hw Root)
  have huser : ∀ k e, mapFind pool.mapTx k = some e → usesAnchor R e.tx = true →
      p1.deref k = none := by
    intro k e he hu
    have hmem : e.tx ∈ (pool.mapTx.filter (fun kv => usesAnchor R kv.2.GetTx)).map
        (fun kv => kv.2.GetTx) :=
      List.mem_map.mpr ⟨(k, e), List.mem_filter.mpr ⟨mem_of_mapFind he, hu⟩, rfl⟩
    have := hgone e.tx hmem
    rw [hw.tx_hash he] at this
    exact this
  refine ⟨p1, h1, hp.wf, ?_, ?_, ?_⟩
  · intro k e he js hjs heq
    have he0 := hp.tx_sub k e he
    have := huser k e he0 ((usesAnchor_iff R e.tx).mpr ⟨js, hjs, heq⟩)
    rw [deref_tx he] at this
    cases this
  · intro k e he hu
    have hg := huser k e he ((usesAnchor_iff R e.tx).mpr hu)
    exact ⟨hg, fun d hd => hp.descendants_out (deref_tx he) hg hd⟩
  · intro k
    by_cases hk : p1.deref k = none
    · by_cases hk0 : pool.deref k = none
      · left
        obtain ⟨a1, a2⟩ := deref_none_iff.mp hk
        obtain ⟨b1, b2⟩ := deref_none_iff.mp hk0
        exact ⟨by rw [a1, b1], by rw [a2, b2]⟩
      · right
        obtain ⟨x, ⟨k0, e0, he0, hu0, rfl⟩, hx⟩ := hp.bounded k hk0 hk
        refine ⟨k0, e0, he0, (usesAnchor_iff R e0.tx).mp hu0, ?_⟩
        rcases hx with h | h
        · left
          rw [h]
          exact (hw.tx_hash he0)
        · exact Or.inr h
    · left
      constructor
      · cases hm : mapFind p1.mapTx k with
        | some e => exact (hp.tx_sub k e hm).symm
        | none =>
          cases hm0 : mapFind pool.mapTx k with
          | none => rfl
          | some e0 =>
            exfalso
            apply hk
            apply deref_eq_none hm
            cases hc : mapFind p1.mapCertificate k with
            | none => rfl
            | some c =>
              have := hw.cert_not_tx (hp.cert_sub k c hc)
              rw [hm0] at this
              cases this
      · cases hm : mapFind p1.mapCertificate k with
        | some e => exact (hp.cert_sub k e hm).symm
        | none =>
          cases hm0 : mapFind pool.mapCertificate k with
          | none => rfl
          | some c0 =>
            exfalso
            apply hk
            refine deref_eq_none ?_ hm
            cases ht : mapFind p1.mapTx k with
            | none => rfl
            | some e =>
              have := hw.cert_not_tx hm0
              rw [hp.tx_sub k e ht] at this
              cases this

/-- C21: on a well-formed pool `removeWithAnchor(R)` completes; afterwards no
transaction of the pool has a joinsplit whose anchor is `R`; every transaction
that used `R` has left the pool together with its descendants; and every entry
that neither used `R` nor descends from a transaction that used `R` is bound as
before. -/
theorem removeWithAnchor_exact (pool : CTxMemPool) (R : Nat) (hw : WellFormed pool) :
    ∃ p1, removeWithAnchor pool R = Outcome.done p1 ∧
      (∀ k e, mapFind p1.mapTx k = some e → ∀ js ∈ e.tx.vjoinsplit, js.anchor ≠ R) ∧
      (∀ k e, mapFind pool.mapTx k = some e → (∃ js ∈ e.tx.vjoinsplit, js.anchor = R) →
        p1.deref k = none ∧
          ∀ d, IsDescendant pool (CTransactionBase.tx e.tx) d → p1.deref d = none) ∧
      (∀ k, (mapFind p1.mapTx k = mapFind pool.mapTx k ∧
          mapFind p1.mapCertificate k = mapFind pool.mapCertificate k) ∨
        ∃ k0 e0, mapFind pool.mapTx k0 = some e0 ∧ (∃ js ∈ e0.tx.vjoinsplit, js.anchor = R) ∧
          (k = k0 ∨ IsDescendant pool (CTransactionBase.tx e0.tx) k)) := by
  obtain ⟨p1, h1, _, h2, h3, h4⟩ := removeWithAnchor_correct pool R hw
  exact ⟨p1, h1, h2, h3, h4⟩

/-- Witness for C21: the pool holding `txShielded`, whose joinsplit has the
anchor 0. -/
theorem removeWithAnchor_exact_witness :
    ∃ p1, removeWithAnchor Scenario.poolShielded 0 = Outcome.done p1 ∧
      (∀ k e, mapFind p1.mapTx k = some e → ∀ js ∈ e.tx.vjoinsplit, js.anchor ≠ 0) ∧
      (∀ k e, mapFind Scenario.poolShielded.mapTx k = some e →
        (∃ js ∈ e.tx.vjoinsplit, js.anchor = 0) →
        p1.deref k = none ∧
          ∀ d, IsDescendant Scenario.poolShielded (CTransactionBase.tx e.tx) d →
            p1.deref d = none) ∧
      (∀ k, (mapFind p1.mapTx k = mapFind Scenario.poolShielded.mapTx k ∧
          mapFind p1.mapCertificate k = mapFind Scenario.poolShielded.mapCertificate k) ∨
        ∃ k0 e0, mapFind Scenario.poolShielded.mapTx k0 = some e0 ∧
          (∃ js ∈ e0.tx.vjoinsplit, js.anchor = 0) ∧
          (k = k0 ∨ IsDescendant Scenario.poolShielded (CTransactionBase.tx e0.tx) k)) :=
  removeWithAnchor_exact Scenario.poolShielded 0 (by decide)

/-- C22: on a well-formed pool a second `removeWithAnchor(R)` returns the pool
exactly as the first call left it: every table and every counter is
unchanged. -/
theorem removeWithAnchor_idempotent (pool : CTxMemPool) (R : Nat) (hw : WellFormed pool) :
    ∃ p1, removeWithAnchor pool R = Outcome.done p1 ∧
      removeWithAnchor p1 R = Outcome.done p1 := by
  obtain ⟨p1, h1, hw1, hclean, _⟩ := removeWithAnchor_correct pool R hw
  refine ⟨p1, h1, ?_⟩
  unfold removeWithAnchor
  have hnil : p1.mapTx.filter (fun kv => usesAnchor R kv.2.GetTx) = [] := by
    rw [List.filter_eq_nil_iff]
    intro kv hkv hu
    have hf := mapFind_of_mem (nodup_keys_of_keySorted hw1.sorted_tx) hkv
    obtain ⟨js, hjs, heq⟩ := (usesAnchor_iff R kv.2.tx).mp hu
    exact hclean kv.1 kv.2 hf js hjs heq
  simp only [hnil, List.map_nil, Outcome.foldl_nil]

/-- Witness for C22: the pool holding `txShielded`, whose joinsplit has the
anchor 0. -/
theorem removeWithAnchor_idempotent_witness :
    ∃ p1, removeWithAnchor Scenario.poolShielded 0 = Outcome.done p1 ∧
      removeWithAnchor p1 0 = Outcome.done p1 :=
  removeWithAnchor_idempotent Scenario.poolShielded 0 (by decide)

end CTxMemPool

namespace CTxMemPool

/-! ## Stale transactions -/

end CTxMemPool

/-! ## Lemmas: first occurrences -/

theorem firstOcc_filter (p : Nat → Bool) (l : List Nat) :
    firstOcc (l.filter p) = (firstOcc l).filter p := by
  induction l with
  | nil => rfl
  | cons h t ih =>
    by_cases hp : p h = true
    · rw [List.filter_cons_of_pos hp, firstOcc_cons, firstOcc_cons, ih,
        List.filter_cons_of_pos hp, List.filter_filter, List.filter_filter]
      congr 1
      apply List.filter_congr
      intro x _
      exact Bool.and_comm _ _
    · rw [List.filter_cons_of_neg hp, firstOcc_cons, ih, List.filter_cons_of_neg hp,
        List.filter_filter]
      apply List.filter_congr
      intro x _
      by_cases hx : x = h
      · subst hx
        simp [hp]
      · simp [hx]

theorem firstOcc_append (A B : List Nat) :
    firstOcc (A ++ B) = firstOcc A ++ (firstOcc B).filter (fun k => decide (k ∉ A)) := by
  induction A with
  | nil => simp [firstOcc]
  | cons a rest ih =>
    rw [List.cons_append, firstOcc_cons, firstOcc_cons, ih, List.filter_append,
      List.filter_filter, List.cons_append]
    congr 2
    apply List.filter_congr
    intro x _
    simp only [List.mem_cons, not_or, Bool.decide_and, ne_eq]

theorem firstOcc_nodup (l : List Nat) : (firstOcc l).Nodup := by
  induction l with
  | nil => simp [firstOcc]
  | cons a rest ih =>
    rw [firstOcc_cons, List.nodup_cons]
    refine ⟨?_, ih.filter _⟩
    intro h
    simpa using (List.mem_filter.mp h).2

theorem firstOcc_append_congr {X Y : List Nat} (D : List Nat) (h : firstOcc X = firstOcc Y) :
    firstOcc (X ++ D) = firstOcc (Y ++ D) := by
  rw [firstOcc_append, firstOcc_append, h]
  congr 1
  apply List.filter_congr
  intro x _
  have : x ∈ X ↔ x ∈ Y := by rw [← mem_firstOcc, h, mem_firstOcc]
  simp only [this]

theorem firstOcc_append_absorb {X D : List Nat} (h : ∀ d ∈ D, d ∈ X) :
    firstOcc (X ++ D) = firstOcc X := by
  rw [firstOcc_append]
  have : (firstOcc D).filter (fun k => decide (k ∉ X)) = [] := by
    rw [List.filter_eq_nil_iff]
    intro k hk
    simpa using h k (mem_firstOcc.mp hk)
  rw [this, List.append_nil]

theorem firstOcc_append_mid {A : List Nat} {h : Nat} (B : List Nat) (hh : h ∈ A) :
    firstOcc (A ++ h :: B) = firstOcc (A ++ B) := by
  rw [firstOcc_append, firstOcc_append, firstOcc_cons, List.filter_cons_of_neg (by simpa using hh),
    List.filter_filter]
  congr 1
  apply List.filter_congr
  intro x _
  by_cases hx : x = h
  · subst hx
    simp [hh]
  · simp [hx]

theorem firstOcc_append_fresh (A B : List Nat) :
    firstOcc (A ++ firstOcc (B.filter (fun k => decide (k ∉ A)))) = firstOcc (A ++ B) := by
  rw [firstOcc_append, firstOcc_append, firstOcc_of_nodup (firstOcc_nodup _), firstOcc_filter,
    List.filter_filter]
  congr 1
  apply List.filter_congr
  intro x _
  simp

namespace CTxMemPool

/-- The inner loop pushes, in reverse order of first yield, the hashes that are
neither pending nor listed. -/
theorem pushNew_eq (res : List Nat) (deps tv : List Nat) :
    pushNew res tv deps =
      (firstOcc (deps.filter (fun d => decide (d ∉ tv ∧ d ∉ res)))).reverse ++ tv := by
  unfold pushNew
  induction deps generalizing tv with
  | nil => simp [firstOcc]
  | cons d ds ih =>
    rw [List.foldl_cons]
    by_cases hd : d ∉ tv ∧ d ∉ res
    · rw [if_pos hd, ih, List.filter_cons_of_pos (by simpa using hd), firstOcc_cons,
        List.reverse_cons, List.append_assoc, List.singleton_append, firstOcc_filter,
        firstOcc_filter, List.filter_filter]
      congr 2
      apply List.filter_congr
      intro x _
      by_cases hx : x = d
      · subst hx
        simp
      · simp [hx]
    · rw [if_neg hd, ih, List.filter_cons_of_neg (by simpa using hd)]

end CTxMemPool

/-! ## Lemmas: the order of the walks -/

theorem walkLoop_nil (deref : Nat → Option CTransactionBase)
    (direct : CTransactionBase → List Nat) (back : Bool) (fuel : Nat) (res : List Nat) :
    walkLoop deref direct back fuel [] res = Outcome.done res := by
  cases fuel <;> rfl

theorem walkLoop_back_step (deref : Nat → Option CTransactionBase)
    (direct : CTransactionBase → List Nat) (fuel h : Nat) (rest res : List Nat)
    (cur : CTransactionBase) (hc : deref h = some cur) :
    walkLoop deref direct true (fuel + 1) (rest ++ [h]) res =
      walkLoop deref direct true fuel
        (CTxMemPool.pushNew (if cur.GetHash ∈ res then res else res ++ [cur.GetHash]) rest
          (direct cur))
        (if cur.GetHash ∈ res then res else res ++ [cur.GetHash]) := by
  cases hl : rest ++ [h] with
  | nil => simp at hl
  | cons v vs =>
    have h1 := List.dropLast_append_getLast (List.cons_ne_nil v vs)
    have h2 := List.append_inj' (h1.trans hl.symm) rfl
    have h3 : (v :: vs).getLast (List.cons_ne_nil v vs) = h := by
      have := h2.2
      simp only [List.cons.injEq, and_true] at this
      exact this
    have h4 : (v :: vs).dropLast = rest := h2.1
    simp only [walkLoop, if_true, h3, h4, hc]

/-- Invariant rule for the walk that takes from the back. -/
theorem walkLoop_back_invariant (deref : Nat → Option CTransactionBase)
    (direct : CTransactionBase → List Nat) (I : List Nat → List Nat → Prop)
    (hstep : ∀ rest h res cur, deref h = some cur → I (rest ++ [h]) res →
      I (CTxMemPool.pushNew (if cur.GetHash ∈ res then res else res ++ [cur.GetHash]) rest
          (direct cur))
        (if cur.GetHash ∈ res then res else res ++ [cur.GetHash])) :
    ∀ (fuel : Nat) (tv res out : List Nat),
      walkLoop deref direct true fuel tv res = Outcome.done out → I tv res → I [] out := by
  intro fuel
  induction fuel with
  | zero =>
    intro tv res out h hI
    cases tv with
    | nil =>
      rw [walkLoop_nil] at h
      cases h
      exact hI
    | cons v vs => simp [walkLoop] at h
  | succ fuel ih =>
    intro tv res out h hI
    cases tv with
    | nil =>
      rw [walkLoop_nil] at h
      cases h
      exact hI
    | cons v vs =>
      have h1 := List.dropLast_append_getLast (List.cons_ne_nil v vs)
      rw [← h1] at h hI
      cases hc : deref ((v :: vs).getLast (List.cons_ne_nil v vs)) with
      | none =>
        rw [h1] at h
        simp [walkLoop, hc] at h
      | some cur =>
        rw [walkLoop_back_step deref direct fuel _ _ res cur hc] at h
        exact ih _ _ out h (hstep _ _ res cur hc hI)

theorem mem_walkChildren {deref : Nat → Option CTransactionBase}
    {direct : CTransactionBase → List Nat} {p d : Nat} :
    d ∈ walkChildren deref direct p ↔ ∃ b, deref p = some b ∧ d ∈ direct b := by
  unfold walkChildren
  cases deref p <;> simp

theorem walkChildren_of_some {deref : Nat → Option CTransactionBase}
    {direct : CTransactionBase → List Nat} {p : Nat} {b : CTransactionBase}
    (h : deref p = some b) : walkChildren deref direct p = direct b := by
  unfold walkChildren
  rw [h]

/-- One step of a walk keeps the bookkeeping invariant, whichever end of the
deque the entry was taken from. -/
theorem WalkInv.step_inv {deref : Nat → Option CTransactionBase}
    {direct : CTransactionBase → List Nat} {init tv res rest : List Nat} {h : Nat}
    {cur : CTransactionBase} (hinv : WalkInv deref direct init tv res)
    (hpop : ∀ x, x ∈ tv ↔ x = h ∨ x ∈ rest) (hc : deref h = some cur) :
    WalkInv deref direct init
      (CTxMemPool.pushNew (if h ∈ res then res else res ++ [h]) rest (direct cur))
      (if h ∈ res then res else res ++ [h]) := by
  have hch := @walkChildren_of_some deref direct h cur hc
  have hmem : ∀ x, x ∈ (if h ∈ res then res else res ++ [h]) ↔ x ∈ res ∨ x = h := by
    intro x
    split
    · constructor
      · exact Or.inl
      · rintro (hx | hx)
        · exact hx
        · exact hx ▸ ‹h ∈ res›
    · simp
  have hpush := CTxMemPool.mem_pushNew (if h ∈ res then res else res ++ [h]) (direct cur) rest
  have hold : ∀ d, d ∈ tv ∨ d ∈ res →
      d ∈ CTxMemPool.pushNew (if h ∈ res then res else res ++ [h]) rest (direct cur) ∨
        d ∈ (if h ∈ res then res else res ++ [h]) := by
    intro d hd
    rcases hd with hd | hd
    · rcases (hpop d).mp hd with hd | hd
      · exact Or.inr ((hmem d).mpr (Or.inr hd))
      · exact Or.inl ((hpush d).mpr (Or.inl hd))
    · exact Or.inr ((hmem d).mpr (Or.inl hd))
  refine ⟨?_, ?_, ?_, ?_, ?_⟩
  · intro p hp d hd
    rcases (hmem p).mp hp with hp | hp
    · exact hold d (hinv.children p hp d hd)
    · subst hp
      rw [hch] at hd
      by_cases hr : d ∈ (if p ∈ res then res else res ++ [p])
      · exact Or.inr hr
      · exact Or.inl ((hpush d).mpr (Or.inr ⟨hd, hr⟩))
  · intro d hd
    exact hold d (hinv.seeds d hd)
  · intro d hd
    rcases (hpush d).mp hd with hd | hd
    · rcases hinv.pending d ((hpop d).mpr (Or.inr hd)) with hi | ⟨p, hp, hpd⟩
      · exact Or.inl hi
      · exact Or.inr ⟨p, (hmem p).mpr (Or.inl hp), hpd⟩
    · exact Or.inr ⟨h, (hmem h).mpr (Or.inr rfl), by rw [hch]; exact hd.1⟩
  · intro pre z post heq
    by_cases hr : h ∈ res
    · rw [if_pos hr] at heq
      exact hinv.listed pre z post heq
    · rw [if_neg hr] at heq
      cases post using List.reverseRecOn with
      | nil =>
        have h2 := List.append_inj' heq rfl
        have hz : z = h := by
          have := h2.2
          simp only [List.cons.injEq, and_true] at this
          exact this.symm
        subst hz
        rw [← h2.1]
        exact hinv.pending z ((hpop z).mpr (Or.inl rfl))
      | append_singleton post1 k _ =>
        have heq2 : res ++ [h] = (pre ++ z :: post1) ++ [k] := by
          rw [heq]
          simp
        have h2 := List.append_inj' heq2 rfl
        exact hinv.listed pre z post1 h2.1
  · split
    · exact hinv.nodup
    · rename_i hr
      exact List.Nodup.append hinv.nodup (List.nodup_singleton h) (by
        intro a ha1 ha2
        rw [List.mem_singleton] at ha2
        exact hr (ha2 ▸ ha1))

theorem WalkInv.start_inv (deref : Nat → Option CTransactionBase)
    (direct : CTransactionBase → List Nat) (init : List Nat) :
    WalkInv deref direct init init [] :=
  ⟨fun p hp => by simp at hp, fun d hd => Or.inl hd, fun d hd => Or.inl hd,
    fun pre z post h => by simp at h, List.nodup_nil⟩

/-! ## The order of the ancestor walk -/

theorem WalkWithin.mono_within {deref : Nat → Option CTransactionBase}
    {direct : CTransactionBase → List Nat} {init : List Nat} {n d : Nat}
    (h : WalkWithin deref direct init n d) : ∀ m, n ≤ m → WalkWithin deref direct init m d := by
  induction h with
  | seed hd =>
    intro m hm
    obtain ⟨k, rfl⟩ : ∃ k, m = k + 1 := ⟨m - 1, by omega⟩
    exact WalkWithin.seed hd
  | step _ hb hd ih =>
    intro m hm
    obtain ⟨k, rfl⟩ : ∃ k, m = k + 1 := ⟨m - 1, by omega⟩
    exact WalkWithin.step (ih k (by omega)) hb hd

/-- An entry that is neither pending nor listed is farther from the seeds than
some pending entry. -/
theorem WalkInv.frontier {deref : Nat → Option CTransactionBase}
    {direct : CTransactionBase → List Nat} {init tv res : List Nat}
    (hinv : WalkInv deref direct init tv res) {n z : Nat}
    (hz : WalkWithin deref direct init n z) :
    z ∉ tv → z ∉ res → ∃ w ∈ tv, ∃ i, i < n ∧ WalkWithin deref direct init i w := by
  induction hz with
  | seed hd =>
    intro h1 h2
    rcases hinv.seeds _ hd with h | h
    · exact absurd h h1
    · exact absurd h h2
  | @step n u z b hu hb hd ih =>
    intro h1 h2
    by_cases hut : u ∈ tv
    · exact ⟨u, hut, n, by omega, hu⟩
    · by_cases hur : u ∈ res
      · rcases hinv.children u hur z (mem_walkChildren.mpr ⟨b, hb, hd⟩) with h | h
        · exact absurd h h1
        · exact absurd h h2
      · obtain ⟨w, hw, i, hi, hwi⟩ := ih hut hur
        exact ⟨w, hw, i, by omega, hwi⟩

theorem WalkLevels.start_levels (deref : Nat → Option CTransactionBase)
    (direct : CTransactionBase → List Nat) (init : List Nat) :
    WalkLevels deref direct init init [] := by
  constructor
  · rw [List.nil_append]
    apply List.pairwise_of_forall_mem_list
    intro a ha b _ n hn
    rw [List.mem_reverse] at ha
    cases hn with
    | seed _ => exact WalkWithin.seed ha
    | step _ _ _ => exact WalkWithin.seed ha
  · intro u _ v hv n _
    rcases hv with hv | hv
    · simp at hv
    · exact WalkWithin.seed hv

/-- One step of the walk that takes from the back keeps the level invariant. -/
theorem WalkLevels.step_levels {deref : Nat → Option CTransactionBase}
    {direct : CTransactionBase → List Nat} {init res rest : List Nat} {h : Nat}
    {cur : CTransactionBase} (hl : WalkLevels deref direct init (rest ++ [h]) res)
    (hinv : WalkInv deref direct init (rest ++ [h]) res) (hc : deref h = some cur) :
    WalkLevels deref direct init
      (CTxMemPool.pushNew (if h ∈ res then res else res ++ [h]) rest (direct cur))
      (if h ∈ res then res else res ++ [h]) := by
  have hmem : ∀ x, x ∈ (if h ∈ res then res else res ++ [h]) ↔ x ∈ res ∨ x = h := by
    intro x
    split
    · constructor
      · exact Or.inl
      · rintro (hx | hx)
        · exact hx
        · exact hx ▸ ‹h ∈ res›
    · simp
  rw [CTxMemPool.pushNew_eq]
  generalize hN : firstOcc ((direct cur).filter
    (fun d => decide (d ∉ rest ∧ d ∉ (if h ∈ res then res else res ++ [h])))) = N
  have hNmem : ∀ c ∈ N, c ∈ direct cur ∧ c ∉ rest ++ [h] ∧ c ∉ res := by
    intro c hcN
    rw [← hN, mem_firstOcc, List.mem_filter] at hcN
    have h2 : c ∉ rest ∧ c ∉ (if h ∈ res then res else res ++ [h]) := by simpa using hcN.2
    have h3 : ¬ (c ∈ res ∨ c = h) := fun hx => h2.2 ((hmem c).mpr hx)
    refine ⟨hcN.1, ?_, fun hx => h3 (Or.inl hx)⟩
    intro hx
    rcases List.mem_append.mp hx with hx | hx
    · exact h2.1 hx
    · exact h3 (Or.inr (List.mem_singleton.mp hx))
  have hseq : res ++ (rest ++ [h]).reverse = res ++ h :: rest.reverse := by simp
  have hsorted := hl.sorted
  rw [hseq] at hsorted
  have hRh : ∀ w ∈ rest ++ [h], ∀ n, WalkWithin deref direct init n w →
      WalkWithin deref direct init n h := by
    intro w hw n hn
    rcases List.mem_append.mp hw with hw | hw
    · have := (List.pairwise_cons.mp (List.pairwise_append.mp hsorted).2.1).1 w
        (List.mem_reverse.mpr hw)
      exact this n hn
    · rw [List.mem_singleton.mp hw] at hn
      exact hn
  have hfront : ∀ c ∈ N, ∀ n, WalkWithin deref direct init n c →
      ∃ i, i < n ∧ WalkWithin deref direct init i h ∧
        ∀ v, v ∈ res ∨ v ∈ rest ++ [h] → WalkWithin deref direct init (i + 1) v := by
    intro c hcN n hn
    obtain ⟨w, hw, i, hi, hwi⟩ := hinv.frontier hn (hNmem c hcN).2.1 (hNmem c hcN).2.2
    exact ⟨i, hi, hRh w hw i hwi, fun v hv => hl.narrow w hw v hv i hwi⟩
  have hold : ∀ v, v ∈ (if h ∈ res then res else res ++ [h]) ∨ v ∈ rest →
      v ∈ res ∨ v ∈ rest ++ [h] := by
    intro v hv
    rcases hv with hv | hv
    · rcases (hmem v).mp hv with hv | hv
      · exact Or.inl hv
      · exact Or.inr (List.mem_append_right _ (List.mem_singleton.mpr hv))
    · exact Or.inr (List.mem_append_left _ hv)
  constructor
  · have hlist : (if h ∈ res then res else res ++ [h]) ++ (N.reverse ++ rest).reverse =
        ((if h ∈ res then res else res ++ [h]) ++ rest.reverse) ++ N := by simp
    rw [hlist, List.pairwise_append]
    refine ⟨?_, ?_, ?_⟩
    · by_cases hr : h ∈ res
      · rw [if_pos hr]
        exact hsorted.sublist ((List.sublist_cons_self h rest.reverse).append_left res)
      · rw [if_neg hr]
        have : res ++ [h] ++ rest.reverse = res ++ h :: rest.reverse := by simp
        rw [this]
        exact hsorted
    · apply List.pairwise_of_forall_mem_list
      intro c1 hc1 c2 hc2 n hn
      obtain ⟨i, hi, hih, _⟩ := hfront c2 hc2 n hn
      exact (WalkWithin.step hih hc (hNmem c1 hc1).1).mono_within n (by omega)
    · intro a ha d hd n hn
      obtain ⟨i, hi, _, hall⟩ := hfront d hd n hn
      have ha2 : a ∈ res ∨ a ∈ rest ++ [h] := by
        rcases List.mem_append.mp ha with ha | ha
        · exact hold a (Or.inl ha)
        · exact hold a (Or.inr (List.mem_reverse.mp ha))
      exact (hall a ha2).mono_within n (by omega)
  · intro u hu v hv n hn
    have hv2 : (v ∈ res ∨ v ∈ rest ++ [h]) ∨ v ∈ N := by
      rcases hv with hv | hv
      · exact Or.inl (hold v (Or.inl hv))
      · rcases List.mem_append.mp hv with hv | hv
        · exact Or.inr (List.mem_reverse.mp hv)
        · exact Or.inl (hold v (Or.inr hv))
    rcases List.mem_append.mp hu with hu | hu
    · obtain ⟨i, hi, hih, hall⟩ := hfront u (List.mem_reverse.mp hu) n hn
      rcases hv2 with hv2 | hv2
      · exact (hall v hv2).mono_within (n + 1) (by omega)
      · exact (WalkWithin.step hih hc (hNmem v hv2).1).mono_within (n + 1) (by omega)
    · have hu2 : u ∈ rest ++ [h] := List.mem_append_left _ hu
      rcases hv2 with hv2 | hv2
      · exact hl.narrow u hu2 v hv2 n hn
      · exact WalkWithin.step (hRh u hu2 n hn) hc (hNmem v hv2).1

/-- One step of the walk that takes from the back keeps the discovery order: the
listed entries followed by the pending ones, as they will be taken, are the
first occurrences of the seeds reversed followed by the neighbours of the listed
entries. -/
theorem discovery_step {deref : Nat → Option CTransactionBase}
    {direct : CTransactionBase → List Nat} {init res rest : List Nat} {h : Nat}
    {cur : CTransactionBase} (hc : deref h = some cur)
    (hE : firstOcc (res ++ (rest ++ [h]).reverse) =
      firstOcc (init.reverse ++ res.flatMap (walkChildren deref direct))) :
    firstOcc ((if h ∈ res then res else res ++ [h]) ++
        (CTxMemPool.pushNew (if h ∈ res then res else res ++ [h]) rest (direct cur)).reverse) =
      firstOcc (init.reverse ++
        (if h ∈ res then res else res ++ [h]).flatMap (walkChildren deref direct)) := by
  have hch := @walkChildren_of_some deref direct h cur hc
  rw [CTxMemPool.pushNew_eq]
  have hseq : res ++ (rest ++ [h]).reverse = res ++ h :: rest.reverse := by simp
  rw [hseq] at hE
  have hfilter : (direct cur).filter
      (fun d => decide (d ∉ rest ∧ d ∉ (if h ∈ res then res else res ++ [h]))) =
      (direct cur).filter
        (fun k => decide (k ∉ (if h ∈ res then res else res ++ [h]) ++ rest.reverse)) := by
    apply List.filter_congr
    intro x _
    simp only [List.mem_append, List.mem_reverse, not_or, decide_eq_decide]
    exact And.comm
  have hlist : (if h ∈ res then res else res ++ [h]) ++
      ((firstOcc ((direct cur).filter
        (fun d => decide (d ∉ rest ∧ d ∉ (if h ∈ res then res else res ++ [h]))))).reverse ++
          rest).reverse =
      ((if h ∈ res then res else res ++ [h]) ++ rest.reverse) ++
        firstOcc ((direct cur).filter
          (fun k => decide (k ∉ (if h ∈ res then res else res ++ [h]) ++ rest.reverse))) := by
    rw [hfilter]
    simp
  rw [hlist, firstOcc_append_fresh]
  by_cases hr : h ∈ res
  · simp only [if_pos hr]
    have h1 : firstOcc (res ++ rest.reverse) =
        firstOcc (init.reverse ++ res.flatMap (walkChildren deref direct)) := by
      rw [← hE, firstOcc_append_mid _ hr]
    rw [firstOcc_append_congr _ h1]
    apply firstOcc_append_absorb
    intro d hd
    apply List.mem_append_right
    rw [List.mem_flatMap]
    exact ⟨h, hr, by rw [hch]; exact hd⟩
  · simp only [if_neg hr]
    have h1 : firstOcc (res ++ [h] ++ rest.reverse) =
        firstOcc (init.reverse ++ res.flatMap (walkChildren deref direct)) := by
      rw [← hE]
      congr 1
      simp
    rw [firstOcc_append_congr _ h1, List.flatMap_append, List.flatMap_singleton, hch,
      List.append_assoc]

/-- Order of the walk that takes from the back, started on the seeds: the result
lists each entry at its first discovery, the seeds first from the last yielded to
the first, and the distance from the seeds never decreases along the list. -/
theorem walkLoop_back_order (deref : Nat → Option CTransactionBase)
    (direct : CTransactionBase → List Nat) (init : List Nat)
    (hA : ∀ h b, deref h = some b → b.GetHash = h) (fuel : Nat) (out : List Nat)
    (h : walkLoop deref direct true fuel init [] = Outcome.done out) :
    out.Nodup ∧ out = firstOcc (init.reverse ++ out.flatMap (walkChildren deref direct)) ∧
      firstOcc init.reverse <+: out ∧
      out.Pairwise (fun u v =>
        ∀ n, WalkWithin deref direct init n v → WalkWithin deref direct init n u) := by
  have key := walkLoop_back_invariant deref direct
    (fun tv res => WalkInv deref direct init tv res ∧ WalkLevels deref direct init tv res ∧
      firstOcc (res ++ tv.reverse) =
        firstOcc (init.reverse ++ res.flatMap (walkChildren deref direct)))
    (by
      intro rest k res cur hc hI
      rw [hA k cur hc]
      refine ⟨hI.1.step_inv ?_ hc, hI.2.1.step_levels hI.1 hc, discovery_step hc hI.2.2⟩
      intro x
      simp only [List.mem_append, List.mem_singleton]
      exact Or.comm)
    fuel init [] out h
    ⟨WalkInv.start_inv deref direct init, WalkLevels.start_levels deref direct init, by simp⟩
  obtain ⟨hinv, hlev, hE⟩ := key
  have hfix : out = firstOcc (init.reverse ++ out.flatMap (walkChildren deref direct)) := by
    rw [← hE]
    simp only [List.reverse_nil, List.append_nil]
    exact (firstOcc_of_nodup hinv.nodup).symm
  refine ⟨hinv.nodup, hfix, ?_, ?_⟩
  · rw [hfix, firstOcc_append]
    exact List.prefix_append _ _
  · have := hlev.sorted
    simpa using this

namespace CTxMemPool

theorem walkWithin_from_iff (pool : CTxMemPool) (x : CTransactionBase) (n a : Nat) :
    WalkWithin pool.deref (mempoolDirectDependenciesFrom pool)
      (mempoolDirectDependenciesFrom pool x) n a ↔ AncestorWithin pool x n a := by
  constructor
  · intro h
    induction h with
    | seed hd => exact AncestorWithin.direct ((mem_mempoolDirectDependenciesFrom _ _ _).mp hd)
    | step _ hb hd ih =>
      exact AncestorWithin.step ih hb ((mem_mempoolDirectDependenciesFrom _ _ _).mp hd)
  · intro h
    induction h with
    | direct hd => exact WalkWithin.seed ((mem_mempoolDirectDependenciesFrom _ _ _).mpr hd)
    | step _ hb hd ih =>
      exact WalkWithin.step ih hb ((mem_mempoolDirectDependenciesFrom _ _ _).mpr hd)

/-- C28, counterexample: `txR` spends `txP` and then `txQ`, so its direct ancestors
are yielded as 91, 92; the ancestor walk takes them from the back of the deque
and returns 92, 91. -/
theorem mempoolDependenciesFrom_counterexample :
    WellFormed Scenario.poolPQR ∧
      mempoolDirectDependenciesFrom Scenario.poolPQR (CTransactionBase.tx Scenario.txR) =
        [91, 92] ∧
      mempoolDependenciesFrom Scenario.poolPQR (CTransactionBase.tx Scenario.txR) =
        Outcome.done [92, 91] := by
  decide

/-- C28 (amended): on a well-formed pool `mempoolDependenciesFrom(x)` returns the
ancestor closure in breadth-first discovery order: the direct ancestors of `x`
come first, in the reverse of the order in which
`mempoolDirectDependenciesFrom(x)` last yields them; the whole list is the list
of first discoveries, where the direct ancestors of `x` are discovered first and
each listed entry then yields its own direct ancestors in turn; and the distance
from `x` does not decrease along the list. -/
theorem mempoolDependenciesFrom_order (pool : CTxMemPool) (x : CTransactionBase)
    (hw : WellFormed pool) :
    ∃ out, mempoolDependenciesFrom pool x = Outcome.done out ∧ out.Nodup ∧
      (∀ a, a ∈ out ↔ IsAncestor pool x a) ∧
      firstOcc (mempoolDirectDependenciesFrom pool x).reverse <+: out ∧
      out = firstOcc ((mempoolDirectDependenciesFrom pool x).reverse ++
        out.flatMap (directFromHash pool)) ∧
      out.Pairwise (fun u v => ∀ n, AncestorWithin pool x n v → AncestorWithin pool x n u) := by
  obtain ⟨out, hout, hiff⟩ := mempoolDependenciesFrom_total pool x hw
  refine ⟨out, hout, ?_⟩
  unfold mempoolDependenciesFrom at hout
  simp only [dependenciesFromLoop_eq] at hout
  obtain ⟨hn, hfix, hpre, hsort⟩ := walkLoop_back_order pool.deref
    (mempoolDirectDependenciesFrom pool) (mempoolDirectDependenciesFrom pool x)
    (fun h b hb => hw.deref_hash hb) _ out hout
  refine ⟨hn, hiff, hpre, hfix, hsort.imp ?_⟩
  intro u v huv n hn
  exact (walkWithin_from_iff pool x n u).mp (huv n ((walkWithin_from_iff pool x n v).mpr hn))

/-- Witness for C28: the ancestors of `txR` in the pool holding `txP`, `txQ` and
`txR`. -/
theorem mempoolDependenciesFrom_order_witness :
    ∃ out, mempoolDependenciesFrom Scenario.poolPQR (CTransactionBase.tx Scenario.txR) =
        Outcome.done out ∧ out.Nodup ∧
      (∀ a, a ∈ out ↔ IsAncestor Scenario.poolPQR (CTransactionBase.tx Scenario.txR) a) ∧
      firstOcc (mempoolDirectDependenciesFrom Scenario.poolPQR
        (CTransactionBase.tx Scenario.txR)).reverse <+: out ∧
      out = firstOcc ((mempoolDirectDependenciesFrom Scenario.poolPQR
          (CTransactionBase.tx Scenario.txR)).reverse ++
        out.flatMap (directFromHash Scenario.poolPQR)) ∧
      out.Pairwise (fun u v =>
        ∀ n, AncestorWithin Scenario.poolPQR (CTransactionBase.tx Scenario.txR) n v →
          AncestorWithin Scenario.poolPQR (CTransactionBase.tx Scenario.txR) n u) :=
  mempoolDependenciesFrom_order Scenario.poolPQR (CTransactionBase.tx Scenario.txR) (by decide)

end CTxMemPool

/-! ## The order of the descendant walk -/

namespace CTxMemPool

end CTxMemPool

namespace CoinsSelection

/-! ## Lemmas: totals of candidates -/

theorem sumAmount_cons (c : Candidate) (l : List Candidate) :
    sumAmount (c :: l) = c.amount + sumAmount l := by
  simp [sumAmount]

theorem sumSize_cons (c : Candidate) (l : List Candidate) :
    sumSize (c :: l) = c.size + sumSize l := by
  simp [sumSize]

theorem sumAmount_append (a b : List Candidate) :
    sumAmount (a ++ b) = sumAmount a + sumAmount b := by
  simp [sumAmount]

theorem sumSize_append (a b : List Candidate) : sumSize (a ++ b) = sumSize a + sumSize b := by
  simp [sumSize]

theorem sumAmount_nonneg {l : List Candidate} (h : ∀ c ∈ l, 0 ≤ c.amount) : 0 ≤ sumAmount l := by
  induction l with
  | nil => simp [sumAmount]
  | cons c rest ih =>
    rw [sumAmount_cons]
    have h1 := h c (List.mem_cons_self _ _)
    have h2 := ih (fun d hd => h d (List.mem_cons_of_mem _ hd))
    omega

theorem sumAmount_sublist_le {s l : List Candidate} (h : s.Sublist l)
    (hnn : ∀ c ∈ l, 0 ≤ c.amount) : sumAmount s ≤ sumAmount l := by
  induction h with
  | slnil => exact le_refl _
  | cons c _ ih =>
    rw [sumAmount_cons]
    have h1 := hnn c (List.mem_cons_self _ _)
    have h2 := ih (fun d hd => hnn d (List.mem_cons_of_mem _ hd))
    omega
  | cons₂ c _ ih =>
    rw [sumAmount_cons, sumAmount_cons]
    have h2 := ih (fun d hd => hnn d (List.mem_cons_of_mem _ hd))
    omega

theorem sumAmount_perm {a b : List Candidate} (h : a.Perm b) : sumAmount a = sumAmount b := by
  unfold sumAmount
  exact (h.map _).sum_eq

theorem sumSize_perm {a b : List Candidate} (h : a.Perm b) : sumSize a = sumSize b := by
  unfold sumSize
  exact (h.map _).sum_eq

theorem selected_sublist (arr : List Candidate) (m : List Bool) :
    (selected arr m).Sublist arr := by
  induction arr generalizing m with
  | nil => cases m <;> simp [selected]
  | cons c rest ih =>
    cases m with
    | nil => simp [selected]
    | cons b bs =>
      cases b
      · simpa [selected] using (ih bs).cons c
      · simpa [selected] using (ih bs).cons₂ c

/-- Every sublist of the array is selected by a bitmask of the length of the
array. -/
theorem exists_mask {s arr : List Candidate} (h : s.Sublist arr) :
    ∃ m : List Bool, m.length = arr.length ∧ selected arr m = s := by
  induction h with
  | slnil => exact ⟨[], rfl, rfl⟩
  | cons c _ ih =>
    obtain ⟨m, hm, hs⟩ := ih
    exact ⟨false :: m, by simp [hm], by simp [selected, hs]⟩
  | cons₂ c _ ih =>
    obtain ⟨m, hm, hs⟩ := ih
    exact ⟨true :: m, by simp [hm], by simp [selected, hs]⟩

theorem selected_replicate_false (arr : List Candidate) (n : Nat) :
    selected arr (List.replicate n false) = [] := by
  induction arr generalizing n with
  | nil => cases n <;> simp [selected, List.replicate]
  | cons c rest ih =>
    cases n with
    | zero => simp [selected]
    | succ n => simpa [selected, List.replicate] using ih n

theorem ofMask_reset (arr : List Candidate) (n : Nat) :
    Solution.ofMask arr (List.replicate n false) = Solution.reset n := by
  unfold Solution.ofMask Solution.reset
  rw [selected_replicate_false]
  rfl

/-! ## Lemmas: the descending order -/

theorem insertDescending_perm (c : Candidate) (l : List Candidate) :
    (insertDescending c l).Perm (c :: l) := by
  induction l with
  | nil => exact List.Perm.refl _
  | cons d rest ih =>
    unfold insertDescending
    split
    · exact List.Perm.refl _
    · exact (ih.cons d).trans (List.Perm.swap c d rest)

theorem prepareAmounts_perm (l : List Candidate) : (PrepareAmounts l).Perm l := by
  unfold PrepareAmounts
  induction l with
  | nil => exact List.Perm.refl _
  | cons c rest ih =>
    rw [List.foldr_cons]
    exact (insertDescending_perm c _).trans (ih.cons c)

/-- An admissible subset of the candidates is selected, up to the order of its
members, by a bitmask over the sorted array. -/
theorem admissible_mask {cands s : List Candidate} {tgt ceil : Int} {sc : Nat}
    (hs : s.Sublist cands) (ha : Admissible tgt ceil sc s) :
    ∃ t, t.Sublist (PrepareAmounts cands) ∧ t.length = s.length ∧
      sumAmount t = sumAmount s ∧ Admissible tgt ceil sc t := by
  have hsub : List.Subperm s (PrepareAmounts cands) :=
    hs.subperm.trans (prepareAmounts_perm cands).symm.subperm
  obtain ⟨t, htp, hts⟩ := hsub
  refine ⟨t, hts, htp.length_eq, sumAmount_perm htp, ?_⟩
  unfold Admissible at ha ⊢
  rw [sumAmount_perm htp, sumSize_perm htp]
  exact ha

/-! ## Branch and bound: the recursion is exact -/

theorem improves_trans {c2 c1 : Nat} {a2 a1 : Int} {s1 : List Bool} {z1 : Nat} {best : Solution}
    (h2 : improves c2 a2 ⟨s1, a1, z1, c1⟩ = true) (h1 : improves c1 a1 best = true) :
    improves c2 a2 best = true := by
  unfold improves at *
  simp only [decide_eq_true_eq] at *
  omega

theorem not_improves_of {c c1 : Nat} {a a1 : Int} {s1 : List Bool} {z1 : Nat} {b1 : Solution}
    (h : improves c a b1 = false) (h1 : improves c1 a1 b1 = true) :
    improves c a ⟨s1, a1, z1, c1⟩ = false := by
  unfold improves at *
  simp only [decide_eq_true_eq, decide_eq_false_iff_not] at *
  omega

/-- A pruned node has no admissible completion that improves on the incumbent. -/
theorem pruned_sound {tgt ceil : Int} {sc : Nat} {rest s : List Candidate} {tS : Nat} {tA : Int}
    {tC : Nat} {best : Solution} (hp : pruned tgt ceil sc rest tS tA tC best = true)
    (hnn : ∀ c ∈ rest, 0 ≤ c.amount) (hs : s.Sublist rest) (h1 : tgt ≤ tA + sumAmount s)
    (h2 : tA + sumAmount s ≤ ceil) (h3 : tS + sumSize s ≤ sc) :
    improves (tC + s.length) (tA + sumAmount s) best = false := by
  have hle := sumAmount_sublist_le hs hnn
  have hs0 := sumAmount_nonneg (fun c hc => hnn c (hs.subset hc))
  have hlen := hs.length_le
  unfold pruned at hp
  simp only [Bool.or_eq_true, decide_eq_true_eq] at hp
  unfold improves
  simp only [decide_eq_false_iff_not]
  rcases hp with (hp | hp) | hp
  · omega
  · omega
  · rcases hp with hp | ⟨hp1, hp2⟩
    · omega
    · intro hi
      rcases hi with hi | ⟨hi1, hi2⟩
      · omega
      · have hl : s.length = rest.length := by omega
        have := hs.eq_of_length hl
        rw [this] at hi2
        omega

/-- The recursion returns the incumbent or an admissible completion of the node
that improves on it, and no admissible completion of the node improves on what
it returns. -/
theorem solveRecursive_spec (tgt ceil : Int) (sc : Nat) :
    ∀ (rest : List Candidate) (sel : List Bool) (tS : Nat) (tA : Int) (tC : Nat)
      (best : Solution), (∀ c ∈ rest, 0 ≤ c.amount) →
      (SolveRecursive tgt ceil sc rest sel tS tA tC best = best ∨
        ∃ m : List Bool, m.length = rest.length ∧
          SolveRecursive tgt ceil sc rest sel tS tA tC best =
            ⟨sel ++ m, tA + sumAmount (selected rest m), tS + sumSize (selected rest m),
              tC + (selected rest m).length⟩ ∧
          tgt ≤ tA + sumAmount (selected rest m) ∧ tA + sumAmount (selected rest m) ≤ ceil ∧
          tS + sumSize (selected rest m) ≤ sc ∧
          improves (tC + (selected rest m).length) (tA + sumAmount (selected rest m)) best =
            true) ∧
      (∀ s : List Candidate, s.Sublist rest → tgt ≤ tA + sumAmount s → tA + sumAmount s ≤ ceil →
        tS + sumSize s ≤ sc →
        improves (tC + s.length) (tA + sumAmount s)
          (SolveRecursive tgt ceil sc rest sel tS tA tC best) = false) := by
  intro rest
  induction rest with
  | nil =>
    intro sel tS tA tC best hnn
    by_cases hp : pruned tgt ceil sc [] tS tA tC best = true
    · have hr : SolveRecursive tgt ceil sc [] sel tS tA tC best = best := by
        simp only [SolveRecursive, hp, if_true]
      rw [hr]
      exact ⟨Or.inl rfl, fun s hs h1 h2 h3 => pruned_sound hp hnn hs h1 h2 h3⟩
    · by_cases hacc : tgt ≤ tA ∧ tA ≤ ceil ∧ tS ≤ sc ∧ improves tC tA best = true
      · have hr : SolveRecursive tgt ceil sc [] sel tS tA tC best = ⟨sel, tA, tS, tC⟩ := by
          simp only [SolveRecursive, hp, if_false, hacc, and_self, if_true]
          rfl
        rw [hr]
        constructor
        · refine Or.inr ⟨[], rfl, ?_, ?_, ?_, ?_, ?_⟩
          · simp [selected, sumAmount, sumSize]
          · simpa [selected, sumAmount] using hacc.1
          · simpa [selected, sumAmount] using hacc.2.1
          · simpa [selected, sumSize] using hacc.2.2.1
          · simpa [selected, sumAmount] using hacc.2.2.2
        · intro s hs _ _ _
          rw [List.sublist_nil.mp hs]
          unfold improves
          simp [sumAmount]
      · have hr : SolveRecursive tgt ceil sc [] sel tS tA tC best = best := by
          simp only [SolveRecursive, hp, if_false, hacc]
          rfl
        rw [hr]
        refine ⟨Or.inl rfl, ?_⟩
        intro s hs h1 h2 h3
        rw [List.sublist_nil.mp hs] at h1 h2 h3 ⊢
        simp only [sumAmount, sumSize, List.map_nil, List.sum_nil, add_zero, List.length_nil]
          at h1 h2 h3 ⊢
        by_contra hi
        exact hacc ⟨h1, h2, h3, by simpa using hi⟩
  | cons c rest ih =>
    intro sel tS tA tC best hnn
    have hnn2 : ∀ d ∈ rest, 0 ≤ d.amount := fun d hd => hnn d (List.mem_cons_of_mem _ hd)
    by_cases hp : pruned tgt ceil sc (c :: rest) tS tA tC best = true
    · have hr : SolveRecursive tgt ceil sc (c :: rest) sel tS tA tC best = best := by
        simp only [SolveRecursive, hp, if_true]
      rw [hr]
      exact ⟨Or.inl rfl, fun s hs h1 h2 h3 => pruned_sound hp hnn hs h1 h2 h3⟩
    · have hr : SolveRecursive tgt ceil sc (c :: rest) sel tS tA tC best =
          SolveRecursive tgt ceil sc rest (sel ++ [false]) tS tA tC
            (SolveRecursive tgt ceil sc rest (sel ++ [true]) (tS + c.size) (tA + c.amount)
              (tC + 1) best) := by
        simp only [SolveRecursive, hp]
        rfl
      rw [hr]
      obtain ⟨ha1, hc1⟩ := ih (sel ++ [true]) (tS + c.size) (tA + c.amount) (tC + 1) best hnn2
      generalize SolveRecursive tgt ceil sc rest (sel ++ [true]) (tS + c.size) (tA + c.amount)
        (tC + 1) best = b1 at ha1 hc1 ⊢
      obtain ⟨ha2, hc2⟩ := ih (sel ++ [false]) tS tA tC b1 hnn2
      generalize SolveRecursive tgt ceil sc rest (sel ++ [false]) tS tA tC b1 = r at ha2 hc2 ⊢
      constructor
      · rcases ha2 with ha2 | ⟨m2, hm2, hr2, h21, h22, h23, h24⟩
        · rw [ha2]
          rcases ha1 with ha1 | ⟨m1, hm1, hr1, h11, h12, h13, h14⟩
          · exact Or.inl ha1
          · refine Or.inr ⟨true :: m1, by simp [hm1], ?_, ?_, ?_, ?_, ?_⟩
            · rw [hr1]
              simp only [selected, if_true, sumAmount_cons, sumSize_cons, List.length_cons,
                List.append_assoc, List.singleton_append, Solution.mk.injEq, true_and]
              omega
            · simp only [selected, if_true, sumAmount_cons]
              omega
            · simp only [selected, if_true, sumAmount_cons]
              omega
            · simp only [selected, if_true, sumSize_cons]
              omega
            · simp only [selected, if_true, sumAmount_cons, List.length_cons]
              have e1 : tC + ((selected rest m1).length + 1) = tC + 1 + (selected rest m1).length := by
                omega
              have e2 : tA + (c.amount + sumAmount (selected rest m1)) =
                  tA + c.amount + sumAmount (selected rest m1) := by omega
              rw [e1, e2]
              exact h14
        · refine Or.inr ⟨false :: m2, by simp [hm2], ?_, ?_, ?_, ?_, ?_⟩
          · rw [hr2]
            simp [selected]
          · simpa [selected] using h21
          · simpa [selected] using h22
          · simpa [selected] using h23
          · simp only [selected, Bool.false_eq_true, if_false]
            rcases ha1 with ha1 | ⟨m1, hm1, hr1, h11, h12, h13, h14⟩
            · rw [← ha1]
              exact h24
            · rw [hr1] at h24
              exact improves_trans h24 h14
      · intro s hs h1 h2 h3
        rcases List.sublist_cons_iff.mp hs with hs2 | ⟨s2, hs2, hs3⟩
        · exact hc2 s hs2 h1 h2 h3
        · subst hs2
          rw [sumAmount_cons] at h1 h2 ⊢
          rw [sumSize_cons] at h3
          rw [List.length_cons]
          have hb1 := hc1 s2 hs3 (by omega) (by omega) (by omega)
          have e1 : tC + (s2.length + 1) = tC + 1 + s2.length := by omega
          have e2 : tA + (c.amount + sumAmount s2) = tA + c.amount + sumAmount s2 := by omega
          rw [e1, e2]
          rcases ha2 with ha2 | ⟨m2, hm2, hr2, h21, h22, h23, h24⟩
          · rw [ha2]
            exact hb1
          · rw [hr2]
            exact not_improves_of hb1 h24

/-- Branch and bound is exact: the reported bitmask has the length of the array
and the reported totals and count are those of the candidates it selects; the
solution is the one without a selection or an admissible one; and no admissible
subset of the candidates improves on it. -/
theorem branchAndBound_exact (cands : List Candidate) (tgt ceil : Int) (sc : Nat)
    (hnn : ∀ c ∈ cands, 0 ≤ c.amount) :
    (CCoinsSelectionBranchAndBound.Solve cands tgt ceil sc).optimalSelection.length =
        (PrepareAmounts cands).length ∧
      CCoinsSelectionBranchAndBound.Solve cands tgt ceil sc =
        Solution.ofMask (PrepareAmounts cands)
          (CCoinsSelectionBranchAndBound.Solve cands tgt ceil sc).optimalSelection ∧
      (CCoinsSelectionBranchAndBound.Solve cands tgt ceil sc =
          Solution.reset (PrepareAmounts cands).length ∨
        Admissible tgt ceil sc (selected (PrepareAmounts cands)
          (CCoinsSelectionBranchAndBound.Solve cands tgt ceil sc).optimalSelection)) ∧
      (∀ s : List Candidate, s.Sublist cands → Admissible tgt ceil sc s →
        improves s.length (sumAmount s)
          (CCoinsSelectionBranchAndBound.Solve cands tgt ceil sc) = false) := by
  have hnn2 : ∀ c ∈ PrepareAmounts cands, 0 ≤ c.amount :=
    fun c hc => hnn c ((prepareAmounts_perm cands).mem_iff.mp hc)
  obtain ⟨ha, hc⟩ := solveRecursive_spec tgt ceil sc (PrepareAmounts cands) [] 0 0 0
    (Solution.reset (PrepareAmounts cands).length) hnn2
  have hsolve : CCoinsSelectionBranchAndBound.Solve cands tgt ceil sc =
      SolveRecursive tgt ceil sc (PrepareAmounts cands) [] 0 0 0
        (Solution.reset (PrepareAmounts cands).length) := rfl
  rw [hsolve]
  generalize SolveRecursive tgt ceil sc (PrepareAmounts cands) [] 0 0 0
    (Solution.reset (PrepareAmounts cands).length) = r at ha hc ⊢
  refine ⟨?_, ?_, ?_, ?_⟩
  · rcases ha with ha | ⟨m, hm, hr, _⟩
    · rw [ha]
      simp [Solution.reset]
    · rw [hr]
      simpa using hm
  · rcases ha with ha | ⟨m, hm, hr, _⟩
    · rw [ha]
      exact (ofMask_reset _ _).symm
    · rw [hr]
      simp [Solution.ofMask]
  · rcases ha with ha | ⟨m, hm, hr, h1, h2, h3, _⟩
    · exact Or.inl ha
    · right
      rw [hr]
      simp only [List.nil_append]
      unfold Admissible
      simp only [zero_add] at h1 h2 h3
      exact ⟨h1, h2, h3⟩
  · intro s hs hadm
    obtain ⟨t, ht, hlen, hsum, hat⟩ := admissible_mask hs hadm
    have := hc t ht (by simpa using hat.1) (by simpa using hat.2.1) (by simpa using hat.2.2)
    simpa [hlen, hsum] using this

end CoinsSelection

namespace CoinsSelection

/-! ## The sliding window -/

theorem sumSize_sublist_le {s l : List Candidate} (h : s.Sublist l) : sumSize s ≤ sumSize l := by
  induction h with
  | slnil => exact le_refl _
  | cons c _ ih =>
    rw [sumSize_cons]
    omega
  | cons₂ c _ ih =>
    rw [sumSize_cons, sumSize_cons]
    omega

theorem sumAmount_concat (l : List Candidate) (c : Candidate) :
    sumAmount (l ++ [c]) = sumAmount l + c.amount := by
  simp [sumAmount]

theorem sumSize_concat (l : List Candidate) (c : Candidate) :
    sumSize (l ++ [c]) = sumSize l + c.size := by
  simp [sumSize]

theorem selected_append (a b : List Candidate) (m1 m2 : List Bool) (h : m1.length = a.length) :
    selected (a ++ b) (m1 ++ m2) = selected a m1 ++ selected b m2 := by
  induction a generalizing m1 with
  | nil =>
    cases m1 with
    | nil => simp [selected]
    | cons x xs => simp at h
  | cons c rest ih =>
    cases m1 with
    | nil => simp at h
    | cons x xs =>
      have hl : xs.length = rest.length := by simpa using h
      cases x <;> simp [selected, ih xs hl]

theorem selected_replicate_true (w : List Candidate) :
    selected w (List.replicate w.length true) = w := by
  induction w with
  | nil => rfl
  | cons c rest ih => simp [selected, List.replicate, ih]

/-- The bitmask recorded for the window selects the window. -/
theorem selected_window (L w R : List Candidate) :
    selected (L ++ w ++ R)
      (List.replicate L.length false ++ List.replicate w.length true ++
        List.replicate R.length false) = w := by
  rw [List.append_assoc, List.append_assoc, selected_append _ _ _ _ (by simp),
    selected_append _ _ _ _ (by simp), selected_replicate_false, selected_replicate_true,
    selected_replicate_false]
  simp

/-- Step 2 of the sliding window rule returns the longest run at the end of the
window that respects both ceilings. -/
theorem shrink_spec (ceil : Int) (sc : Nat) (h0 : 0 ≤ ceil) :
    ∀ (v : List Candidate) (lo : Nat),
      ∃ drop w, v = drop ++ w ∧
        shrink ceil sc v lo (sumAmount v) (sumSize v) =
          Outcome.done ⟨lo + drop.length, w, sumAmount w, sumSize w⟩ ∧
        sumAmount w ≤ ceil ∧ sumSize w ≤ sc ∧
        ∀ w2, w2 <:+ v → sumAmount w2 ≤ ceil → sumSize w2 ≤ sc → w2 <:+ w := by
  intro v
  induction v with
  | nil =>
    intro lo
    refine ⟨[], [], rfl, ?_, by simpa [sumAmount] using h0, by simp [sumSize], ?_⟩
    · rw [shrink]
      have : ¬ (ceil < sumAmount [] ∨ sc < sumSize []) := by
        simp only [sumAmount, sumSize, List.map_nil, List.sum_nil]
        omega
      rw [if_neg this]
      rfl
    · intro w2 hw2 _ _
      exact hw2
  | cons c rest ih =>
    intro lo
    by_cases hv : ceil < sumAmount (c :: rest) ∨ sc < sumSize (c :: rest)
    · obtain ⟨drop, w, hsplit, hrun, h1, h2, h3⟩ := ih (lo + 1)
      refine ⟨c :: drop, w, by rw [hsplit]; rfl, ?_, h1, h2, ?_⟩
      · rw [shrink, if_pos hv]
        have e1 : sumAmount (c :: rest) - c.amount = sumAmount rest := by
          rw [sumAmount_cons]
          omega
        have e2 : sumSize (c :: rest) - c.size = sumSize rest := by
          rw [sumSize_cons]
          omega
        simp only [e1, e2, hrun, List.length_cons]
        congr 2
        omega
      · intro w2 hw2 ha hs
        rcases List.suffix_cons_iff.mp hw2 with hw2 | hw2
        · rw [hw2] at ha hs
          omega
        · exact h3 w2 hw2 ha hs
    · refine ⟨[], c :: rest, rfl, ?_, by omega, by omega, fun w2 hw2 _ _ => hw2⟩
      rw [shrink, if_neg hv]
      rfl

/-- One iteration of the sliding window rule keeps the invariant of the loop. -/
theorem SlideInv.step_slide {arr P R : List Candidate} {tgt ceil : Int} {sc : Nat}
    {st : Window × Solution} {c : Candidate} (hinv : SlideInv arr tgt ceil sc P st)
    (harr : P ++ c :: R = arr) (hnn : ∀ d ∈ arr, 0 ≤ d.amount) (h0 : 0 ≤ ceil) :
    ∃ st1, slide tgt ceil sc arr.length st c = Outcome.done st1 ∧
      SlideInv arr tgt ceil sc (P ++ [c]) st1 := by
  obtain ⟨L, hP, hL⟩ := hinv.split
  obtain ⟨drop, w, hsplit, hrun, hca, hcs, hlong⟩ := shrink_spec ceil sc h0 (st.1.items ++ [c])
    st.1.lo
  have hPc : P ++ [c] = (L ++ drop) ++ w := by
    rw [hP, List.append_assoc, hsplit, List.append_assoc]
  have harr2 : arr = (L ++ drop) ++ w ++ R := by
    rw [← harr, ← hPc]
    simp
  have hcnn : 0 ≤ c.amount := hnn c (by rw [← harr]; simp)
  have hwnn : ∀ d ∈ w, 0 ≤ d.amount := by
    intro d hd
    apply hnn
    rw [harr2]
    simp [hd]
  have hslide : slide tgt ceil sc arr.length st c = Outcome.done
      (⟨st.1.lo + drop.length, w, sumAmount w, sumSize w⟩,
        if tgt ≤ sumAmount w ∧ improves w.length (sumAmount w) st.2 = true then
          ⟨List.replicate (st.1.lo + drop.length) false ++ List.replicate w.length true ++
            List.replicate (arr.length - (st.1.lo + drop.length) - w.length) false,
            sumAmount w, sumSize w, w.length⟩
        else st.2) := by
    unfold slide
    rw [hinv.amount, hinv.size, ← sumAmount_concat, ← sumSize_concat, hrun]
    rfl
  have hlen : arr.length - (st.1.lo + drop.length) - w.length = R.length := by
    rw [harr2]
    simp only [List.length_append]
    omega
  have hlo : st.1.lo + drop.length = (L ++ drop).length := by
    rw [List.length_append, hL]
  have hsound : tgt ≤ sumAmount w → Solution.Sound arr tgt ceil sc
      ⟨List.replicate (st.1.lo + drop.length) false ++ List.replicate w.length true ++
        List.replicate (arr.length - (st.1.lo + drop.length) - w.length) false,
        sumAmount w, sumSize w, w.length⟩ := by
    intro ht
    have hsel : selected arr (List.replicate (st.1.lo + drop.length) false ++
        List.replicate w.length true ++
        List.replicate (arr.length - (st.1.lo + drop.length) - w.length) false) = w := by
      rw [hlen, hlo]
      conv_lhs => rw [harr2]
      exact selected_window _ _ _
    refine ⟨?_, ?_, ht, hca, hcs⟩
    · simp only [List.length_append, List.length_replicate]
      rw [hlen, hlo, harr2]
      simp only [List.length_append]
    · unfold Solution.ofMask
      simp only [hsel]
  refine ⟨_, hslide, ?_⟩
  have hlong2 : ∀ w2, w2 <:+ P ++ [c] → sumAmount w2 ≤ ceil → sumSize w2 ≤ sc → w2 <:+ w := by
    intro w2 hw2 ha hs
    rcases List.suffix_concat_iff.mp hw2 with hw2 | ⟨t, ht, hts⟩
    · rw [hw2]
      exact List.nil_suffix
    · apply hlong w2 ?_ ha hs
      rw [ht] at ha hs ⊢
      rw [sumAmount_append, sumAmount_cons] at ha
      rw [sumSize_append, sumSize_cons] at hs
      have h1 : sumAmount ([] : List Candidate) = 0 := rfl
      have h2 : sumSize ([] : List Candidate) = 0 := rfl
      have hsuf := hinv.longest t hts (by omega) (by omega)
      obtain ⟨u, hu⟩ := hsuf
      exact ⟨u, by rw [← hu, List.append_assoc]⟩
  refine ⟨⟨L ++ drop, hPc, hlo.symm⟩, rfl, rfl, hlong2, ?_, ?_⟩
  · show (if tgt ≤ sumAmount w ∧ improves w.length (sumAmount w) st.2 = true then _ else st.2) = _ ∨
      Solution.Sound arr tgt ceil sc
        (if tgt ≤ sumAmount w ∧ improves w.length (sumAmount w) st.2 = true then _ else st.2)
    split
    · rename_i hc
      exact Or.inr (hsound hc.1)
    · exact hinv.best
  · rintro ⟨a, u, b, hrun2, hadm⟩
    show Solution.Sound arr tgt ceil sc
      (if tgt ≤ sumAmount w ∧ improves w.length (sumAmount w) st.2 = true then _ else st.2)
    cases b using List.reverseRecOn with
    | nil =>
      rw [List.append_nil] at hrun2
      have hu : u <:+ P ++ [c] := ⟨a, hrun2.symm⟩
      have huw := hlong2 u hu hadm.2.1 hadm.2.2
      have hge : sumAmount u ≤ sumAmount w := by
        obtain ⟨t, ht⟩ := huw
        rw [← ht, sumAmount_append]
        have hnt : 0 ≤ sumAmount t :=
          sumAmount_nonneg (fun d (hd : d ∈ t) => hwnn d (by rw [← ht]; simp [hd]))
        omega
      have htw : tgt ≤ sumAmount w := le_trans hadm.1 hge
      split
      · exact hsound htw
      · rename_i hc
        rcases hinv.best with hb | hb
        · have hni : improves w.length (sumAmount w) st.2 = false := by
            cases hi : improves w.length (sumAmount w) st.2
            · rfl
            · exact absurd ⟨htw, hi⟩ hc
          rw [hb] at hni ⊢
          unfold improves Solution.reset at hni
          simp only [decide_eq_false_iff_not, not_or, not_lt, Nat.le_zero_eq] at hni
          have hw0 : w = [] := List.length_eq_zero.mp hni.1
          rw [hw0] at htw
          have htgt : tgt ≤ 0 := by simpa [sumAmount] using htw
          refine ⟨by simp [Solution.reset], (ofMask_reset _ _).symm, ?_, ?_, ?_⟩
          · exact htgt
          · exact h0
          · exact Nat.zero_le _
        · exact hb
    | append_singleton b1 x _ =>
      have h1 : (a ++ u ++ b1) ++ [x] = P ++ [c] := by
        rw [hrun2]
        simp
      have h2 := (List.append_inj' h1 rfl).1
      have hs := hinv.found ⟨a, u, b1, h2.symm, hadm⟩
      split
      · rename_i hc
        exact hsound hc.1
      · exact hs

/-- The sliding window solver completes with a sound solution whenever some run
of consecutive candidates of the sorted array is admissible. -/
theorem slidingWindow_sound (cands : List Candidate) (tgt ceil : Int) (sc : Nat)
    (hnn : ∀ c ∈ cands, 0 ≤ c.amount) (hrun : HasAdmissibleRun cands tgt ceil sc) :
    ∃ r, CCoinsSelectionSlidingWindow.Solve cands tgt ceil sc = Outcome.done r ∧
      r.Sound (PrepareAmounts cands) tgt ceil sc := by
  have hnn2 : ∀ c ∈ PrepareAmounts cands, 0 ≤ c.amount :=
    fun c hc => hnn c ((prepareAmounts_perm cands).mem_iff.mp hc)
  obtain ⟨pre, u, post, hsplit, hadm⟩ := hrun
  have h0 : 0 ≤ ceil := by
    have hnu : 0 ≤ sumAmount u :=
      sumAmount_nonneg (fun d (hd : d ∈ u) => hnn2 d (by rw [hsplit]; simp [hd]))
    exact le_trans hnu hadm.2.1
  have hfold : ∀ (R P : List Candidate) (st : Window × Solution),
      P ++ R = PrepareAmounts cands → SlideInv (PrepareAmounts cands) tgt ceil sc P st →
      ∃ st1, Outcome.foldl (slide tgt ceil sc (PrepareAmounts cands).length) st R =
          Outcome.done st1 ∧
        SlideInv (PrepareAmounts cands) tgt ceil sc (PrepareAmounts cands) st1 := by
    intro R
    induction R with
    | nil =>
      intro P st hP hinv
      rw [List.append_nil] at hP
      rw [hP] at hinv
      exact ⟨st, rfl, hinv⟩
    | cons c R ih =>
      intro P st hP hinv
      obtain ⟨st1, hst1, hinv1⟩ := hinv.step_slide hP hnn2 h0
      obtain ⟨st2, hst2, hinv2⟩ := ih (P ++ [c]) st1 (by rw [← hP]; simp) hinv1
      refine ⟨st2, ?_, hinv2⟩
      simp only [Outcome.foldl, hst1, Outcome.bind]
      exact hst2
  have hinit : SlideInv (PrepareAmounts cands) tgt ceil sc []
      (⟨0, [], 0, 0⟩, Solution.reset (PrepareAmounts cands).length) := by
    refine ⟨⟨[], rfl, rfl⟩, rfl, rfl, ?_, Or.inl rfl, ?_⟩
    · intro w2 hw2 _ _
      exact hw2
    · rintro ⟨a, v, b, hv, hva⟩
      have hv0 : v = [] := by
        have := congrArg List.length hv
        simp only [List.length_nil, List.length_append] at this
        exact List.length_eq_zero.mp (by omega)
      rw [hv0] at hva
      refine ⟨by simp [Solution.reset], (ofMask_reset _ _).symm, ?_, h0, Nat.zero_le _⟩
      simpa [sumAmount] using hva.1
  obtain ⟨st1, hst1, hinv1⟩ := hfold (PrepareAmounts cands) [] _ (List.nil_append _) hinit
  refine ⟨st1.2, ?_, hinv1.found ⟨pre, u, post, hsplit, hadm⟩⟩
  unfold CCoinsSelectionSlidingWindow.Solve
  simp only [hst1, Outcome.bind]

end CoinsSelection

namespace CoinsSelection

/-! ## Selection soundness -/

theorem admissibleSubset_of_mem {cands : List Candidate} {tgt ceil : Int} {sc : Nat}
    {c : Candidate} (hc : c ∈ cands) (ha : Admissible tgt ceil sc [c]) :
    HasAdmissibleSubset cands tgt ceil sc :=
  ⟨[c], List.singleton_sublist.mpr hc, ha⟩

theorem admissibleRun_of_mem {cands : List Candidate} {tgt ceil : Int} {sc : Nat}
    {c : Candidate} (hc : c ∈ cands) (ha : Admissible tgt ceil sc [c]) :
    HasAdmissibleRun cands tgt ceil sc := by
  obtain ⟨s, t, hst⟩ := List.append_of_mem ((prepareAmounts_perm cands).mem_iff.mpr hc)
  exact ⟨s, [c], t, by rw [hst]; simp, ha⟩

/-- C30, counterexample.  First part: the candidates 10, 5 and 1 with target
amount 11 and amount ceiling 11 have the admissible subset of 10 and 1, but no
run of consecutive candidates sums to 11; the sliding window solver completes
with the solution without a selection, whose total amount 0 is below the target.
Second part: with the amounts 5 and -3, target amount 2 and amount ceiling 2 the
two candidates together are admissible, and the branch and bound solver reports
the solution without a selection. -/
theorem selection_counterexample :
    (HasAdmissibleSubset Scenario.candidatesGap 11 11 3 ∧
      (∀ c ∈ Scenario.candidatesGap, 0 ≤ c.amount) ∧
      CCoinsSelectionSlidingWindow.Solve Scenario.candidatesGap 11 11 3 =
        Outcome.done (Solution.reset 3) ∧
      (Solution.reset 3).optimalTotalAmount < 11) ∧
    (HasAdmissibleSubset Scenario.candidatesOwing 2 2 2 ∧
      CCoinsSelectionBranchAndBound.Solve Scenario.candidatesOwing 2 2 2 = Solution.reset 2 ∧
      (Solution.reset 2).optimalTotalAmount < 2) :=
  ⟨⟨⟨[⟨10, 1⟩, ⟨1, 1⟩], by decide, by decide⟩, by decide, by decide, by decide⟩,
    ⟨⟨[⟨5, 1⟩, ⟨-3, 1⟩], by decide, by decide⟩, by decide, by decide⟩⟩

/-- C30 (amended): for candidates with non-negative amounts, the branch and
bound solver reports a sound selection whenever an admissible subset exists, and
the sliding window solver completes with a sound selection whenever an admissible
run of consecutive candidates of the descending amount order exists: the total
amount lies between the target amount and the amount ceiling, the total size is
within the size ceiling, and the reported totals and count are those of the
candidates the bitmask selects. -/
theorem selection_sound (cands : List Candidate) (tgt ceil : Int) (sc : Nat)
    (hnn : ∀ c ∈ cands, 0 ≤ c.amount) :
    (HasAdmissibleSubset cands tgt ceil sc →
      (CCoinsSelectionBranchAndBound.Solve cands tgt ceil sc).Sound (PrepareAmounts cands)
        tgt ceil sc) ∧
    (HasAdmissibleRun cands tgt ceil sc →
      ∃ r, CCoinsSelectionSlidingWindow.Solve cands tgt ceil sc = Outcome.done r ∧
        r.Sound (PrepareAmounts cands) tgt ceil sc) := by
  refine ⟨?_, slidingWindow_sound cands tgt ceil sc hnn⟩
  rintro ⟨s, hs, hadm⟩
  obtain ⟨hlen, hmask, hor, hbest⟩ := branchAndBound_exact cands tgt ceil sc hnn
  generalize CCoinsSelectionBranchAndBound.Solve cands tgt ceil sc = r at hlen hmask hor hbest
  rcases hor with hr | ha
  · have hni := hbest s hs hadm
    rw [hr] at hni ⊢
    unfold improves Solution.reset at hni
    simp only [decide_eq_false_iff_not, not_or, not_lt, Nat.le_zero_eq] at hni
    have hs0 : s = [] := List.length_eq_zero.mp hni.1
    rw [hs0] at hadm
    have h1 : tgt ≤ 0 := by simpa [sumAmount] using hadm.1
    have h2 : (0 : Int) ≤ ceil := by simpa [sumAmount] using hadm.2.1
    exact ⟨by simp [Solution.reset], (ofMask_reset _ _).symm, h1, h2, Nat.zero_le _⟩
  · have e1 : r.optimalTotalAmount = sumAmount (selected (PrepareAmounts cands)
        r.optimalSelection) := by
      conv_lhs => rw [hmask]
      rfl
    have e2 : r.optimalTotalSize = sumSize (selected (PrepareAmounts cands)
        r.optimalSelection) := by
      conv_lhs => rw [hmask]
      rfl
    refine ⟨hlen, hmask, ?_, ?_, ?_⟩
    · rw [e1]
      exact ha.1
    · rw [e1]
      exact ha.2.1
    · rw [e2]
      exact ha.2.2

/-- Witness for C30: the candidates built by `AppInit` in `bitcoind.cpp` with
target amount 50, amount ceiling 60 and size ceiling 14700; the first candidate
alone is admissible. -/
theorem selection_sound_witness :
    (CCoinsSelectionBranchAndBound.Solve Scenario.amountsAndSizes 50 60 14700).Sound
        (PrepareAmounts Scenario.amountsAndSizes) 50 60 14700 ∧
      ∃ r, CCoinsSelectionSlidingWindow.Solve Scenario.amountsAndSizes 50 60 14700 =
          Outcome.done r ∧
        r.Sound (PrepareAmounts Scenario.amountsAndSizes) 50 60 14700 :=
  ⟨(selection_sound Scenario.amountsAndSizes 50 60 14700 (by decide)).1
      (@admissibleSubset_of_mem Scenario.amountsAndSizes 50 60 14700 ⟨55, 148⟩ (by decide)
        (by decide)),
    (selection_sound Scenario.amountsAndSizes 50 60 14700 (by decide)).2
      (@admissibleRun_of_mem Scenario.amountsAndSizes 50 60 14700 ⟨55, 148⟩ (by decide)
        (by decide))⟩

end CoinsSelection

namespace CTxMemPool

/-! ## Removal of an absent entry -/

/-- Claim C38.  Non-recursive removal of an entry whose hash is in neither
`mapTx` nor `mapCertificate` completes and returns the state it was given: every
table, total and counter of the pool and both output lists are unchanged. -/
theorem remove_absent (st : Removal) (x : CTransactionBase)
    (htx : mapFind st.pool.mapTx x.GetHash = none)
    (hcert : mapFind st.pool.mapCertificate x.GetHash = none) :
    remove st x false = Outcome.done st := by
  have hobj : objToRemove st.pool x false = Outcome.done [x.GetHash] := by
    simp [objToRemove, Outcome.bind]
  have hone : removeOne st x.GetHash = Outcome.done st := by
    unfold removeOne
    rw [htx, hcert]
  unfold remove
  rw [hobj, Outcome.bind_done, Outcome.foldl_cons, hone, Outcome.bind_done, Outcome.foldl_nil]

theorem remove_absent_witness :
    mapFind Scenario.poolS4.mapTx (CTransactionBase.tx Scenario.txRival).GetHash = none ∧
    mapFind Scenario.poolS4.mapCertificate (CTransactionBase.tx Scenario.txRival).GetHash = none ∧
    mapFind Scenario.poolS4.mapNextTx ⟨2, 0⟩ = some ⟨3, 0⟩ ∧
    remove ⟨Scenario.poolS4, [], []⟩ (CTransactionBase.tx Scenario.txRival) false =
      Outcome.done ⟨Scenario.poolS4, [], []⟩ :=
  ⟨by decide, by decide, by decide,
    remove_absent ⟨Scenario.poolS4, [], []⟩ (CTransactionBase.tx Scenario.txRival)
      (by decide) (by decide)⟩

/-! ## Characterisation of the admission pre-check -/

/-- Claim C34.  `checkIncomingTxConflicts` returns true exactly when the hash of
the transaction is not in `mapTx`, no input prevout is a key of `mapNextTx`, no
input prevout hash is the hash of a certificate in `mapCertificate`, no sidechain
it creates has a creation transaction in the pool, no joinsplit nullifier is in
`mapNullifiers`, and no CSW nullifier is held by the pool for its sidechain. -/
theorem checkIncomingTxConflicts_iff (pool : CTxMemPool) (tx : CTransaction) :
    checkIncomingTxConflicts pool tx = true ↔
      mapFind pool.mapTx tx.hash = none ∧
      (∀ vin ∈ tx.vin, mapFind pool.mapNextTx vin.prevout = none) ∧
      (∀ vin ∈ tx.vin, mapFind pool.mapCertificate vin.prevout.hash = none) ∧
      (∀ sc ∈ tx.vsc_ccout, pool.hasSidechainCreationTx sc.scId = false) ∧
      (∀ joinsplit ∈ tx.vjoinsplit, ∀ nf ∈ joinsplit.nullifiers,
        mapFind pool.mapNullifiers nf = none) ∧
      (∀ csw ∈ tx.vcsw_ccin, pool.HaveCswNullifier csw.scId csw.nullifier = false) := by
  unfold checkIncomingTxConflicts
  simp only [mapCount]
  constructor
  · intro h
    split at h
    · cases h
    rename_i h1
    split at h
    · cases h
    rename_i h2
    split at h
    · cases h
    rename_i h3
    split at h
    · cases h
    rename_i h4
    split at h
    · cases h
    rename_i h5
    simp only [List.any_eq_true, not_exists, not_and, Bool.or_eq_true, not_or,
      Bool.not_eq_true, Option.not_isSome, Option.isNone_iff_eq_none] at h1 h2 h3 h4 h5
    exact ⟨h1, fun v hv => (h2 v hv).1, fun v hv => (h2 v hv).2, h3, h4, h5⟩
  · rintro ⟨h1, h2, h3, h4, h5, h6⟩
    have e2 : (tx.vin.any fun vin => (mapFind pool.mapNextTx vin.prevout).isSome ||
        (mapFind pool.mapCertificate vin.prevout.hash).isSome) = false := by
      rw [List.any_eq_false]
      intro v hv
      simp [h2 v hv, h3 v hv]
    have e3 : (tx.vsc_ccout.any fun sc => pool.hasSidechainCreationTx sc.scId) = false := by
      rw [List.any_eq_false]
      intro v hv
      simp [h4 v hv]
    have e4 : (tx.vjoinsplit.any fun joinsplit =>
        joinsplit.nullifiers.any fun nf => (mapFind pool.mapNullifiers nf).isSome) = false := by
      rw [List.any_eq_false]
      intro v hv
      simp only [Bool.not_eq_true]
      rw [List.any_eq_false]
      intro nf hnf
      simp [h5 v hv nf hnf]
    have e5 : (tx.vcsw_ccin.any fun csw => pool.HaveCswNullifier csw.scId csw.nullifier) =
        false := by
      rw [List.any_eq_false]
      intro v hv
      simp [h6 v hv]
    simp [h1, e2, e3, e4, e5]

end CTxMemPool

namespace CTxMemPool

/-! ## Lookup of a certificate by quality -/

theorem findCertLoop_found (pool : CTxMemPool) (q : Int) (l : List (Int × Nat))
    (hb : ∀ kv ∈ l, ∃ e, mapFind pool.mapCertificate kv.2 = some e ∧ e.cert.quality = kv.1 ∧
      e.cert.hash = kv.2)
    {h : Nat} {e : CCertificateMemPoolEntry} (hf : mapFind l q = some h)
    (he : mapFind pool.mapCertificate h = some e) :
    findCertLoop pool q l = Outcome.done (h, e.nFee) := by
  induction l with
  | nil => simp [mapFind] at hf
  | cons kv rest ih =>
    obtain ⟨e1, he1, hq1, hh1⟩ := hb kv (List.mem_cons_self _ _)
    rw [findCertLoop]
    simp only [he1, CCertificateMemPoolEntry.GetCertificate, CCertificateMemPoolEntry.GetFee]
    by_cases hk : kv.1 = q
    · have hv : kv.2 = h := by
        simp only [mapFind, hk, if_true, Option.some.injEq] at hf
        exact hf
      rw [hv, he] at he1
      cases he1
      rw [if_pos (hq1.trans hk), hh1, hv]
    · rw [if_neg (fun hc => hk (hq1.symm.trans hc))]
      apply ih (fun kv1 h1 => hb kv1 (List.mem_cons_of_mem _ h1))
      simpa only [mapFind, hk, if_false] using hf

theorem findCertLoop_missing (pool : CTxMemPool) (q : Int) (l : List (Int × Nat))
    (hb : ∀ kv ∈ l, ∃ e, mapFind pool.mapCertificate kv.2 = some e ∧ e.cert.quality = kv.1)
    (hf : mapFind l q = none) :
    findCertLoop pool q l = Outcome.done (0, -1) := by
  induction l with
  | nil => rfl
  | cons kv rest ih =>
    obtain ⟨e1, he1, hq1⟩ := hb kv (List.mem_cons_self _ _)
    rw [findCertLoop]
    simp only [he1, CCertificateMemPoolEntry.GetCertificate]
    have hk : kv.1 ≠ q := by
      intro hk
      simp [mapFind, hk] at hf
    rw [if_neg (fun hc => hk (hq1.symm.trans hc))]
    apply ih (fun kv1 h1 => hb kv1 (List.mem_cons_of_mem _ h1))
    simpa only [mapFind, hk, if_false] using hf

/-- Claim C40.  On a well-formed pool `FindCertWithQuality(s, q)` returns the
hash and the fee of the pool certificate for sidechain `s` with quality `q` when
there is one, which is then the only one, and the pair (null hash, -1) when the
pool has no row for `s` or no certificate of that quality for `s`. -/
theorem findCertWithQuality_exact (pool : CTxMemPool) (hw : WellFormed pool) (s : Nat) (q : Int) :
    (∀ h e, mapFind pool.mapCertificate h = some e → e.cert.scId = s → e.cert.quality = q →
      FindCertWithQuality pool s q = Outcome.done (e.cert.hash, e.GetFee) ∧
      ∀ h2 e2, mapFind pool.mapCertificate h2 = some e2 → e2.cert.scId = s →
        e2.cert.quality = q → h2 = h ∧ e2 = e) ∧
    ((mapFind pool.mapSidechains s = none ∨
        ∀ h e, mapFind pool.mapCertificate h = some e → e.cert.scId = s → e.cert.quality ≠ q) →
      FindCertWithQuality pool s q = Outcome.done (0, -1)) := by
  constructor
  · intro h e he hs hq
    obtain ⟨r, hr, hrow⟩ := hw.row_of_cert he
    rw [hs] at hr
    rw [hq] at hrow
    constructor
    · unfold FindCertWithQuality
      simp only [hr]
      rw [hw.cert_hash he]
      apply findCertLoop_found pool q _ _ hrow he
      intro kv hkv
      obtain ⟨e1, h1, _, h3⟩ := hw.cert_backed hr hkv
      exact ⟨e1, h1, h3, hw.cert_hash h1⟩
    · intro h2 e2 he2 hs2 hq2
      obtain ⟨r2, hr2, hrow2⟩ := hw.row_of_cert he2
      rw [hs2, hr] at hr2
      cases hr2
      rw [hq2, hrow] at hrow2
      cases hrow2
      rw [he] at he2
      cases he2
      exact ⟨rfl, rfl⟩
  · intro hno
    unfold FindCertWithQuality
    cases hr : mapFind pool.mapSidechains s with
    | none => rfl
    | some r =>
      simp only
      have hnone : ∀ h e, mapFind pool.mapCertificate h = some e → e.cert.scId = s →
          e.cert.quality ≠ q := by
        rcases hno with hno | hno
        · rw [hr] at hno
          cases hno
        · exact hno
      apply findCertLoop_missing
      · intro kv hkv
        obtain ⟨e1, h1, _, h3⟩ := hw.cert_backed hr hkv
        exact ⟨e1, h1, h3⟩
      · cases hf : mapFind r.mBackwardCertificates q with
        | none => rfl
        | some h =>
          obtain ⟨e1, h1, h2, h3⟩ := hw.cert_backed hr (mem_of_mapFind hf)
          exact absurd h3 (hnone _ e1 h1 h2)

theorem findCertWithQuality_exact_witness :
    WellFormed Scenario.poolS3 ∧
    FindCertWithQuality Scenario.poolS3 200 20 = Outcome.done (12, 0) ∧
    FindCertWithQuality Scenario.poolS3 200 15 = Outcome.done (0, -1) ∧
    FindCertWithQuality Scenario.poolS3 300 20 = Outcome.done (0, -1) ∧
    ((∀ h e, mapFind Scenario.poolS3.mapCertificate h = some e → e.cert.scId = 200 →
        e.cert.quality = 20 →
      FindCertWithQuality Scenario.poolS3 200 20 = Outcome.done (e.cert.hash, e.GetFee) ∧
      ∀ h2 e2, mapFind Scenario.poolS3.mapCertificate h2 = some e2 → e2.cert.scId = 200 →
        e2.cert.quality = 20 → h2 = h ∧ e2 = e) ∧
    ((mapFind Scenario.poolS3.mapSidechains 200 = none ∨
        ∀ h e, mapFind Scenario.poolS3.mapCertificate h = some e → e.cert.scId = 200 →
          e.cert.quality ≠ 20) →
      FindCertWithQuality Scenario.poolS3 200 20 = Outcome.done (0, -1))) :=
  ⟨by decide, by decide, by decide, by decide,
    findCertWithQuality_exact Scenario.poolS3 (by decide) 200 20⟩

/-! ## The scan of `pruneSpent` -/

theorem pruneSpentLoop_fold {C : Type} (Spend : C → Nat → C) (hashTx : Nat)
    (l : List (COutPoint × CInPoint)) (coins : C) :
    pruneSpentLoop Spend hashTx l coins =
      ((l.takeWhile (fun kv => decide (kv.1.hash = hashTx))).map (fun kv => kv.1.n)).foldl
        Spend coins := by
  induction l generalizing coins with
  | nil => rfl
  | cons kv rest ih =>
    rw [pruneSpentLoop]
    by_cases hk : kv.1.hash = hashTx
    · rw [if_pos hk, ih]
      simp [List.takeWhile, hk]
    · rw [if_neg hk]
      simp [List.takeWhile, hk]

theorem foldl_log (l acc : List Nat) :
    l.foldl (fun (log : List Nat) n => log ++ [n]) acc = acc ++ l := by
  induction l generalizing acc with
  | nil => simp
  | cons a rest ih => simp [ih]

theorem pruneSpentCalls_eq (pool : CTxMemPool) (hashTx : Nat) :
    pruneSpentCalls pool hashTx =
      (((lower_bound pool.mapNextTx (⟨hashTx, 0⟩ : COutPoint)).takeWhile
        (fun kv => decide (kv.1.hash = hashTx))).map (fun kv => kv.1.n)) := by
  unfold pruneSpentCalls pruneSpent
  rw [pruneSpentLoop_fold, foldl_log]
  rfl

theorem lt_outPoint_zero (a : COutPoint) (h : Nat) :
    KeyOrd.lt a (⟨h, 0⟩ : COutPoint) = decide (a.hash < h) := by
  simp [KeyOrd.lt]

theorem lt_outPoint_iff (a b : COutPoint) :
    KeyOrd.lt a b = true ↔ a.hash < b.hash ∨ (a.hash = b.hash ∧ a.n < b.n) := by
  simp [KeyOrd.lt]

/-- On an ordered table whose keys all have hash at least `h`, the entries with
hash `h` form the initial run. -/
theorem takeWhile_run (h : Nat) (l : List (COutPoint × CInPoint)) (hs : KeySorted l)
    (hge : ∀ kv ∈ l, h ≤ kv.1.hash) :
    ((l.takeWhile (fun kv => decide (kv.1.hash = h))).map (fun kv => kv.1.n)).Pairwise
        (fun a b => a < b) ∧
    ∀ n, n ∈ (l.takeWhile (fun kv => decide (kv.1.hash = h))).map (fun kv => kv.1.n) ↔
      (⟨h, n⟩ : COutPoint) ∈ l.map Prod.fst := by
  induction l with
  | nil => simp
  | cons kv rest ih =>
    have hs1 := List.pairwise_cons.mp hs
    obtain ⟨ih1, ih2⟩ := ih hs1.2 (fun kv1 h1 => hge kv1 (List.mem_cons_of_mem _ h1))
    by_cases hk : kv.1.hash = h
    · have htw : (kv :: rest).takeWhile (fun kv => decide (kv.1.hash = h)) =
          kv :: rest.takeWhile (fun kv => decide (kv.1.hash = h)) := by
        simp [List.takeWhile, hk]
      rw [htw]
      constructor
      · simp only [List.map_cons, List.pairwise_cons]
        refine ⟨?_, ih1⟩
        intro b hb
        obtain ⟨kv1, hkv1, rfl⟩ := List.mem_map.mp hb
        have hmem : kv1 ∈ rest := (List.takeWhile_sublist _).subset hkv1
        have hh : kv1.1.hash = h := by
          have := List.mem_takeWhile_imp hkv1
          simpa using this
        have hlt := (lt_outPoint_iff _ _).mp (hs1.1 kv1 hmem)
        omega
      · intro n
        simp only [List.map_cons, List.mem_cons, ih2 n]
        constructor
        · rintro (h1 | h1)
          · left
            obtain ⟨⟨kh, kn⟩, ip⟩ := kv
            simp only at hk h1 ⊢
            rw [hk, h1]
          · right; exact h1
        · rintro (h1 | h1)
          · left
            rw [← h1]
          · right; exact h1
    · have htw : (kv :: rest).takeWhile (fun kv => decide (kv.1.hash = h)) = [] := by
        simp [List.takeWhile, hk]
      rw [htw]
      refine ⟨by simp, ?_⟩
      intro n
      simp only [List.map_nil, List.not_mem_nil, false_iff]
      intro hmem
      have hgt : h < kv.1.hash := lt_of_le_of_ne (hge kv (List.mem_cons_self _ _)) (Ne.symm hk)
      rcases List.mem_cons.mp hmem with h1 | h1
      · rw [← h1] at hk
        exact hk rfl
      · obtain ⟨kv1, hkv1, hfst⟩ := List.mem_map.mp h1
        have hlt := (lt_outPoint_iff _ _).mp (hs1.1 kv1 hkv1)
        rw [hfst] at hlt
        simp only at hlt
        omega

/-- On an ordered table, `lower_bound` of outpoint `(h, 0)` is an ordered rest of
the table that holds every key of hash `h` and no key of smaller hash. -/
theorem lower_bound_outPoint (h : Nat) (l : List (COutPoint × CInPoint)) (hs : KeySorted l) :
    KeySorted (lower_bound l (⟨h, 0⟩ : COutPoint)) ∧
    (∀ kv ∈ lower_bound l (⟨h, 0⟩ : COutPoint), h ≤ kv.1.hash) ∧
    ∀ n, (⟨h, n⟩ : COutPoint) ∈ (lower_bound l (⟨h, 0⟩ : COutPoint)).map Prod.fst ↔
      (⟨h, n⟩ : COutPoint) ∈ l.map Prod.fst := by
  induction l with
  | nil => simp [lower_bound, KeySorted]
  | cons kv rest ih =>
    have hs1 := List.pairwise_cons.mp hs
    obtain ⟨ih1, ih2, ih3⟩ := ih hs1.2
    by_cases hk : kv.1.hash < h
    · have hlb : lower_bound (kv :: rest) (⟨h, 0⟩ : COutPoint) =
          lower_bound rest (⟨h, 0⟩ : COutPoint) := by
        simp [lower_bound, List.dropWhile, lt_outPoint_zero, hk]
      rw [hlb]
      refine ⟨ih1, ih2, ?_⟩
      intro n
      rw [ih3 n]
      simp only [List.map_cons, List.mem_cons]
      constructor
      · intro h1; right; exact h1
      · rintro (h1 | h1)
        · rw [← h1] at hk
          simp at hk
        · exact h1
    · have hlb : lower_bound (kv :: rest) (⟨h, 0⟩ : COutPoint) = kv :: rest := by
        simp [lower_bound, List.dropWhile, lt_outPoint_zero, hk]
      rw [hlb]
      refine ⟨hs, ?_, fun n => Iff.rfl⟩
      intro kv1 h1
      rcases List.mem_cons.mp h1 with h2 | h2
      · rw [h2]; omega
      · have hlt := (lt_outPoint_iff _ _).mp (hs1.1 kv1 h2)
        omega

/-- Claim C39.  With `mapNextTx` ordered by (hash, index), `pruneSpent(h, coins)`
applies `coins.Spend` to the sequence `pruneSpentCalls` of output indices, which
is strictly increasing (so each index occurs once) and holds exactly the indices
`n` for which `(h, n)` is a key of `mapNextTx`. -/
theorem pruneSpent_exact (pool : CTxMemPool) (hs : KeySorted pool.mapNextTx) (hashTx : Nat) :
    (∀ (C : Type) (Spend : C → Nat → C) (coins : C),
      pruneSpent Spend pool hashTx coins = (pruneSpentCalls pool hashTx).foldl Spend coins) ∧
    (pruneSpentCalls pool hashTx).Pairwise (fun a b => a < b) ∧
    ∀ n, n ∈ pruneSpentCalls pool hashTx ↔ mapFind pool.mapNextTx ⟨hashTx, n⟩ ≠ none := by
  obtain ⟨h1, h2, h3⟩ := lower_bound_outPoint hashTx pool.mapNextTx hs
  obtain ⟨h4, h5⟩ := takeWhile_run hashTx _ h1 h2
  refine ⟨?_, ?_, ?_⟩
  · intro C Spend coins
    rw [pruneSpentCalls_eq]
    exact pruneSpentLoop_fold Spend hashTx _ coins
  · rw [pruneSpentCalls_eq]
    exact h4
  · intro n
    rw [pruneSpentCalls_eq, h5 n, h3 n, Ne, mapFind_eq_none_iff, not_not]

theorem pruneSpent_exact_witness :
    KeySorted Scenario.poolSpent.mapNextTx ∧
    pruneSpentCalls Scenario.poolSpent 2 = [0, 3] ∧
    ((∀ (C : Type) (Spend : C → Nat → C) (coins : C),
      pruneSpent Spend Scenario.poolSpent 2 coins =
        (pruneSpentCalls Scenario.poolSpent 2).foldl Spend coins) ∧
    (pruneSpentCalls Scenario.poolSpent 2).Pairwise (fun a b => a < b) ∧
    ∀ n, n ∈ pruneSpentCalls Scenario.poolSpent 2 ↔
      mapFind Scenario.poolSpent.mapNextTx ⟨2, n⟩ ≠ none) :=
  ⟨by decide, by decide, pruneSpent_exact Scenario.poolSpent (by decide) 2⟩

end CTxMemPool

/-! ## Lemmas: termination of the work-list loop -/

theorem walkLoop_cons (deref : Nat → Option CTransactionBase)
    (direct : CTransactionBase → List Nat) (back : Bool) (fuel v : Nat) (vs res : List Nat) :
    ∃ h rest, (v :: vs).Perm (h :: rest) ∧
      ((deref h = none ∧
          walkLoop deref direct back (fuel + 1) (v :: vs) res = Outcome.failed ∧
          walkPushed deref direct back (fuel + 1) (v :: vs) res = []) ∨
        ∃ cur, deref h = some cur ∧
          walkLoop deref direct back (fuel + 1) (v :: vs) res =
            walkLoop deref direct back fuel
              (CTxMemPool.pushNew (if cur.GetHash ∈ res then res else res ++ [cur.GetHash]) rest
                (direct cur))
              (if cur.GetHash ∈ res then res else res ++ [cur.GetHash]) ∧
          walkPushed deref direct back (fuel + 1) (v :: vs) res =
            ((CTxMemPool.pushNew (if cur.GetHash ∈ res then res else res ++ [cur.GetHash]) rest
                (direct cur)).take
              ((CTxMemPool.pushNew (if cur.GetHash ∈ res then res else res ++ [cur.GetHash]) rest
                (direct cur)).length - rest.length)).reverse ++
            walkPushed deref direct back fuel
              (CTxMemPool.pushNew (if cur.GetHash ∈ res then res else res ++ [cur.GetHash]) rest
                (direct cur))
              (if cur.GetHash ∈ res then res else res ++ [cur.GetHash])) := by
  refine ⟨if back then (v :: vs).getLast (List.cons_ne_nil v vs) else v,
    if back then (v :: vs).dropLast else vs, ?_, ?_⟩
  · cases back
    · simp
    · simp only [if_true]
      have h := List.dropLast_append_getLast (List.cons_ne_nil v vs)
      have hp : ((v :: vs).dropLast ++ [(v :: vs).getLast (List.cons_ne_nil v vs)]).Perm
          ((v :: vs).getLast (List.cons_ne_nil v vs) :: (v :: vs).dropLast) :=
        List.perm_append_singleton _ _
      rw [h] at hp
      exact hp
  · cases hd : deref (if back then (v :: vs).getLast (List.cons_ne_nil v vs) else v) with
    | none =>
      left
      refine ⟨rfl, ?_, ?_⟩
      · simp only [walkLoop, hd]
      · simp only [walkPushed, hd]
    | some cur =>
      right
      refine ⟨cur, rfl, ?_, ?_⟩
      · simp only [walkLoop, hd]
      · simp only [walkPushed, hd]

/-- The assertion of the loop holds at every iteration when every hash of the
deque resolves and every neighbour of a resolved entry resolves. -/
theorem walkLoop_not_failed (deref : Nat → Option CTransactionBase)
    (direct : CTransactionBase → List Nat) (back : Bool)
    (hB : ∀ h b, deref h = some b → ∀ d ∈ direct b, deref d ≠ none) :
    ∀ (fuel : Nat) (tv res : List Nat), (∀ d ∈ tv, deref d ≠ none) →
      walkLoop deref direct back fuel tv res ≠ Outcome.failed := by
  intro fuel
  induction fuel with
  | zero =>
    intro tv res _
    cases tv <;> simp [walkLoop]
  | succ fuel ih =>
    intro tv res htv
    cases tv with
    | nil => simp [walkLoop]
    | cons v vs =>
      obtain ⟨h, rest, hp, hcase⟩ := walkLoop_cons deref direct back fuel v vs res
      have hmem : ∀ x, x ∈ h :: rest → x ∈ v :: vs := fun x hx => hp.symm.subset hx
      rcases hcase with ⟨hd, _, _⟩ | ⟨cur, hd, hl, _⟩
      · exact absurd hd (htv h (hmem h (List.mem_cons_self _ _)))
      · rw [hl]
        apply ih
        intro d hdm
        rcases (CTxMemPool.mem_pushNew _ _ _ _).mp hdm with h1 | ⟨h1, _⟩
        · exact htv d (hmem d (List.mem_cons_of_mem _ h1))
        · exact hB h cur hd d h1

/-- A run that does not run out of steps is not changed by a larger budget. -/
theorem walkLoop_fuel_mono (deref : Nat → Option CTransactionBase)
    (direct : CTransactionBase → List Nat) (back : Bool) (k : Nat) :
    ∀ (fuel : Nat) (tv res : List Nat),
      walkLoop deref direct back fuel tv res ≠ Outcome.timeout →
      walkLoop deref direct back (fuel + k) tv res = walkLoop deref direct back fuel tv res := by
  intro fuel
  induction fuel with
  | zero =>
    intro tv res hne
    cases tv with
    | nil => rw [walkLoop_nil, walkLoop_nil]
    | cons v vs => simp [walkLoop] at hne
  | succ fuel ih =>
    intro tv res hne
    cases tv with
    | nil => rw [walkLoop_nil, walkLoop_nil]
    | cons v vs =>
      have e : fuel + 1 + k = (fuel + k) + 1 := by omega
      rw [e]
      simp only [walkLoop] at hne ⊢
      cases hd : deref (if back then (v :: vs).getLast (List.cons_ne_nil v vs) else v) with
      | none => rfl
      | some cur =>
        rw [hd] at hne
        exact ih _ _ hne

theorem walkLoop_fuel_irrelevant (deref : Nat → Option CTransactionBase)
    (direct : CTransactionBase → List Nat) (back : Bool) (f1 f2 : Nat) (tv res : List Nat)
    (h1 : walkLoop deref direct back f1 tv res ≠ Outcome.timeout)
    (h2 : walkLoop deref direct back f2 tv res ≠ Outcome.timeout) :
    walkLoop deref direct back f1 tv res = walkLoop deref direct back f2 tv res := by
  rcases Nat.le_total f1 f2 with h | h
  · obtain ⟨k, rfl⟩ := Nat.exists_eq_add_of_le h
    exact (walkLoop_fuel_mono deref direct back k f1 tv res h1).symm
  · obtain ⟨k, rfl⟩ := Nat.exists_eq_add_of_le h
    exact walkLoop_fuel_mono deref direct back k f2 tv res h2

namespace CTxMemPool

/-- Pushing unseen hashes never increases the count of deque items of `U` plus
the count of hashes of `U` not yet discovered. -/
theorem pushNew_measure_within (U res : List Nat) (deps toVisit : List Nat) :
    ((pushNew res toVisit deps).filter (fun d => decide (d ∈ U))).length +
        undiscovered U (pushNew res toVisit deps) res ≤
      (toVisit.filter (fun d => decide (d ∈ U))).length + undiscovered U toVisit res := by
  unfold pushNew
  induction deps generalizing toVisit with
  | nil => simp
  | cons d rest ih =>
    rw [List.foldl_cons]
    by_cases hd : d ∉ toVisit ∧ d ∉ res
    · rw [if_pos hd]
      refine le_trans (ih (d :: toVisit)) ?_
      by_cases hdU : d ∈ U
      · have hmem : d ∈ U.toFinset \ (toVisit.toFinset ∪ res.toFinset) := by
          simp only [Finset.mem_sdiff, List.mem_toFinset, Finset.mem_union, not_or]
          exact ⟨hdU, hd.1, hd.2⟩
        have heq : U.toFinset \ ((d :: toVisit).toFinset ∪ res.toFinset) =
            (U.toFinset \ (toVisit.toFinset ∪ res.toFinset)).erase d := by
          ext x
          simp only [List.toFinset_cons, Finset.mem_sdiff, List.mem_toFinset, Finset.mem_union,
            Finset.mem_insert, not_or, Finset.mem_erase]
          tauto
        have hcard := Finset.card_erase_of_mem hmem
        have hpos : 0 < (U.toFinset \ (toVisit.toFinset ∪ res.toFinset)).card :=
          Finset.card_pos.mpr ⟨d, hmem⟩
        unfold undiscovered
        rw [heq, hcard, List.filter_cons_of_pos (by simpa using hdU), List.length_cons]
        omega
      · have heq : U.toFinset \ ((d :: toVisit).toFinset ∪ res.toFinset) =
            U.toFinset \ (toVisit.toFinset ∪ res.toFinset) := by
          ext x
          simp only [List.toFinset_cons, Finset.mem_sdiff, List.mem_toFinset, Finset.mem_union,
            Finset.mem_insert, not_or]
          constructor
          · rintro ⟨h1, ⟨_, h2⟩, h3⟩
            exact ⟨h1, h2, h3⟩
          · rintro ⟨h1, h2, h3⟩
            exact ⟨h1, ⟨fun hx => hdU (hx ▸ h1), h2⟩, h3⟩
        unfold undiscovered
        rw [heq, List.filter_cons_of_neg (by simpa using hdU)]
    · rw [if_neg hd]
      exact ih toVisit

end CTxMemPool

/-- The loop ends within as many iterations as the deque holds items of `U`,
plus the hashes of `U` not yet discovered, plus one, when every hash that
resolves is in `U` and resolved entries carry the hash they are stored under. -/
theorem walkLoop_no_timeout (deref : Nat → Option CTransactionBase)
    (direct : CTransactionBase → List Nat) (back : Bool) (U : List Nat)
    (hA : ∀ h b, deref h = some b → b.GetHash = h)
    (hU : ∀ h b, deref h = some b → h ∈ U) :
    ∀ (fuel : Nat) (tv res : List Nat),
      (tv.filter (fun d => decide (d ∈ U))).length + undiscovered U tv res + 1 ≤ fuel →
      walkLoop deref direct back fuel tv res ≠ Outcome.timeout := by
  intro fuel
  induction fuel with
  | zero =>
    intro tv res hf
    omega
  | succ fuel ih =>
    intro tv res hf
    cases tv with
    | nil => simp [walkLoop]
    | cons v vs =>
      obtain ⟨h, rest, hp, hcase⟩ := walkLoop_cons deref direct back fuel v vs res
      rcases hcase with ⟨_, hl, _⟩ | ⟨cur, hd, hl, _⟩
      · rw [hl]; simp
      · rw [hl, hA h cur hd]
        apply ih
        have hhU : h ∈ U := hU h cur hd
        have hlen : ((v :: vs).filter (fun d => decide (d ∈ U))).length =
            (rest.filter (fun d => decide (d ∈ U))).length + 1 := by
          rw [(hp.filter _).length_eq, List.filter_cons_of_pos (by simpa using hhU),
            List.length_cons]
        have hmono : undiscovered U rest (if h ∈ res then res else res ++ [h]) ≤
            undiscovered U (v :: vs) res := by
          apply undiscovered_mono
          intro x hx
          rcases hx with hx | hx
          · rcases List.mem_cons.mp (hp.subset hx) with h1 | h1
            · right
              rw [h1]
              by_cases hc : h ∈ res
              · rw [if_pos hc]; exact hc
              · rw [if_neg hc]; simp
            · left; exact h1
          · right
            by_cases hc : h ∈ res
            · rw [if_pos hc]; exact hx
            · rw [if_neg hc]; exact List.mem_append_left _ hx
        have hpush := CTxMemPool.pushNew_measure_within U (if h ∈ res then res else res ++ [h])
          (direct cur) rest
        omega

/-- The loop ends within twice the hashes of `U` not yet discovered plus the
length of the deque, when every neighbour of a resolved entry is in `U`. -/
theorem walkLoop_budget (deref : Nat → Option CTransactionBase)
    (direct : CTransactionBase → List Nat) (back : Bool) (U : List Nat)
    (hA : ∀ h b, deref h = some b → b.GetHash = h)
    (hU : ∀ h b, deref h = some b → ∀ d ∈ direct b, d ∈ U) :
    ∀ (fuel : Nat) (tv res : List Nat), 2 * undiscovered U tv res + tv.length ≤ fuel →
      walkLoop deref direct back fuel tv res ≠ Outcome.timeout := by
  intro fuel
  induction fuel with
  | zero =>
    intro tv res hf
    cases tv with
    | nil => simp [walkLoop]
    | cons v vs => simp at hf
  | succ fuel ih =>
    intro tv res hf
    cases tv with
    | nil => simp [walkLoop]
    | cons v vs =>
      obtain ⟨h, rest, hp, hcase⟩ := walkLoop_cons deref direct back fuel v vs res
      rcases hcase with ⟨_, hl, _⟩ | ⟨cur, hd, hl, _⟩
      · rw [hl]; simp
      · rw [hl, hA h cur hd]
        apply ih
        have hlen : (v :: vs).length = rest.length + 1 := by
          rw [hp.length_eq, List.length_cons]
        have hmono : undiscovered U rest (if h ∈ res then res else res ++ [h]) ≤
            undiscovered U (v :: vs) res := by
          apply undiscovered_mono
          intro x hx
          rcases hx with hx | hx
          · rcases List.mem_cons.mp (hp.subset hx) with h1 | h1
            · right
              rw [h1]
              by_cases hc : h ∈ res
              · rw [if_pos hc]; exact hc
              · rw [if_neg hc]; simp
            · left; exact h1
          · right
            by_cases hc : h ∈ res
            · rw [if_pos hc]; exact hx
            · rw [if_neg hc]; exact List.mem_append_left _ hx
        have hpush := CTxMemPool.pushNew_measure U (if h ∈ res then res else res ++ [h])
          (direct cur) rest (hU h cur hd)
        omega

/-- Along a run, no hash is pushed that is in the deque or in the result, and no
hash is pushed twice. -/
theorem walkPushed_fresh (deref : Nat → Option CTransactionBase)
    (direct : CTransactionBase → List Nat) (back : Bool)
    (hA : ∀ h b, deref h = some b → b.GetHash = h) :
    ∀ (fuel : Nat) (tv res : List Nat),
      (walkPushed deref direct back fuel tv res).Nodup ∧
      ∀ x ∈ walkPushed deref direct back fuel tv res, x ∉ tv ∧ x ∉ res := by
  intro fuel
  induction fuel with
  | zero =>
    intro tv res
    cases tv <;> simp [walkPushed]
  | succ fuel ih =>
    intro tv res
    cases tv with
    | nil => simp [walkPushed]
    | cons v vs =>
      obtain ⟨h, rest, hp, hcase⟩ := walkLoop_cons deref direct back fuel v vs res
      rcases hcase with ⟨_, _, hl⟩ | ⟨cur, hd, _, hl⟩
      · rw [hl]; simp
      · rw [hl, hA h cur hd]
        generalize hres1 : (if h ∈ res then res else res ++ [h]) = res1
        have hmem1 : ∀ x, x ∈ res1 ↔ x ∈ res ∨ x = h := by
          intro x
          rw [← hres1]
          by_cases hc : h ∈ res
          · rw [if_pos hc]
            constructor
            · exact fun hx => Or.inl hx
            · rintro (hx | hx)
              · exact hx
              · rw [hx]; exact hc
          · rw [if_neg hc]
            simp
        obtain ⟨ih1, ih2⟩ := ih (CTxMemPool.pushNew res1 rest (direct cur)) res1
        have heq := CTxMemPool.pushNew_eq res1 (direct cur) rest
        generalize hnew : firstOcc ((direct cur).filter
          (fun d => decide (d ∉ rest ∧ d ∉ res1))) = new at heq
        have htake : ((CTxMemPool.pushNew res1 rest (direct cur)).take
            ((CTxMemPool.pushNew res1 rest (direct cur)).length - rest.length)).reverse = new := by
          rw [heq]
          have : (new.reverse ++ rest).length - rest.length = new.reverse.length := by
            simp
          rw [this, List.take_left, List.reverse_reverse]
        rw [htake]
        have hnd : new.Nodup := by
          rw [← hnew]
          exact firstOcc_nodup _
        have hnewmem : ∀ x ∈ new, x ∉ rest ∧ x ∉ res1 := by
          intro x hx
          rw [← hnew] at hx
          have := mem_firstOcc.mp hx
          simpa using (List.mem_filter.mp this).2
        have hin : ∀ x, x ∈ v :: vs ↔ x = h ∨ x ∈ rest := by
          intro x
          rw [hp.mem_iff, List.mem_cons]
        refine ⟨?_, ?_⟩
        · rw [List.nodup_append]
          refine ⟨hnd, ih1, ?_⟩
          intro x hx hx2
          have := (ih2 x hx2).1
          rw [heq] at this
          exact this (List.mem_append_left _ (List.mem_reverse.mpr hx))
        · intro x hx
          rcases List.mem_append.mp hx with hx | hx
          · obtain ⟨h1, h2⟩ := hnewmem x hx
            rw [hmem1] at h2
            push_neg at h2
            rw [hin]
            exact ⟨fun hc => hc.elim h2.2 h1, h2.1⟩
          · obtain ⟨h1, h2⟩ := ih2 x hx
            rw [heq] at h1
            rw [hmem1] at h2
            push_neg at h2
            rw [hin]
            exact ⟨fun hc => hc.elim h2.2
              (fun hr => h1 (List.mem_append_right _ hr)), h2.1⟩

namespace CTxMemPool

/-! ## The assertions of the two walks -/

theorem SecondaryConsistent.directOf_backed {pool : CTxMemPool} (hc : SecondaryConsistent pool)
    (b : CTransactionBase) : ∀ d ∈ mempoolDirectDependenciesOf pool b, pool.deref d ≠ none := by
  intro d hd
  rw [mem_mempoolDirectDependenciesOf] at hd
  rcases hd with ⟨i, _, ip, hip, rfl⟩ | ⟨t, _, sc, _, r, hr, h⟩
  · exact mapAll_iff.mp hc.1 _ ip hip
  · have hrow := mapAll_iff.mp hc.2 _ r hr
    rcases h with h | h
    · exact hrow.2.1 d h
    · exact hrow.2.2 d h

theorem SecondaryConsistent.directFrom_backed {pool : CTxMemPool} (hc : SecondaryConsistent pool)
    (b : CTransactionBase) : ∀ a ∈ mempoolDirectDependenciesFrom pool b, pool.deref a ≠ none := by
  intro a ha
  rw [mem_mempoolDirectDependenciesFrom] at ha
  rcases ha with ⟨vin, _, _, h⟩ | ⟨t, _, s, _, r, hr, rfl, h0⟩
  · exact h
  · exact (mapAll_iff.mp hc.2 _ r hr).1 h0

theorem OwnHashes.deref_own {pool : CTxMemPool} (hown : OwnHashes pool) {h : Nat}
    {b : CTransactionBase} (hb : pool.deref h = some b) : b.GetHash = h := by
  rcases deref_cases hb with ⟨e, he, rfl⟩ | ⟨e, _, he, rfl⟩
  · exact mapAll_iff.mp hown.1 h e he
  · exact mapAll_iff.mp hown.2 h e he

theorem deref_mem_keys {pool : CTxMemPool} {h : Nat} {b : CTransactionBase}
    (hb : pool.deref h = some b) :
    h ∈ pool.mapTx.map Prod.fst ++ pool.mapCertificate.map Prod.fst := by
  rcases deref_cases hb with ⟨e, he, _⟩ | ⟨e, _, he, _⟩
  · exact List.mem_append_left _ (List.mem_map.mpr ⟨_, mem_of_mapFind he, rfl⟩)
  · exact List.mem_append_right _ (List.mem_map.mpr ⟨_, mem_of_mapFind he, rfl⟩)

/-- With entries stored under their own hash, the loop started from any seeds
ends within as many iterations as there are seeds and pool entries. -/
theorem walkLoop_within_entries (pool : CTxMemPool) (hown : OwnHashes pool)
    (direct : CTransactionBase → List Nat) (back : Bool) (seeds : List Nat) :
    walkLoop pool.deref direct back
      (seeds.length + (pool.mapTx.length + pool.mapCertificate.length)) seeds [] ≠
        Outcome.timeout := by
  cases hs : seeds with
  | nil => rw [walkLoop_nil]; simp
  | cons s0 ss =>
    rw [← hs]
    apply walkLoop_no_timeout pool.deref direct back
      (pool.mapTx.map Prod.fst ++ pool.mapCertificate.map Prod.fst)
      (fun h b hb => hown.deref_own hb) (fun h b hb => deref_mem_keys hb)
    have hE : (pool.mapTx.map Prod.fst ++ pool.mapCertificate.map Prod.fst).length =
        pool.mapTx.length + pool.mapCertificate.length := by simp
    generalize (pool.mapTx.map Prod.fst ++ pool.mapCertificate.map Prod.fst) = E at hE
    rw [← hE]
    have hund := undiscovered_le E seeds []
    have hfl := List.length_filter_le (fun d => decide (d ∈ E)) seeds
    by_cases hall : ∀ s ∈ seeds, s ∈ E
    · have hs0 : s0 ∈ seeds := by rw [hs]; exact List.mem_cons_self _ _
      have hlt : undiscovered E seeds [] < E.length := by
        unfold undiscovered
        refine lt_of_lt_of_le ?_ (List.toFinset_card_le E)
        apply Finset.card_lt_card
        rw [Finset.ssubset_iff_of_subset Finset.sdiff_subset]
        refine ⟨s0, List.mem_toFinset.mpr (hall s0 hs0), ?_⟩
        simp [hs0]
      omega
    · push_neg at hall
      obtain ⟨s, hs1, hs2⟩ := hall
      have hlt : (seeds.filter (fun d => decide (d ∈ E))).length < seeds.length := by
        rw [List.length_filter_lt_length_iff_exists]
        exact ⟨s, hs1, by simpa using hs2⟩
      omega

theorem mempoolDependenciesOf_no_timeout (pool : CTxMemPool) (hown : OwnHashes pool)
    (x : CTransactionBase) : mempoolDependenciesOf pool x ≠ Outcome.timeout := by
  unfold mempoolDependenciesOf
  simp only
  rw [dependenciesOfLoop_eq]
  apply walkLoop_budget pool.deref (mempoolDirectDependenciesOf pool) false
    (descendantUniverse pool) (fun h b hb => hown.deref_own hb)
    (fun h b _ d hd => directOf_in_universe pool b d hd)
  have := undiscovered_le (descendantUniverse pool) (mempoolDirectDependenciesOf pool x) []
  omega

theorem mempoolDependenciesFrom_no_timeout (pool : CTxMemPool) (hown : OwnHashes pool)
    (x : CTransactionBase) : mempoolDependenciesFrom pool x ≠ Outcome.timeout := by
  unfold mempoolDependenciesFrom
  simp only
  rw [dependenciesFromLoop_eq]
  apply walkLoop_budget pool.deref (mempoolDirectDependenciesFrom pool) true
    (ancestorUniverse pool) (fun h b hb => hown.deref_own hb)
    (fun h b _ d hd => directFrom_in_universe pool b d hd)
  have := undiscovered_le (ancestorUniverse pool) (mempoolDirectDependenciesFrom pool x) []
  omega

theorem outcome_done_of {α : Type} {o : Outcome α} (h1 : o ≠ Outcome.failed)
    (h2 : o ≠ Outcome.timeout) : ∃ a, o = Outcome.done a := by
  cases o with
  | done a => exact ⟨a, rfl⟩
  | failed => exact absurd rfl h1
  | timeout => exact absurd rfl h2

/-- Claim C36.  Under the secondary-table consistency invariant the assertions
`assert(pCurrentNode)` and `assert(pCurrentRoot)` hold at every iteration of the
two walks: whatever the number of iterations run, neither loop stops on a hash
that does not resolve, neither function fails, and when entries are stored under
their own hash both functions return a result. -/
theorem walks_never_assert (pool : CTxMemPool) (hc : SecondaryConsistent pool)
    (x : CTransactionBase) :
    (∀ fuel, dependenciesFromLoop pool fuel (mempoolDirectDependenciesFrom pool x) [] ≠
      Outcome.failed) ∧
    (∀ fuel, dependenciesOfLoop pool fuel (mempoolDirectDependenciesOf pool x) [] ≠
      Outcome.failed) ∧
    mempoolDependenciesFrom pool x ≠ Outcome.failed ∧
    mempoolDependenciesOf pool x ≠ Outcome.failed ∧
    (OwnHashes pool →
      (∃ res, mempoolDependenciesFrom pool x = Outcome.done res) ∧
      ∃ res, mempoolDependenciesOf pool x = Outcome.done res) := by
  have h1 : ∀ fuel, dependenciesFromLoop pool fuel (mempoolDirectDependenciesFrom pool x) [] ≠
      Outcome.failed := by
    intro fuel
    rw [dependenciesFromLoop_eq]
    exact walkLoop_not_failed pool.deref _ true (fun h b _ => hc.directFrom_backed b) fuel _ _
      (hc.directFrom_backed x)
  have h2 : ∀ fuel, dependenciesOfLoop pool fuel (mempoolDirectDependenciesOf pool x) [] ≠
      Outcome.failed := by
    intro fuel
    rw [dependenciesOfLoop_eq]
    exact walkLoop_not_failed pool.deref _ false (fun h b _ => hc.directOf_backed b) fuel _ _
      (hc.directOf_backed x)
  refine ⟨h1, h2, h1 _, h2 _, fun hown => ⟨?_, ?_⟩⟩
  · exact outcome_done_of (h1 _) (mempoolDependenciesFrom_no_timeout pool hown x)
  · exact outcome_done_of (h2 _) (mempoolDependenciesOf_no_timeout pool hown x)

theorem walks_never_assert_witness :
    SecondaryConsistent Scenario.poolCycle ∧
    mempoolDependenciesOf Scenario.poolCycle (CTransactionBase.tx Scenario.txFeed) =
      Outcome.done [42, 43] ∧
    ((∀ fuel, dependenciesFromLoop Scenario.poolCycle fuel
        (mempoolDirectDependenciesFrom Scenario.poolCycle (CTransactionBase.tx Scenario.txFeed))
        [] ≠ Outcome.failed) ∧
    (∀ fuel, dependenciesOfLoop Scenario.poolCycle fuel
        (mempoolDirectDependenciesOf Scenario.poolCycle (CTransactionBase.tx Scenario.txFeed))
        [] ≠ Outcome.failed) ∧
    mempoolDependenciesFrom Scenario.poolCycle (CTransactionBase.tx Scenario.txFeed) ≠
      Outcome.failed ∧
    mempoolDependenciesOf Scenario.poolCycle (CTransactionBase.tx Scenario.txFeed) ≠
      Outcome.failed ∧
    (OwnHashes Scenario.poolCycle →
      (∃ res, mempoolDependenciesFrom Scenario.poolCycle (CTransactionBase.tx Scenario.txFeed) =
        Outcome.done res) ∧
      ∃ res, mempoolDependenciesOf Scenario.poolCycle (CTransactionBase.tx Scenario.txFeed) =
        Outcome.done res)) :=
  ⟨by decide, by decide,
    walks_never_assert Scenario.poolCycle (by decide) (CTransactionBase.tx Scenario.txFeed)⟩

/-! ## Termination of the two walks -/

/-- Claim C35 (amended).  On every pool whose entries are stored under their own
hash, cyclic dependencies included, each walk ends (with a result or on its
assertion) within as many iterations as there are seeds and pool entries, the
function returns what the loop run for that many iterations returns, and along
the run no hash is pushed onto the deque twice after the seeding, nor one that
was a seed. -/
theorem walks_terminate (pool : CTxMemPool) (hown : OwnHashes pool) (x : CTransactionBase) :
    (dependenciesOfLoop pool
        ((mempoolDirectDependenciesOf pool x).length +
          (pool.mapTx.length + pool.mapCertificate.length))
        (mempoolDirectDependenciesOf pool x) [] ≠ Outcome.timeout ∧
      mempoolDependenciesOf pool x =
        dependenciesOfLoop pool
          ((mempoolDirectDependenciesOf pool x).length +
            (pool.mapTx.length + pool.mapCertificate.length))
          (mempoolDirectDependenciesOf pool x) [] ∧
      ∀ fuel,
        (walkPushed pool.deref (mempoolDirectDependenciesOf pool) false fuel
          (mempoolDirectDependenciesOf pool x) []).Nodup ∧
        ∀ h ∈ walkPushed pool.deref (mempoolDirectDependenciesOf pool) false fuel
          (mempoolDirectDependenciesOf pool x) [], h ∉ mempoolDirectDependenciesOf pool x) ∧
    (dependenciesFromLoop pool
        ((mempoolDirectDependenciesFrom pool x).length +
          (pool.mapTx.length + pool.mapCertificate.length))
        (mempoolDirectDependenciesFrom pool x) [] ≠ Outcome.timeout ∧
      mempoolDependenciesFrom pool x =
        dependenciesFromLoop pool
          ((mempoolDirectDependenciesFrom pool x).length +
            (pool.mapTx.length + pool.mapCertificate.length))
          (mempoolDirectDependenciesFrom pool x) [] ∧
      ∀ fuel,
        (walkPushed pool.deref (mempoolDirectDependenciesFrom pool) true fuel
          (mempoolDirectDependenciesFrom pool x) []).Nodup ∧
        ∀ h ∈ walkPushed pool.deref (mempoolDirectDependenciesFrom pool) true fuel
          (mempoolDirectDependenciesFrom pool x) [], h ∉ mempoolDirectDependenciesFrom pool x) := by
  have hA : ∀ h b, pool.deref h = some b → b.GetHash = h := fun h b hb => hown.deref_own hb
  have hof := walkLoop_within_entries pool hown (mempoolDirectDependenciesOf pool) false
    (mempoolDirectDependenciesOf pool x)
  have hfrom := walkLoop_within_entries pool hown (mempoolDirectDependenciesFrom pool) true
    (mempoolDirectDependenciesFrom pool x)
  refine ⟨⟨?_, ?_, ?_⟩, ⟨?_, ?_, ?_⟩⟩
  · rw [dependenciesOfLoop_eq]
    exact hof
  · have h1 := mempoolDependenciesOf_no_timeout pool hown x
    unfold mempoolDependenciesOf at h1 ⊢
    simp only at h1 ⊢
    rw [dependenciesOfLoop_eq] at h1 ⊢
    rw [dependenciesOfLoop_eq]
    exact walkLoop_fuel_irrelevant _ _ _ _ _ _ _ h1 hof
  · intro fuel
    obtain ⟨h1, h2⟩ := walkPushed_fresh pool.deref (mempoolDirectDependenciesOf pool) false hA
      fuel (mempoolDirectDependenciesOf pool x) []
    exact ⟨h1, fun h hh => (h2 h hh).1⟩
  · rw [dependenciesFromLoop_eq]
    exact hfrom
  · have h1 := mempoolDependenciesFrom_no_timeout pool hown x
    unfold mempoolDependenciesFrom at h1 ⊢
    simp only at h1 ⊢
    rw [dependenciesFromLoop_eq] at h1 ⊢
    rw [dependenciesFromLoop_eq]
    exact walkLoop_fuel_irrelevant _ _ _ _ _ _ _ h1 hfrom
  · intro fuel
    obtain ⟨h1, h2⟩ := walkPushed_fresh pool.deref (mempoolDirectDependenciesFrom pool) true hA
      fuel (mempoolDirectDependenciesFrom pool x) []
    exact ⟨h1, fun h hh => (h2 h hh).1⟩

theorem walks_terminate_witness :
    OwnHashes Scenario.poolLoop ∧
    mempoolDirectDependenciesOf Scenario.poolLoop (CTransactionBase.tx Scenario.txLoop) = [41] ∧
    mempoolDependenciesOf Scenario.poolLoop (CTransactionBase.tx Scenario.txLoop) =
      Outcome.done [41] ∧
    mempoolDependenciesFrom Scenario.poolLoop (CTransactionBase.tx Scenario.txLoop) =
      Outcome.done [41] ∧
    dependenciesOfLoop Scenario.poolLoop
      ((mempoolDirectDependenciesOf Scenario.poolLoop
        (CTransactionBase.tx Scenario.txLoop)).length +
        (Scenario.poolLoop.mapTx.length + Scenario.poolLoop.mapCertificate.length))
      (mempoolDirectDependenciesOf Scenario.poolLoop (CTransactionBase.tx Scenario.txLoop)) [] ≠
        Outcome.timeout :=
  ⟨by decide, by decide, by decide, by decide,
    (walks_terminate Scenario.poolLoop (by decide) (CTransactionBase.tx Scenario.txLoop)).1.1⟩

end CTxMemPool

namespace CTxMemPool

/-! ## Size accounting is an invariant -/

theorem sum_mapErase {V : Type} (f : V → Nat) {m : List (Nat × V)} (hs : KeySorted m)
    {k : Nat} {v : V} (h : mapFind m k = some v) :
    (m.map (fun kv => f kv.2)).sum = f v + ((mapErase m k).map (fun kv => f kv.2)).sum := by
  have hp := (mapErase_perm hs h).map (fun kv => f kv.2)
  rw [hp.sum_eq]
  simp

theorem sum_mapInsert {V : Type} (f : V → Nat) {m : List (Nat × V)} {k : Nat} (v : V)
    (h : mapFind m k = none) :
    ((mapInsert m k v).map (fun kv => f kv.2)).sum = f v + (m.map (fun kv => f kv.2)).sum := by
  have hp := (mapInsert_perm v h).map (fun kv => f kv.2)
  rw [hp.sum_eq]
  simp

theorem Accounted.cleared_ok (p : CTxMemPool) : Accounted (clear p) :=
  ⟨List.Pairwise.nil, List.Pairwise.nil, rfl, rfl, rfl⟩

theorem Accounted.removeTxEntry_ok {st st1 : Removal} {hash : Nat} {entry : CTxMemPoolEntry}
    (ha : Accounted st.pool) (he : mapFind st.pool.mapTx hash = some entry)
    (h : removeTxEntry st hash entry = Outcome.done st1) : Accounted st1.pool := by
  unfold removeTxEntry at h
  simp only [Outcome.bind_eq_done, Outcome.done.injEq] at h
  obtain ⟨scs, _, rfl⟩ := h
  have h1 := sum_mapErase CTxMemPoolEntry.GetTxSize ha.sortedTx he
  have h2 := sum_mapErase CTxMemPoolEntry.DynamicMemoryUsage ha.sortedTx he
  have h3 := ha.txSize
  have h4 := ha.usage
  unfold sumTxSize at h3
  unfold sumInnerUsage at h4
  refine ⟨keySorted_mapErase _ _ ha.sortedTx, ha.sortedCert, ?_, ha.certSize, ?_⟩
  · simp only [sumTxSize]
    omega
  · simp only [sumInnerUsage]
    omega

theorem Accounted.removeCertEntry_ok {st st1 : Removal} {hash : Nat}
    {entry : CCertificateMemPoolEntry}
    (ha : Accounted st.pool) (he : mapFind st.pool.mapCertificate hash = some entry)
    (h : removeCertEntry st hash entry = Outcome.done st1) : Accounted st1.pool := by
  unfold removeCertEntry at h
  simp only at h
  split at h
  · cases h
  simp only [Outcome.done.injEq] at h
  subst h
  have h1 := sum_mapErase CCertificateMemPoolEntry.GetCertificateSize ha.sortedCert he
  have h2 := sum_mapErase CCertificateMemPoolEntry.DynamicMemoryUsage ha.sortedCert he
  have h3 := ha.certSize
  have h4 := ha.usage
  unfold sumCertificateSize at h3
  unfold sumInnerUsage at h4
  refine ⟨ha.sortedTx, keySorted_mapErase _ _ ha.sortedCert, ha.txSize, ?_, ?_⟩
  · simp only [sumCertificateSize]
    omega
  · simp only [sumInnerUsage]
    omega

theorem Accounted.removeOne_ok {st st1 : Removal} {hash : Nat} (ha : Accounted st.pool)
    (h : removeOne st hash = Outcome.done st1) : Accounted st1.pool := by
  unfold removeOne at h
  cases ht : mapFind st.pool.mapTx hash with
  | some entry =>
    rw [ht] at h
    exact ha.removeTxEntry_ok ht h
  | none =>
    rw [ht] at h
    cases hc : mapFind st.pool.mapCertificate hash with
    | some entry =>
      rw [hc] at h
      exact ha.removeCertEntry_ok hc h
    | none =>
      rw [hc] at h
      simp only [Outcome.done.injEq] at h
      rw [← h]
      exact ha

theorem Accounted.remove_ok {st st1 : Removal} {x : CTransactionBase} {fRecursive : Bool}
    (ha : Accounted st.pool) (h : remove st x fRecursive = Outcome.done st1) :
    Accounted st1.pool := by
  unfold remove at h
  rw [Outcome.bind_eq_done] at h
  obtain ⟨objs, _, h2⟩ := h
  exact Outcome.foldl_preserves removeOne (fun s => Accounted s.pool) objs
    (fun s hs a _ s1 h1 => hs.removeOne_ok h1) st st1 ha h2

theorem Accounted.addUnchecked_ok {p p1 : CTxMemPool} {hash : Nat} {entry : CTxMemPoolEntry}
    {fCurrentEstimate : Bool} {aux : List (Nat × Nat)} {b : Bool}
    (ha : Accounted p) (hn : mapFind p.mapTx hash = none)
    (h : addUnchecked p hash entry fCurrentEstimate aux = Outcome.done (b, p1)) :
    Accounted p1 := by
  unfold addUnchecked at h
  simp only [Outcome.bind_eq_done, Outcome.done.injEq, Prod.mk.injEq] at h
  obtain ⟨scs, _, _, rfl⟩ := h
  have h1 := sum_mapInsert CTxMemPoolEntry.GetTxSize entry hn
  have h2 := sum_mapInsert CTxMemPoolEntry.DynamicMemoryUsage entry hn
  have h3 := ha.txSize
  have h4 := ha.usage
  unfold sumTxSize at h3
  unfold sumInnerUsage at h4
  refine ⟨keySorted_mapInsert _ _ _ ha.sortedTx, ha.sortedCert, ?_, ha.certSize, ?_⟩
  · simp only [sumTxSize]
    omega
  · simp only [sumInnerUsage]
    omega

theorem Accounted.addUncheckedCert_ok {p p1 : CTxMemPool} {hash : Nat}
    {entry : CCertificateMemPoolEntry} {fCurrentEstimate : Bool} {b : Bool}
    (ha : Accounted p) (hn : mapFind p.mapCertificate hash = none)
    (h : addUncheckedCert p hash entry fCurrentEstimate = Outcome.done (b, p1)) :
    Accounted p1 := by
  unfold addUncheckedCert at h
  simp only at h
  split at h
  · cases h
  simp only [Outcome.done.injEq, Prod.mk.injEq] at h
  obtain ⟨_, rfl⟩ := h
  have h1 := sum_mapInsert CCertificateMemPoolEntry.GetCertificateSize entry hn
  have h2 := sum_mapInsert CCertificateMemPoolEntry.DynamicMemoryUsage entry hn
  have h3 := ha.certSize
  have h4 := ha.usage
  unfold sumCertificateSize at h3
  unfold sumInnerUsage at h4
  refine ⟨ha.sortedTx, keySorted_mapInsert _ _ _ ha.sortedCert, ha.txSize, ?_, ?_⟩
  · simp only [sumCertificateSize]
    omega
  · simp only [sumInnerUsage]
    omega

theorem Built.accounted {pool : CTxMemPool} (hb : Built pool) : Accounted pool := by
  induction hb with
  | cleared p => exact Accounted.cleared_ok p
  | addTx hash entry f aux _ hn _ h ih => exact ih.addUnchecked_ok hn h
  | addCert hash entry f _ _ hn h ih => exact ih.addUncheckedCert_ok hn h
  | removed rt rc x f _ h ih => exact Accounted.remove_ok ih h

/-- Claim C37.  In every pool obtained from a cleared pool by completed
`addUnchecked` calls (of entries whose hash is in neither table) and `remove`
calls, each of the three 64-bit counters holds the sum it accounts for:
`totalTxSize` the sum of `GetTxSize` over `mapTx`, `totalCertificateSize` the sum
of `GetCertificateSize` over `mapCertificate`, `cachedInnerUsage` the sum of
`DynamicMemoryUsage` over both tables.  The counters are unsigned 64-bit, so the
equalities are between 64-bit values, and are equalities of numbers whenever the
sum fits in 64 bits. -/
theorem sizes_accounted (pool : CTxMemPool) (hb : Built pool) :
    pool.totalTxSize = pool.sumTxSize % 2 ^ 64 ∧
    pool.totalCertificateSize = pool.sumCertificateSize % 2 ^ 64 ∧
    pool.cachedInnerUsage = pool.sumInnerUsage % 2 ^ 64 ∧
    (pool.sumTxSize < 2 ^ 64 → pool.totalTxSize = pool.sumTxSize) ∧
    (pool.sumCertificateSize < 2 ^ 64 → pool.totalCertificateSize = pool.sumCertificateSize) ∧
    (pool.sumInnerUsage < 2 ^ 64 → pool.cachedInnerUsage = pool.sumInnerUsage) := by
  have ha := hb.accounted
  refine ⟨ha.txSize, ha.certSize, ha.usage, ?_, ?_, ?_⟩
  · intro h
    rw [ha.txSize, Nat.mod_eq_of_lt h]
  · intro h
    rw [ha.certSize, Nat.mod_eq_of_lt h]
  · intro h
    rw [ha.usage, Nat.mod_eq_of_lt h]

theorem sizes_accounted_witness :
    Built Scenario.poolSized ∧
    Scenario.poolSized.totalTxSize = 250 ∧ Scenario.poolSized.sumTxSize = 250 ∧
    Scenario.poolSized.totalCertificateSize = 1200 ∧
    Scenario.poolSized.cachedInnerUsage = 3900 ∧
    (Scenario.poolSized.totalTxSize = Scenario.poolSized.sumTxSize % 2 ^ 64 ∧
    Scenario.poolSized.totalCertificateSize = Scenario.poolSized.sumCertificateSize % 2 ^ 64 ∧
    Scenario.poolSized.cachedInnerUsage = Scenario.poolSized.sumInnerUsage % 2 ^ 64 ∧
    (Scenario.poolSized.sumTxSize < 2 ^ 64 →
      Scenario.poolSized.totalTxSize = Scenario.poolSized.sumTxSize) ∧
    (Scenario.poolSized.sumCertificateSize < 2 ^ 64 →
      Scenario.poolSized.totalCertificateSize = Scenario.poolSized.sumCertificateSize) ∧
    (Scenario.poolSized.sumInnerUsage < 2 ^ 64 →
      Scenario.poolSized.cachedInnerUsage = Scenario.poolSized.sumInnerUsage)) :=
  have hb : Built Scenario.poolSized :=
    Built.addCert 11 Scenario.entryCertA true
      (Built.addTx 91 Scenario.entryP true [] (Built.cleared {}) rfl rfl rfl) rfl rfl rfl
  ⟨hb, rfl, rfl, rfl, rfl, sizes_accounted Scenario.poolSized hb⟩

end CTxMemPool

namespace CoinsSelection

/-! ## Branch and bound: optimality -/

/-- A selection from the sorted array is matched by a subset of the candidates
as given, with the same count, total amount and total size. -/
theorem sublist_of_sorted {cands t : List Candidate} (ht : t.Sublist (PrepareAmounts cands)) :
    ∃ s, s.Sublist cands ∧ s.length = t.length ∧ sumAmount s = sumAmount t ∧
      sumSize s = sumSize t := by
  have hsub : List.Subperm t cands := ht.subperm.trans (prepareAmounts_perm cands).subperm
  obtain ⟨s, hsp, hss⟩ := hsub
  exact ⟨s, hss, hsp.length_eq, sumAmount_perm hsp, sumSize_perm hsp⟩

theorem prepareAmounts_length (cands : List Candidate) :
    (PrepareAmounts cands).length = cands.length :=
  (prepareAmounts_perm cands).length_eq

/-- Claim C31.  For candidates with non-negative amounts, as the data model has
them, after `Solve` of the branch and bound solver no admissible subset has more
candidates than `optimalTotalSelection`, no admissible subset with that many
candidates has a smaller total amount than `optimalTotalAmount`, and whenever an
admissible subset exists one with that count and that total amount exists: the
count is the maximum cardinality of an admissible subset and the amount the
minimum total amount among the admissible subsets of that cardinality. -/
theorem branchAndBound_optimal (cands : List Candidate) (tgt ceil : Int) (sc : Nat)
    (hnn : ∀ c ∈ cands, 0 ≤ c.amount) :
    (∀ s : List Candidate, s.Sublist cands → Admissible tgt ceil sc s →
      s.length ≤ (CCoinsSelectionBranchAndBound.Solve cands tgt ceil sc).optimalTotalSelection ∧
      (s.length = (CCoinsSelectionBranchAndBound.Solve cands tgt ceil sc).optimalTotalSelection →
        (CCoinsSelectionBranchAndBound.Solve cands tgt ceil sc).optimalTotalAmount ≤
          sumAmount s)) ∧
    (HasAdmissibleSubset cands tgt ceil sc →
      ∃ s : List Candidate, s.Sublist cands ∧ Admissible tgt ceil sc s ∧
        s.length = (CCoinsSelectionBranchAndBound.Solve cands tgt ceil sc).optimalTotalSelection ∧
        sumAmount s = (CCoinsSelectionBranchAndBound.Solve cands tgt ceil sc).optimalTotalAmount) := by
  obtain ⟨_, hmask, hor, hbest⟩ := branchAndBound_exact cands tgt ceil sc hnn
  generalize CCoinsSelectionBranchAndBound.Solve cands tgt ceil sc = r at hmask hor hbest
  have hupper : ∀ s : List Candidate, s.Sublist cands → Admissible tgt ceil sc s →
      s.length ≤ r.optimalTotalSelection ∧
      (s.length = r.optimalTotalSelection → r.optimalTotalAmount ≤ sumAmount s) := by
    intro s hs hadm
    have hni := hbest s hs hadm
    unfold improves at hni
    simp only [decide_eq_false_iff_not, not_or, not_lt, not_and] at hni
    exact ⟨hni.1, hni.2⟩
  refine ⟨hupper, ?_⟩
  rintro ⟨s0, hs0, hadm0⟩
  rcases hor with hr | ha
  · have hle := (hupper s0 hs0 hadm0).1
    rw [hr] at hle ⊢
    have hnil : s0 = [] := List.length_eq_zero.mp (Nat.le_zero.mp hle)
    rw [hnil] at hadm0
    exact ⟨[], List.nil_sublist _, hadm0, rfl, rfl⟩
  · have e1 : r.optimalTotalAmount = sumAmount (selected (PrepareAmounts cands)
        r.optimalSelection) := by
      conv_lhs => rw [hmask]
      rfl
    have e2 : r.optimalTotalSelection = (selected (PrepareAmounts cands)
        r.optimalSelection).length := by
      conv_lhs => rw [hmask]
      rfl
    obtain ⟨s, hs, hlen, hsum, hsize⟩ :=
      sublist_of_sorted (selected_sublist (PrepareAmounts cands) r.optimalSelection)
    refine ⟨s, hs, ?_, by rw [hlen, e2], by rw [hsum, e1]⟩
    unfold Admissible at ha ⊢
    rw [hsum, hsize]
    exact ha

/-- Witness for C31: scenario S2 of the specification, where the solver reports
three candidates with total amount 16. -/
theorem branchAndBound_optimal_witness :
    (∀ c ∈ Scenario.candidatesS2, 0 ≤ c.amount) ∧
    CCoinsSelectionBranchAndBound.Solve Scenario.candidatesS2 15 20 5 =
      ⟨[false, false, true, true, true], 16, 3, 3⟩ ∧
    ((∀ s : List Candidate, s.Sublist Scenario.candidatesS2 → Admissible 15 20 5 s →
      s.length ≤
        (CCoinsSelectionBranchAndBound.Solve Scenario.candidatesS2 15 20 5).optimalTotalSelection ∧
      (s.length =
          (CCoinsSelectionBranchAndBound.Solve Scenario.candidatesS2 15 20 5).optimalTotalSelection →
        (CCoinsSelectionBranchAndBound.Solve Scenario.candidatesS2 15 20 5).optimalTotalAmount ≤
          sumAmount s)) ∧
    (HasAdmissibleSubset Scenario.candidatesS2 15 20 5 →
      ∃ s : List Candidate, s.Sublist Scenario.candidatesS2 ∧ Admissible 15 20 5 s ∧
        s.length =
          (CCoinsSelectionBranchAndBound.Solve Scenario.candidatesS2 15 20 5).optimalTotalSelection ∧
        sumAmount s =
          (CCoinsSelectionBranchAndBound.Solve Scenario.candidatesS2 15 20 5).optimalTotalAmount)) :=
  ⟨by decide, by decide, branchAndBound_optimal Scenario.candidatesS2 15 20 5 (by decide)⟩

end CoinsSelection

namespace CoinsSelection

/-! ## Infeasible inputs -/

/-- Whatever the amounts, the recursion returns the incumbent or a completion of
the node whose totals respect the three bounds. -/
theorem solveRecursive_sound (tgt ceil : Int) (sc : Nat) :
    ∀ (rest : List Candidate) (sel : List Bool) (tS : Nat) (tA : Int) (tC : Nat)
      (best : Solution),
      SolveRecursive tgt ceil sc rest sel tS tA tC best = best ∨
        ∃ m : List Bool, m.length = rest.length ∧
          tgt ≤ tA + sumAmount (selected rest m) ∧ tA + sumAmount (selected rest m) ≤ ceil ∧
          tS + sumSize (selected rest m) ≤ sc := by
  intro rest
  induction rest with
  | nil =>
    intro sel tS tA tC best
    by_cases hp : pruned tgt ceil sc [] tS tA tC best = true
    · left
      simp only [SolveRecursive, hp, if_true]
    · by_cases hacc : tgt ≤ tA ∧ tA ≤ ceil ∧ tS ≤ sc ∧ improves tC tA best = true
      · right
        refine ⟨[], rfl, ?_, ?_, ?_⟩
        · simpa [selected, sumAmount] using hacc.1
        · simpa [selected, sumAmount] using hacc.2.1
        · simpa [selected, sumSize] using hacc.2.2.1
      · left
        simp only [SolveRecursive, hp, if_false, hacc]
        rfl
  | cons c rest ih =>
    intro sel tS tA tC best
    by_cases hp : pruned tgt ceil sc (c :: rest) tS tA tC best = true
    · left
      simp only [SolveRecursive, hp, if_true]
    · have hr : SolveRecursive tgt ceil sc (c :: rest) sel tS tA tC best =
          SolveRecursive tgt ceil sc rest (sel ++ [false]) tS tA tC
            (SolveRecursive tgt ceil sc rest (sel ++ [true]) (tS + c.size) (tA + c.amount)
              (tC + 1) best) := by
        simp only [SolveRecursive, hp]
        rfl
      rw [hr]
      have ha1 := ih (sel ++ [true]) (tS + c.size) (tA + c.amount) (tC + 1) best
      generalize SolveRecursive tgt ceil sc rest (sel ++ [true]) (tS + c.size) (tA + c.amount)
        (tC + 1) best = b1 at ha1 ⊢
      have ha2 := ih (sel ++ [false]) tS tA tC b1
      rcases ha2 with ha2 | ⟨m2, hm2, h21, h22, h23⟩
      · rw [ha2]
        rcases ha1 with ha1 | ⟨m1, hm1, h11, h12, h13⟩
        · exact Or.inl ha1
        · refine Or.inr ⟨true :: m1, by simp [hm1], ?_, ?_, ?_⟩
          · simp only [selected, if_true, sumAmount_cons]
            omega
          · simp only [selected, if_true, sumAmount_cons]
            omega
          · simp only [selected, if_true, sumSize_cons]
            omega
      · refine Or.inr ⟨false :: m2, by simp [hm2], ?_, ?_, ?_⟩
        · simpa [selected] using h21
        · simpa [selected] using h22
        · simpa [selected] using h23

/-- Whatever the amounts, branch and bound reports the solution without a
selection unless some subset of the candidates is admissible. -/
theorem branchAndBound_reset (cands : List Candidate) (tgt ceil : Int) (sc : Nat)
    (hno : ¬ HasAdmissibleSubset cands tgt ceil sc) :
    CCoinsSelectionBranchAndBound.Solve cands tgt ceil sc = Solution.reset cands.length := by
  have hsolve : CCoinsSelectionBranchAndBound.Solve cands tgt ceil sc =
      SolveRecursive tgt ceil sc (PrepareAmounts cands) [] 0 0 0
        (Solution.reset (PrepareAmounts cands).length) := rfl
  rw [hsolve]
  rcases solveRecursive_sound tgt ceil sc (PrepareAmounts cands) [] 0 0 0
      (Solution.reset (PrepareAmounts cands).length) with h | ⟨m, _, h1, h2, h3⟩
  · rw [h, prepareAmounts_length]
  · exfalso
    apply hno
    obtain ⟨s, hs, _, hsum, hsize⟩ :=
      sublist_of_sorted (selected_sublist (PrepareAmounts cands) m)
    refine ⟨s, hs, ?_⟩
    unfold Admissible
    rw [hsum, hsize]
    simp only [zero_add] at h1 h2 h3
    exact ⟨h1, h2, h3⟩

/-- When step 2 of the sliding window rule completes, its window is what is
left of the window it was given after dropping candidates from the low end, and
it respects both ceilings. -/
theorem shrink_done (ceil : Int) (sc : Nat) :
    ∀ (v : List Candidate) (lo : Nat) (w : Window),
      shrink ceil sc v lo (sumAmount v) (sumSize v) = Outcome.done w →
      ∃ drop, v = drop ++ w.items ∧ w.lo = lo + drop.length ∧
        w.totalAmount = sumAmount w.items ∧ w.totalSize = sumSize w.items ∧
        sumAmount w.items ≤ ceil ∧ sumSize w.items ≤ sc := by
  intro v
  induction v with
  | nil =>
    intro lo w h
    rw [shrink] at h
    by_cases hv : ceil < sumAmount [] ∨ sc < sumSize []
    · rw [if_pos hv] at h
      cases h
    · rw [if_neg hv] at h
      simp only [Outcome.done.injEq] at h
      subst h
      push_neg at hv
      exact ⟨[], rfl, rfl, rfl, rfl, hv.1, hv.2⟩
  | cons c rest ih =>
    intro lo w h
    rw [shrink] at h
    by_cases hv : ceil < sumAmount (c :: rest) ∨ sc < sumSize (c :: rest)
    · rw [if_pos hv] at h
      have e1 : sumAmount (c :: rest) - c.amount = sumAmount rest := by
        rw [sumAmount_cons]
        omega
      have e2 : sumSize (c :: rest) - c.size = sumSize rest := by
        rw [sumSize_cons]
        omega
      simp only [e1, e2] at h
      obtain ⟨drop, h1, h2, h3, h4, h5, h6⟩ := ih (lo + 1) w h
      refine ⟨c :: drop, by rw [h1]; rfl, ?_, h3, h4, h5, h6⟩
      rw [h2, List.length_cons]
      omega
    · rw [if_neg hv] at h
      simp only [Outcome.done.injEq] at h
      subst h
      push_neg at hv
      exact ⟨[], rfl, rfl, rfl, rfl, hv.1, hv.2⟩

theorem SlideRun.step_run {arr P R : List Candidate} {tgt ceil : Int} {sc : Nat}
    {st st1 : Window × Solution} {c : Candidate} (hinv : SlideRun arr tgt ceil sc P st)
    (harr : P ++ c :: R = arr) (h : slide tgt ceil sc arr.length st c = Outcome.done st1) :
    SlideRun arr tgt ceil sc (P ++ [c]) st1 := by
  obtain ⟨L, hP⟩ := hinv.split
  unfold slide at h
  rw [hinv.amount, hinv.size, ← sumAmount_concat, ← sumSize_concat, Outcome.bind_eq_done] at h
  obtain ⟨w, hw, hst1⟩ := h
  obtain ⟨drop, h1, _, h3, h4, h5, h6⟩ := shrink_done ceil sc _ _ w hw
  simp only [Outcome.done.injEq] at hst1
  subst hst1
  have hPc : P ++ [c] = (L ++ drop) ++ w.items := by
    rw [hP, List.append_assoc, h1, List.append_assoc]
  refine ⟨⟨L ++ drop, hPc⟩, h3, h4, ?_⟩
  simp only
  split
  · rename_i hc
    right
    refine ⟨w.items, ?_, ?_⟩
    · rw [← harr]
      have e : P ++ c :: R = (L ++ drop) ++ (w.items ++ R) := by
        rw [← List.append_assoc, ← hPc]
        simp
      rw [e]
      exact (List.sublist_append_left _ _).trans (List.sublist_append_right _ _)
    · unfold Admissible
      rw [← h3]
      exact ⟨hc.1, by rw [h3]; exact h5, h6⟩
  · exact hinv.best

/-- Whatever the amounts, when the sliding window solver completes it reports
the solution without a selection unless some subset of the candidates is
admissible. -/
theorem slidingWindow_reset (cands : List Candidate) (tgt ceil : Int) (sc : Nat)
    (hno : ¬ HasAdmissibleSubset cands tgt ceil sc) (r : Solution)
    (h : CCoinsSelectionSlidingWindow.Solve cands tgt ceil sc = Outcome.done r) :
    r = Solution.reset cands.length := by
  have hfold : ∀ (R P : List Candidate) (st st1 : Window × Solution),
      P ++ R = PrepareAmounts cands → SlideRun (PrepareAmounts cands) tgt ceil sc P st →
      Outcome.foldl (slide tgt ceil sc (PrepareAmounts cands).length) st R = Outcome.done st1 →
      SlideRun (PrepareAmounts cands) tgt ceil sc (PrepareAmounts cands) st1 := by
    intro R
    induction R with
    | nil =>
      intro P st st1 hP hinv hf
      rw [List.append_nil] at hP
      simp only [Outcome.foldl_nil, Outcome.done.injEq] at hf
      rw [hP] at hinv
      rw [← hf]
      exact hinv
    | cons c R ih =>
      intro P st st1 hP hinv hf
      rw [Outcome.foldl_cons, Outcome.bind_eq_done] at hf
      obtain ⟨st2, hst2, hf2⟩ := hf
      exact ih (P ++ [c]) st2 st1 (by rw [← hP]; simp) (hinv.step_run hP hst2) hf2
  unfold CCoinsSelectionSlidingWindow.Solve at h
  simp only [Outcome.bind_eq_done, Outcome.done.injEq] at h
  obtain ⟨st1, hst1, rfl⟩ := h
  have hinit : SlideRun (PrepareAmounts cands) tgt ceil sc []
      (⟨0, [], 0, 0⟩, Solution.reset (PrepareAmounts cands).length) :=
    ⟨⟨[], rfl⟩, rfl, rfl, Or.inl rfl⟩
  have hinv := hfold (PrepareAmounts cands) [] _ st1 (List.nil_append _) hinit hst1
  rcases hinv.best with hb | ⟨t, ht, hadm⟩
  · rw [hb, prepareAmounts_length]
  · exfalso
    apply hno
    obtain ⟨s, hs, _, hsum, hsize⟩ := sublist_of_sorted ht
    refine ⟨s, hs, ?_⟩
    unfold Admissible at hadm ⊢
    rw [hsum, hsize]
    exact hadm

/-- The sliding window solver completes whenever the amount ceiling is not
negative. -/
theorem slidingWindow_completes (cands : List Candidate) (tgt ceil : Int) (sc : Nat)
    (h0 : 0 ≤ ceil) : ∃ r, CCoinsSelectionSlidingWindow.Solve cands tgt ceil sc = Outcome.done r := by
  have hfold : ∀ (R : List Candidate) (st : Window × Solution),
      st.1.totalAmount = sumAmount st.1.items → st.1.totalSize = sumSize st.1.items →
      ∃ st1, Outcome.foldl (slide tgt ceil sc (PrepareAmounts cands).length) st R =
        Outcome.done st1 := by
    intro R
    induction R with
    | nil =>
      intro st _ _
      exact ⟨st, rfl⟩
    | cons c R ih =>
      intro st ha hs
      obtain ⟨drop, w, _, hrun, _, _, _⟩ := shrink_spec ceil sc h0 (st.1.items ++ [c]) st.1.lo
      have hstep : ∃ st2, slide tgt ceil sc (PrepareAmounts cands).length st c =
          Outcome.done st2 ∧ st2.1.totalAmount = sumAmount st2.1.items ∧
          st2.1.totalSize = sumSize st2.1.items := by
        unfold slide
        rw [ha, hs, ← sumAmount_concat, ← sumSize_concat, hrun]
        exact ⟨_, rfl, rfl, rfl⟩
      obtain ⟨st2, h2, ha2, hs2⟩ := hstep
      obtain ⟨st3, h3⟩ := ih st2 ha2 hs2
      refine ⟨st3, ?_⟩
      rw [Outcome.foldl_cons, h2]
      exact h3
  obtain ⟨st1, hst1⟩ := hfold (PrepareAmounts cands)
    (⟨0, [], 0, 0⟩, Solution.reset (PrepareAmounts cands).length) rfl rfl
  refine ⟨st1.2, ?_⟩
  unfold CCoinsSelectionSlidingWindow.Solve
  simp only [hst1, Outcome.bind]

theorem NotesRun.step_notes {notesSize : Nat → Nat} {arr P R : List Candidate} {tgt ceil : Int}
    {sc : Nat} {st : Window × Solution} {c : Candidate}
    (hinv : NotesRun notesSize arr tgt ceil sc P st) (harr : P ++ c :: R = arr) :
    NotesRun notesSize arr tgt ceil sc (P ++ [c])
      (slideNotes notesSize tgt ceil sc arr.length st c) := by
  obtain ⟨L, hP⟩ := hinv.split
  unfold slideNotes
  simp only
  split
  · exact ⟨⟨P ++ [c], by simp⟩, rfl, hinv.best⟩
  · rename_i hv
    push_neg at hv
    refine ⟨⟨L, by rw [hP, List.append_assoc]⟩, ?_, ?_⟩
    · simp only
      rw [hinv.amount, sumAmount_concat]
    · simp only
      split
      · rename_i hc
        right
        refine ⟨st.1.items ++ [c], ?_, ?_⟩
        · rw [← harr, hP]
          have e : L ++ st.1.items ++ c :: R = L ++ ((st.1.items ++ [c]) ++ R) := by simp
          rw [e]
          exact (List.sublist_append_left _ _).trans (List.sublist_append_right _ _)
        · unfold AdmissibleNotes
          rw [sumAmount_concat, ← hinv.amount]
          exact ⟨hc.1, hv.1, hv.2⟩
      · exact hinv.best

/-- The solver for notes reports the solution without a selection unless some
subset of the notes is admissible for notes. -/
theorem forNotes_reset (notesSize : Nat → Nat) (cands : List Candidate) (tgt ceil : Int)
    (sc : Nat) (hno : ¬ HasAdmissibleNotes notesSize cands tgt ceil sc) :
    CCoinsSelectionForNotes.Solve notesSize cands tgt ceil sc = Solution.reset cands.length := by
  have hfold : ∀ (R P : List Candidate) (st : Window × Solution),
      P ++ R = PrepareAmounts cands →
      NotesRun notesSize (PrepareAmounts cands) tgt ceil sc P st →
      NotesRun notesSize (PrepareAmounts cands) tgt ceil sc (PrepareAmounts cands)
        (R.foldl (slideNotes notesSize tgt ceil sc (PrepareAmounts cands).length) st) := by
    intro R
    induction R with
    | nil =>
      intro P st hP hinv
      rw [List.append_nil] at hP
      rw [hP] at hinv
      exact hinv
    | cons c R ih =>
      intro P st hP hinv
      rw [List.foldl_cons]
      exact ih (P ++ [c]) _ (by rw [← hP]; simp) (hinv.step_notes hP)
  have hinit : NotesRun notesSize (PrepareAmounts cands) tgt ceil sc []
      (⟨0, [], 0, notesSize 0⟩, Solution.reset (PrepareAmounts cands).length) :=
    ⟨⟨[], rfl⟩, rfl, Or.inl rfl⟩
  have hinv := hfold (PrepareAmounts cands) [] _ (List.nil_append _) hinit
  unfold CCoinsSelectionForNotes.Solve
  simp only
  rcases hinv.best with hb | ⟨t, ht, hadm⟩
  · rw [hb, prepareAmounts_length]
  · exfalso
    apply hno
    obtain ⟨s, hs, hlen, hsum, _⟩ := sublist_of_sorted ht
    refine ⟨s, hs, ?_⟩
    unfold AdmissibleNotes at hadm ⊢
    rw [hsum, hlen]
    exact hadm

/-- No subset reaches a target amount above the total of non-negative amounts. -/
theorem infeasible_of_total_lt {cands : List Candidate} {tgt ceil : Int} {sc : Nat}
    (hnn : ∀ c ∈ cands, 0 ≤ c.amount) (hlt : sumAmount cands < tgt) :
    ¬ HasAdmissibleSubset cands tgt ceil sc := by
  rintro ⟨s, hs, hadm⟩
  have := sumAmount_sublist_le hs hnn
  have := hadm.1
  omega

theorem infeasibleNotes_of_total_lt {notesSize : Nat → Nat} {cands : List Candidate}
    {tgt ceil : Int} {sc : Nat}
    (hnn : ∀ c ∈ cands, 0 ≤ c.amount) (hlt : sumAmount cands < tgt) :
    ¬ HasAdmissibleNotes notesSize cands tgt ceil sc := by
  rintro ⟨s, hs, hadm⟩
  have := sumAmount_sublist_le hs hnn
  have := hadm.1
  omega

/-- Claim C32.  For every input for which no subset of the candidates satisfies
the lower bound and both upper bounds, each solver reports on completion the
count 0, the total amount 0, the total size 0 and the all-false bitmask: branch
and bound always, the sliding window whenever it completes (which it does when
the amount ceiling is not negative), and the solver for notes with the size
bound taken in its own size model. -/
theorem infeasible_reset (cands : List Candidate) (tgt ceil : Int) (sc : Nat) :
    (¬ HasAdmissibleSubset cands tgt ceil sc →
      CCoinsSelectionBranchAndBound.Solve cands tgt ceil sc =
        ⟨List.replicate cands.length false, 0, 0, 0⟩ ∧
      (∀ r, CCoinsSelectionSlidingWindow.Solve cands tgt ceil sc = Outcome.done r →
        r = ⟨List.replicate cands.length false, 0, 0, 0⟩) ∧
      (0 ≤ ceil → CCoinsSelectionSlidingWindow.Solve cands tgt ceil sc =
        Outcome.done ⟨List.replicate cands.length false, 0, 0, 0⟩)) ∧
    (∀ notesSize : Nat → Nat, ¬ HasAdmissibleNotes notesSize cands tgt ceil sc →
      CCoinsSelectionForNotes.Solve notesSize cands tgt ceil sc =
        ⟨List.replicate cands.length false, 0, 0, 0⟩) := by
  refine ⟨fun hno => ⟨branchAndBound_reset cands tgt ceil sc hno,
    fun r hr => slidingWindow_reset cands tgt ceil sc hno r hr, fun h0 => ?_⟩,
    fun notesSize hno => forNotes_reset notesSize cands tgt ceil sc hno⟩
  obtain ⟨r, hr⟩ := slidingWindow_completes cands tgt ceil sc h0
  rw [hr, slidingWindow_reset cands tgt ceil sc hno r hr]
  rfl

/-- Witness for C32: the candidates of scenario S2 total 35, below the target
amount 100. -/
theorem infeasible_reset_witness :
    ¬ HasAdmissibleSubset Scenario.candidatesS2 100 200 5 ∧
    ¬ HasAdmissibleNotes Scenario.notesSizePairs Scenario.candidatesS2 100 200 4000 ∧
    CCoinsSelectionBranchAndBound.Solve Scenario.candidatesS2 100 200 5 =
      ⟨List.replicate Scenario.candidatesS2.length false, 0, 0, 0⟩ ∧
    CCoinsSelectionSlidingWindow.Solve Scenario.candidatesS2 100 200 5 =
      Outcome.done ⟨List.replicate Scenario.candidatesS2.length false, 0, 0, 0⟩ ∧
    CCoinsSelectionForNotes.Solve Scenario.notesSizePairs Scenario.candidatesS2 100 200 4000 =
      ⟨List.replicate Scenario.candidatesS2.length false, 0, 0, 0⟩ :=
  ⟨infeasible_of_total_lt (by decide) (by decide),
    infeasibleNotes_of_total_lt (by decide) (by decide),
    ((infeasible_reset Scenario.candidatesS2 100 200 5).1
      (infeasible_of_total_lt (by decide) (by decide))).1,
    ((infeasible_reset Scenario.candidatesS2 100 200 5).1
      (infeasible_of_total_lt (by decide) (by decide))).2.2 (by decide),
    (infeasible_reset Scenario.candidatesS2 100 200 4000).2 Scenario.notesSizePairs
      (infeasibleNotes_of_total_lt (by decide) (by decide))⟩

end CoinsSelection

/-! ## Lemmas: insertion followed by erasure -/

section InsertErase

variable {K V : Type} [DecidableEq K]

/-- Filtering out a set of keys that holds `k` undoes the assignment `m[k] = v`. -/
theorem filter_mapInsert [KeyOrd K] (p : K → Bool) (m : List (K × V)) (k : K) (v : V)
    (hk : p k = false) :
    (mapInsert m k v).filter (fun kv => p kv.1) = m.filter (fun kv => p kv.1) := by
  induction m with
  | nil => simp [mapInsert, hk]
  | cons kv rest ih =>
    obtain ⟨k1, v1⟩ := kv
    rw [mapInsert_cons]
    by_cases h1 : k1 = k
    · rw [if_pos h1]
      subst h1
      simp [List.filter_cons, hk]
    · rw [if_neg h1]
      by_cases h2 : KeyOrd.lt k k1 = true
      · rw [if_pos h2]
        simp [List.filter_cons, hk]
      · rw [if_neg h2, List.filter_cons, List.filter_cons, ih]

theorem filter_keys_self (l : List K) (m : List (K × V))
    (h : ∀ k ∈ l, mapFind m k = none) :
    m.filter (fun kv => decide (kv.1 ∉ l)) = m := by
  rw [List.filter_eq_self]
  intro kv hkv
  simp only [decide_eq_true_eq]
  intro hl
  have := mapFind_eq_none_iff.mp (h kv.1 hl)
  exact this (List.mem_map.mpr ⟨kv, hkv, rfl⟩)

theorem mapErase_mapInsert [KeyOrd K] (m : List (K × V)) (k : K) (v : V)
    (h : mapFind m k = none) : mapErase (mapInsert m k v) k = m := by
  have h1 := filter_mapInsert (fun x => decide (x ≠ k)) m k v (by simp)
  unfold mapErase
  rw [h1, List.filter_eq_self]
  intro kv hkv
  simp only [decide_eq_true_eq]
  intro hk
  have := mapFind_eq_none_iff.mp h
  exact this (List.mem_map.mpr ⟨kv, hkv, hk⟩)

theorem setErase_setInsert [KeyOrd K] (s : List K) (k : K) :
    setErase (setInsert s k) k = setErase s k := by
  induction s with
  | nil => simp [setInsert, setErase]
  | cons k1 rest ih =>
    rw [setInsert_cons]
    by_cases h1 : k1 = k
    · rw [if_pos h1]
    · rw [if_neg h1]
      by_cases h2 : KeyOrd.lt k k1 = true
      · rw [if_pos h2]
        simp [setErase, List.filter_cons]
      · rw [if_neg h2]
        unfold setErase at ih ⊢
        rw [List.filter_cons, List.filter_cons, ih]

/-- Filtering out the value `h` undoes the assignment `m[k] = h` when `k` was
not bound to another value. -/
theorem filter_value_mapInsert {W : Type} [DecidableEq W] [KeyOrd K] (m : List (K × W)) (k : K)
    (h : W) (hk : ∀ v, mapFind m k = some v → v = h) :
    (mapInsert m k h).filter (fun kv => decide (kv.2 ≠ h)) =
      m.filter (fun kv => decide (kv.2 ≠ h)) := by
  induction m with
  | nil => simp [mapInsert]
  | cons kv rest ih =>
    obtain ⟨k1, v1⟩ := kv
    rw [mapInsert_cons]
    by_cases h1 : k1 = k
    · rw [if_pos h1]
      have hv : v1 = h := hk v1 (by rw [mapFind_cons, if_pos h1])
      subst hv
      simp [List.filter_cons]
    · rw [if_neg h1]
      by_cases h2 : KeyOrd.lt k k1 = true
      · rw [if_pos h2]
        simp [List.filter_cons]
      · rw [if_neg h2, List.filter_cons, List.filter_cons, ih]
        intro v hv
        apply hk v
        rw [mapFind_cons, if_neg h1]
        exact hv

theorem filter_value_insertAll {W : Type} [DecidableEq W] [KeyOrd K] (keys : List K)
    (m : List (K × W)) (h : W) (hk : ∀ k ∈ keys, ∀ v, mapFind m k = some v → v = h) :
    (keys.foldl (fun m2 x => mapInsert m2 x h) m).filter (fun kv => decide (kv.2 ≠ h)) =
      m.filter (fun kv => decide (kv.2 ≠ h)) := by
  induction keys generalizing m with
  | nil => rfl
  | cons k rest ih =>
    rw [List.foldl_cons, ih, filter_value_mapInsert m k h (hk k (List.mem_cons_self _ _))]
    intro k2 hk2 v hv
    rw [mapFind_mapInsert] at hv
    by_cases h1 : k = k2
    · rw [if_pos h1] at hv
      exact (Option.some.inj hv).symm
    · rw [if_neg h1] at hv
      exact hk k2 (List.mem_cons_of_mem _ hk2) v hv

/-- Two tables ordered by key that answer every lookup alike are equal. -/
theorem keySorted_ext [KeyOrd K] [LawfulKeyOrd K] :
    ∀ (a b : List (K × V)), KeySorted a → KeySorted b →
      (∀ k, mapFind a k = mapFind b k) → a = b := by
  intro a
  induction a with
  | nil =>
    intro b _ _ h
    cases b with
    | nil => rfl
    | cons kv rest =>
      have := h kv.1
      simp [mapFind] at this
  | cons kv1 a1 ih =>
    intro b ha hb h
    obtain ⟨k1, v1⟩ := kv1
    cases b with
    | nil =>
      have := h k1
      simp [mapFind] at this
    | cons kv2 b1 =>
      obtain ⟨k2, v2⟩ := kv2
      have ha1 := List.pairwise_cons.mp ha
      have hb1 := List.pairwise_cons.mp hb
      have hk : k1 = k2 := by
        by_contra hne
        have e1 := h k1
        rw [mapFind_cons, if_pos rfl, mapFind_cons, if_neg (Ne.symm hne)] at e1
        have e2 := h k2
        rw [mapFind_cons, if_neg hne, mapFind_cons, if_pos rfl] at e2
        have l1 := hb1.1 _ (mem_of_mapFind e1.symm)
        have l2 := ha1.1 _ (mem_of_mapFind e2)
        have := LawfulKeyOrd.trans _ _ _ l1 l2
        rw [LawfulKeyOrd.irrefl] at this
        cases this
      subst hk
      have hv : v1 = v2 := by
        have e1 := h k1
        rw [mapFind_cons, if_pos rfl, mapFind_cons, if_pos rfl] at e1
        exact Option.some.inj e1
      subst hv
      congr 1
      apply ih b1 ha1.2 hb1.2
      intro k
      by_cases hk : k1 = k
      · subst hk
        have n1 : mapFind a1 k1 = none := by
          rw [mapFind_eq_none_iff]
          intro hm
          obtain ⟨kv, hkv, hfst⟩ := List.mem_map.mp hm
          have := ha1.1 kv hkv
          rw [hfst, LawfulKeyOrd.irrefl] at this
          cases this
        have n2 : mapFind b1 k1 = none := by
          rw [mapFind_eq_none_iff]
          intro hm
          obtain ⟨kv, hkv, hfst⟩ := List.mem_map.mp hm
          have := hb1.1 kv hkv
          rw [hfst, LawfulKeyOrd.irrefl] at this
          cases this
        rw [n1, n2]
      · have := h k
        rw [mapFind_cons, if_neg hk, mapFind_cons, if_neg hk] at this
        exact this

end InsertErase

namespace CTxMemPool

theorem filter_addNextTx (p : COutPoint → Bool) (hash : Nat) (vin : List CTxIn)
    (m : List (COutPoint × CInPoint)) (i : Nat) (h : ∀ x ∈ vin, p x.prevout = false) :
    (addNextTx hash m vin i).filter (fun kv => p kv.1) = m.filter (fun kv => p kv.1) := by
  induction vin generalizing m i with
  | nil => rfl
  | cons txin rest ih =>
    rw [addNextTx, ih _ _ (fun x hx => h x (List.mem_cons_of_mem _ hx)),
      filter_mapInsert p m _ _ (h txin (List.mem_cons_self _ _))]

theorem filter_addNullifiers (p : Nat → Bool) (hash : Nat) (vjoinsplit : List JSDescription)
    (m : List (Nat × Nat))
    (h : ∀ nf ∈ vjoinsplit.flatMap (fun js => js.nullifiers), p nf = false) :
    (addNullifiers hash m vjoinsplit).filter (fun kv => p kv.1) =
      m.filter (fun kv => p kv.1) := by
  unfold addNullifiers
  induction vjoinsplit generalizing m with
  | nil => rfl
  | cons js rest ih =>
    rw [List.foldl_cons, ih]
    · have hin : ∀ nf ∈ js.nullifiers, p nf = false := by
        intro nf hnf
        apply h
        simp only [List.flatMap_cons, List.mem_append]
        exact Or.inl hnf
      generalize js.nullifiers = nfs at hin
      induction nfs generalizing m with
      | nil => rfl
      | cons nf nfs ih2 =>
        rw [List.foldl_cons, ih2 _ (fun x hx => hin x (List.mem_cons_of_mem _ hx)),
          filter_mapInsert p m nf hash (hin nf (List.mem_cons_self _ _))]
    · intro nf hnf
      apply h
      simp only [List.flatMap_cons, List.mem_append]
      exact Or.inr hnf

/-- The input loop of `remove` undoes the input loop of `addUnchecked` when no
prevout of the transaction was a key of `mapNextTx`. -/
theorem nextTx_round_trip (hash : Nat) (vin : List CTxIn) (m : List (COutPoint × CInPoint))
    (h : ∀ x ∈ vin, mapFind m x.prevout = none) :
    vin.foldl (fun m1 txin => mapErase m1 txin.prevout) (addNextTx hash m vin 0) = m := by
  rw [foldl_mapErase_eq_filter (fun i : CTxIn => i.prevout) vin,
    filter_addNextTx (fun o => decide (o ∉ vin.map (fun i : CTxIn => i.prevout))) hash vin m 0]
  · apply filter_keys_self
    intro k hk
    obtain ⟨x, hx, rfl⟩ := List.mem_map.mp hk
    exact h x hx
  · intro x hx
    simp only [decide_eq_false_iff_not, not_not]
    exact List.mem_map.mpr ⟨x, hx, rfl⟩

/-- The nullifier loop of `remove` undoes the nullifier loop of `addUnchecked`
when no nullifier of the transaction was a key of `mapNullifiers`. -/
theorem nullifiers_round_trip (hash : Nat) (vjoinsplit : List JSDescription)
    (m : List (Nat × Nat))
    (h : ∀ nf ∈ vjoinsplit.flatMap (fun js => js.nullifiers), mapFind m nf = none) :
    vjoinsplit.foldl
      (fun m1 joinsplit => joinsplit.nullifiers.foldl (fun m2 nf => mapErase m2 nf) m1)
      (addNullifiers hash m vjoinsplit) = m := by
  rw [nullifiers_foldl_eq,
    foldl_mapErase_eq_filter (fun x : Nat => x) (vjoinsplit.flatMap (fun js => js.nullifiers)),
    List.map_id',
    filter_addNullifiers
      (fun o => decide (o ∉ vjoinsplit.flatMap (fun js => js.nullifiers))) hash vjoinsplit m]
  · exact filter_keys_self _ _ h
  · intro nf hnf
    simp only [decide_eq_false_iff_not, not_not]
    exact hnf

/-! ## Lemmas: the rows after the sidechain loops of `addUnchecked` -/

theorem row_ext {a b : CSidechainMemPoolEntry}
    (h1 : a.scCreationTxHash = b.scCreationTxHash) (h2 : a.fwdTxHashes = b.fwdTxHashes)
    (h3 : a.mBackwardCertificates = b.mBackwardCertificates)
    (h4 : a.mcBtrsTxHashes = b.mcBtrsTxHashes)
    (h5 : a.mcBtrsCertDataHash = b.mcBtrsCertDataHash)
    (h6 : a.cswNullifiers = b.cswNullifiers) (h7 : a.cswTotalAmount = b.cswTotalAmount) :
    a = b := by
  cases a
  cases b
  simp only at h1 h2 h3 h4 h5 h6 h7
  subst h1 h2 h3 h4 h5 h6 h7
  rfl

theorem fwd_foldl_erase (h : Nat) (xs : List CTxForwardTransferOut)
    (r : CSidechainMemPoolEntry) :
    setErase (xs.foldl (fun r y => fwdRow h y r) r).fwdTxHashes h = setErase r.fwdTxHashes h := by
  induction xs generalizing r with
  | nil => rfl
  | cons y rest ih =>
    rw [List.foldl_cons, ih]
    exact setErase_setInsert _ _

theorem btr_foldl_erase (h : Nat) (aux : List (Nat × Nat)) (xs : List CBwtRequestOut)
    (r : CSidechainMemPoolEntry) :
    setErase (xs.foldl (fun r y => btrRow h aux y r) r).mcBtrsTxHashes h =
      setErase r.mcBtrsTxHashes h := by
  induction xs generalizing r with
  | nil => rfl
  | cons y rest ih =>
    rw [List.foldl_cons, ih]
    exact setErase_setInsert _ _

theorem btr_foldl_snapshot (h : Nat) (aux : List (Nat × Nat)) (xs : List CBwtRequestOut)
    (r : CSidechainMemPoolEntry) (h0 : r.mcBtrsCertDataHash ≠ 0) :
    (xs.foldl (fun r y => btrRow h aux y r) r).mcBtrsCertDataHash = r.mcBtrsCertDataHash := by
  induction xs generalizing r with
  | nil => rfl
  | cons y rest ih =>
    have e : (btrRow h aux y r).mcBtrsCertDataHash = r.mcBtrsCertDataHash := by
      simp [btrRow, h0]
    rw [List.foldl_cons, ih _ (by rw [e]; exact h0), e]

/-- The row of sidechain `s` after the four sidechain loops of `addUnchecked`. -/
theorem addSidechains_row (h : Nat) (tx : CTransaction) (aux : List (Nat × Nat))
    (m m4 : List (Nat × CSidechainMemPoolEntry)) (hh : tx.hash = h)
    (hd : addSidechains h tx aux m = Outcome.done m4) (s : Nat) :
    rowOrDefault m4 s =
      (tx.vmbtr_out.filter (fun x => decide (x.scId = s))).foldl (fun r x => btrRow h aux x r)
        ((tx.vft_ccout.filter (fun x => decide (x.scId = s))).foldl (fun r x => fwdRow h x r)
          ((tx.vsc_ccout.filter (fun x => decide (x.scId = s))).foldl (fun r x => scRow h x r)
            ((tx.vcsw_ccin.filter (fun x => decide (x.scId = s))).foldl
              (fun r x => cswRow h x r) (rowOrDefault m s)))) := by
  unfold addSidechains at hd
  simp only [hh] at hd
  obtain ⟨c1, _, _⟩ := cswLoop_spec h tx.vcsw_ccin m
  obtain ⟨s1, _, _⟩ := scLoop_spec h tx.vsc_ccout (tx.vcsw_ccin.foldl (addCswStep h) m)
  obtain ⟨f1, _, _⟩ := fwdLoop_spec h tx.vft_ccout
    (tx.vsc_ccout.foldl (addScStep h) (tx.vcsw_ccin.foldl (addCswStep h) m))
  obtain ⟨b1, _, _⟩ := btrLoop_spec h aux tx.vmbtr_out _ m4 hd
  rw [b1, f1, s1, c1]

/-- The sidechain loops of `addUnchecked` complete when the auxiliary map covers
the sidechains of the backward-transfer requests. -/
theorem addSidechains_covered (h : Nat) (tx : CTransaction) (aux : List (Nat × Nat))
    (m : List (Nat × CSidechainMemPoolEntry))
    (hc : ∀ btr ∈ tx.vmbtr_out, mapFind aux btr.scId ≠ none) :
    ∃ m4, addSidechains h tx aux m = Outcome.done m4 := by
  unfold addSidechains
  simp only
  obtain ⟨m4, h4, _⟩ := Outcome.foldl_invariant (addBtrStep h aux) (fun _ => True) tx.vmbtr_out
    (fun m1 _ btr hb => by
      obtain ⟨d, hd⟩ := Option.ne_none_iff_exists'.mp (hc btr hb)
      unfold addBtrStep
      simp only [hd]
      split
      · exact ⟨_, rfl, trivial⟩
      · exact ⟨_, rfl, trivial⟩)
    (tx.vft_ccout.foldl (addFwdStep h)
      (tx.vsc_ccout.foldl (addScStep h) (tx.vcsw_ccin.foldl (addCswStep tx.hash) m))) trivial
  exact ⟨m4, h4⟩

/-- Removing a transaction from the row it was just added to gives the row back,
when the row held nothing of the transaction, no creation when the transaction
creates the sidechain, and a certificate data hash exactly when it held a
backward-transfer request. -/
theorem purgeTx_added (h : Nat) (tx : CTransaction) (aux : List (Nat × Nat)) (s : Nat)
    (r0 : CSidechainMemPoolEntry)
    (hfwd : h ∉ r0.fwdTxHashes) (hbtr : h ∉ r0.mcBtrsTxHashes)
    (hcsw : ∀ kv ∈ r0.cswNullifiers, kv.2 ≠ h)
    (hnew : ∀ c ∈ tx.vcsw_ccin, c.scId = s → mapFind r0.cswNullifiers c.nullifier = none)
    (hsc1 : s ∈ tx.vsc_ccout.map (fun c => c.scId) → r0.scCreationTxHash = 0)
    (hsc2 : r0.scCreationTxHash = h → r0.scCreationTxHash = 0)
    (hsnap : s ∈ tx.vmbtr_out.map (fun c => c.scId) →
      (r0.mcBtrsCertDataHash = 0 ↔ r0.mcBtrsTxHashes = [])) :
    purgeTx h (tx.cswAmount s)
      ((tx.vmbtr_out.filter (fun x => decide (x.scId = s))).foldl (fun r x => btrRow h aux x r)
        ((tx.vft_ccout.filter (fun x => decide (x.scId = s))).foldl (fun r x => fwdRow h x r)
          ((tx.vsc_ccout.filter (fun x => decide (x.scId = s))).foldl (fun r x => scRow h x r)
            ((tx.vcsw_ccin.filter (fun x => decide (x.scId = s))).foldl
              (fun r x => cswRow h x r) r0)))) = r0 := by
  generalize hC : tx.vcsw_ccin.filter (fun x => decide (x.scId = s)) = C
  generalize hS : tx.vsc_ccout.filter (fun x => decide (x.scId = s)) = S
  generalize hF : tx.vft_ccout.filter (fun x => decide (x.scId = s)) = F
  generalize hB : tx.vmbtr_out.filter (fun x => decide (x.scId = s)) = B
  have hSne : S ≠ [] ↔ s ∈ tx.vsc_ccout.map (fun c => c.scId) := by
    rw [← hS]
    exact filter_ne_nil_iff_mem_map _ _ s
  have hBne : B ≠ [] ↔ s ∈ tx.vmbtr_out.map (fun c => c.scId) := by
    rw [← hB]
    exact filter_ne_nil_iff_mem_map _ _ s
  have pC : ∀ {β : Type} (π : CSidechainMemPoolEntry → β),
      (∀ x r, π (cswRow h x r) = π r) → ∀ r, π (C.foldl (fun r x => cswRow h x r) r) = π r :=
    fun π hπ r => foldl_proj (cswRow h) π hπ C r
  have pS : ∀ {β : Type} (π : CSidechainMemPoolEntry → β),
      (∀ x r, π (scRow h x r) = π r) → ∀ r, π (S.foldl (fun r x => scRow h x r) r) = π r :=
    fun π hπ r => foldl_proj (scRow h) π hπ S r
  have pF : ∀ {β : Type} (π : CSidechainMemPoolEntry → β),
      (∀ x r, π (fwdRow h x r) = π r) → ∀ r, π (F.foldl (fun r x => fwdRow h x r) r) = π r :=
    fun π hπ r => foldl_proj (fwdRow h) π hπ F r
  have pB : ∀ {β : Type} (π : CSidechainMemPoolEntry → β),
      (∀ x r, π (btrRow h aux x r) = π r) →
      ∀ r, π (B.foldl (fun r x => btrRow h aux x r) r) = π r :=
    fun π hπ r => foldl_proj (btrRow h aux) π hπ B r
  generalize hR1 : C.foldl (fun r x => cswRow h x r) r0 = R1
  generalize hR2 : S.foldl (fun r x => scRow h x r) R1 = R2
  generalize hR3 : F.foldl (fun r x => fwdRow h x r) R2 = R3
  generalize hR4 : B.foldl (fun r x => btrRow h aux x r) R3 = R4
  -- the fields of the row after the four loops
  have e_sc : R4.scCreationTxHash = if S = [] then r0.scCreationTxHash else h := by
    rw [← hR4, pB (fun r => r.scCreationTxHash) (fun _ _ => rfl), ← hR3,
      pF (fun r => r.scCreationTxHash) (fun _ _ => rfl), ← hR2, sc_foldl, ← hR1,
      pC (fun r => r.scCreationTxHash) (fun _ _ => rfl)]
  have e_fwd : setErase R4.fwdTxHashes h = r0.fwdTxHashes := by
    rw [← hR4, pB (fun r => r.fwdTxHashes) (fun _ _ => rfl), ← hR3, fwd_foldl_erase, ← hR2,
      pS (fun r => r.fwdTxHashes) (fun _ _ => rfl), ← hR1,
      pC (fun r => r.fwdTxHashes) (fun _ _ => rfl)]
    exact setErase_of_not_mem hfwd
  have e_cert : R4.mBackwardCertificates = r0.mBackwardCertificates := by
    rw [← hR4, pB (fun r => r.mBackwardCertificates) (fun _ _ => rfl), ← hR3,
      pF (fun r => r.mBackwardCertificates) (fun _ _ => rfl), ← hR2,
      pS (fun r => r.mBackwardCertificates) (fun _ _ => rfl), ← hR1,
      pC (fun r => r.mBackwardCertificates) (fun _ _ => rfl)]
  have e_R3btr : R3.mcBtrsTxHashes = r0.mcBtrsTxHashes := by
    rw [← hR3, pF (fun r => r.mcBtrsTxHashes) (fun _ _ => rfl), ← hR2,
      pS (fun r => r.mcBtrsTxHashes) (fun _ _ => rfl), ← hR1,
      pC (fun r => r.mcBtrsTxHashes) (fun _ _ => rfl)]
  have e_R3snap : R3.mcBtrsCertDataHash = r0.mcBtrsCertDataHash := by
    rw [← hR3, pF (fun r => r.mcBtrsCertDataHash) (fun _ _ => rfl), ← hR2,
      pS (fun r => r.mcBtrsCertDataHash) (fun _ _ => rfl), ← hR1,
      pC (fun r => r.mcBtrsCertDataHash) (fun _ _ => rfl)]
  have e_btr : setErase R4.mcBtrsTxHashes h = r0.mcBtrsTxHashes := by
    rw [← hR4, btr_foldl_erase, e_R3btr]
    exact setErase_of_not_mem hbtr
  have e_mem : h ∈ R4.mcBtrsTxHashes ↔ B ≠ [] := by
    rw [← hR4, btr_foldl, e_R3btr]
    constructor
    · rintro (h1 | ⟨_, h1⟩)
      · exact absurd h1 hbtr
      · exact h1
    · intro h1
      exact Or.inr ⟨rfl, h1⟩
  have e_nfs : R4.cswNullifiers.filter (fun kv => decide (kv.2 ≠ h)) = r0.cswNullifiers := by
    rw [← hR4, pB (fun r => r.cswNullifiers) (fun _ _ => rfl), ← hR3,
      pF (fun r => r.cswNullifiers) (fun _ _ => rfl), ← hR2,
      pS (fun r => r.cswNullifiers) (fun _ _ => rfl), ← hR1, csw_foldl_nfs,
      filter_value_insertAll]
    · rw [List.filter_eq_self]
      intro kv hkv
      simpa using hcsw kv hkv
    · intro k hk v hv
      obtain ⟨c, hc, rfl⟩ := List.mem_map.mp hk
      rw [← hC] at hc
      have hc2 := List.mem_filter.mp hc
      rw [hnew c hc2.1 (by simpa using hc2.2)] at hv
      cases hv
  have e_tot : R4.cswTotalAmount - tx.cswAmount s = r0.cswTotalAmount := by
    rw [← hR4, pB (fun r => r.cswTotalAmount) (fun _ _ => rfl), ← hR3,
      pF (fun r => r.cswTotalAmount) (fun _ _ => rfl), ← hR2,
      pS (fun r => r.cswTotalAmount) (fun _ _ => rfl), ← hR1, csw_foldl_total]
    unfold CTransaction.cswAmount
    rw [hC]
    omega
  apply row_ext
  · show (if R4.scCreationTxHash = h then 0 else R4.scCreationTxHash) = r0.scCreationTxHash
    rw [e_sc]
    by_cases hs : S = []
    · rw [if_pos hs]
      by_cases h1 : r0.scCreationTxHash = h
      · rw [if_pos h1, hsc2 h1]
      · rw [if_neg h1]
    · rw [if_neg hs, if_pos rfl, hsc1 (hSne.mp hs)]
  · exact e_fwd
  · exact e_cert
  · exact e_btr
  · show (if h ∈ R4.mcBtrsTxHashes ∧ (setErase R4.mcBtrsTxHashes h).isEmpty then 0
      else R4.mcBtrsCertDataHash) = r0.mcBtrsCertDataHash
    have hcond : (h ∈ R4.mcBtrsTxHashes ∧ (setErase R4.mcBtrsTxHashes h).isEmpty = true) ↔
        (B ≠ [] ∧ r0.mcBtrsTxHashes.isEmpty = true) := by
      rw [e_btr, e_mem]
    by_cases hb : B = []
    · have : ¬ (B ≠ [] ∧ r0.mcBtrsTxHashes.isEmpty = true) := fun hc => hc.1 hb
      rw [if_neg (fun hc => this (hcond.mp hc)), ← hR4, hb]
      exact e_R3snap
    · have hiff := hsnap (hBne.mp hb)
      by_cases he : r0.mcBtrsTxHashes = []
      · have : B ≠ [] ∧ r0.mcBtrsTxHashes.isEmpty = true := ⟨hb, by simp [he]⟩
        rw [if_pos (hcond.mpr this), hiff.mpr he]
      · have : ¬ (B ≠ [] ∧ r0.mcBtrsTxHashes.isEmpty = true) := by
          rintro ⟨_, hc⟩
          exact he (List.isEmpty_iff.mp hc)
        have h0 : R3.mcBtrsCertDataHash ≠ 0 := by
          rw [e_R3snap]
          exact fun hc => he (hiff.mp hc)
        rw [if_neg (fun hc => this (hcond.mp hc)), ← hR4, btr_foldl_snapshot h aux B R3 h0]
        exact e_R3snap
  · exact e_nfs
  · exact e_tot

end CTxMemPool

namespace CTxMemPool

/-! ## Addition followed by non-recursive removal -/

/-- What a row of a well-formed pool holds of a transaction that is not in the
pool. -/
theorem WellFormed.row_without {p : CTxMemPool} (hw : WellFormed p) {h : Nat} (h0 : h ≠ 0)
    (hno : mapFind p.mapTx h = none) (s : Nat) :
    h ∉ (rowOrDefault p.mapSidechains s).fwdTxHashes ∧
    h ∉ (rowOrDefault p.mapSidechains s).mcBtrsTxHashes ∧
    (∀ kv ∈ (rowOrDefault p.mapSidechains s).cswNullifiers, kv.2 ≠ h) ∧
    (rowOrDefault p.mapSidechains s).scCreationTxHash ≠ h := by
  unfold rowOrDefault
  cases hr : mapFind p.mapSidechains s with
  | none =>
    simp only [Option.getD_none]
    exact ⟨by simp, by simp, by simp, fun hc => h0 hc.symm⟩
  | some r =>
    simp only [Option.getD_some]
    refine ⟨?_, ?_, ?_, ?_⟩
    · intro hc
      obtain ⟨e, he, _⟩ := hw.fwd_backed hr hc
      rw [hno] at he
      cases he
    · intro hc
      obtain ⟨e, he, _⟩ := hw.btr_backed hr hc
      rw [hno] at he
      cases he
    · intro kv hkv hc
      obtain ⟨e, he, _⟩ := hw.csw_backed hr hkv
      rw [hc, hno] at he
      cases he
    · intro hc
      obtain ⟨e, he, _⟩ := hw.sc_backed hr (by rw [hc]; exact h0)
      rw [hc, hno] at he
      cases he

/-- Claim C33 (amended).  On a well-formed pool, for a transaction that is in
neither table, has a non-null hash and pairwise distinct prevouts, CSW
nullifiers and created sidechain ids, passes `checkIncomingTxConflicts`, and
whose backward-transfer requests are for sidechains that the auxiliary map
covers and whose row holds a certificate data hash exactly when it holds a
backward-transfer request, `addUnchecked` under the hash of the transaction
followed by non-recursive `remove` completes, leaves `mapTx`, `mapCertificate`,
`mapNextTx`, `mapNullifiers`, `mapSidechains`, `totalTxSize` and
`cachedInnerUsage` as they were (the two 64-bit counters as 64-bit values) and
appends exactly the transaction to `removedTxs`. -/
theorem add_remove_identity (p : CTxMemPool) (hw : WellFormed p) (e : CTxMemPoolEntry)
    (fCurrentEstimate : Bool) (aux : List (Nat × Nat)) (rt : List CTransaction)
    (rc : List CScCertificate) (hwf : TxWF e.tx)
    (hcert : mapFind p.mapCertificate e.tx.hash = none)
    (hcheck : checkIncomingTxConflicts p e.tx = true)
    (haux : ∀ btr ∈ e.tx.vmbtr_out, mapFind aux btr.scId ≠ none)
    (hsnap : ∀ btr ∈ e.tx.vmbtr_out,
      ((rowOrDefault p.mapSidechains btr.scId).mcBtrsCertDataHash = 0 ↔
        (rowOrDefault p.mapSidechains btr.scId).mcBtrsTxHashes = [])) :
    ∃ p1 st, addUnchecked p e.tx.hash e fCurrentEstimate aux = Outcome.done (true, p1) ∧
      remove ⟨p1, rt, rc⟩ (CTransactionBase.tx e.tx) false = Outcome.done st ∧
      st.pool.mapTx = p.mapTx ∧ st.pool.mapCertificate = p.mapCertificate ∧
      st.pool.mapNextTx = p.mapNextTx ∧ st.pool.mapNullifiers = p.mapNullifiers ∧
      st.pool.mapSidechains = p.mapSidechains ∧
      st.pool.totalTxSize = p.totalTxSize % 2 ^ 64 ∧
      st.pool.cachedInnerUsage = p.cachedInnerUsage % 2 ^ 64 ∧
      st.removedTxs = rt ++ [e.tx] ∧ st.removedCerts = rc := by
  obtain ⟨noTx, inputs, creations, nullifiers, csws⟩ := checkIncomingTxConflicts_true p e.tx hcheck
  have hfresh : TxFresh p e.tx.hash e :=
    ⟨rfl, hwf, noTx, hcert, inputs, creations, nullifiers, csws⟩
  obtain ⟨m4, hm4⟩ := addSidechains_covered e.tx.hash e.tx aux p.mapSidechains haux
  have hadd : ∃ p1, addUnchecked p e.tx.hash e fCurrentEstimate aux = Outcome.done (true, p1) ∧
      p1.mapTx = mapInsert p.mapTx e.tx.hash e ∧ p1.mapCertificate = p.mapCertificate ∧
      p1.mapNextTx = addNextTx e.tx.hash p.mapNextTx e.tx.vin 0 ∧
      p1.mapNullifiers = addNullifiers e.tx.hash p.mapNullifiers e.tx.vjoinsplit ∧
      p1.mapSidechains = m4 ∧
      p1.totalTxSize = (p.totalTxSize + e.GetTxSize) % 2 ^ 64 ∧
      p1.cachedInnerUsage = (p.cachedInnerUsage + e.DynamicMemoryUsage) % 2 ^ 64 := by
    unfold addUnchecked
    simp only [CTxMemPoolEntry.GetTx, hm4, Outcome.bind_done]
    exact ⟨_, rfl, rfl, rfl, rfl, rfl, rfl, rfl, rfl⟩
  obtain ⟨p1, hp1, a1, a2, a3, a4, a5, a6, a7⟩ := hadd
  have hw1 : WellFormed p1 :=
    (addUnchecked_spec p p1 e.tx.hash e fCurrentEstimate true aux rfl hwf.2.1 hw.sorted_sc
      hp1).wellFormed_txAdd hw hfresh
  have he1 : mapFind p1.mapTx e.tx.hash = some e := by
    rw [a1, mapFind_mapInsert, if_pos rfl]
  obtain ⟨m1, hm1, hsorted1, hfind1⟩ := removeSidechains_spec hw1 he1
  have hrem : ∃ st, remove ⟨p1, rt, rc⟩ (CTransactionBase.tx e.tx) false = Outcome.done st ∧
      st.pool.mapTx = mapErase p1.mapTx e.tx.hash ∧ st.pool.mapCertificate = p1.mapCertificate ∧
      st.pool.mapNextTx =
        e.tx.vin.foldl (fun m txin => mapErase m txin.prevout) p1.mapNextTx ∧
      st.pool.mapNullifiers = e.tx.vjoinsplit.foldl
        (fun m joinsplit => joinsplit.nullifiers.foldl (fun m2 nf => mapErase m2 nf) m)
        p1.mapNullifiers ∧
      st.pool.mapSidechains = m1 ∧
      st.pool.totalTxSize = (p1.totalTxSize + 2 ^ 64 - e.GetTxSize % 2 ^ 64) % 2 ^ 64 ∧
      st.pool.cachedInnerUsage =
        (p1.cachedInnerUsage + 2 ^ 64 - e.DynamicMemoryUsage % 2 ^ 64) % 2 ^ 64 ∧
      st.removedTxs = rt ++ [e.tx] ∧ st.removedCerts = rc := by
    unfold remove objToRemove
    simp only [Bool.false_eq_true, if_false, Outcome.bind_done, CTransactionBase.GetHash,
      Outcome.foldl_cons, Outcome.foldl_nil]
    unfold removeOne
    simp only [he1]
    unfold removeTxEntry
    simp only [CTxMemPoolEntry.GetTx, hm1, Outcome.bind_done]
    exact ⟨_, rfl, rfl, rfl, rfl, rfl, rfl, rfl, rfl, rfl, rfl⟩
  obtain ⟨st, hst, b1, b2, b3, b4, b5, b6, b7, b8, b9⟩ := hrem
  refine ⟨p1, st, hp1, hst, ?_, ?_, ?_, ?_, ?_, ?_, ?_, b8, b9⟩
  · rw [b1, a1]
    exact mapErase_mapInsert _ _ _ noTx
  · rw [b2, a2]
  · rw [b3, a3]
    exact nextTx_round_trip _ _ _ inputs
  · rw [b4, a4]
    exact nullifiers_round_trip _ _ _ nullifiers
  · rw [b5]
    apply keySorted_ext m1 p.mapSidechains hsorted1 hw.sorted_sc
    intro s
    rw [hfind1 s, a5]
    obtain ⟨hhas, _⟩ := addSidechains_spec e.tx.hash e.tx aux p.mapSidechains m4 rfl hm4
    have hrow := addSidechains_row e.tx.hash e.tx aux p.mapSidechains m4 rfl hm4 s
    obtain ⟨w1, w2, w3, w4⟩ := hw.row_without hwf.1 noTx s
    have hpurge := purgeTx_added e.tx.hash e.tx aux s (rowOrDefault p.mapSidechains s) w1 w2 w3
      (by
        intro c hc hcs
        have := csws c hc
        unfold HaveCswNullifier at this
        unfold rowOrDefault
        rw [hcs] at this
        cases hr : mapFind p.mapSidechains s with
        | none => rfl
        | some r =>
          rw [hr] at this
          simp only [Option.getD_some]
          cases hf : mapFind r.cswNullifiers c.nullifier with
          | none => rfl
          | some v => simp [mapCount, hf] at this)
      (by
        intro hs
        obtain ⟨sc, hsc, hsid⟩ := List.mem_map.mp hs
        have := creations sc hsc
        unfold hasSidechainCreationTx at this
        unfold rowOrDefault
        rw [hsid] at this
        cases hr : mapFind p.mapSidechains s with
        | none => rfl
        | some r =>
          rw [hr] at this
          simp only [Option.getD_some]
          simpa using this)
      (fun hc => absurd hc w4)
      (by
        intro hs
        obtain ⟨btr, hbtr, hsid⟩ := List.mem_map.mp hs
        have := hsnap btr hbtr
        rw [hsid] at this
        exact this)
    rw [← hrow] at hpurge
    cases h4 : mapFind m4 s with
    | none =>
      have hnone : mapFind p.mapSidechains s = none := by
        by_contra hc
        exact ((hhas s).mpr (Or.inl hc)) h4
      rw [hnone]
      rfl
    | some r1 =>
      have hr1 : rowOrDefault m4 s = r1 := by
        unfold rowOrDefault
        rw [h4]
        rfl
      rw [hr1] at hpurge
      show normRow (purgeTx e.tx.hash (e.tx.cswAmount s) r1) = mapFind p.mapSidechains s
      rw [hpurge]
      cases hr : mapFind p.mapSidechains s with
      | none =>
        unfold rowOrDefault
        rw [hr]
        rfl
      | some r =>
        have : rowOrDefault p.mapSidechains s = r := by
          unfold rowOrDefault
          rw [hr]
          rfl
        rw [this]
        exact normRow_of_not_null (hw.row_not_null hr)
  · rw [b6, a6]
    omega
  · rw [b7, a7]
    omega

/-- Claim C33, counterexample.  Each part is a well-formed pool and a
transaction that is not in it, has pairwise distinct prevouts, nullifiers and
CSW nullifiers and passes `checkIncomingTxConflicts`, with an auxiliary map that
covers its backward-transfer requests; in the first two parts the transaction
also has a non-null hash and creates no sidechain.  First part: the row of sidechain 300
holds a backward-transfer request and a null certificate data hash; addition
writes the hash 7 and removal leaves it.  Second part: the row holds a
certificate data hash and no backward-transfer request; removal nulls the hash.
Third part: the transaction creates sidechain 100 twice; removal stops on its
assertion at the second creation output.  Fourth part: the transaction has the
null hash, creates sidechain 100 and forwards to it; removal erases the row at
the forward transfer and stops on its assertion at the creation output. -/
theorem add_remove_counterexample :
    (WellFormed Scenario.poolBtrNull ∧ TxWF Scenario.txBtr2 ∧
      mapFind Scenario.poolBtrNull.mapTx 52 = none ∧
      checkIncomingTxConflicts Scenario.poolBtrNull Scenario.txBtr2 = true ∧
      ∃ p1 st, addUnchecked Scenario.poolBtrNull 52 { tx := Scenario.txBtr2 } true [(300, 7)] =
          Outcome.done (true, p1) ∧
        remove ⟨p1, [], []⟩ (CTransactionBase.tx Scenario.txBtr2) false = Outcome.done st ∧
        st.pool.mapSidechains = [(300, { mcBtrsTxHashes := [51], mcBtrsCertDataHash := 7 })] ∧
        st.pool.mapSidechains ≠ Scenario.poolBtrNull.mapSidechains) ∧
    (WellFormed Scenario.poolSnapshot ∧ TxWF Scenario.txBtr2 ∧
      mapFind Scenario.poolSnapshot.mapTx 52 = none ∧
      checkIncomingTxConflicts Scenario.poolSnapshot Scenario.txBtr2 = true ∧
      ∃ p1 st, addUnchecked Scenario.poolSnapshot 52 { tx := Scenario.txBtr2 } true [(300, 7)] =
          Outcome.done (true, p1) ∧
        remove ⟨p1, [], []⟩ (CTransactionBase.tx Scenario.txBtr2) false = Outcome.done st ∧
        st.pool.mapSidechains ≠ Scenario.poolSnapshot.mapSidechains) ∧
    (checkIncomingTxConflicts {} Scenario.txTwice = true ∧
      ∃ p1, addUnchecked {} 54 { tx := Scenario.txTwice } true [] = Outcome.done (true, p1) ∧
        remove ⟨p1, [], []⟩ (CTransactionBase.tx Scenario.txTwice) false = Outcome.failed) ∧
    (checkIncomingTxConflicts {} Scenario.txNull = true ∧
      ∃ p1, addUnchecked {} 0 { tx := Scenario.txNull } true [] = Outcome.done (true, p1) ∧
        remove ⟨p1, [], []⟩ (CTransactionBase.tx Scenario.txNull) false = Outcome.failed) :=
  ⟨⟨by decide, by decide, by decide, by decide, _, _, rfl, rfl, rfl, by decide⟩,
    ⟨by decide, by decide, by decide, by decide, _, _, rfl, rfl, by decide⟩,
    ⟨by decide, _, rfl, rfl⟩,
    ⟨by decide, _, rfl, rfl⟩⟩

/-- Witness for C33: `txFull` spends an output, has a joinsplit and a CSW input,
creates a sidechain, forwards to it and requests a backward transfer from
sidechain 300, whose row in the pool holds a request and the certificate data
hash 7. -/
theorem add_remove_identity_witness :
    WellFormed Scenario.poolBtr ∧ TxWF Scenario.txFull ∧
    checkIncomingTxConflicts Scenario.poolBtr Scenario.txFull = true ∧
    ∃ p1 st, addUnchecked Scenario.poolBtr Scenario.txFull.hash { tx := Scenario.txFull } true
        [(300, 9)] = Outcome.done (true, p1) ∧
      remove ⟨p1, [], []⟩ (CTransactionBase.tx Scenario.txFull) false = Outcome.done st ∧
      st.pool.mapTx = Scenario.poolBtr.mapTx ∧
      st.pool.mapCertificate = Scenario.poolBtr.mapCertificate ∧
      st.pool.mapNextTx = Scenario.poolBtr.mapNextTx ∧
      st.pool.mapNullifiers = Scenario.poolBtr.mapNullifiers ∧
      st.pool.mapSidechains = Scenario.poolBtr.mapSidechains ∧
      st.pool.totalTxSize = Scenario.poolBtr.totalTxSize % 2 ^ 64 ∧
      st.pool.cachedInnerUsage = Scenario.poolBtr.cachedInnerUsage % 2 ^ 64 ∧
      st.removedTxs = [] ++ [Scenario.txFull] ∧ st.removedCerts = [] :=
  ⟨by decide, by decide, by decide,
    add_remove_identity Scenario.poolBtr (by decide) { tx := Scenario.txFull } true [(300, 9)]
      [] [] (by decide) (by decide) (by decide) (by decide) (by decide)⟩

end CTxMemPool

namespace CTxMemPool

/-! ## Prioritisation with a stored bias -/

/-- Claim C27, counterexample.  The pool holds the fee bias 5 for hash 7; after
`PrioritiseTransaction(7, _, 0, 1)` and `PrioritiseTransaction(7, _, 0, 2)`,
`ApplyDeltas(7, 0, 100)` returns the fee 108, which is 100 plus 8 and not 100
plus `1 + 2`. -/
theorem prioritise_counterexample :
    mapFind Scenario.poolBiased.mapDeltas 7 = some (0, 5) ∧
    ApplyDeltas (PrioritiseTransaction (PrioritiseTransaction Scenario.poolBiased 7 0 1) 7 0 2)
      7 0 100 = (0, 108) ∧
    (ApplyDeltas (PrioritiseTransaction (PrioritiseTransaction Scenario.poolBiased 7 0 1) 7 0 2)
      7 0 100).2 ≠ wrapInt64 (100 + (1 + 2)) := by
  decide

/-- Witness for C27: on the empty pool, which holds no bias for hash 7, the fee
100 becomes 103 after the deltas 1 and 2; on the pool that holds the bias 5 it
becomes 108. -/
theorem prioritise_accumulates_witness :
    mapFind ({} : CTxMemPool).mapDeltas 7 = none ∧
    (ApplyDeltas (PrioritiseTransaction (PrioritiseTransaction {} 7 0 1) 7 0 2) 7 0 100).2 =
      wrapInt64 (100 + (1 + 2)) ∧
    wrapInt64 (100 + (1 + 2)) = 103 ∧
    ApplyDeltas {} 7 0 100 = (0, 100) ∧
    (ApplyDeltas (PrioritiseTransaction (PrioritiseTransaction Scenario.poolBiased 7 0 1) 7 0 2)
      7 0 100).2 =
      wrapInt64 (100 + ((mapFind Scenario.poolBiased.mapDeltas 7).getD (0, 0)).2 + 1 + 2) ∧
    ApplyDeltas (ClearPrioritisation Scenario.poolBiased 7) 7 0 100 = (0, 100) :=
  ⟨by decide,
    (prioritise_accumulates {} 7 0 1 0 2 0 100).2.1 (by decide),
    by decide,
    (prioritise_accumulates {} 7 0 1 0 2 0 100).2.2.1 (by decide),
    (prioritise_accumulates Scenario.poolBiased 7 0 1 0 2 0 100).1,
    (prioritise_accumulates Scenario.poolBiased 7 0 1 0 2 0 100).2.2.2⟩

/-! ## Walks over a pool with a foreign key -/

theorem ofLoop_alias_seen (fuel : Nat) :
    dependenciesOfLoop Scenario.poolAlias fuel [5] [6] = Outcome.timeout := by
  induction fuel with
  | zero => rfl
  | succ n ih =>
    have hstep : dependenciesOfLoop Scenario.poolAlias (n + 1) [5] [6] =
        dependenciesOfLoop Scenario.poolAlias n [5] [6] := by
      rw [dependenciesOfLoop]
      rfl
    rw [hstep, ih]

theorem ofLoop_alias (fuel : Nat) :
    dependenciesOfLoop Scenario.poolAlias fuel [5] [] = Outcome.timeout := by
  cases fuel with
  | zero => rfl
  | succ n =>
    have hstep : dependenciesOfLoop Scenario.poolAlias (n + 1) [5] [] =
        dependenciesOfLoop Scenario.poolAlias n [5] [6] := by
      rw [dependenciesOfLoop]
      rfl
    rw [hstep, ofLoop_alias_seen]

theorem fromLoop_alias_seen (fuel : Nat) :
    dependenciesFromLoop Scenario.poolAlias fuel [5] [6] = Outcome.timeout := by
  induction fuel with
  | zero => rfl
  | succ n ih =>
    have hstep : dependenciesFromLoop Scenario.poolAlias (n + 1) [5] [6] =
        dependenciesFromLoop Scenario.poolAlias n [5] [6] := by
      rw [dependenciesFromLoop]
      rfl
    rw [hstep, ih]

theorem fromLoop_alias (fuel : Nat) :
    dependenciesFromLoop Scenario.poolAlias fuel [5] [] = Outcome.timeout := by
  cases fuel with
  | zero => rfl
  | succ n =>
    have hstep : dependenciesFromLoop Scenario.poolAlias (n + 1) [5] [] =
        dependenciesFromLoop Scenario.poolAlias n [5] [6] := by
      rw [dependenciesFromLoop]
      rfl
    rw [hstep, fromLoop_alias_seen]

/-- Claim C35, counterexample.  The pool stores a transaction of hash 6 under
the key 5; the transaction creates sidechain 100 and forwards to it, and the row
of the sidechain names the key 5.  Both walks start from the seed 5; each
iteration takes 5 from the deque, records the hash 6 of the entry found under
it, and pushes 5 again, which is neither in the deque nor in the result.
Whatever the number of iterations allowed, neither loop has ended. -/
theorem walks_counterexample :
    ¬ OwnHashes Scenario.poolAlias ∧
    mempoolDirectDependenciesOf Scenario.poolAlias (CTransactionBase.tx Scenario.txAlias) = [5] ∧
    mempoolDirectDependenciesFrom Scenario.poolAlias (CTransactionBase.tx Scenario.txAlias) =
      [5] ∧
    (∀ fuel, dependenciesOfLoop Scenario.poolAlias fuel
      (mempoolDirectDependenciesOf Scenario.poolAlias (CTransactionBase.tx Scenario.txAlias))
      [] = Outcome.timeout) ∧
    (∀ fuel, dependenciesFromLoop Scenario.poolAlias fuel
      (mempoolDirectDependenciesFrom Scenario.poolAlias (CTransactionBase.tx Scenario.txAlias))
      [] = Outcome.timeout) ∧
    mempoolDependenciesOf Scenario.poolAlias (CTransactionBase.tx Scenario.txAlias) =
      Outcome.timeout ∧
    mempoolDependenciesFrom Scenario.poolAlias (CTransactionBase.tx Scenario.txAlias) =
      Outcome.timeout :=
  ⟨by decide, by decide, by decide, fun fuel => ofLoop_alias fuel,
    fun fuel => fromLoop_alias fuel, ofLoop_alias _, fromLoop_alias _⟩

end CTxMemPool

end Mempool
